import Mathlib

/-! # Core-Smart wallet: ledger, coin selection and transaction builder

A shallow embedding of `src/wallet/wallet.cpp`.  Amounts (`CAmount`, an
`int64_t`) are integers, hashes (`uint256`) are natural numbers, a
`std::map` is an association list searched by key, a `std::multimap` is a
list kept in key order, and a `std::set` is a list without repeated keys.
Collaborators that live outside `wallet.cpp` (chain index, mempool, key
store, fee policy, random source) are fields of an environment record.
-/

namespace CoreSmart

/-! ## Data model -/

abbrev CAmount := Int
abbrev uint256 := Nat

deriving instance DecidableEq for Except

/-- An outpoint `(hash, n)`; `operator<` compares the hash, then the index. -/
structure COutPoint where
  hash : uint256
  n : Nat
deriving DecidableEq, Repr

def COutPoint.lt (a b : COutPoint) : Bool :=
  decide (a.hash < b.hash) || (decide (a.hash = b.hash) && decide (a.n < b.n))

structure CTxIn where
  prevout : COutPoint
  scriptSig : Nat
  nSequence : Nat
deriving DecidableEq, Repr

/-- A transaction output: value, script (an identifier), and the output-level
lock time returned by `GetLockTime()`. -/
structure CTxOut where
  nValue : CAmount
  scriptPubKey : Nat
  nLockTime : Int
deriving DecidableEq, Repr

/-- A wallet transaction (`CWalletTx`, with its `CMerkleTx` and
`CTransaction` bases).  `hash` is `GetHash()`; `fCoinBase` and
`fZerocoinSpend` are the answers of `IsCoinBase()` and `IsZerocoinSpend()`,
which `primitives/transaction.h` computes from the inputs. -/
structure CWalletTx where
  hash : uint256
  nVersion : Int
  vin : List CTxIn
  vout : List CTxOut
  nLockTime : Int
  fCoinBase : Bool
  fZerocoinSpend : Bool
  hashBlock : uint256
  nIndex : Int
  mapValue : Nat
  vOrderForm : Nat
  fTimeReceivedIsTxTime : Bool
  nTimeReceived : Int
  nTimeSmart : Int
  fFromMe : Bool
  strFromAccount : Nat
  nOrderPos : Int
  fDebitCached : Bool
  fCreditCached : Bool
  fImmatureCreditCached : Bool
  fAvailableCreditCached : Bool
  fWatchDebitCached : Bool
  fWatchCreditCached : Bool
  fImmatureWatchCreditCached : Bool
  fAvailableWatchCreditCached : Bool
  fChangeCached : Bool
  nDebitCached : CAmount
  nCreditCached : CAmount
  nImmatureCreditCached : CAmount
  nAvailableCreditCached : CAmount
  nWatchDebitCached : CAmount
  nWatchCreditCached : CAmount
  nImmatureWatchCreditCached : CAmount
  nAvailableWatchCreditCached : CAmount
  nChangeCached : CAmount
deriving DecidableEq, Repr

/-- A block index entry: height and block time. -/
structure CBlockIndex where
  nHeight : Int
  nTime : Int
deriving DecidableEq, Repr

/-- An entry of `wtxOrdered`: a pointer to a wallet transaction (its hash) or
an accounting entry (its `nTime`). -/
inductive TxPair where
  | wtx (hash : uint256)
  | acentry (nTime : Int)
deriving DecidableEq, Repr

/-- The wallet state touched by the ledger operations. -/
structure CWallet where
  mapWallet : List (uint256 × CWalletTx)
  mapTxSpends : List (COutPoint × uint256)
  wtxOrdered : List (Int × TxPair)
  nOrderPosNext : Int
  setLockedCoins : List COutPoint
deriving DecidableEq, Repr

/-- The chain and mempool collaborators (`mapBlockIndex`, `chainActive`,
`mempool`) and the clock. -/
structure ChainEnv where
  mapBlockIndex : uint256 → Option CBlockIndex
  chainContains : uint256 → Bool
  chainHeight : Int
  mempoolExists : uint256 → Bool
  nAdjustedTime : Int

/-! ## `CMerkleTx` helpers -/

/-- Embeds `CMerkleTx::ABANDON_HASH`, the block hash `uint256S("00...01")` that
marks an abandoned transaction. -/
def ABANDON_HASH : uint256 := 1

/-- Modelled from the spec: `wallet.h` is not among the sources; the block
association is unset when the block hash is null or marks abandonment. -/
def CWalletTx.hashUnset (tx : CWalletTx) : Bool :=
  decide (tx.hashBlock = 0) || decide (tx.hashBlock = ABANDON_HASH)

/-- Modelled from the spec: `wallet.h` is not among the sources; the
abandoned flag of a tracked transaction. -/
def CWalletTx.isAbandoned (tx : CWalletTx) : Bool :=
  decide (tx.hashBlock = ABANDON_HASH)

/-- Modelled from the spec: `wallet.h` is not among the sources; sets the
abandoned flag. -/
def CWalletTx.setAbandoned (tx : CWalletTx) : CWalletTx :=
  { tx with hashBlock := ABANDON_HASH }

/-- Modelled from the spec: `wallet.h` is not among the sources; marks every
memoized amount dirty. -/
def CWalletTx.MarkDirty (tx : CWalletTx) : CWalletTx :=
  { tx with
    fDebitCached := false, fCreditCached := false, fImmatureCreditCached := false,
    fAvailableCreditCached := false, fWatchDebitCached := false,
    fWatchCreditCached := false, fImmatureWatchCreditCached := false,
    fAvailableWatchCreditCached := false, fChangeCached := false }

/-- Embeds `CMerkleTx::GetDepthInMainChain(const CBlockIndex*&)`. -/
def GetDepthInMainChain (env : ChainEnv) (tx : CWalletTx) : Int :=
  if tx.hashUnset then 0
  else
    match env.mapBlockIndex tx.hashBlock with
    | none => 0
    | some pindex =>
      if !env.chainContains tx.hashBlock then 0
      else (if tx.nIndex = -1 then -1 else 1) * (env.chainHeight - pindex.nHeight + 1)

/-- Embeds `CWalletTx::InMempool`. -/
def InMempool (env : ChainEnv) (tx : CWalletTx) : Bool :=
  env.mempoolExists tx.hash

/-! ## `std::map` and `std::multimap` as lists -/

/-- Embeds `mapWallet.find(k)`. -/
def mapFind (m : List (uint256 × CWalletTx)) (k : uint256) : Option CWalletTx :=
  match m with
  | [] => none
  | (k', v) :: t => if k' = k then some v else mapFind t k

/-- Overwrites the record stored under `k` (a write through a reference to a
map entry). -/
def mapSet (m : List (uint256 × CWalletTx)) (k : uint256) (v : CWalletTx) :
    List (uint256 × CWalletTx) :=
  match m with
  | [] => []
  | (k', v') :: t => if k' = k then (k', v) :: t else (k', v') :: mapSet t k v

/-- Inserts a new key in key order (used when `k` is absent). -/
def mapInsert (m : List (uint256 × CWalletTx)) (k : uint256) (v : CWalletTx) :
    List (uint256 × CWalletTx) :=
  match m with
  | [] => [(k, v)]
  | (k', v') :: t => if k < k' then (k, v) :: (k', v') :: t else (k', v') :: mapInsert t k v

/-- Embeds `mapWallet.erase(k)`. -/
def mapErase (m : List (uint256 × CWalletTx)) (k : uint256) : List (uint256 × CWalletTx) :=
  match m with
  | [] => []
  | (k', v) :: t => if k' = k then t else (k', v) :: mapErase t k

/-- A default-constructed `CWalletTx` (`Init(NULL)` on an empty transaction),
which `mapWallet[k]` creates for an absent key. -/
def CWalletTx.null : CWalletTx :=
  { hash := 0, nVersion := 1, vin := [], vout := [], nLockTime := 0, fCoinBase := false,
    fZerocoinSpend := false, hashBlock := 0, nIndex := -1, mapValue := 0, vOrderForm := 0,
    fTimeReceivedIsTxTime := false, nTimeReceived := 0, nTimeSmart := 0, fFromMe := false,
    strFromAccount := 0, nOrderPos := -1,
    fDebitCached := false, fCreditCached := false, fImmatureCreditCached := false,
    fAvailableCreditCached := false, fWatchDebitCached := false, fWatchCreditCached := false,
    fImmatureWatchCreditCached := false, fAvailableWatchCreditCached := false,
    fChangeCached := false, nDebitCached := 0, nCreditCached := 0,
    nImmatureCreditCached := 0, nAvailableCreditCached := 0, nWatchDebitCached := 0,
    nWatchCreditCached := 0, nImmatureWatchCreditCached := 0,
    nAvailableWatchCreditCached := 0, nChangeCached := 0 }

/-- Embeds `mapWallet[k]`: the record under `k`, created empty when absent. -/
def mapAt (m : List (uint256 × CWalletTx)) (k : uint256) :
    CWalletTx × List (uint256 × CWalletTx) :=
  match mapFind m k with
  | some v => (v, m)
  | none => (CWalletTx.null, mapInsert m k CWalletTx.null)

/-- Embeds `mapTxSpends.insert(make_pair(outpoint, wtxid))`: after the entries whose
key is not greater. -/
def spendsInsert (s : List (COutPoint × uint256)) (o : COutPoint) (h : uint256) :
    List (COutPoint × uint256) :=
  match s with
  | [] => [(o, h)]
  | (o', h') :: t => if o.lt o' then (o, h) :: (o', h') :: t else (o', h') :: spendsInsert t o h

/-- Embeds `mapTxSpends.equal_range(outpoint)`, as the list of claimant hashes. -/
def equalRange (s : List (COutPoint × uint256)) (o : COutPoint) : List uint256 :=
  (s.filter (fun e => decide (e.1 = o))).map Prod.snd

/-! ## Spend tracking -/

/-- Embeds `CWallet::IsSpent`. -/
def IsSpent (env : ChainEnv) (w : CWallet) (hash : uint256) (n : Nat) : Bool :=
  (equalRange w.mapTxSpends ⟨hash, n⟩).any (fun wtxid =>
    match mapFind w.mapWallet wtxid with
    | some wtx =>
      let depth := GetDepthInMainChain env wtx
      decide (depth > 0) || (decide (depth = 0) && !wtx.isAbandoned)
    | none => false)

/-- The conversion `int n = mapWallet[hash].nOrderPos` of a 64-bit position. -/
def toInt32 (x : Int) : Int := (x + 2147483648) % 4294967296 - 2147483648

/-- Embeds `CWalletTx::IsEquivalentTo`: equal once every `scriptSig` is blanked. -/
def IsEquivalentTo (a b : CWalletTx) : Bool :=
  decide (a.nVersion = b.nVersion) &&
  decide (a.vin.map (fun i => (i.prevout, i.nSequence)) =
          b.vin.map (fun i => (i.prevout, i.nSequence))) &&
  decide (a.vout = b.vout) && decide (a.nLockTime = b.nLockTime)

/-- First loop of `SyncMetaData`: the smallest `nOrderPos` in the range and the
hash of the record holding it (`copyFrom`). -/
def syncFindMin : List uint256 → Int → Option uint256 → List (uint256 × CWalletTx) →
    (Option uint256 × List (uint256 × CWalletTx))
  | [], _, copyFrom, m => (copyFrom, m)
  | hash :: rest, nMinOrderPos, copyFrom, m =>
    let r := mapAt m hash
    let n := toInt32 r.1.nOrderPos
    if n < nMinOrderPos then syncFindMin rest n (some hash) r.2
    else syncFindMin rest nMinOrderPos copyFrom r.2

/-- Second loop of `SyncMetaData`: copy the metadata of `copyFrom` to the
equivalent records of the range. -/
def syncCopy (copyFromHash : uint256) : List uint256 → List (uint256 × CWalletTx) →
    List (uint256 × CWalletTx)
  | [], m => m
  | hash :: rest, m =>
    let r := mapAt m hash
    let copyTo := r.1
    if hash = copyFromHash then syncCopy copyFromHash rest r.2
    else
      match mapFind r.2 copyFromHash with
      | none => syncCopy copyFromHash rest r.2
      | some copyFrom =>
        if !IsEquivalentTo copyFrom copyTo then syncCopy copyFromHash rest r.2
        else
          syncCopy copyFromHash rest
            (mapSet r.2 hash
              { copyTo with
                mapValue := copyFrom.mapValue, vOrderForm := copyFrom.vOrderForm,
                nTimeSmart := copyFrom.nTimeSmart, fFromMe := copyFrom.fFromMe,
                strFromAccount := copyFrom.strFromAccount })

/-- Embeds `CWallet::SyncMetaData` on the claimants of one outpoint.  When no
record of the range has an order position that reads below `INT_MAX`, the
first loop leaves `copyFrom` NULL and the second loop of the code dereferences
it; `syncDerefsNull` tells when, and the value given here for that case (the
map as the first loop left it) describes no run of the code. -/
def SyncMetaData (w : CWallet) (range : List uint256) : CWallet :=
  match syncFindMin range 2147483647 none w.mapWallet with
  | (none, m) => { w with mapWallet := m }
  | (some copyFrom, m) => { w with mapWallet := syncCopy copyFrom range m }

/-- Tells whether `SyncMetaData` reaches its second loop with `copyFrom` still
NULL: the range is not empty and the first loop met no order position that
reads below `INT_MAX`.  The test `!copyFrom->IsEquivalentTo(*copyTo)` then
dereferences the NULL pointer. -/
def syncDerefsNull (w : CWallet) (range : List uint256) : Bool :=
  !range.isEmpty && (syncFindMin range 2147483647 none w.mapWallet).1.isNone

/-- Embeds `CWallet::AddToSpends(const COutPoint&, const uint256&)`. -/
def AddToSpendsOutpoint (w : CWallet) (outpoint : COutPoint) (wtxid : uint256) : CWallet :=
  let w1 := { w with mapTxSpends := spendsInsert w.mapTxSpends outpoint wtxid }
  SyncMetaData w1 (equalRange w1.mapTxSpends outpoint)

/-- Embeds `CWallet::AddToSpends(const uint256&)`; `none` when the assertion
`mapWallet.count(wtxid)` fails. -/
def AddToSpends (w : CWallet) (wtxid : uint256) : Option CWallet :=
  match mapFind w.mapWallet wtxid with
  | none => none
  | some thisTx =>
    if thisTx.fCoinBase || thisTx.fZerocoinSpend then some w
    else some (thisTx.vin.foldl (fun acc txin => AddToSpendsOutpoint acc txin.prevout wtxid) w)

/-- Tells whether one of the `SyncMetaData` calls made by the loop of
`AddToSpends(wtxid)` over the inputs dereferences the NULL `copyFrom`. -/
def addToSpendsDerefsNull (wtxid : uint256) : List CTxIn → CWallet → Bool
  | [], _ => false
  | txin :: rest, w =>
    syncDerefsNull { w with mapTxSpends := spendsInsert w.mapTxSpends txin.prevout wtxid }
        (equalRange (spendsInsert w.mapTxSpends txin.prevout wtxid) txin.prevout) ||
      addToSpendsDerefsNull wtxid rest (AddToSpendsOutpoint w txin.prevout wtxid)

/-- Tells whether `AddToSpends(wtxid)` dereferences the NULL `copyFrom` in one
of its `SyncMetaData` calls. -/
def AddToSpendsDerefsNull (w : CWallet) (wtxid : uint256) : Bool :=
  match mapFind w.mapWallet wtxid with
  | none => false
  | some thisTx =>
    if thisTx.fCoinBase || thisTx.fZerocoinSpend then false
    else addToSpendsDerefsNull wtxid thisTx.vin w

/-! ## Adding a transaction -/

/-- Modelled from the spec: `wallet.h` is not among the sources; binding a
record to the wallet invalidates its memoized amounts. -/
def CWalletTx.BindWallet (tx : CWalletTx) : CWalletTx := tx.MarkDirty

/-- Embeds `wtxOrdered.insert(make_pair(nOrderPos, ...))`. -/
def orderedInsert (l : List (Int × TxPair)) (pos : Int) (item : TxPair) : List (Int × TxPair) :=
  match l with
  | [] => [(pos, item)]
  | (p, i) :: t => if pos < p then (pos, item) :: (p, i) :: t else (p, i) :: orderedInsert t pos item

/-- The reverse scan of `wtxOrdered` in `AddToWallet`: returns
`(latestEntry, latestNow)`.  The list is given in descending order; the entry
of the transaction itself is skipped. -/
def smartTimeScan (m : List (uint256 × CWalletTx)) (self : uint256) (latestTolerated : Int)
    (latestNow : Int) : List (Int × TxPair) → Int × Int
  | [] => (0, latestNow)
  | (_, TxPair.wtx h) :: rest =>
    if h = self then smartTimeScan m self latestTolerated latestNow rest
    else
      match mapFind m h with
      | none => smartTimeScan m self latestTolerated latestNow rest
      | some pwtx =>
        let nSmartTime := if pwtx.nTimeSmart = 0 then pwtx.nTimeReceived else pwtx.nTimeSmart
        if nSmartTime ≤ latestTolerated then
          (nSmartTime, if nSmartTime > latestNow then nSmartTime else latestNow)
        else smartTimeScan m self latestTolerated latestNow rest
  | (_, TxPair.acentry nTime) :: rest =>
    if nTime ≤ latestTolerated then (nTime, if nTime > latestNow then nTime else latestNow)
    else smartTimeScan m self latestTolerated latestNow rest

/-- The smart time given to a newly inserted transaction. -/
def computeTimeSmart (env : ChainEnv) (w : CWallet) (wtxIn : CWalletTx) (nTimeReceived : Int) : Int :=
  if !wtxIn.hashUnset then
    match env.mapBlockIndex wtxIn.hashBlock with
    | some pindex =>
      let r := smartTimeScan w.mapWallet wtxIn.hash (nTimeReceived + 300) nTimeReceived
        w.wtxOrdered.reverse
      max r.1 (min pindex.nTime r.2)
    | none => nTimeReceived
  else nTimeReceived

/-- The merge branch of `AddToWallet`: returns the updated record and
`fUpdated`. -/
def mergeWalletTx (wtx wtxIn : CWalletTx) : CWalletTx × Bool :=
  let s1 : CWalletTx × Bool :=
    if !wtxIn.hashUnset && decide (wtxIn.hashBlock ≠ wtx.hashBlock) then
      ({ wtx with hashBlock := wtxIn.hashBlock }, true) else (wtx, false)
  let s2 : CWalletTx × Bool :=
    if decide (wtxIn.hashBlock = 0) && s1.1.isAbandoned then
      ({ s1.1 with hashBlock := wtxIn.hashBlock }, true) else s1
  let s3 : CWalletTx × Bool :=
    if decide (wtxIn.nIndex ≠ -1) && decide (wtxIn.nIndex ≠ s2.1.nIndex) then
      ({ s2.1 with nIndex := wtxIn.nIndex }, true) else s2
  if wtxIn.fFromMe && decide (wtxIn.fFromMe ≠ s3.1.fFromMe) then
    ({ s3.1 with fFromMe := wtxIn.fFromMe }, true) else s3

/-- The `fFromLoadWallet` branch of `AddToWallet`: the record is stored as
given, ordered and indexed. -/
def addToWalletLoad (w : CWallet) (wtxIn : CWalletTx) : CWallet :=
  let wtx := wtxIn.BindWallet
  let m := match mapFind w.mapWallet wtxIn.hash with
    | some _ => mapSet w.mapWallet wtxIn.hash wtx
    | none => mapInsert w.mapWallet wtxIn.hash wtx
  let w1 : CWallet :=
    { w with mapWallet := m,
             wtxOrdered := orderedInsert w.wtxOrdered wtx.nOrderPos (TxPair.wtx wtxIn.hash) }
  (AddToSpends w1 wtxIn.hash).getD w1

/-- The wallet once the next order position has been taken and entered in
`wtxOrdered`. -/
def withOrderPos (w : CWallet) (hash : uint256) : CWallet :=
  { w with nOrderPosNext := w.nOrderPosNext + 1,
           wtxOrdered := orderedInsert w.wtxOrdered w.nOrderPosNext (TxPair.wtx hash) }

/-- The record stored for a newly inserted transaction. -/
def newWalletTx (env : ChainEnv) (w : CWallet) (wtxIn : CWalletTx) : CWalletTx :=
  { wtxIn.BindWallet with
    nTimeReceived := env.nAdjustedTime, nOrderPos := w.nOrderPosNext,
    nTimeSmart := computeTimeSmart env (withOrderPos w wtxIn.hash) wtxIn env.nAdjustedTime }

/-- The `fInsertedNew` path of `AddToWallet`. -/
def addToWalletNew (env : ChainEnv) (fWriteOk : Bool) (w : CWallet) (wtxIn : CWalletTx) :
    Bool × CWallet :=
  let w1 : CWallet :=
    { withOrderPos w wtxIn.hash with
      mapWallet := mapInsert w.mapWallet wtxIn.hash (newWalletTx env w wtxIn) }
  let w2 := (AddToSpends w1 wtxIn.hash).getD w1
  if !fWriteOk then (false, w2)
  else
    match mapFind w2.mapWallet wtxIn.hash with
    | some cur => (true, { w2 with mapWallet := mapSet w2.mapWallet wtxIn.hash cur.MarkDirty })
    | none => (true, w2)

/-- The merge path of `AddToWallet` (`found` is the tracked record). -/
def addToWalletMerge (fWriteOk : Bool) (w : CWallet) (wtxIn found : CWalletTx) : Bool × CWallet :=
  let r := mergeWalletTx found.BindWallet wtxIn
  if r.2 && !fWriteOk then (false, { w with mapWallet := mapSet w.mapWallet wtxIn.hash r.1 })
  else (true, { w with mapWallet := mapSet w.mapWallet wtxIn.hash r.1.MarkDirty })

/-- Embeds `CWallet::AddToWallet`.  `fWriteOk` is the answer of `WriteToDisk`.  The
hash is tracked when `AddToSpends` runs, so its assertion holds. -/
def AddToWallet (env : ChainEnv) (fWriteOk : Bool) (w : CWallet) (wtxIn : CWalletTx)
    (fFromLoadWallet : Bool) : Bool × CWallet :=
  if fFromLoadWallet then (true, addToWalletLoad w wtxIn)
  else
    match mapFind w.mapWallet wtxIn.hash with
    | none => addToWalletNew env fWriteOk w wtxIn
    | some found => addToWalletMerge fWriteOk w wtxIn found

/-- Tells whether `AddToWallet` dereferences the NULL `copyFrom` of
`SyncMetaData`: in the `AddToSpends` call of the load branch or of a new
insertion.  The merge branch does not call `AddToSpends`. -/
def AddToWalletDerefsNull (env : ChainEnv) (w : CWallet) (wtxIn : CWalletTx)
    (fFromLoadWallet : Bool) : Bool :=
  if fFromLoadWallet then
    AddToSpendsDerefsNull
      { w with
        mapWallet := (match mapFind w.mapWallet wtxIn.hash with
          | some _ => mapSet w.mapWallet wtxIn.hash wtxIn.BindWallet
          | none => mapInsert w.mapWallet wtxIn.hash wtxIn.BindWallet),
        wtxOrdered := orderedInsert w.wtxOrdered wtxIn.BindWallet.nOrderPos
          (TxPair.wtx wtxIn.hash) }
      wtxIn.hash
  else
    match mapFind w.mapWallet wtxIn.hash with
    | none =>
      AddToSpendsDerefsNull
        { withOrderPos w wtxIn.hash with
          mapWallet := mapInsert w.mapWallet wtxIn.hash (newWalletTx env w wtxIn) }
        wtxIn.hash
    | some _ => false

/-! ## Erasing a transaction -/

/-- Embeds `CWallet::EraseFromWallet`; `fFileBacked` is the wallet's flag of
that name.  The record also leaves the database, which the state does not
hold; `mapTxSpends` and `wtxOrdered` are not touched. -/
def EraseFromWallet (fFileBacked : Bool) (w : CWallet) (hash : uint256) : Bool × CWallet :=
  if !fFileBacked then (false, w)
  else (true, { w with mapWallet := mapErase w.mapWallet hash })

/-! ## Abandoning a transaction -/

/-- Why a run stops without a result: a failed `assert`, or the loop bound of
the embedding. -/
inductive Abort where
  | assertion
  | fuel
deriving DecidableEq, Repr

/-- Embeds `std::set<uint256>::insert`: ascending, no repetition. -/
def setInsert (s : List uint256) (h : uint256) : List uint256 :=
  match s with
  | [] => [h]
  | x :: t => if h < x then h :: x :: t else if h = x then x :: t else x :: setInsert t h

/-- The entries met by `iter = mapTxSpends.lower_bound(COutPoint(start, 0))`
followed by `while (iter != end && iter->first.hash == now)`. -/
def spendsFrom (s : List (COutPoint × uint256)) (start now : uint256) : List (COutPoint × uint256) :=
  (s.dropWhile (fun e => e.1.lt ⟨start, 0⟩)).takeWhile (fun e => decide (e.1.hash = now))

/-- Marks dirty the tracked transactions whose outputs `vin` spends. -/
def markInputsDirty (m : List (uint256 × CWalletTx)) (vin : List CTxIn) : List (uint256 × CWalletTx) :=
  vin.foldl (fun acc txin =>
    match mapFind acc txin.prevout.hash with
    | some prev => mapSet acc txin.prevout.hash prev.MarkDirty
    | none => acc) m

/-- The `while (!todo.empty())` loop of `AbandonTransaction`. -/
def abandonLoop (env : ChainEnv) (hashTx : uint256) :
    Nat → List uint256 → List uint256 → CWallet → Except Abort CWallet
  | _, [], _, w => Except.ok w
  | 0, _ :: _, _, _ => Except.error Abort.fuel
  | fuel + 1, now :: todo, done, w =>
    let done1 := setInsert done now
    match mapFind w.mapWallet now with
    | none => Except.error Abort.assertion
    | some wtx =>
      let currentconfirm := GetDepthInMainChain env wtx
      if currentconfirm > 0 then Except.error Abort.assertion
      else if currentconfirm = 0 ∧ wtx.isAbandoned = false then
        if InMempool env wtx then Except.error Abort.assertion
        else
          let wtx1 := ({ wtx with nIndex := -1 } : CWalletTx).setAbandoned.MarkDirty
          let m1 := mapSet w.mapWallet now wtx1
          let todo1 := (spendsFrom w.mapTxSpends hashTx now).foldl
            (fun acc e => if done1.contains e.2 then acc else setInsert acc e.2) todo
          let m2 := markInputsDirty m1 wtx1.vin
          abandonLoop env hashTx fuel todo1 done1 { w with mapWallet := m2 }
      else abandonLoop env hashTx fuel todo done1 w

/-- Embeds `CWallet::AbandonTransaction`: the returned flag and the wallet state
afterwards. -/
def AbandonTransaction (env : ChainEnv) (w : CWallet) (hashTx : uint256) :
    Except Abort (Bool × CWallet) :=
  match mapFind w.mapWallet hashTx with
  | none => Except.error Abort.assertion
  | some origtx =>
    if GetDepthInMainChain env origtx > 0 || InMempool env origtx then Except.ok (false, w)
    else
      match abandonLoop env hashTx (w.mapTxSpends.length + w.mapWallet.length + 1) [hashTx] [] w with
      | Except.ok w1 => Except.ok (true, w1)
      | Except.error e => Except.error e

/-! ## Conflict propagation -/

/-- The value of `conflictconfirms` computed at the head of `MarkConflicted`:
minus the number of blocks from `hashBlock` to the tip when the block is known
and on the active chain, else zero. -/
def conflictConfirms (env : ChainEnv) (hashBlock : uint256) : Int :=
  match env.mapBlockIndex hashBlock with
  | some pindex =>
    if env.chainContains hashBlock then -(env.chainHeight - pindex.nHeight + 1) else 0
  | none => 0

/-- The entry added to `todo` for one `mapTxSpends` entry: its claimant,
unless `done` holds it. -/
def enqueueSpender (done : List uint256) (todo : List uint256) (e : COutPoint × uint256) :
    List uint256 :=
  if done.contains e.2 then todo else setInsert todo e.2

/-- The wallet once the loop of `MarkConflicted` has updated the record `wtx`
tracked under `now`: the index is cleared, the block is `hashBlock`, the record
and the transactions whose outputs it spends are marked dirty. -/
def conflictUpdate (w : CWallet) (hashBlock now : uint256) (wtx : CWalletTx) : CWallet :=
  let wtx1 := ({ wtx with nIndex := -1, hashBlock := hashBlock } : CWalletTx).MarkDirty
  { w with mapWallet := markInputsDirty (mapSet w.mapWallet now wtx1) wtx1.vin }

/-- The `while (!todo.empty())` loop of `MarkConflicted`. -/
def conflictLoop (env : ChainEnv) (hashBlock : uint256) (conflictconfirms : Int) :
    Nat → List uint256 → List uint256 → CWallet → Except Abort CWallet
  | _, [], _, w => Except.ok w
  | 0, _ :: _, _, _ => Except.error Abort.fuel
  | fuel + 1, now :: todo, done, w =>
    match mapFind w.mapWallet now with
    | none => Except.error Abort.assertion
    | some wtx =>
      if conflictconfirms < GetDepthInMainChain env wtx then
        conflictLoop env hashBlock conflictconfirms fuel
          ((spendsFrom w.mapTxSpends now now).foldl (enqueueSpender (setInsert done now)) todo)
          (setInsert done now) (conflictUpdate w hashBlock now wtx)
      else conflictLoop env hashBlock conflictconfirms fuel todo (setInsert done now) w

/-- Embeds `CWallet::MarkConflicted`.  Every pass of the loop moves one more
claimant of `mapTxSpends` (or `hashTx`) into `done`, which bounds the passes. -/
def MarkConflicted (env : ChainEnv) (w : CWallet) (hashBlock hashTx : uint256) :
    Except Abort CWallet :=
  if conflictConfirms env hashBlock ≥ 0 then Except.ok w
  else
    conflictLoop env hashBlock (conflictConfirms env hashBlock) (w.mapTxSpends.length + 1)
      [hashTx] [] w

/-! ## Conflicting claimants -/

/-- Embeds `CWallet::GetConflicts`: the claimants of every outpoint that `txid`
consumes and that has more than one claimant, as an ordered set. -/
def GetConflicts (w : CWallet) (txid : uint256) : List uint256 :=
  match mapFind w.mapWallet txid with
  | none => []
  | some wtx =>
    wtx.vin.foldl (fun result txin =>
      if (equalRange w.mapTxSpends txin.prevout).length ≤ 1 then result
      else (equalRange w.mapTxSpends txin.prevout).foldl setInsert result) []

/-- Embeds `CWalletTx::GetConflicts` of a transaction bound to the wallet: the
result of `CWallet::GetConflicts` for its hash, with that hash erased. -/
def CWalletTx.GetConflicts (w : CWallet) (tx : CWalletTx) : List uint256 :=
  (CoreSmart.GetConflicts w tx.hash).filter (fun h => !decide (h = tx.hash))

/-! ## Coin selection: data -/

/-- Embeds `pair<const CWalletTx*, unsigned int>`: a tracked transaction and an
output index.  Two pointers are equal when they name the same `mapWallet`
entry, that is, the same hash. -/
abbrev CInput := CWalletTx × Nat

/-- Embeds `pcoin->vout[i].nValue`. -/
def CInput.nValue (c : CInput) : CAmount := (c.1.vout.getD c.2 ⟨0, 0, 0⟩).nValue

/-- The ordering key of a `CInput` inside a `std::set`. -/
def CInput.key (c : CInput) : uint256 × Nat := (c.1.hash, c.2)

/-- Embeds `setCoinsRet.insert(coin)`: no effect when the key is present. -/
def coinSetInsert (s : List CInput) (c : CInput) : List CInput :=
  if s.any (fun x => decide (x.key = c.key)) then s else s ++ [c]

/-- A selection candidate (`COutput`). -/
structure COutput where
  tx : CWalletTx
  i : Nat
  nDepth : Int
  fSpendable : Bool
  fSolvable : Bool
  nLockTime : Int
deriving DecidableEq, Repr

/-- Embeds `out.tx->vout[out.i].nValue`. -/
def COutput.nValue (o : COutput) : CAmount := CInput.nValue (o.tx, o.i)

/-- The key `(hash, i)` of a candidate. -/
def COutput.key (c : COutput) : uint256 × Nat := (c.tx.hash, c.i)

/-- Embeds `numeric_limits<CAmount>::max()`. -/
def INT64_MAX : CAmount := 9223372036854775807

/-- The value that an `int64_t` (`CAmount`) holds after an addition or a
subtraction whose exact result is `x`: the representative of `x` modulo `2^64`
in the two's complement range.  It is applied where a requested amount enters
the arithmetic: `nTargetValue + MIN_CHANGE`, `nValue += recipient.nAmount`,
`nValue + nFeeRet` and `nValueIn - nValueToSelect`.  Totals of the values of
tracked outputs alone (`nTotalLower`, `nValueRet`, the totals of
`ApproximateBestSubset`, the balance) are exact sums: they leave the 64-bit
range only for coins worth about `2^63` together. -/
def toInt64 (x : Int) : Int :=
  (x + 9223372036854775808) % 18446744073709551616 - 9223372036854775808

/-- What the wallet code reads from outside `wallet.cpp`: the chain, the
constants of the headers, the key store and the global settings. -/
structure WalletEnv where
  chain : ChainEnv
  /-- Embeds `MIN_CHANGE` of `wallet.h`. -/
  MIN_CHANGE : CAmount
  /-- Embeds `COIN` of `amount.h`. -/
  COIN : CAmount
  /-- Embeds `MAX_MONEY` of `amount.h`. -/
  MAX_MONEY : CAmount
  /-- Embeds `sporkManager.GetSporkValue(SPORK_5_INSTANTSEND_MAX_VALUE)`. -/
  nInstantSendMaxValue : Int
  INSTANTSEND_CONFIRMATIONS_REQUIRED : Int
  nInstantSendDepth : Int
  isLockedInstantSend : uint256 → Bool
  COINBASE_MATURITY : Int
  bSpendZeroConfChange : Bool
  /-- Embeds `min(-limitancestorcount, -limitdescendantcount)`. -/
  nMaxChainLength : Nat
  fRejectLongChains : Bool
  /-- Embeds `CWalletTx::IsFromMe(ISMINE_ALL)` of `wallet.h`. -/
  IsFromMe : CWalletTx → Bool
  /-- Embeds `::IsMine(keystore, scriptPubKey)`, as an `isminetype` bit mask. -/
  IsMine : CTxOut → Nat
  CheckFinalTx : CWalletTx → Bool

def ISMINE_NO : Nat := 0
def ISMINE_WATCH_SOLVABLE : Nat := 2
def ISMINE_SPENDABLE : Nat := 4

/-- The random choices of one `SelectCoinsMinConf` call.  `order` is the
arrangement of `vCoins` left by `random_shuffle` and by the `std::sort` whose
comparator `less_then_denom` is constantly false: some permutation.  `bits1`
and `bits2` are the successive values of `insecure_rand.rand32() & 1` in the
first and second `ApproximateBestSubset` call. -/
structure RandomSource where
  order : List COutput → List COutput
  order_perm : ∀ l, (order l).Perm l
  bits1 : Nat → Bool
  bits2 : Nat → Bool

/-- The random source that leaves the coins in place and draws `false`. -/
def RandomSource.trivial : RandomSource :=
  { order := id, order_perm := fun l => List.Perm.refl l,
    bits1 := fun _ => false, bits2 := fun _ => false }

/-! ## `ApproximateBestSubset` -/

/-- The loop variables of `ApproximateBestSubset`. -/
structure ApproxState where
  nTotal : CAmount
  vfIncluded : List Bool
  fReachedTarget : Bool
  nBest : CAmount
  vfBest : List Bool
  nDraws : Nat
deriving DecidableEq, Repr

/-- One step `i` of the inner `for` loop, in pass `nPass`, on the coin value
`v = vValue[i].first`. -/
def approxStep (rand : Nat → Bool) (nTargetValue : CAmount) (fUseInstantSend : Bool)
    (nCap : CAmount) (nPass : Nat) (st : ApproxState) (i : Nat) (v : CAmount) : ApproxState :=
  if fUseInstantSend && decide (st.nTotal + v > nCap) then st
  else
    let fTake := if nPass = 0 then rand st.nDraws else !(st.vfIncluded.getD i false)
    let nDraws := if nPass = 0 then st.nDraws + 1 else st.nDraws
    if fTake then
      let nTotal := st.nTotal + v
      let vfIncluded := st.vfIncluded.set i true
      if nTotal ≥ nTargetValue then
        { nTotal := nTotal - v, vfIncluded := vfIncluded.set i false, fReachedTarget := true,
          nBest := if nTotal < st.nBest then nTotal else st.nBest,
          vfBest := if nTotal < st.nBest then vfIncluded else st.vfBest,
          nDraws := nDraws }
      else { st with nTotal := nTotal, vfIncluded := vfIncluded, nDraws := nDraws }
    else { st with nDraws := nDraws }

/-- The inner `for (i = 0; i < vValue.size(); i++)` loop from index `i` on. -/
def approxInner (rand : Nat → Bool) (nTargetValue : CAmount) (fUseInstantSend : Bool)
    (nCap : CAmount) (nPass : Nat) : List CAmount → Nat → ApproxState → ApproxState
  | [], _, st => st
  | v :: rest, i, st =>
    approxInner rand nTargetValue fUseInstantSend nCap nPass rest (i + 1)
      (approxStep rand nTargetValue fUseInstantSend nCap nPass st i v)

/-- One repetition `nRep`: both passes. -/
def approxRep (rand : Nat → Bool) (nTargetValue : CAmount) (fUseInstantSend : Bool)
    (nCap : CAmount) (vals : List CAmount) (st : ApproxState) : ApproxState :=
  let st0 : ApproxState :=
    { st with vfIncluded := List.replicate vals.length false, nTotal := 0,
              fReachedTarget := false }
  let st1 := approxInner rand nTargetValue fUseInstantSend nCap 0 vals 0 st0
  if st1.fReachedTarget then st1
  else approxInner rand nTargetValue fUseInstantSend nCap 1 vals 0 st1

/-- The loop `for (nRep = 0; nRep < iterations && nBest != nTargetValue; nRep++)`,
with `n` repetitions left. -/
def approxLoop (rand : Nat → Bool) (nTargetValue : CAmount) (fUseInstantSend : Bool)
    (nCap : CAmount) (vals : List CAmount) : Nat → ApproxState → ApproxState
  | 0, st => st
  | n + 1, st =>
    if st.nBest = nTargetValue then st
    else approxLoop rand nTargetValue fUseInstantSend nCap vals n
      (approxRep rand nTargetValue fUseInstantSend nCap vals st)

/-- The closing loop of `ApproximateBestSubset`: drops every flagged coin whose
removal keeps the total at or above the target. -/
def approxTrim (nTargetValue : CAmount) : List CAmount → List Bool → CAmount → List Bool × CAmount
  | v :: vs, b :: bs, nBest =>
    if b && decide (nBest - v ≥ nTargetValue) then
      let r := approxTrim nTargetValue vs bs (nBest - v)
      (false :: r.1, r.2)
    else
      let r := approxTrim nTargetValue vs bs nBest
      (b :: r.1, r.2)
  | _, bs, nBest => (bs, nBest)

/-- Embeds `ApproximateBestSubset`: returns `(vfBest, nBest)`.  `vals` are the
`first` components of `vValue`; `nCap` is the InstantSend ceiling
`GetSporkValue(SPORK_5_INSTANTSEND_MAX_VALUE) * COIN`. -/
def ApproximateBestSubset (rand : Nat → Bool) (nCap : CAmount) (vals : List CAmount)
    (nTotalLower nTargetValue : CAmount) (iterations : Int) (fUseInstantSend : Bool) :
    List Bool × CAmount :=
  let st0 : ApproxState :=
    { nTotal := 0, vfIncluded := [], fReachedTarget := false, nBest := nTotalLower,
      vfBest := List.replicate vals.length true, nDraws := 0 }
  let st := approxLoop rand nTargetValue fUseInstantSend nCap vals iterations.toNat st0
  approxTrim nTargetValue vals st.vfBest st.nBest

/-! ## `SelectCoinsMinConf` -/

/-- What a selection returns: the flag, `setCoinsRet`, `nValueRet`, and (for
the statements about it) how many times `ApproximateBestSubset` ran. -/
structure SelectResult where
  fSuccess : Bool
  setCoinsRet : List CInput
  nValueRet : CAmount
  nApproxCalls : Nat
deriving DecidableEq, Repr

/-- The variables filled by the scan of `vCoins`. -/
structure ScanState where
  vValue : List (CAmount × CInput)
  nTotalLower : CAmount
  coinLowestLarger : CAmount × Option CInput
deriving DecidableEq, Repr

/-- How the scan ends: at a coin equal to the target, or at the end of
`vCoins`. -/
inductive ScanResult where
  | exact (coin : CAmount × CInput)
  | done (st : ScanState)
deriving DecidableEq, Repr

/-- Whether the scan keeps `output`: spendable and deep enough. -/
def eligible (env : WalletEnv) (nConfMine nConfTheirs : Int) (output : COutput) : Bool :=
  output.fSpendable &&
    !decide (output.nDepth < (if env.IsFromMe output.tx then nConfMine else nConfTheirs))

/-- The `BOOST_FOREACH(const COutput &output, vCoins)` loop. -/
def scanCoins (env : WalletEnv) (nTargetValue : CAmount) (nConfMine nConfTheirs : Int) :
    List COutput → ScanState → ScanResult
  | [], st => ScanResult.done st
  | output :: rest, st =>
    if !output.fSpendable then scanCoins env nTargetValue nConfMine nConfTheirs rest st
    else if output.nDepth < (if env.IsFromMe output.tx then nConfMine else nConfTheirs) then
      scanCoins env nTargetValue nConfMine nConfTheirs rest st
    else
      let n := output.nValue
      let coin : CAmount × CInput := (n, (output.tx, output.i))
      if n = nTargetValue then ScanResult.exact coin
      else if n < toInt64 (nTargetValue + env.MIN_CHANGE) then
        scanCoins env nTargetValue nConfMine nConfTheirs rest
          { st with vValue := st.vValue ++ [coin], nTotalLower := st.nTotalLower + n }
      else if n < st.coinLowestLarger.1 then
        scanCoins env nTargetValue nConfMine nConfTheirs rest
          { st with coinLowestLarger := (n, some coin.2) }
      else scanCoins env nTargetValue nConfMine nConfTheirs rest st

/-- How one round of the `tryDenom` loop ends. -/
inductive PassOutcome where
  | ret (r : SelectResult)
  | again (st : ScanState)
  | approx (st : ScanState)
deriving DecidableEq, Repr

/-- The part of one `tryDenom` round that follows the scan. -/
def passAfterScan (nTargetValue : CAmount) (st : ScanState) (tryDenom : Nat) : PassOutcome :=
  if st.nTotalLower = nTargetValue then
    PassOutcome.ret
      { fSuccess := true,
        setCoinsRet := st.vValue.foldl (fun acc c => coinSetInsert acc c.2) [],
        nValueRet := st.vValue.foldl (fun acc c => acc + c.1) 0, nApproxCalls := 0 }
  else if st.nTotalLower < nTargetValue then
    match st.coinLowestLarger.2 with
    | none =>
      if tryDenom = 0 then PassOutcome.again st
      else PassOutcome.ret { fSuccess := false, setCoinsRet := [], nValueRet := 0,
                             nApproxCalls := 0 }
    | some c =>
      PassOutcome.ret { fSuccess := true, setCoinsRet := coinSetInsert [] c,
                        nValueRet := 0 + st.coinLowestLarger.1, nApproxCalls := 0 }
  else PassOutcome.approx st

/-- One round of the `for (tryDenom = 0; tryDenom < 2; tryDenom++)` loop.
`coinLowestLarger` is declared outside the loop and keeps its value. -/
def tryDenomPass (env : WalletEnv) (nTargetValue : CAmount) (nConfMine nConfTheirs : Int)
    (vCoins : List COutput) (coinLowestLarger : CAmount × Option CInput) (tryDenom : Nat) :
    PassOutcome :=
  match scanCoins env nTargetValue nConfMine nConfTheirs vCoins
      { vValue := [], nTotalLower := 0, coinLowestLarger := coinLowestLarger } with
  | ScanResult.exact coin =>
    PassOutcome.ret { fSuccess := true, setCoinsRet := coinSetInsert [] coin.2,
                      nValueRet := 0 + coin.1, nApproxCalls := 0 }
  | ScanResult.done st => passAfterScan nTargetValue st tryDenom

/-- Embeds `sort(vValue.rbegin(), vValue.rend(), CompareValueOnly())`: descending by
value. -/
def sortDescending (vValue : List (CAmount × CInput)) : List (CAmount × CInput) :=
  vValue.insertionSort (fun a b => b.1 ≤ a.1)

/-- The coins of `vValue` flagged in `vfBest`. -/
def flaggedCoins : List (CAmount × CInput) → List Bool → List (CAmount × CInput)
  | c :: cs, b :: bs => if b then c :: flaggedCoins cs bs else flaggedCoins cs bs
  | _, _ => []

/-- The part of `SelectCoinsMinConf` after the `tryDenom` loop: the stochastic
approximation and the choice between its subset and the lowest larger coin.
The sixth argument of each `ApproximateBestSubset` call is `fUseInstantSend`,
which lands on the parameter `iterations`; the parameter `fUseInstantSend`
of the callee keeps its default `false`. -/
def approxPhase (env : WalletEnv) (rs : RandomSource) (nTargetValue : CAmount)
    (fUseInstantSend : Bool) (st : ScanState) : SelectResult :=
  let vValue := sortDescending st.vValue
  let vals := vValue.map Prod.fst
  let nCap := env.nInstantSendMaxValue * env.COIN
  let iterations : Int := if fUseInstantSend then 1 else 0
  let r1 := ApproximateBestSubset rs.bits1 nCap vals st.nTotalLower nTargetValue iterations false
  let fSecond : Bool :=
    decide (r1.2 ≠ nTargetValue) && decide (st.nTotalLower ≥ toInt64 (nTargetValue + env.MIN_CHANGE))
  let r2 :=
    if fSecond then
      ApproximateBestSubset rs.bits2 nCap vals st.nTotalLower (toInt64 (nTargetValue + env.MIN_CHANGE))
        iterations false
    else r1
  let nCalls := if fSecond then 2 else 1
  match st.coinLowestLarger.2 with
  | some c =>
    if (decide (r2.2 ≠ nTargetValue) && decide (r2.2 < toInt64 (nTargetValue + env.MIN_CHANGE))) ||
        decide (st.coinLowestLarger.1 ≤ r2.2) then
      { fSuccess := true, setCoinsRet := coinSetInsert [] c,
        nValueRet := 0 + st.coinLowestLarger.1, nApproxCalls := nCalls }
    else
      { fSuccess := true,
        setCoinsRet := (flaggedCoins vValue r2.1).foldl (fun acc c => coinSetInsert acc c.2) [],
        nValueRet := (flaggedCoins vValue r2.1).foldl (fun acc c => acc + c.1) 0,
        nApproxCalls := nCalls }
  | none =>
    { fSuccess := true,
      setCoinsRet := (flaggedCoins vValue r2.1).foldl (fun acc c => coinSetInsert acc c.2) [],
      nValueRet := (flaggedCoins vValue r2.1).foldl (fun acc c => acc + c.1) 0,
      nApproxCalls := nCalls }

/-- Embeds `CWallet::SelectCoinsMinConf`. -/
def SelectCoinsMinConf (env : WalletEnv) (rs : RandomSource) (nTargetValue : CAmount)
    (nConfMine nConfTheirs : Int) (_nMaxAncestors : Nat) (vCoins : List COutput)
    (fUseInstantSend : Bool) : SelectResult :=
  let lowest0 : CAmount × Option CInput :=
    (if fUseInstantSend then env.nInstantSendMaxValue * env.COIN else INT64_MAX, none)
  let vShuffled := rs.order vCoins
  match tryDenomPass env nTargetValue nConfMine nConfTheirs vShuffled lowest0 0 with
  | PassOutcome.ret r => r
  | PassOutcome.approx st => approxPhase env rs nTargetValue fUseInstantSend st
  | PassOutcome.again st0 =>
    match tryDenomPass env nTargetValue nConfMine nConfTheirs vShuffled st0.coinLowestLarger 1 with
    | PassOutcome.ret r => r
    | PassOutcome.approx st => approxPhase env rs nTargetValue fUseInstantSend st
    | PassOutcome.again st => approxPhase env rs nTargetValue fUseInstantSend st

/-! ## Candidate enumeration and balance -/

/-- The coin classes named in `AvailableCoins`. -/
inductive AvailableCoinsType where
  | ALL_COINS
  | ONLY_DENOMINATED
  | ONLY_NONDENOMINATED
  | ONLY_10000
  | ONLY_PRIVATESEND_COLLATERAL
deriving DecidableEq, Repr

/-- Modelled from the spec: `coincontrol.h` is not among the sources; the
caller's constraints on selection: a change destination (`none` for
`CNoDestination`), the two permissions, and the set of preset outpoints. -/
structure CCoinControl where
  destChange : Option Nat
  fAllowOtherInputs : Bool
  fAllowWatchOnly : Bool
  setSelected : List COutPoint
deriving DecidableEq, Repr

/-- Modelled from the spec: `coincontrol.h` is not among the sources; whether
any outpoint is preset. -/
def CCoinControl.HasSelected (cc : CCoinControl) : Bool := !cc.setSelected.isEmpty

/-- Modelled from the spec: `coincontrol.h` is not among the sources; whether
the outpoint is preset. -/
def CCoinControl.IsSelected (cc : CCoinControl) (o : COutPoint) : Bool := cc.setSelected.contains o

/-- The exception thrown by the amount accumulators. -/
inductive WalletError where
  | valueOutOfRange
deriving DecidableEq, Repr

/-- The range test `MoneyRange` of `amount.h`. -/
def MoneyRange (env : WalletEnv) (n : CAmount) : Bool := decide (0 ≤ n) && decide (n ≤ env.MAX_MONEY)

/-- Embeds `CMerkleTx::GetDepthInMainChain(const CBlockIndex*&, bool enableIX)`. -/
def GetDepthInMainChainIX (env : WalletEnv) (tx : CWalletTx) (enableIX : Bool) : Int :=
  let pre : Int × Bool :=
    if tx.hashUnset then (0, false)
    else
      match env.chain.mapBlockIndex tx.hashBlock with
      | none => (0, false)
      | some pindex =>
        if !env.chain.chainContains tx.hashBlock then (0, false)
        else
          let nResult := (if tx.nIndex = -1 then -1 else 1) *
            (env.chain.chainHeight - pindex.nHeight + 1)
          if nResult = 0 ∧ env.chain.mempoolExists tx.hash = false then (-1, true)
          else (nResult, false)
  if pre.2 then pre.1
  else if enableIX && decide (pre.1 < 6) && env.isLockedInstantSend tx.hash then
    env.nInstantSendDepth + pre.1
  else pre.1

/-- Embeds `CMerkleTx::GetBlocksToMaturity`. -/
def GetBlocksToMaturity (env : WalletEnv) (tx : CWalletTx) : Int :=
  if !tx.fCoinBase then 0
  else max 0 ((env.COINBASE_MATURITY + 1) - GetDepthInMainChain env.chain tx)

/-- Embeds `CWalletTx::IsTrusted`: the value returned.  The test
`IsFromMe(ISMINE_ALL)` can raise instead; `IsTrustedRaises` tells when. -/
def IsTrusted (env : WalletEnv) (w : CWallet) (tx : CWalletTx) : Bool :=
  if !env.CheckFinalTx tx then false
  else
    let nDepth := GetDepthInMainChain env.chain tx
    if nDepth ≥ 1 then true
    else if nDepth < 0 then false
    else if !env.bSpendZeroConfChange || !env.IsFromMe tx then false
    else if !InMempool env.chain tx then false
    else
      tx.vin.all (fun txin =>
        match mapFind w.mapWallet txin.prevout.hash with
        | none => false
        | some parent =>
          decide (env.IsMine (parent.vout.getD txin.prevout.n ⟨0, 0, 0⟩) = ISMINE_SPENDABLE))

/-- Embeds `CWallet::IsLockedCoin`. -/
def IsLockedCoin (w : CWallet) (hash : uint256) (n : Nat) : Bool :=
  w.setLockedCoins.contains ⟨hash, n⟩

/-- Embeds `std::set<COutPoint>::insert`: ascending by `operator<`, without
repetition. -/
def outpointInsert (s : List COutPoint) (o : COutPoint) : List COutPoint :=
  match s with
  | [] => [o]
  | x :: t => if o.lt x then o :: x :: t else if o = x then x :: t else x :: outpointInsert t o

/-- Embeds `CWallet::LockCoin`. -/
def LockCoin (w : CWallet) (output : COutPoint) : CWallet :=
  { w with setLockedCoins := outpointInsert w.setLockedCoins output }

/-- Embeds `CWallet::UnlockCoin`. -/
def UnlockCoin (w : CWallet) (output : COutPoint) : CWallet :=
  { w with setLockedCoins := w.setLockedCoins.filter (fun x => !decide (x = output)) }

/-- The `found` test of `AvailableCoins` for one output value. -/
def coinTypeFound (env : WalletEnv) (nCoinType : AvailableCoinsType) (nValue : CAmount) : Bool :=
  match nCoinType with
  | AvailableCoinsType.ONLY_DENOMINATED => false
  | AvailableCoinsType.ONLY_NONDENOMINATED => false
  | AvailableCoinsType.ONLY_10000 => decide (nValue = 100000 * env.COIN)
  | AvailableCoinsType.ONLY_PRIVATESEND_COLLATERAL => false
  | AvailableCoinsType.ALL_COINS => true

/-- The condition under which `AvailableCoins` pushes output `i`. -/
def availableCond (env : WalletEnv) (w : CWallet) (coinControl : Option CCoinControl)
    (fIncludeZeroValue : Bool) (nCoinType : AvailableCoinsType) (wtxid : uint256)
    (i : Nat) (txout : CTxOut) : Bool :=
  !(IsSpent env.chain w wtxid i) && decide (env.IsMine txout ≠ ISMINE_NO) &&
    (!IsLockedCoin w wtxid i || decide (nCoinType = AvailableCoinsType.ONLY_10000)) &&
    (decide (txout.nValue > 0) || fIncludeZeroValue) &&
    (match coinControl with
      | none => true
      | some cc => !cc.HasSelected || cc.fAllowOtherInputs || cc.IsSelected ⟨wtxid, i⟩)

/-- The `COutput` pushed for output `i`. -/
def makeOutput (env : WalletEnv) (coinControl : Option CCoinControl) (pcoin : CWalletTx)
    (nDepth : Int) (i : Nat) (txout : CTxOut) : COutput :=
  { tx := pcoin, i := i, nDepth := nDepth,
    fSpendable := decide (env.IsMine txout &&& ISMINE_SPENDABLE ≠ ISMINE_NO) ||
      (match coinControl with
        | none => false
        | some cc =>
          cc.fAllowWatchOnly && decide (env.IsMine txout &&& ISMINE_WATCH_SOLVABLE ≠ ISMINE_NO)),
    fSolvable :=
      decide (env.IsMine txout &&& (ISMINE_SPENDABLE ||| ISMINE_WATCH_SOLVABLE) ≠ ISMINE_NO),
    nLockTime := txout.nLockTime }

/-- The body of the loop over the outputs of one transaction in
`AvailableCoins`: the candidate pushed for output `i`, if any. -/
def availableOutput (env : WalletEnv) (w : CWallet) (coinControl : Option CCoinControl)
    (fIncludeZeroValue : Bool) (nCoinType : AvailableCoinsType) (wtxid : uint256)
    (pcoin : CWalletTx) (nDepth : Int) (i : Nat) (txout : CTxOut) : Option COutput :=
  if !coinTypeFound env nCoinType txout.nValue then none
  else if availableCond env w coinControl fIncludeZeroValue nCoinType wtxid i txout then
    some (makeOutput env coinControl pcoin nDepth i txout)
  else none

/-- The loop `for (i = 0; i < pcoin->vout.size(); i++)` from index `i` on. -/
def availableOutputs (env : WalletEnv) (w : CWallet) (coinControl : Option CCoinControl)
    (fIncludeZeroValue : Bool) (nCoinType : AvailableCoinsType) (wtxid : uint256)
    (pcoin : CWalletTx) (nDepth : Int) : Nat → List CTxOut → List COutput
  | _, [] => []
  | i, txout :: rest =>
    match availableOutput env w coinControl fIncludeZeroValue nCoinType wtxid pcoin nDepth i
        txout with
    | some c => c :: availableOutputs env w coinControl fIncludeZeroValue nCoinType wtxid pcoin
        nDepth (i + 1) rest
    | none => availableOutputs env w coinControl fIncludeZeroValue nCoinType wtxid pcoin
        nDepth (i + 1) rest

/-- The candidates that one `mapWallet` entry contributes in `AvailableCoins`. -/
def availableOfTx (env : WalletEnv) (w : CWallet) (fOnlyConfirmed : Bool)
    (coinControl : Option CCoinControl) (fIncludeZeroValue : Bool)
    (nCoinType : AvailableCoinsType) (fUseInstantSend : Bool) (wtxid : uint256)
    (pcoin : CWalletTx) : List COutput :=
  if !env.CheckFinalTx pcoin then []
  else if fOnlyConfirmed && !IsTrusted env w pcoin then []
  else if pcoin.fCoinBase && decide (GetBlocksToMaturity env pcoin > 0) then []
  else
    let nDepth := GetDepthInMainChainIX env pcoin false
    if fUseInstantSend && decide (nDepth < env.INSTANTSEND_CONFIRMATIONS_REQUIRED) then []
    else if decide (nDepth = 0) && !InMempool env.chain pcoin then []
    else
      availableOutputs env w coinControl fIncludeZeroValue nCoinType wtxid pcoin nDepth 0
        pcoin.vout

/-- Embeds `CWallet::AvailableCoins(vCoins, fOnlyConfirmed, coinControl,
fIncludeZeroValue, nCoinType, fUseInstantSend)`. -/
def AvailableCoins (env : WalletEnv) (w : CWallet) (fOnlyConfirmed : Bool)
    (coinControl : Option CCoinControl) (fIncludeZeroValue : Bool)
    (nCoinType : AvailableCoinsType) (fUseInstantSend : Bool) : List COutput :=
  w.mapWallet.flatMap (fun e =>
    availableOfTx env w fOnlyConfirmed coinControl fIncludeZeroValue nCoinType fUseInstantSend
      e.1 e.2)

/-- Embeds `CWallet::GetCredit(const CTxOut&, const isminefilter&)`. -/
def GetCreditTxOut (env : WalletEnv) (txout : CTxOut) (filter : Nat) : Except WalletError CAmount :=
  if !MoneyRange env txout.nValue then Except.error WalletError.valueOutOfRange
  else Except.ok (if env.IsMine txout &&& filter ≠ 0 then txout.nValue else 0)

/-- The loop of `CWalletTx::GetAvailableCredit` from output `i` on, with the
running total `nCredit`. -/
def availableCreditLoop (env : WalletEnv) (w : CWallet) (hashTx : uint256) :
    Nat → List CTxOut → CAmount → Except WalletError CAmount
  | _, [], nCredit => Except.ok nCredit
  | i, txout :: rest, nCredit =>
    if !IsSpent env.chain w hashTx i then
      match GetCreditTxOut env txout ISMINE_SPENDABLE with
      | Except.error e => Except.error e
      | Except.ok c =>
        if !MoneyRange env (nCredit + c) then Except.error WalletError.valueOutOfRange
        else availableCreditLoop env w hashTx (i + 1) rest (nCredit + c)
    else availableCreditLoop env w hashTx (i + 1) rest nCredit

/-- Embeds `CWalletTx::GetAvailableCredit` of a bound transaction: the value
returned (the cache write that follows a computation is not part of the
value). -/
def GetAvailableCredit (env : WalletEnv) (w : CWallet) (tx : CWalletTx) (fUseCache : Bool) :
    Except WalletError CAmount :=
  if tx.fCoinBase && decide (GetBlocksToMaturity env tx > 0) then Except.ok 0
  else if fUseCache && tx.fAvailableCreditCached then Except.ok tx.nAvailableCreditCached
  else availableCreditLoop env w tx.hash 0 tx.vout 0

/-! ## Debit, credit and change of a transaction -/

/-- What `CWallet::IsChange` reads beside the ownership test: the answer of
`ExtractDestination` for a script (`none` when it fails) and the destinations
of `mapAddressBook`. -/
structure ChangeEnv where
  ExtractDestination : Nat → Option Nat
  mapAddressBook : List Nat

/-- Embeds `CWallet::GetDebit(const CTxIn&, const isminefilter&)`. -/
def GetDebitTxIn (env : WalletEnv) (w : CWallet) (txin : CTxIn) (filter : Nat) : CAmount :=
  match mapFind w.mapWallet txin.prevout.hash with
  | some prev =>
    if txin.prevout.n < prev.vout.length then
      if env.IsMine (prev.vout.getD txin.prevout.n ⟨0, 0, 0⟩) &&& filter ≠ 0 then
        (prev.vout.getD txin.prevout.n ⟨0, 0, 0⟩).nValue
      else 0
    else 0
  | none => 0

/-- Embeds `CWallet::IsChange`. -/
def IsChange (env : WalletEnv) (cenv : ChangeEnv) (txout : CTxOut) : Bool :=
  if env.IsMine txout ≠ ISMINE_NO then
    match cenv.ExtractDestination txout.scriptPubKey with
    | none => true
    | some address => !cenv.mapAddressBook.contains address
  else false

/-- Embeds `CWallet::GetChange(const CTxOut&)`. -/
def GetChangeTxOut (env : WalletEnv) (cenv : ChangeEnv) (txout : CTxOut) :
    Except WalletError CAmount :=
  if !MoneyRange env txout.nValue then Except.error WalletError.valueOutOfRange
  else Except.ok (if IsChange env cenv txout then txout.nValue else 0)

/-- The loop shared by `GetDebit`, `GetCredit` and `GetChange` of a
transaction: each amount is computed (which may throw), added to the running
total, and the total is tested with `MoneyRange`.  The sum is taken in the
integers: the total is within the money range before each addition, so a
64-bit wrap could only yield a negative total, which the test rejects like the
true one. -/
def accumulate (env : WalletEnv) :
    List (Except WalletError CAmount) → CAmount → Except WalletError CAmount
  | [], n => Except.ok n
  | Except.error e :: _, _ => Except.error e
  | Except.ok c :: rest, n =>
    if !MoneyRange env (n + c) then Except.error WalletError.valueOutOfRange
    else accumulate env rest (n + c)

/-- Embeds `CWallet::GetDebit(const CTransaction&, const isminefilter&)`. -/
def GetDebit (env : WalletEnv) (w : CWallet) (tx : CWalletTx) (filter : Nat) :
    Except WalletError CAmount :=
  accumulate env (tx.vin.map (fun txin => Except.ok (GetDebitTxIn env w txin filter))) 0

/-- Embeds `CWallet::GetCredit(const CTransaction&, const isminefilter&)`. -/
def GetCredit (env : WalletEnv) (tx : CWalletTx) (filter : Nat) : Except WalletError CAmount :=
  accumulate env (tx.vout.map (fun txout => GetCreditTxOut env txout filter)) 0

/-- Embeds `CWallet::GetChange(const CTransaction&)`. -/
def GetChange (env : WalletEnv) (cenv : ChangeEnv) (tx : CWalletTx) :
    Except WalletError CAmount :=
  accumulate env (tx.vout.map (fun txout => GetChangeTxOut env cenv txout)) 0

/-- The filters `ISMINE_WATCH_ONLY` and `ISMINE_ALL` of `isminetype`. -/
def ISMINE_WATCH_ONLY : Nat := 3
def ISMINE_ALL : Nat := 7

/-- Embeds `CWalletTx::GetDebit(const isminefilter&)` of a bound transaction:
the value returned (the cache writes that follow a computation are not part
of the value), or the exception of `CWallet::GetDebit`. -/
def CWalletTx.GetDebit (env : WalletEnv) (w : CWallet) (tx : CWalletTx) (filter : Nat) :
    Except WalletError CAmount :=
  if tx.vin.isEmpty then Except.ok 0
  else
    match (if filter &&& ISMINE_SPENDABLE ≠ 0 then
        (if tx.fDebitCached then Except.ok tx.nDebitCached
         else CoreSmart.GetDebit env w tx ISMINE_SPENDABLE)
      else Except.ok 0) with
    | Except.error e => Except.error e
    | Except.ok d1 =>
      match (if filter &&& ISMINE_WATCH_ONLY ≠ 0 then
          (if tx.fWatchDebitCached then Except.ok tx.nWatchDebitCached
           else CoreSmart.GetDebit env w tx ISMINE_WATCH_ONLY)
        else Except.ok 0) with
      | Except.error e => Except.error e
      | Except.ok d2 => Except.ok (d1 + d2)

/-- Modelled from the spec: `wallet.h` is not among the sources;
`IsFromMe(filter)` is the test `GetDebit(filter) > 0`, so the call raises
exactly when `CWalletTx::GetDebit` does.  `WalletEnv.IsFromMe` stands for the
value it returns otherwise. -/
def IsFromMeRaises (env : WalletEnv) (w : CWallet) (tx : CWalletTx) : Bool :=
  match CWalletTx.GetDebit env w tx ISMINE_ALL with
  | Except.error _ => true
  | Except.ok _ => false

/-- Whether `CWalletTx::IsTrusted` raises instead of returning: it does when it
reaches the test `IsFromMe(ISMINE_ALL)` (final, depth zero, zero-confirmation
change allowed) and that test raises. -/
def IsTrustedRaises (env : WalletEnv) (w : CWallet) (tx : CWalletTx) : Bool :=
  env.CheckFinalTx tx && decide (GetDepthInMainChain env.chain tx = 0) &&
    env.bSpendZeroConfChange && IsFromMeRaises env w tx

/-- The loop of `CWallet::GetBalance` over `mapWallet`. -/
def balanceLoop (env : WalletEnv) (w : CWallet) :
    List (uint256 × CWalletTx) → CAmount → Except WalletError CAmount
  | [], nTotal => Except.ok nTotal
  | e :: rest, nTotal =>
    if IsTrustedRaises env w e.2 then Except.error WalletError.valueOutOfRange
    else if IsTrusted env w e.2 then
      match GetAvailableCredit env w e.2 true with
      | Except.error err => Except.error err
      | Except.ok c => balanceLoop env w rest (nTotal + c)
    else balanceLoop env w rest nTotal

/-- Embeds `CWallet::GetBalance`. -/
def GetBalance (env : WalletEnv) (w : CWallet) : Except WalletError CAmount :=
  balanceLoop env w w.mapWallet 0

/-! ## Address groupings -/

/-- A destination (`CTxDestination`), as a number ordered like the
destinations. -/
abbrev CTxDestination := Nat

/-- Embeds `CWallet::IsMine(const CTxIn&)`. -/
def IsMineTxIn (env : WalletEnv) (w : CWallet) (txin : CTxIn) : Nat :=
  match mapFind w.mapWallet txin.prevout.hash with
  | some prev =>
    if txin.prevout.n < prev.vout.length then
      env.IsMine (prev.vout.getD txin.prevout.n ⟨0, 0, 0⟩)
    else ISMINE_NO
  | none => ISMINE_NO

/-- The order of two `set<CTxDestination>`: lexicographic. -/
def groupLt : List CTxDestination → List CTxDestination → Bool
  | _, [] => false
  | [], _ :: _ => true
  | a :: s, b :: t => decide (a < b) || (decide (a = b) && groupLt s t)

/-- Embeds `insert` on a `set<set<CTxDestination>>`: in order, no duplicate. -/
def groupingsInsert (s : List (List CTxDestination)) (g : List CTxDestination) :
    List (List CTxDestination) :=
  match s with
  | [] => [g]
  | x :: t =>
    if groupLt g x then g :: x :: t else if g = x then x :: t else x :: groupingsInsert t g

/-- The loop over `pcoin->vin` of `GetAddressGroupings`: the grouping and
`any_mine`.  An input that is mine has its previous transaction in `mapWallet`,
so `mapWallet[txin.prevout.hash]` creates no entry. -/
def groupInputs (env : WalletEnv) (cenv : ChangeEnv) (w : CWallet) :
    List CTxIn → List CTxDestination × Bool → List CTxDestination × Bool
  | [], acc => acc
  | txin :: rest, acc =>
    if IsMineTxIn env w txin = ISMINE_NO then groupInputs env cenv w rest acc
    else
      match cenv.ExtractDestination
          (((mapAt w.mapWallet txin.prevout.hash).1.vout.getD txin.prevout.n
            ⟨0, 0, 0⟩).scriptPubKey) with
      | none => groupInputs env cenv w rest acc
      | some address => groupInputs env cenv w rest (setInsert acc.1 address, true)

/-- The loop `// group change with input addresses`. -/
def groupChange (env : WalletEnv) (cenv : ChangeEnv) :
    List CTxOut → List CTxDestination → List CTxDestination
  | [], grouping => grouping
  | txout :: rest, grouping =>
    if IsChange env cenv txout then
      match cenv.ExtractDestination txout.scriptPubKey with
      | none => groupChange env cenv rest grouping
      | some txoutAddr => groupChange env cenv rest (setInsert grouping txoutAddr)
    else groupChange env cenv rest grouping

/-- The loop `// group lone addrs by themselves`; `grouping` is empty when it
starts and after each of its rounds. -/
def groupLone (env : WalletEnv) (cenv : ChangeEnv) :
    List CTxOut → List (List CTxDestination) → List (List CTxDestination)
  | [], groupings => groupings
  | txout :: rest, groupings =>
    if env.IsMine txout ≠ ISMINE_NO then
      match cenv.ExtractDestination txout.scriptPubKey with
      | none => groupLone env cenv rest groupings
      | some address => groupLone env cenv rest (groupingsInsert groupings (setInsert [] address))
    else groupLone env cenv rest groupings

/-- The first loop of `GetAddressGroupings`, over `mapWallet`: the raw
groupings. -/
def collectGroupings (env : WalletEnv) (cenv : ChangeEnv) (w : CWallet) :
    List (uint256 × CWalletTx) → List (List CTxDestination) → List (List CTxDestination)
  | [], groupings => groupings
  | walletEntry :: rest, groupings =>
    let pcoin := walletEntry.2
    let groupings1 :=
      if pcoin.vin.length > 0 then
        let r := groupInputs env cenv w pcoin.vin ([], false)
        let grouping := if r.2 then groupChange env cenv pcoin.vout r.1 else r.1
        if grouping.length > 0 then groupingsInsert groupings grouping else groupings
      else groupings
    collectGroupings env cenv w rest (groupLone env cenv pcoin.vout groupings1)

/-- The variables of the second loop: `uniqueGroupings`, a set of pointers to
allocated groups, here the pairs of an address and the group allocated there;
`setmap`; and the number of allocations so far, which serves as the address of
the next one (`new` returns an address that is not in use). -/
structure AddressGroups where
  uniqueGroupings : List (Nat × List CTxDestination)
  setmap : List (CTxDestination × Nat)
  nAlloc : Nat
deriving DecidableEq, Repr

/-- Embeds `setmap.find(address)`. -/
def setmapFind : List (CTxDestination × Nat) → CTxDestination → Option Nat
  | [], _ => none
  | (k, p) :: t, address => if k = address then some p else setmapFind t address

/-- Embeds `setmap[element] = merged`. -/
def setmapAssign : List (CTxDestination × Nat) → CTxDestination → Nat →
    List (CTxDestination × Nat)
  | [], element, merged => [(element, merged)]
  | (k, p) :: t, element, merged =>
    if k = element then (k, merged) :: t else (k, p) :: setmapAssign t element merged

/-- The group allocated at the address `hit` (`*hit`). -/
def groupAt : List (Nat × List CTxDestination) → Nat → List CTxDestination
  | [], _ => []
  | (q, g) :: t, hit => if q = hit then g else groupAt t hit

/-- The loop that fills `hits` with the groups met by the addresses of
`grouping`. -/
def collectHits (setmap : List (CTxDestination × Nat)) :
    List CTxDestination → List Nat → List Nat
  | [], hits => hits
  | address :: rest, hits =>
    match setmapFind setmap address with
    | some p => collectHits setmap rest (setInsert hits p)
    | none => collectHits setmap rest hits

/-- The loop over `hits`: each hit group is poured into `merged`, erased from
`uniqueGroupings` and deleted. -/
def mergeHits : List Nat → List CTxDestination × List (Nat × List CTxDestination) →
    List CTxDestination × List (Nat × List CTxDestination)
  | [], acc => acc
  | hit :: rest, acc =>
    mergeHits rest ((groupAt acc.2 hit).foldl setInsert acc.1,
      acc.2.filter (fun e => decide (e.1 ≠ hit)))

/-- One round of the second loop of `GetAddressGroupings`, for one raw
grouping. -/
def mergeGrouping (st : AddressGroups) (grouping : List CTxDestination) : AddressGroups :=
  let hits := collectHits st.setmap grouping []
  let r := mergeHits hits (grouping, st.uniqueGroupings)
  { uniqueGroupings := r.2 ++ [(st.nAlloc, r.1)],
    setmap := r.1.foldl (fun sm element => setmapAssign sm element st.nAlloc) st.setmap,
    nAlloc := st.nAlloc + 1 }

/-- The second and third loops of `GetAddressGroupings`: the raw groupings are
merged one by one, then the groups are copied into the returned set. -/
def mergeGroupings (groupings : List (List CTxDestination)) : List (List CTxDestination) :=
  (groupings.foldl mergeGrouping
    { uniqueGroupings := [], setmap := [], nAlloc := 0 }).uniqueGroupings.foldl
    (fun ret uniqueGrouping => groupingsInsert ret uniqueGrouping.2) []

/-- Embeds `CWallet::GetAddressGroupings`. -/
def GetAddressGroupings (env : WalletEnv) (cenv : ChangeEnv) (w : CWallet) :
    List (List CTxDestination) :=
  mergeGroupings (collectGroupings env cenv w w.mapWallet [])

/-! ## `SelectCoins` -/

/-- One disjunct of the tier chain of `SelectCoins`: `nConfMine`,
`nConfTheirs`, `nMaxAncestors`, and the guard in front of the call. -/
structure Tier where
  nConfMine : Int
  nConfTheirs : Int
  nMaxAncestors : Nat
  fEnabled : Bool
deriving DecidableEq, Repr

/-- The seven `SelectCoinsMinConf` calls of `SelectCoins`, in order. -/
def selectTiers (env : WalletEnv) : List Tier :=
  [ ⟨1, 6, 0, true⟩, ⟨1, 1, 0, true⟩,
    ⟨0, 1, 2, env.bSpendZeroConfChange⟩,
    ⟨0, 1, min 4 (env.nMaxChainLength / 3), env.bSpendZeroConfChange⟩,
    ⟨0, 1, env.nMaxChainLength / 2, env.bSpendZeroConfChange⟩,
    ⟨0, 1, env.nMaxChainLength, env.bSpendZeroConfChange⟩,
    ⟨0, 1, 18446744073709551615, env.bSpendZeroConfChange && !env.fRejectLongChains⟩ ]

/-- The short-circuit evaluation of the tier chain: `k` numbers the calls for
the random source, `cur` holds `setCoinsRet` and `nValueRet` as left by the
calls so far. -/
def runTiers (env : WalletEnv) (rs : Nat → RandomSource) (nTargetValue : CAmount)
    (vCoins : List COutput) (fUseInstantSend : Bool) :
    List Tier → Nat → SelectResult → SelectResult
  | [], _, cur => cur
  | t :: rest, k, cur =>
    if !t.fEnabled then runTiers env rs nTargetValue vCoins fUseInstantSend rest (k + 1) cur
    else
      let r := SelectCoinsMinConf env (rs k) nTargetValue t.nConfMine t.nConfTheirs
        t.nMaxAncestors vCoins fUseInstantSend
      let r2 : SelectResult := { r with nApproxCalls := cur.nApproxCalls + r.nApproxCalls }
      if r.fSuccess then r2
      else runTiers env rs nTargetValue vCoins fUseInstantSend rest (k + 1) r2

/-- The loop over `vPresetInputs`: `none` when it returns `false`, else
`(nValueFromPresetInputs, setPresetCoins)`. -/
def collectPresets (w : CWallet) :
    List COutPoint → CAmount → List CInput → Option (CAmount × List CInput)
  | [], v, s => some (v, s)
  | outpoint :: rest, v, s =>
    match mapFind w.mapWallet outpoint.hash with
    | some pcoin =>
      if pcoin.vout.length ≤ outpoint.n then none
      else collectPresets w rest (v + CInput.nValue (pcoin, outpoint.n))
        (coinSetInsert s (pcoin, outpoint.n))
    | none => none

/-- The test `coinControl && coinControl->HasSelected() &&
!coinControl->fAllowOtherInputs`. -/
def optOnlySelected (coinControl : Option CCoinControl) : Bool :=
  match coinControl with
  | some cc => cc.HasSelected && !cc.fAllowOtherInputs
  | none => false

/-- The vector filled by `if (coinControl) coinControl->ListSelected(vPresetInputs)`. -/
def optListSelected (coinControl : Option CCoinControl) : List COutPoint :=
  match coinControl with
  | some cc => cc.setSelected
  | none => []

/-- The test `coinControl && coinControl->HasSelected()`. -/
def optHasSelected (coinControl : Option CCoinControl) : Bool :=
  match coinControl with
  | some cc => cc.HasSelected
  | none => false

/-- The first branch of `SelectCoins`: every spendable candidate is taken. -/
def selectOnlySelected (vCoins : List COutput) (nTargetValue : CAmount)
    (setCoinsRet0 : List CInput) (nValueRet0 : CAmount) : SelectResult :=
  { fSuccess := decide ((vCoins.filter (fun out => out.fSpendable)).foldl
      (fun acc out => acc + out.nValue) nValueRet0 ≥ nTargetValue),
    setCoinsRet := (vCoins.filter (fun out => out.fSpendable)).foldl
      (fun acc out => coinSetInsert acc (out.tx, out.i)) setCoinsRet0,
    nValueRet := (vCoins.filter (fun out => out.fSpendable)).foldl
      (fun acc out => acc + out.nValue) nValueRet0,
    nApproxCalls := 0 }

/-- The loop that removes the preset inputs from `vCoins`; it runs only under
`coinControl && coinControl->HasSelected()`. -/
def erasePresets (fErase : Bool) (setPresetCoins : List CInput) (vCoins : List COutput) :
    List COutput :=
  if fErase then
    vCoins.filter (fun out => !(setPresetCoins.any (fun p => decide (p.key = out.key))))
  else vCoins

/-- The state of `setCoinsRet` and `nValueRet` after the tier chain `res`. -/
def tiersResult (env : WalletEnv) (rs : Nat → RandomSource) (nTargetValue : CAmount)
    (vCoins : List COutput) (fUseInstantSend : Bool) (nValueFromPresetInputs : CAmount)
    (setCoinsRet0 : List CInput) (nValueRet0 : CAmount) : SelectResult :=
  if nTargetValue ≤ nValueFromPresetInputs then
    { fSuccess := true, setCoinsRet := setCoinsRet0, nValueRet := nValueRet0, nApproxCalls := 0 }
  else
    runTiers env rs (nTargetValue - nValueFromPresetInputs) vCoins fUseInstantSend
      (selectTiers env) 0
      { fSuccess := false, setCoinsRet := setCoinsRet0, nValueRet := nValueRet0,
        nApproxCalls := 0 }

/-- The end of `SelectCoins`: the tier chain, then the preset inputs are added
to the selection and to the value. -/
def selectWithPresets (env : WalletEnv) (rs : Nat → RandomSource) (nTargetValue : CAmount)
    (vCoins : List COutput) (fUseInstantSend : Bool) (nValueFromPresetInputs : CAmount)
    (setPresetCoins : List CInput) (setCoinsRet0 : List CInput) (nValueRet0 : CAmount) :
    SelectResult :=
  { fSuccess := (tiersResult env rs nTargetValue vCoins fUseInstantSend nValueFromPresetInputs
      setCoinsRet0 nValueRet0).fSuccess,
    setCoinsRet := setPresetCoins.foldl coinSetInsert
      (tiersResult env rs nTargetValue vCoins fUseInstantSend nValueFromPresetInputs
        setCoinsRet0 nValueRet0).setCoinsRet,
    nValueRet := (tiersResult env rs nTargetValue vCoins fUseInstantSend nValueFromPresetInputs
      setCoinsRet0 nValueRet0).nValueRet + nValueFromPresetInputs,
    nApproxCalls := (tiersResult env rs nTargetValue vCoins fUseInstantSend
      nValueFromPresetInputs setCoinsRet0 nValueRet0).nApproxCalls }

/-- Embeds `CWallet::SelectCoins`.  `setCoinsRet0` and `nValueRet0` are the values
the caller passes in the two reference parameters. -/
def SelectCoins (env : WalletEnv) (w : CWallet) (rs : Nat → RandomSource)
    (nTargetValue : CAmount) (setCoinsRet0 : List CInput) (nValueRet0 : CAmount)
    (coinControl : Option CCoinControl) (nCoinType : AvailableCoinsType)
    (fUseInstantSend : Bool) : SelectResult :=
  if optOnlySelected coinControl then
    selectOnlySelected (AvailableCoins env w true coinControl false nCoinType fUseInstantSend)
      nTargetValue setCoinsRet0 nValueRet0
  else
    match collectPresets w (optListSelected coinControl) 0 [] with
    | none => { fSuccess := false, setCoinsRet := setCoinsRet0, nValueRet := nValueRet0,
                nApproxCalls := 0 }
    | some pr =>
      selectWithPresets env rs nTargetValue
        (erasePresets (optHasSelected coinControl) pr.2
          (AvailableCoins env w true coinControl false nCoinType fUseInstantSend))
        fUseInstantSend pr.1 pr.2 setCoinsRet0 nValueRet0

/-! ## Transaction builder -/

/-- A requested payment (`CRecipient`). -/
structure CRecipient where
  scriptPubKey : Nat
  nAmount : CAmount
  fSubtractFeeFromAmount : Bool
deriving DecidableEq, Repr

/-- The transaction under construction (`txNew`): the selected coins behind
its inputs, its outputs and its lock time. -/
structure TxDraft where
  vin : List CInput
  vout : List CTxOut
  nLockTime : Int
deriving DecidableEq, Repr

/-- Why `CreateTransaction` returns `false` (one constructor per
`strFailReason`), stops at an `assert`, or exhausts the loop bound of the
embedding. -/
inductive FailReason where
  | amountsMustBePositive
  | amountTooSmallToPayFee
  | amountTooSmallAfterFee
  | amountTooSmall
  | insufficientFunds
  | selectionFailed
  | instantSendValueTooHigh
  | mixedLockTimeFormats
  | keypoolRanOut
  | changeIndexOutOfRange
  | signingFailed
  | transactionTooLarge
  | mempoolChainTooLong
  | assertion
  | fuel
deriving DecidableEq, Repr

/-- The random draws of `CreateTransaction`, pass by pass: the random source
of each `SelectCoinsMinConf` call and the values of `GetRandInt`. -/
structure BuilderRandom where
  select : Nat → Nat → RandomSource
  GetRandInt : Nat → Nat → Int → Int
  GetRandInt_range : ∀ p k n, 0 < n → 0 ≤ GetRandInt p k n ∧ GetRandInt p k n < n

/-- The draws that are all zero. -/
def BuilderRandom.trivial : BuilderRandom :=
  { select := fun _ _ => RandomSource.trivial, GetRandInt := fun _ _ _ => 0,
    GetRandInt_range := fun _ _ _ h => ⟨le_refl 0, h⟩ }

/-- What `CreateTransaction` reads from outside `wallet.cpp`, beyond
`WalletEnv`: the fee settings, the dust threshold, the script and key-store
answers, the clock, the signer, the size and priority measures, and the
mempool limits. -/
structure BuilderEnv where
  wallet : WalletEnv
  /-- The configured rate `payTxFee.GetFeePerK()`. -/
  nPayTxFeePerK : CAmount
  /-- The threshold `txout.GetDustThreshold(::minRelayTxFee)`, which depends on
  the output through the size of its script only. -/
  GetDustThreshold : Nat → CAmount
  LOCKTIME_THRESHOLD : Int
  /-- The test `scriptPubKey.IsPayToScriptHash()`. -/
  IsPayToScriptHash : Nat → Bool
  /-- The lock time parsed from the redeem script of a pay-to-script-hash
  output, when `ExtractDestination` and `GetCScript` both succeed. -/
  redeemLockTime : Nat → Option Int
  /-- The value `chainActive.Tip()->GetMedianTimePast()`. -/
  nMedianTimePast : Int
  /-- The value `GetTime()`. -/
  nTime : Int
  /-- The script of the key handed out by `reservekey.GetReservedKey`, if the
  key pool has one. -/
  reservedKeyScript : Option Nat
  /-- The answer of `ProduceSignature` for the input spending a coin, with the
  real (`true`) or the dummy signature creator. -/
  ProduceSignature : Bool → TxDraft → CInput → Bool
  /-- The size `::GetSerializeSize(txNew, SER_NETWORK, PROTOCOL_VERSION)`; the
  flag tells whether the signatures are real or dummies. -/
  GetSerializeSize : Bool → TxDraft → Nat
  /-- The weight `GetTransactionWeight(txNew)`, measured once the dummy
  signatures are removed. -/
  GetTransactionWeight : Bool → TxDraft → Int
  MAX_STANDARD_TX_WEIGHT : Int
  fSendFreeTransactions : Bool
  MAX_FREE_TRANSACTION_CREATE_SIZE : Nat
  /-- The floating-point test `dPriority >= dPriorityNeeded && AllowFree(dPriority)`. -/
  fPriorityFree : Bool → TxDraft → Bool
  /-- The floating-point test `AllowFree(dPriority)`. -/
  AllowFree : Bool → TxDraft → Bool
  /-- The fee `wtxNew.GetMinFee(1, fAllowFree, GMF_SEND)`. -/
  GetMinFee : TxDraft → Bool → CAmount
  /-- The fee `CTxLockRequest().GetMinFee()`. -/
  nLockRequestMinFee : CAmount
  /-- The answer of `mempool.CalculateMemPoolAncestors`. -/
  CalculateMemPoolAncestors : TxDraft → Bool

/-- Modelled from the spec: `primitives/transaction.h` is not among the
sources; an output is dust when its value is below the dust threshold for the
configured relay fee. -/
def IsDust (env : BuilderEnv) (txout : CTxOut) : Bool :=
  decide (txout.nValue < env.GetDustThreshold txout.scriptPubKey)

/-- The first loop of `CreateTransaction`: `none` on a negative amount, else
`(nValue, nSubtractFeeFromAmount)`. -/
def sumRecipients : List CRecipient → CAmount → Nat → Option (CAmount × Nat)
  | [], nValue, n => some (nValue, n)
  | r :: rest, nValue, n =>
    if nValue < 0 ∨ r.nAmount < 0 then none
    else sumRecipients rest (toInt64 (nValue + r.nAmount))
      (if r.fSubtractFeeFromAmount then n + 1 else n)

/-- The output built for one recipient and the new value of `fFirst`.  The
divisions are those of C++ (`Int.tdiv`, `Int.tmod`). -/
def payeeTxOut (r : CRecipient) (nFeeRet : CAmount) (nSubtract : Nat) (fFirst : Bool) :
    CTxOut × Bool :=
  if r.fSubtractFeeFromAmount then
    let v1 := r.nAmount - Int.tdiv nFeeRet nSubtract
    if fFirst then (⟨v1 - Int.tmod nFeeRet nSubtract, r.scriptPubKey, 0⟩, false)
    else (⟨v1, r.scriptPubKey, 0⟩, fFirst)
  else (⟨r.nAmount, r.scriptPubKey, 0⟩, fFirst)

/-- The reason given when a payee output is dust. -/
def payeeDustReason (r : CRecipient) (nFeeRet : CAmount) (txout : CTxOut) : FailReason :=
  if r.fSubtractFeeFromAmount && decide (nFeeRet > 0) then
    if txout.nValue < 0 then FailReason.amountTooSmallToPayFee
    else FailReason.amountTooSmallAfterFee
  else FailReason.amountTooSmall

/-- The loop `// vouts to the payees`. -/
def buildPayeeOutputs (env : BuilderEnv) (nFeeRet : CAmount) (nSubtract : Nat) :
    List CRecipient → Bool → Except FailReason (List CTxOut)
  | [], _ => Except.ok []
  | r :: rest, fFirst =>
    let p := payeeTxOut r nFeeRet nSubtract fFirst
    if IsDust env p.1 then Except.error (payeeDustReason r nFeeRet p.1)
    else
      match buildPayeeOutputs env nFeeRet nSubtract rest p.2 with
      | Except.error e => Except.error e
      | Except.ok outs => Except.ok (p.1 :: outs)

/-- The lock-time format seen so far (`enum LockTimeFormat`). -/
inductive LockTimeFormat where
  | UNSET
  | TIMESTAMP
  | BLOCKTIME
deriving DecidableEq, Repr

/-- The effective lock time of a selected coin: that of the output, or, when
it is zero and the script pays to a script hash, the one parsed from the
redeem script. -/
def effectiveLockTime (env : BuilderEnv) (coin : CInput) : Int :=
  let txout := coin.1.vout.getD coin.2 ⟨0, 0, 0⟩
  if txout.nLockTime = 0 ∧ env.IsPayToScriptHash txout.scriptPubKey = true then
    match env.redeemLockTime txout.scriptPubKey with
    | some t => t
    | none => txout.nLockTime
  else txout.nLockTime

/-- The loop over `setCoins` that checks ages and infers the lock-time
format. -/
def scanLockTimes (env : BuilderEnv) :
    List CInput → LockTimeFormat → Except FailReason LockTimeFormat
  | [], fmt => Except.ok fmt
  | coin :: rest, fmt =>
    if GetDepthInMainChain env.wallet.chain coin.1 < 0 then Except.error FailReason.assertion
    else
      let lockTime := effectiveLockTime env coin
      if lockTime > env.LOCKTIME_THRESHOLD then
        if fmt = LockTimeFormat.BLOCKTIME then Except.error FailReason.mixedLockTimeFormats
        else scanLockTimes env rest LockTimeFormat.TIMESTAMP
      else if lockTime > 0 then
        if fmt = LockTimeFormat.TIMESTAMP then Except.error FailReason.mixedLockTimeFormats
        else scanLockTimes env rest LockTimeFormat.BLOCKTIME
      else scanLockTimes env rest fmt

/-- The conversion to `uint32_t`. -/
def toUInt32 (x : Int) : Int := x % 4294967296

/-- The value given to `txNew.nLockTime` (a `uint32_t`), or the failure of one
of the two closing assertions.  `nPass` numbers the pass for the draws. -/
def chooseLockTime (env : BuilderEnv) (rnd : BuilderRandom) (nPass : Nat)
    (fmt : LockTimeFormat) : Except FailReason Int :=
  if fmt = LockTimeFormat.TIMESTAMP then
    let t0 := toUInt32 (env.nMedianTimePast - 1)
    let t :=
      if rnd.GetRandInt nPass 0 10 = 0 then
        toUInt32 (max 0 (toInt32 t0 - rnd.GetRandInt nPass 1 (3 * 3600)))
      else t0
    if ¬ (t ≤ toUInt32 env.nTime) then Except.error FailReason.assertion
    else if ¬ (t > env.LOCKTIME_THRESHOLD) then Except.error FailReason.assertion
    else Except.ok t
  else
    let t0 := toUInt32 env.wallet.chain.chainHeight
    let t :=
      if rnd.GetRandInt nPass 0 10 = 0 then
        toUInt32 (max 0 (toInt32 t0 - rnd.GetRandInt nPass 1 100))
      else t0
    if ¬ (t ≤ toUInt32 env.wallet.chain.chainHeight) then Except.error FailReason.assertion
    else if ¬ (t < env.LOCKTIME_THRESHOLD) then Except.error FailReason.assertion
    else Except.ok t

/-- The loop that subtracts `nDust` from the first recipient marked
subtract-fee, and checks that its output is still not dust. -/
def deductFromFirst (env : BuilderEnv) (nDust : CAmount) :
    List CRecipient → List CTxOut → Except FailReason (List CTxOut)
  | r :: rest, txout :: outs =>
    if r.fSubtractFeeFromAmount then
      let txout2 : CTxOut := { txout with nValue := txout.nValue - nDust }
      if IsDust env txout2 then Except.error FailReason.amountTooSmallAfterFee
      else Except.ok (txout2 :: outs)
    else
      match deductFromFirst env nDust rest outs with
      | Except.error e => Except.error e
      | Except.ok outs2 => Except.ok (txout :: outs2)
  | _, outs => Except.ok outs

/-- The insertion `txNew.vout.insert(txNew.vout.begin() + n, x)`. -/
def insertAt (n : Nat) (x : CTxOut) : List CTxOut → List CTxOut
  | [] => [x]
  | a :: l =>
    match n with
    | 0 => x :: a :: l
    | m + 1 => a :: insertAt m x l

/-- The result of the change step: the outputs, the fee and the change
position. -/
structure ChangeResult where
  vout : List CTxOut
  nFeeRet : CAmount
  nChangePosInOut : Int
deriving DecidableEq, Repr

/-- The script of the change output: the destination set in coin control, or
else the key reserved from the key pool (`none` when the pool ran out). -/
def changeScript (env : BuilderEnv) (coinControl : Option CCoinControl) : Option Nat :=
  match coinControl with
  | some cc =>
    match cc.destChange with
    | some d => some d
    | none => env.reservedKeyScript
  | none => env.reservedKeyScript

/-- The block `if (nSubtractFeeFromAmount > 0 && newTxOut.IsDust(...))`: the
change is raised to the dust threshold and the difference is taken from the
first recipient marked subtract-fee. -/
def raiseDustChange (env : BuilderEnv) (vecSend : List CRecipient) (nSubtract : Nat)
    (vout : List CTxOut) (newTxOut : CTxOut) : Except FailReason (CTxOut × List CTxOut) :=
  if decide (nSubtract > 0) && IsDust env newTxOut then
    let nDust := env.GetDustThreshold newTxOut.scriptPubKey - newTxOut.nValue
    match deductFromFirst env nDust vecSend vout with
    | Except.error e => Except.error e
    | Except.ok vout2 => Except.ok ({ newTxOut with nValue := newTxOut.nValue + nDust }, vout2)
  else Except.ok (newTxOut, vout)

/-- The block `// Never create dust outputs; if we would, just add the dust to
the fee`, and otherwise the insertion of the change output. -/
def placeChange (env : BuilderEnv) (rnd : BuilderRandom) (nPass : Nat) (newTxOut : CTxOut)
    (vout : List CTxOut) (nChange nFeeRet : CAmount) (nChangePosInOut : Int) :
    Except FailReason ChangeResult :=
  if IsDust env newTxOut then
    Except.ok { vout := vout, nFeeRet := nFeeRet + nChange, nChangePosInOut := -1 }
  else if nChangePosInOut = -1 then
    Except.ok { vout := insertAt (rnd.GetRandInt nPass 2 (vout.length + 1)).toNat newTxOut vout,
                nFeeRet := nFeeRet,
                nChangePosInOut := rnd.GetRandInt nPass 2 (vout.length + 1) }
  else if toUInt32 (toInt32 nChangePosInOut) > vout.length then
    Except.error FailReason.changeIndexOutOfRange
  else
    Except.ok { vout := insertAt nChangePosInOut.toNat newTxOut vout, nFeeRet := nFeeRet,
                nChangePosInOut := nChangePosInOut }

/-- The block `if (nChange > 0) ... else reservekey.ReturnKey()`. -/
def addChange (env : BuilderEnv) (rnd : BuilderRandom) (nPass : Nat)
    (vecSend : List CRecipient) (coinControl : Option CCoinControl) (nSubtract : Nat)
    (vout : List CTxOut) (nChange nFeeRet : CAmount) (nChangePosInOut : Int) :
    Except FailReason ChangeResult :=
  if nChange > 0 then
    match changeScript env coinControl with
    | none => Except.error FailReason.keypoolRanOut
    | some script =>
      match raiseDustChange env vecSend nSubtract vout ⟨nChange, script, 0⟩ with
      | Except.error e => Except.error e
      | Except.ok p => placeChange env rnd nPass p.1 p.2 nChange nFeeRet nChangePosInOut
  else Except.ok { vout := vout, nFeeRet := nFeeRet, nChangePosInOut := nChangePosInOut }

/-- How one pass of the `while (true)` loop ends. -/
inductive PassResult where
  | fail (reason : FailReason)
  | done (tx : TxDraft) (nFeeRet : CAmount) (nChangePosInOut : Int)
  | retry (nFeeRet : CAmount)
deriving DecidableEq, Repr

/-- The end of a pass, from the signatures on: signing, the size limit, the
free-transaction exit and the fee comparison. -/
def finishPass (env : BuilderEnv) (sign fUseInstantSend : Bool) (tx : TxDraft)
    (nFeeRet : CAmount) (nChangePosInOut : Int) : PassResult :=
  if !(tx.vin.all (fun coin => env.ProduceSignature sign tx coin)) then
    PassResult.fail FailReason.signingFailed
  else
    let nBytes := env.GetSerializeSize sign tx
    if env.GetTransactionWeight sign tx ≥ env.MAX_STANDARD_TX_WEIGHT then
      PassResult.fail FailReason.transactionTooLarge
    else if !fUseInstantSend && env.fSendFreeTransactions &&
        decide (nBytes ≤ env.MAX_FREE_TRANSACTION_CREATE_SIZE) && env.fPriorityFree sign tx then
      PassResult.done tx nFeeRet nChangePosInOut
    else
      let nPayFee := env.nPayTxFeePerK * (1 + Int.tdiv (env.GetTransactionWeight sign tx) 1000)
      let nMinFee := env.GetMinFee tx (env.AllowFree sign tx)
      let nFeeNeeded := if nPayFee < nMinFee then nMinFee else nPayFee
      if nFeeRet ≥ nFeeNeeded then PassResult.done tx nFeeRet nChangePosInOut
      else PassResult.retry nFeeNeeded

/-- One pass of the `while (true)` loop of `CreateTransaction`, entered with
the fee estimate `nFeeRet`. -/
def createPass (env : BuilderEnv) (w : CWallet) (rnd : BuilderRandom) (nPass : Nat)
    (vecSend : List CRecipient) (nValue : CAmount) (nSubtract : Nat) (nChangePosRequest : Int)
    (coinControl : Option CCoinControl) (sign : Bool) (nCoinType : AvailableCoinsType)
    (fUseInstantSend : Bool) (nFeeRet : CAmount) : PassResult :=
  let nValueToSelect := if nSubtract = 0 then toInt64 (nValue + nFeeRet) else nValue
  match buildPayeeOutputs env nFeeRet nSubtract vecSend true with
  | Except.error e => PassResult.fail e
  | Except.ok vout =>
    let sel := SelectCoins env.wallet w (rnd.select nPass) nValueToSelect [] 0 coinControl
      nCoinType fUseInstantSend
    if !sel.fSuccess then
      if sel.nValueRet < nValueToSelect then PassResult.fail FailReason.insufficientFunds
      else PassResult.fail FailReason.selectionFailed
    else if fUseInstantSend &&
        decide (sel.nValueRet > env.wallet.nInstantSendMaxValue * env.wallet.COIN) then
      PassResult.fail FailReason.instantSendValueTooHigh
    else
      match scanLockTimes env sel.setCoinsRet LockTimeFormat.UNSET with
      | Except.error e => PassResult.fail e
      | Except.ok fmt =>
        match chooseLockTime env rnd nPass fmt with
        | Except.error e => PassResult.fail e
        | Except.ok nLockTime =>
          match addChange env rnd nPass vecSend coinControl nSubtract vout
              (toInt64 (sel.nValueRet - nValueToSelect)) nFeeRet nChangePosRequest with
          | Except.error e => PassResult.fail e
          | Except.ok ch =>
            finishPass env sign fUseInstantSend
              { vin := sel.setCoinsRet, vout := ch.vout, nLockTime := nLockTime }
              ch.nFeeRet ch.nChangePosInOut

/-- The `while (true)` loop, bounded by `fuel` passes. -/
def createLoop (env : BuilderEnv) (w : CWallet) (rnd : BuilderRandom)
    (vecSend : List CRecipient) (nValue : CAmount) (nSubtract : Nat) (nChangePosRequest : Int)
    (coinControl : Option CCoinControl) (sign : Bool) (nCoinType : AvailableCoinsType)
    (fUseInstantSend : Bool) : Nat → Nat → CAmount → Except FailReason (TxDraft × CAmount × Int)
  | 0, _, _ => Except.error FailReason.fuel
  | fuel + 1, nPass, nFeeRet =>
    match createPass env w rnd nPass vecSend nValue nSubtract nChangePosRequest coinControl sign
        nCoinType fUseInstantSend nFeeRet with
    | PassResult.fail e => Except.error e
    | PassResult.done tx fee pos => Except.ok (tx, fee, pos)
    | PassResult.retry fee =>
      createLoop env w rnd vecSend nValue nSubtract nChangePosRequest coinControl sign nCoinType
        fUseInstantSend fuel (nPass + 1) fee

/-- What a successful `CreateTransaction` hands back: the built transaction,
`nFeeRet` and `nChangePosInOut`. -/
structure CreateResult where
  tx : TxDraft
  nFeeRet : CAmount
  nChangePosInOut : Int
deriving DecidableEq, Repr

/-- Embeds `CWallet::CreateTransaction`, with at most `fuel` passes of its loop. -/
def CreateTransaction (env : BuilderEnv) (w : CWallet) (rnd : BuilderRandom) (fuel : Nat)
    (vecSend : List CRecipient) (nChangePosInOut : Int) (coinControl : Option CCoinControl)
    (sign : Bool) (nCoinType : AvailableCoinsType) (fUseInstantSend : Bool) :
    Except FailReason CreateResult :=
  match sumRecipients vecSend 0 0 with
  | none => Except.error FailReason.amountsMustBePositive
  | some (nValue, nSubtract) =>
    if vecSend.isEmpty || decide (nValue < 0) then Except.error FailReason.amountsMustBePositive
    else
      match createLoop env w rnd vecSend nValue nSubtract nChangePosInOut coinControl sign
          nCoinType fUseInstantSend fuel 0 env.nPayTxFeePerK with
      | Except.error e => Except.error e
      | Except.ok (tx, fee, pos) =>
        let nFeeRet := if fUseInstantSend then fee + env.nLockRequestMinFee else fee
        if env.wallet.fRejectLongChains && !env.CalculateMemPoolAncestors tx then
          Except.error FailReason.mempoolChainTooLong
        else Except.ok { tx := tx, nFeeRet := nFeeRet, nChangePosInOut := pos }

/-! ## Proof vocabulary for coin selection -/

/-- The pair pushed on `vValue` for a candidate. -/
def COutput.toCoin (c : COutput) : CAmount × CInput := (c.nValue, (c.tx, c.i))

/-- The eligible candidates whose value is below `nTargetValue + MIN_CHANGE`. -/
def belowCoins (env : WalletEnv) (nTargetValue : CAmount) (nConfMine nConfTheirs : Int)
    (l : List COutput) : List COutput :=
  l.filter (fun c => eligible env nConfMine nConfTheirs c &&
    decide (c.nValue < toInt64 (nTargetValue + env.MIN_CHANGE)))

/-- The eligible candidates whose value is at least `nTargetValue + MIN_CHANGE`. -/
def largerCoins (env : WalletEnv) (nTargetValue : CAmount) (nConfMine nConfTheirs : Int)
    (l : List COutput) : List COutput :=
  l.filter (fun c => eligible env nConfMine nConfTheirs c &&
    !decide (c.nValue < toInt64 (nTargetValue + env.MIN_CHANGE)))

/-- The successive updates of `coinLowestLarger`. -/
def lowestFold (init : CAmount × Option CInput) (l : List COutput) : CAmount × Option CInput :=
  l.foldl (fun cur c => if c.nValue < cur.1 then (c.nValue, some (c.tx, c.i)) else cur) init

/-- The value that a lowest larger coin has to stay below: the InstantSend
ceiling, or `INT64_MAX`. -/
def lowestCeiling (env : WalletEnv) (fUseInstantSend : Bool) : CAmount :=
  if fUseInstantSend then env.nInstantSendMaxValue * env.COIN else INT64_MAX

/-- The scan variables at the end of `vCoins` when no eligible coin equals the
target and `coinLowestLarger` starts as `lowest`. -/
def scanFrom (env : WalletEnv) (nTargetValue : CAmount) (nConfMine nConfTheirs : Int)
    (lowest : CAmount × Option CInput) (l : List COutput) : ScanState :=
  { vValue := (belowCoins env nTargetValue nConfMine nConfTheirs l).map COutput.toCoin,
    nTotalLower := ((belowCoins env nTargetValue nConfMine nConfTheirs l).map COutput.nValue).sum,
    coinLowestLarger := lowestFold lowest (largerCoins env nTargetValue nConfMine nConfTheirs l) }

/-- The scan variables at the end of the first round. -/
def scanFinal (env : WalletEnv) (nTargetValue : CAmount) (nConfMine nConfTheirs : Int)
    (fUseInstantSend : Bool) (l : List COutput) : ScanState :=
  scanFrom env nTargetValue nConfMine nConfTheirs (lowestCeiling env fUseInstantSend, none) l

/-- The result of `SelectCoinsMinConf` in terms of the final scan variables,
when no eligible coin equals the target. -/
def resultOfScan (env : WalletEnv) (rs : RandomSource) (nTargetValue : CAmount)
    (fUseInstantSend : Bool) (st : ScanState) : SelectResult :=
  if st.nTotalLower = nTargetValue then
    { fSuccess := true,
      setCoinsRet := st.vValue.foldl (fun acc c => coinSetInsert acc c.2) [],
      nValueRet := st.vValue.foldl (fun acc c => acc + c.1) 0, nApproxCalls := 0 }
  else if st.nTotalLower < nTargetValue then
    match st.coinLowestLarger.2 with
    | none => { fSuccess := false, setCoinsRet := [], nValueRet := 0, nApproxCalls := 0 }
    | some c => { fSuccess := true, setCoinsRet := coinSetInsert [] c,
                  nValueRet := 0 + st.coinLowestLarger.1, nApproxCalls := 0 }
  else approxPhase env rs nTargetValue fUseInstantSend st

/-- The total of the values flagged in a `vector<char>`. -/
def flaggedSum : List CAmount → List Bool → CAmount
  | v :: vs, b :: bs => (if b then v else 0) + flaggedSum vs bs
  | _, _ => 0

/-- The loop invariant of `ApproximateBestSubset`: both flag vectors have the
size of `vValue`, `nTotal` and `nBest` are the totals they flag, and `nBest`
meets the target. -/
def ApproxInv (vals : List CAmount) (nTargetValue : CAmount) (st : ApproxState) : Prop :=
  st.vfIncluded.length = vals.length ∧ flaggedSum vals st.vfIncluded = st.nTotal ∧
    st.vfBest.length = vals.length ∧ flaggedSum vals st.vfBest = st.nBest ∧
    nTargetValue ≤ st.nBest

/-- The part of `ApproxInv` that speaks of the best subset, which holds
between repetitions. -/
def BestInv (vals : List CAmount) (nTargetValue : CAmount) (st : ApproxState) : Prop :=
  st.vfBest.length = vals.length ∧ flaggedSum vals st.vfBest = st.nBest ∧
    nTargetValue ≤ st.nBest

/-- The total value of a selection. -/
def selValue (l : List CInput) : CAmount := (l.map CInput.nValue).sum

/-- What every `SelectCoinsMinConf` result satisfies with respect to the
candidates `vCoins` and the target: on success the value meets the target
and is the total of the selected coins, which are distinct, spendable
candidates; on failure nothing is selected. -/
def SoundSelection (vCoins : List COutput) (nTargetValue : CAmount) (r : SelectResult) : Prop :=
  (r.fSuccess = true → nTargetValue ≤ r.nValueRet) ∧
  (r.fSuccess = false → r.setCoinsRet = [] ∧ r.nValueRet = 0) ∧
  selValue r.setCoinsRet = r.nValueRet ∧
  (r.setCoinsRet.map CInput.key).Nodup ∧
  (∀ x ∈ r.setCoinsRet, ∃ c ∈ vCoins, c.fSpendable = true ∧ x = (c.tx, c.i))

/-- The list model of `mapWallet` is a map: keys are distinct and every
record is stored under its own hash. -/
def WalletWF (w : CWallet) : Prop :=
  (w.mapWallet.map Prod.fst).Nodup ∧ ∀ e ∈ w.mapWallet, e.2.hash = e.1

/-- The total value of a list of outputs. -/
def outValue (l : List CTxOut) : CAmount := (l.map CTxOut.nValue).sum

/-- The number of recipients marked subtract-fee. -/
def countSubtract (l : List CRecipient) : Nat := l.countP (fun r => r.fSubtractFeeFromAmount)

/-- The total of the requested amounts. -/
def sumAmounts (l : List CRecipient) : CAmount := (l.map CRecipient.nAmount).sum

/-- The outputs computed by the payee loop, before the dust test. -/
def payeeOutputs (nFeeRet : CAmount) (nSubtract : Nat) : List CRecipient → Bool → List CTxOut
  | [], _ => []
  | r :: rest, fFirst =>
    (payeeTxOut r nFeeRet nSubtract fFirst).1 ::
      payeeOutputs nFeeRet nSubtract rest (payeeTxOut r nFeeRet nSubtract fFirst).2

/-- The spec's reading of an active claimant: depth above zero, or depth
zero, not abandoned and present in the mempool. -/
def specActive (env : ChainEnv) (wtx : CWalletTx) : Bool :=
  decide (GetDepthInMainChain env wtx > 0) ||
    (decide (GetDepthInMainChain env wtx = 0) && !wtx.isAbandoned && InMempool env wtx)

/-- The spec's reading of `is_spent`: some tracked claimant of the outpoint
is active in the sense of `specActive`. -/
def specIsSpent (env : ChainEnv) (w : CWallet) (hash : uint256) (n : Nat) : Bool :=
  (equalRange w.mapTxSpends ⟨hash, n⟩).any (fun wtxid =>
    match mapFind w.mapWallet wtxid with
    | some wtx => specActive env wtx
    | none => false)

/-! ## Sample states -/

/-- A transaction with the given hash, inputs, outputs and block association. -/
def sampleTx (hash : uint256) (vin : List CTxIn) (vout : List CTxOut) (hashBlock : uint256)
    (nIndex : Int) : CWalletTx :=
  { CWalletTx.null with hash := hash, vin := vin, vout := vout, hashBlock := hashBlock,
                        nIndex := nIndex }

/-- A chain of height 10 whose block `100` sits at height 8 and whose block
`200` sits at height 2; the mempool holds the transactions listed in `pool`. -/
def sampleEnv (pool : List uint256) : ChainEnv :=
  { mapBlockIndex := fun h =>
      if h = 100 then some ⟨8, 5000⟩ else if h = 200 then some ⟨2, 2000⟩ else none,
    chainContains := fun h => decide (h = 100) || decide (h = 200),
    chainHeight := 10,
    mempoolExists := fun h => pool.contains h,
    nAdjustedTime := 6000 }

def emptyWallet : CWallet :=
  { mapWallet := [], mapTxSpends := [], wtxOrdered := [], nOrderPosNext := 0, setLockedCoins := [] }

/-- A wallet environment over `sampleEnv` with the given `MIN_CHANGE`, an
InstantSend ceiling of `nInstantSendMaxValue * COIN`, and every transaction
received from others. -/
def sampleWalletEnv (pool : List uint256) (nMinChange nInstantSendMaxValue : CAmount) : WalletEnv :=
  { chain := sampleEnv pool, MIN_CHANGE := nMinChange, COIN := 1, MAX_MONEY := 2100000000000000,
    nInstantSendMaxValue := nInstantSendMaxValue, INSTANTSEND_CONFIRMATIONS_REQUIRED := 2,
    nInstantSendDepth := 5, isLockedInstantSend := fun _ => false, COINBASE_MATURITY := 100,
    bSpendZeroConfChange := true, nMaxChainLength := 25, fRejectLongChains := false,
    IsFromMe := fun _ => false, IsMine := fun _ => ISMINE_SPENDABLE, CheckFinalTx := fun _ => true }

/-- A spendable candidate: output 0, worth `nValue`, of a transaction `hash`
confirmed in block `100`, seen at depth `nDepth`. -/
def sampleCoin (hash : uint256) (nValue : CAmount) (nDepth : Int) : COutput :=
  { tx := sampleTx hash [] [⟨nValue, 1, 0⟩] 100 0, i := 0, nDepth := nDepth, fSpendable := true,
    fSolvable := true, nLockTime := 0 }

/-- A wallet whose only transaction `7`, three blocks deep, pays 100 to the
wallet; `locked` is the locked-coin set. -/
def sampleWalletOneCoin (locked : List COutPoint) : CWallet :=
  { mapWallet := [(7, sampleTx 7 [] [⟨100, 1, 0⟩] 100 0)], mapTxSpends := [],
    wtxOrdered := [(0, TxPair.wtx 7)], nOrderPosNext := 1, setLockedCoins := locked }

/-- A builder environment for the samples: fee rate `nFeePerK`, a dust
threshold of 100 for every script, no time-locked scripts, a key pool that
hands out script `9`, a signer that always succeeds, constant measures, no
free transactions and an InstantSend minimum fee of 1000. -/
def sampleBuilderEnv (pool : List uint256) (nFeePerK : CAmount) : BuilderEnv :=
  { wallet := sampleWalletEnv pool 1 1000000, nPayTxFeePerK := nFeePerK,
    GetDustThreshold := fun _ => 100, LOCKTIME_THRESHOLD := 500000000,
    IsPayToScriptHash := fun _ => false, redeemLockTime := fun _ => none,
    nMedianTimePast := 1600000000, nTime := 1600001000, reservedKeyScript := some 9,
    ProduceSignature := fun _ _ _ => true, GetSerializeSize := fun _ _ => 200,
    GetTransactionWeight := fun _ _ => 800, MAX_STANDARD_TX_WEIGHT := 400000,
    fSendFreeTransactions := false, MAX_FREE_TRANSACTION_CREATE_SIZE := 1000,
    fPriorityFree := fun _ _ => false, AllowFree := fun _ _ => false,
    GetMinFee := fun _ _ => 0, nLockRequestMinFee := 1000,
    CalculateMemPoolAncestors := fun _ => true }

/-- A wallet whose only transaction `7`, nine blocks deep, pays 10000 to the
wallet. -/
def sampleWalletBig : CWallet :=
  { mapWallet := [(7, sampleTx 7 [] [⟨10000, 1, 0⟩] 200 0)], mapTxSpends := [],
    wtxOrdered := [(0, TxPair.wtx 7)], nOrderPosNext := 1, setLockedCoins := [] }

/-- The transaction built from `sampleWalletBig` for one payee of 5000 at the
fee 1000: the coin of 10000 in, the change of 4000 and the payment out. -/
def sampleBuiltTx : TxDraft :=
  { vin := [(sampleTx 7 [] [⟨10000, 1, 0⟩] 200 0, 0)],
    vout := [⟨4000, 9, 0⟩, ⟨5000, 1, 0⟩], nLockTime := 10 }

/-- The transaction built from `sampleWalletBig` for one payee of 9950 who
bears the fee 1000: the change of 50 is raised to the threshold 100 and the
payment drops from 8950 to 8900. -/
def sampleRaisedTx : TxDraft :=
  { vin := [(sampleTx 7 [] [⟨10000, 1, 0⟩] 200 0, 0)],
    vout := [⟨100, 9, 0⟩, ⟨8900, 1, 0⟩], nLockTime := 10 }

/-- An unconfirmed transaction `5` spending output 0 of transaction `3`. -/
def sampleSpender : CWalletTx := sampleTx 5 [⟨⟨3, 0⟩, 0, 0⟩] [⟨70, 1, 0⟩] 0 (-1)

/-- A wallet tracking `sampleSpender` only. -/
def sampleWallet : CWallet :=
  { mapWallet := [(5, sampleSpender)], mapTxSpends := [(⟨3, 0⟩, 5)],
    wtxOrdered := [(0, TxPair.wtx 5)], nOrderPosNext := 1, setLockedCoins := [] }

/-- The same transaction confirmed in block `100`. -/
def sampleConfirmed : CWalletTx := sampleTx 5 [⟨⟨3, 0⟩, 0, 0⟩] [⟨70, 1, 0⟩] 100 0

def sampleWalletConfirmed : CWallet :=
  { sampleWallet with mapWallet := [(5, sampleConfirmed)] }

/-- The wallet tracking transaction `5` marked conflicted with block `200`
(depth -9), its input indexed. -/
def sampleWalletConflicted : CWallet :=
  { sampleWallet with mapWallet := [(5, sampleTx 5 [⟨⟨3, 0⟩, 0, 0⟩] [⟨70, 1, 0⟩] 200 (-1))] }

/-- The wallet reached from the empty one by adding `sampleSpender`, then the
transaction `8` that spends the same outpoint, then erasing `8`. -/
def sampleWalletErased : CWallet :=
  (EraseFromWallet true
    (AddToWallet (sampleEnv []) true
      (AddToWallet (sampleEnv []) true emptyWallet sampleSpender false).2
      (sampleTx 8 [⟨⟨3, 0⟩, 0, 0⟩] [⟨65, 1, 0⟩] 0 (-1)) false).2 8).2

/-- A wallet tracking a chain of three unconfirmed transactions outside the
mempool: `3` (spending the foreign outpoint `(2, 0)`), `5` spending output 0
of `3`, and `6` spending output 0 of `5`. -/
def sampleChainWallet : CWallet :=
  { mapWallet := [(3, sampleTx 3 [⟨⟨2, 0⟩, 0, 0⟩] [⟨100, 1, 0⟩] 0 (-1)), (5, sampleSpender),
                  (6, sampleTx 6 [⟨⟨5, 0⟩, 0, 0⟩] [⟨60, 1, 0⟩] 0 (-1))],
    mapTxSpends := [(⟨2, 0⟩, 3), (⟨3, 0⟩, 5), (⟨5, 0⟩, 6)],
    wtxOrdered := [(0, TxPair.wtx 3), (1, TxPair.wtx 5), (2, TxPair.wtx 6)],
    nOrderPosNext := 3, setLockedCoins := [] }

/-- The chain wallet once `3` and `5` are abandoned. -/
def sampleChainAbandoned : CWallet :=
  { sampleChainWallet with
    mapWallet := [(3, sampleTx 3 [⟨⟨2, 0⟩, 0, 0⟩] [⟨100, 1, 0⟩] ABANDON_HASH (-1)),
                  (5, sampleTx 5 [⟨⟨3, 0⟩, 0, 0⟩] [⟨70, 1, 0⟩] ABANDON_HASH (-1)),
                  (6, sampleTx 6 [⟨⟨5, 0⟩, 0, 0⟩] [⟨60, 1, 0⟩] 0 (-1))] }

/-- The chain wallet in which `5` is already conflicted with block `200`
(depth -9), while `3` and `6` are unconfirmed. -/
def sampleConflictWallet : CWallet :=
  { sampleChainWallet with
    mapWallet := [(3, sampleTx 3 [⟨⟨2, 0⟩, 0, 0⟩] [⟨100, 1, 0⟩] 0 (-1)),
                  (5, sampleTx 5 [⟨⟨3, 0⟩, 0, 0⟩] [⟨70, 1, 0⟩] 200 (-1)),
                  (6, sampleTx 6 [⟨⟨5, 0⟩, 0, 0⟩] [⟨60, 1, 0⟩] 0 (-1))] }

/-- A wallet tracking two unconfirmed transactions, `5` and `8`, that both
spend output 0 of transaction `3`. -/
def sampleDoubleSpend : CWallet :=
  { mapWallet := [(5, sampleSpender), (8, sampleTx 8 [⟨⟨3, 0⟩, 0, 0⟩] [⟨65, 1, 0⟩] 0 (-1))],
    mapTxSpends := [(⟨3, 0⟩, 5), (⟨3, 0⟩, 8)],
    wtxOrdered := [(0, TxPair.wtx 5), (1, TxPair.wtx 8)], nOrderPosNext := 2,
    setLockedCoins := [] }

/-- A wallet whose only transaction `7`, three blocks deep, pays the
collateral amount 100000 to the wallet; `locked` is the locked-coin set. -/
def sampleWalletCollateral (locked : List COutPoint) : CWallet :=
  { mapWallet := [(7, sampleTx 7 [] [⟨100000, 1, 0⟩] 100 0)], mapTxSpends := [],
    wtxOrdered := [(0, TxPair.wtx 7)], nOrderPosNext := 1, setLockedCoins := locked }

/-- A wallet with a coin of 30 whose output carries the timestamp-style lock
time 600000000 (transaction `7`, three blocks deep) and a coin of 100 whose
output carries the block-height-style lock time 5 (transaction `8`, nine blocks
deep). -/
def sampleWalletMixedLocks : CWallet :=
  { mapWallet := [(7, sampleTx 7 [] [⟨30, 1, 600000000⟩] 100 0),
                  (8, sampleTx 8 [] [⟨100, 1, 5⟩] 200 0)],
    mapTxSpends := [], wtxOrdered := [(0, TxPair.wtx 7), (1, TxPair.wtx 8)],
    nOrderPosNext := 2, setLockedCoins := [] }

/-- A wallet in which the confirmed transaction `7` pays `MAX_MONEY` twice and
the unconfirmed transaction `9` spends both outputs. -/
def sampleWalletDebitOverflow : CWallet :=
  { mapWallet := [(7, sampleTx 7 [] [⟨2100000000000000, 1, 0⟩, ⟨2100000000000000, 1, 0⟩] 100 0),
                  (9, sampleTx 9 [⟨⟨7, 0⟩, 0, 0⟩, ⟨⟨7, 1⟩, 0, 0⟩] [] 0 (-1))],
    mapTxSpends := [(⟨7, 0⟩, 9), (⟨7, 1⟩, 9)],
    wtxOrdered := [(0, TxPair.wtx 7), (1, TxPair.wtx 9)], nOrderPosNext := 2,
    setLockedCoins := [] }

/-- A wallet with two confirmed transactions that each pay `nValue` to the
wallet. -/
def sampleWalletTwoPayments (nValue : CAmount) : CWallet :=
  { mapWallet := [(7, sampleTx 7 [] [⟨nValue, 1, 0⟩] 100 0),
                  (8, sampleTx 8 [] [⟨nValue, 1, 0⟩] 200 0)],
    mapTxSpends := [], wtxOrdered := [(0, TxPair.wtx 7), (1, TxPair.wtx 8)],
    nOrderPosNext := 2, setLockedCoins := [] }

/-- The sample builder environment with a policy minimum fee of 1500 for
every transaction. -/
def sampleBuilderEnvMinFee : BuilderEnv :=
  { sampleBuilderEnv [] 1000 with GetMinFee := fun _ _ => 1500 }

/-- A random source that leaves the coins in place and draws the given
bits. -/
def RandomSource.ofBits (bits1 bits2 : Nat → Bool) : RandomSource :=
  { order := id, order_perm := fun l => List.Perm.refl l, bits1 := bits1, bits2 := bits2 }

/-- Four spendable candidates worth 60, 50, 45 and 40, each nine blocks
deep. -/
def sampleFourCoins : List COutput :=
  [sampleCoin 11 60 9, sampleCoin 12 50 9, sampleCoin 13 45 9, sampleCoin 14 40 9]

/-- Three spendable candidates worth 60, 50 and 5000, each nine blocks deep. -/
def sampleCoinsSmallLarge : List COutput :=
  [sampleCoin 11 60 9, sampleCoin 12 50 9, sampleCoin 13 5000 9]

/-- A wallet tracking `sampleSpender` at order position 0, received and placed
at time 1000. -/
def sampleWalletTimed : CWallet :=
  { mapWallet := [(5, { sampleSpender with nOrderPos := 0, nTimeReceived := 1000,
                                           nTimeSmart := 1000 })],
    mapTxSpends := [(⟨3, 0⟩, 5)], wtxOrdered := [(0, TxPair.wtx 5)], nOrderPosNext := 1,
    setLockedCoins := [] }

/-- The transaction `6`, confirmed in block `100`: the same body as
`sampleSpender` with another input script. -/
def sampleTwin : CWalletTx := sampleTx 6 [⟨⟨3, 0⟩, 7, 0⟩] [⟨70, 1, 0⟩] 100 0

/-- The transaction `6`, confirmed in block `100`, spending output 0 of
transaction `4`. -/
def sampleLater : CWalletTx := sampleTx 6 [⟨⟨4, 0⟩, 7, 0⟩] [⟨70, 1, 0⟩] 100 0

/-- The record of `sampleSpender` with its debit memoized as 70. -/
def sampleSpenderCached : CWalletTx :=
  { sampleSpender with fDebitCached := true, nDebitCached := 70 }

/-- A wallet tracking `sampleSpenderCached` only. -/
def sampleWalletCached : CWallet :=
  { sampleWallet with mapWallet := [(5, sampleSpenderCached)] }

/-- A wallet tracking transaction `3`, which pays 100 to script `11` and 50 to
script `12` from a foreign input, transaction `5`, which spends both and pays
70 to script `13`, and transaction `6`, which pays 10 to script `14` from a
foreign input. -/
def sampleGroupWallet : CWallet :=
  { mapWallet := [(3, sampleTx 3 [⟨⟨2, 0⟩, 0, 0⟩] [⟨100, 11, 0⟩, ⟨50, 12, 0⟩] 100 0),
                  (5, sampleTx 5 [⟨⟨3, 0⟩, 0, 0⟩, ⟨⟨3, 1⟩, 0, 0⟩] [⟨70, 13, 0⟩] 100 1),
                  (6, sampleTx 6 [⟨⟨9, 0⟩, 0, 0⟩] [⟨10, 14, 0⟩] 100 2)],
    mapTxSpends := [(⟨2, 0⟩, 3), (⟨3, 0⟩, 5), (⟨3, 1⟩, 5), (⟨9, 0⟩, 6)],
    wtxOrdered := [(0, TxPair.wtx 3), (1, TxPair.wtx 5), (2, TxPair.wtx 6)],
    nOrderPosNext := 3, setLockedCoins := [] }

/-- Every script is its own destination, and the address book is empty. -/
def sampleChangeEnv : ChangeEnv :=
  { ExtractDestination := fun s => some s, mapAddressBook := [] }

/-! ## Proof vocabulary for the ledger -/

/-- The part of a record that decides its depth, its abandoned flag and the
outpoints it consumes. -/
def CWalletTx.core (t : CWalletTx) : uint256 × uint256 × Int × List CTxIn × Bool × Bool :=
  (t.hash, t.hashBlock, t.nIndex, t.vin, t.fCoinBase, t.fZerocoinSpend)

/-- Every record of `m` is still tracked in `m2`, with the same core. -/
def CorePreserved (m m2 : List (uint256 × CWalletTx)) : Prop :=
  ∀ k v, mapFind m k = some v → ∃ v2, mapFind m2 k = some v2 ∧ v2.core = v.core

/-- Every record of `m` is still tracked in `m2`, with the same order
position. -/
def OrderKept (m m2 : List (uint256 × CWalletTx)) : Prop :=
  ∀ k v, mapFind m k = some v → ∃ v2, mapFind m2 k = some v2 ∧ v2.nOrderPos = v.nOrderPos

/-- Every record of `m2` has no input, or is tracked in `m` under the same key
with the same core. -/
def CoreReflected (m m2 : List (uint256 × CWalletTx)) : Prop :=
  ∀ k v2, mapFind m2 k = some v2 →
    v2.vin = [] ∨ ∃ v, mapFind m k = some v ∧ v2.core = v.core

/-- The records tracked under the keys other than `hash` have their inputs
indexed. -/
def IndexedExcept (hash : uint256) (w : CWallet) : Prop :=
  ∀ k v, k ≠ hash → mapFind w.mapWallet k = some v → v.fCoinBase = false →
    v.fZerocoinSpend = false → ∀ txin ∈ v.vin, (txin.prevout, k) ∈ w.mapTxSpends

/-- The invariant kept by `AddToSpends`: the inputs of every tracked
transaction that is not coinbase-like are indexed in `mapTxSpends`. -/
def SpendsIndexed (w : CWallet) : Prop :=
  ∀ k v, mapFind w.mapWallet k = some v → v.fCoinBase = false → v.fZerocoinSpend = false →
    ∀ txin ∈ v.vin, (txin.prevout, k) ∈ w.mapTxSpends

/-- The claimant test of `IsSpent`. -/
def spendsIt (env : ChainEnv) (wtx : CWalletTx) : Prop :=
  GetDepthInMainChain env wtx > 0 ∨ (GetDepthInMainChain env wtx = 0 ∧ wtx.isAbandoned = false)

/-- A record that the loop of `AbandonTransaction` passes over: its depth is
not positive and it is not an unabandoned record at depth zero. -/
def abandonSkips (env : ChainEnv) (r : CWalletTx) : Prop :=
  GetDepthInMainChain env r ≤ 0 ∧ ¬ (GetDepthInMainChain env r = 0 ∧ r.isAbandoned = false)

/-- The record tracked under `hashTx` is one that `AbandonTransaction` passes
over, and it is not in the mempool. -/
def AbandonSettled (env : ChainEnv) (hashTx : uint256) (w : CWallet) : Prop :=
  ∃ r, mapFind w.mapWallet hashTx = some r ∧ abandonSkips env r ∧ InMempool env r = false

/-- The order kept by the `std::multimap` behind `mapTxSpends`: no entry is
followed by one with a smaller outpoint. -/
def SpendsSorted (s : List (COutPoint × uint256)) : Prop :=
  s.Pairwise (fun a b => b.1.lt a.1 = false)

/-- The hashes that the loops over `todo` can meet: the start and the
claimants recorded in `mapTxSpends`. -/
def worklistUniverse (w : CWallet) (hashTx : uint256) : List uint256 :=
  hashTx :: w.mapTxSpends.map Prod.snd

/-- The number of hashes of the universe not yet in `done`. -/
def worklistMeasure (w : CWallet) (hashTx : uint256) (done : List uint256) : Nat :=
  ((worklistUniverse w hashTx).toFinset \ done.toFinset).card

/-- The record under `x` has been marked conflicted with `hashBlock`. -/
def ConflictMarked (w : CWallet) (hashBlock : uint256) (x : uint256) : Prop :=
  ∃ r, mapFind w.mapWallet x = some r ∧ r.hashBlock = hashBlock ∧ r.nIndex = -1

/-- The record under `x` is less conflicted than `d`: `MarkConflicted` updates
it when it visits it. -/
def LessConflicted (env : ChainEnv) (w : CWallet) (d : Int) (x : uint256) : Prop :=
  ∃ r, mapFind w.mapWallet x = some r ∧ d < GetDepthInMainChain env r

/-- The transactions that conflict propagation from `hashTx` at depth `d`
reaches: `hashTx` when it is less conflicted than `d`, and every claimant, less
conflicted than `d`, of an output of a reached transaction. -/
inductive ConflictReach (env : ChainEnv) (w : CWallet) (d : Int) (hashTx : uint256) :
    uint256 → Prop where
  | root : LessConflicted env w d hashTx → ConflictReach env w d hashTx hashTx
  | step (x y : uint256) (n : Nat) : ConflictReach env w d hashTx x →
      ((⟨x, n⟩ : COutPoint), y) ∈ w.mapTxSpends → LessConflicted env w d y →
      ConflictReach env w d hashTx y

/-- The invariant of the loop of `MarkConflicted`, started on the wallet `w0`
from `hashTx` with the conflict depth `d`: the spend index and the other
wallet fields are untouched; `todo` is an ordered set of hashes outside
`done`; every record has the core it started with, or was visited when less
conflicted than `d` and is marked; every visited hash that was less conflicted
than `d` is marked and has its claimants in `todo` or `done`; and `hashTx` is
in `todo` or `done`. -/
structure ConflictInv (env : ChainEnv) (w0 : CWallet) (hashBlock : uint256) (d : Int)
    (hashTx : uint256) (todo done : List uint256) (w : CWallet) : Prop where
  frame : w.mapTxSpends = w0.mapTxSpends ∧ w.wtxOrdered = w0.wtxOrdered ∧
    w.nOrderPosNext = w0.nOrderPosNext ∧ w.setLockedCoins = w0.setLockedCoins
  sorted : todo.Pairwise (· < ·)
  fresh : ∀ x ∈ todo, x ∉ done ∧ x ∈ worklistUniverse w0 hashTx
  records : ∀ x r0, mapFind w0.mapWallet x = some r0 →
    ∃ r, mapFind w.mapWallet x = some r ∧
      (r.core = r0.core ∨
        (x ∈ done ∧ d < GetDepthInMainChain env r0 ∧ r.hashBlock = hashBlock ∧ r.nIndex = -1))
  closed : ∀ x ∈ done, LessConflicted env w0 d x →
    ConflictMarked w hashBlock x ∧
      ∀ n y, ((⟨x, n⟩ : COutPoint), y) ∈ w0.mapTxSpends → y ∈ todo ∨ y ∈ done
  start : hashTx ∈ todo ∨ hashTx ∈ done

/-- The transaction consumes the outpoint: it is not coinbase-like and one of
its inputs names the outpoint. -/
def consumes (v : CWalletTx) (o : COutPoint) : Prop :=
  v.fCoinBase = false ∧ v.fZerocoinSpend = false ∧ ∃ txin ∈ v.vin, txin.prevout = o

/-- The spend index holds exactly the outpoints consumed by the tracked
transactions, each under the hash of its consumer. -/
def SpendsExact (w : CWallet) : Prop :=
  ∀ o h, (o, h) ∈ w.mapTxSpends ↔ ∃ v, mapFind w.mapWallet h = some v ∧ consumes v o

/-- The input requires a timestamp-style lock time: its effective lock time is
above `LOCKTIME_THRESHOLD`. -/
def timestampLocked (env : BuilderEnv) (coin : CInput) : Prop :=
  effectiveLockTime env coin > env.LOCKTIME_THRESHOLD

/-- The input requires a block-height-style lock time: its effective lock time
is above zero and not above `LOCKTIME_THRESHOLD`. -/
def heightLocked (env : BuilderEnv) (coin : CInput) : Prop :=
  ¬ effectiveLockTime env coin > env.LOCKTIME_THRESHOLD ∧ effectiveLockTime env coin > 0

/-- The selection of the first pass of `CreateTransaction`: the target is the
total `nValue` of the requested amounts, plus the initial fee when no
recipient bears the fee.  When the amounts are turned down before the loop,
no selection is made and the flag is `false`. -/
def firstSelection (env : BuilderEnv) (w : CWallet) (rnd : BuilderRandom)
    (vecSend : List CRecipient) (coinControl : Option CCoinControl)
    (nCoinType : AvailableCoinsType) (fUseInstantSend : Bool) : SelectResult :=
  match sumRecipients vecSend 0 0 with
  | some (nValue, nSubtract) =>
    if nValue < 0 then
      { fSuccess := false, setCoinsRet := [], nValueRet := 0, nApproxCalls := 0 }
    else
      SelectCoins env.wallet w (rnd.select 0)
        (if nSubtract = 0 then toInt64 (nValue + env.nPayTxFeePerK) else nValue)
        [] 0 coinControl nCoinType fUseInstantSend
  | none => { fSuccess := false, setCoinsRet := [], nValueRet := 0, nApproxCalls := 0 }

/-- The test that lets a pass of `CreateTransaction` end without looking at
the fee: not InstantSend, free transactions enabled, a size within
`MAX_FREE_TRANSACTION_CREATE_SIZE` and enough priority. -/
def freeExemption (env : BuilderEnv) (sign fUseInstantSend : Bool) (tx : TxDraft) : Bool :=
  !fUseInstantSend && env.fSendFreeTransactions &&
    decide (env.GetSerializeSize sign tx ≤ env.MAX_FREE_TRANSACTION_CREATE_SIZE) &&
    env.fPriorityFree sign tx

/-- The fee required for a transaction: the larger of the configured rate
applied to its weight (`nPayFee`) and the policy minimum (`nMinFee`). -/
def feeNeeded (env : BuilderEnv) (sign : Bool) (tx : TxDraft) : CAmount :=
  max (env.nPayTxFeePerK * (1 + Int.tdiv (env.GetTransactionWeight sign tx) 1000))
    (env.GetMinFee tx (env.AllowFree sign tx))

/-- Every running total of the amounts `vals`, added one by one to `n`, is
within the money range. -/
def runningInRange (env : WalletEnv) (n : CAmount) (vals : List CAmount) : Prop :=
  ∀ k, 0 < k → k ≤ vals.length → MoneyRange env (n + (vals.take k).sum) = true

/-- The amount that `GetCredit` adds for an output. -/
def creditAmount (env : WalletEnv) (filter : Nat) (txout : CTxOut) : CAmount :=
  if env.IsMine txout &&& filter ≠ 0 then txout.nValue else 0

/-- The amount that `GetChange` adds for an output. -/
def changeAmount (env : WalletEnv) (cenv : ChangeEnv) (txout : CTxOut) : CAmount :=
  if IsChange env cenv txout then txout.nValue else 0

/-- The outputs of `tx` that `IsSpent` does not report spent, from index `i`
on. -/
def unspentFrom (env : WalletEnv) (w : CWallet) (hashTx : uint256) :
    Nat → List CTxOut → List CTxOut
  | _, [] => []
  | i, txout :: rest =>
    if !IsSpent env.chain w hashTx i then txout :: unspentFrom env w hashTx (i + 1) rest
    else unspentFrom env w hashTx (i + 1) rest

/-- The trusted transactions of the wallet, in the order of `mapWallet`. -/
def trustedTxs (env : WalletEnv) (w : CWallet) : List CWalletTx :=
  (w.mapWallet.filter (fun e => IsTrusted env w e.2)).map Prod.snd

/-- The fee estimates with which the successive passes of `createLoop` start:
the loop enters a further pass exactly when a pass ends in a retry. -/
def feeEstimates (env : BuilderEnv) (w : CWallet) (rnd : BuilderRandom)
    (vecSend : List CRecipient) (nValue : CAmount) (nSubtract : Nat) (nChangePosRequest : Int)
    (coinControl : Option CCoinControl) (sign : Bool) (nCoinType : AvailableCoinsType)
    (fUseInstantSend : Bool) : Nat → Nat → CAmount → List CAmount
  | 0, _, _ => []
  | fuel + 1, nPass, nFeeRet =>
    nFeeRet ::
      match createPass env w rnd nPass vecSend nValue nSubtract nChangePosRequest coinControl
          sign nCoinType fUseInstantSend nFeeRet with
      | PassResult.retry fee =>
        feeEstimates env w rnd vecSend nValue nSubtract nChangePosRequest coinControl sign
          nCoinType fUseInstantSend fuel (nPass + 1) fee
      | _ => []

/-- The outcome of the pass that starts with the last of a list of fee
estimates, the first of which is that of pass `nPass`: what it builds, the
reason why it fails, or the exhaustion of the loop bound when it asks for a
further pass. -/
def outcomeAtLast (env : BuilderEnv) (w : CWallet) (rnd : BuilderRandom)
    (vecSend : List CRecipient) (nValue : CAmount) (nSubtract : Nat) (nChangePosRequest : Int)
    (coinControl : Option CCoinControl) (sign : Bool) (nCoinType : AvailableCoinsType)
    (fUseInstantSend : Bool) : Nat → List CAmount → Except FailReason (TxDraft × CAmount × Int)
  | _, [] => Except.error FailReason.fuel
  | nPass, [nFeeRet] =>
    match createPass env w rnd nPass vecSend nValue nSubtract nChangePosRequest coinControl
        sign nCoinType fUseInstantSend nFeeRet with
    | PassResult.fail e => Except.error e
    | PassResult.done tx fee pos => Except.ok (tx, fee, pos)
    | PassResult.retry _ => Except.error FailReason.fuel
  | nPass, _ :: next :: rest =>
    outcomeAtLast env w rnd vecSend nValue nSubtract nChangePosRequest coinControl sign
      nCoinType fUseInstantSend (nPass + 1) (next :: rest)

/-- The pair `(vfBest, nBest)` with which the approximation of
`SelectCoinsMinConf` ends: that of the second `ApproximateBestSubset` call when
it runs, else that of the first. -/
def approxBest (env : WalletEnv) (rs : RandomSource) (nTargetValue : CAmount)
    (fUseInstantSend : Bool) (st : ScanState) : List Bool × CAmount :=
  if decide ((ApproximateBestSubset rs.bits1 (env.nInstantSendMaxValue * env.COIN)
        ((sortDescending st.vValue).map Prod.fst) st.nTotalLower nTargetValue
        (if fUseInstantSend then 1 else 0) false).2 ≠ nTargetValue) &&
      decide (st.nTotalLower ≥ toInt64 (nTargetValue + env.MIN_CHANGE)) then
    ApproximateBestSubset rs.bits2 (env.nInstantSendMaxValue * env.COIN)
      ((sortDescending st.vValue).map Prod.fst) st.nTotalLower (toInt64 (nTargetValue + env.MIN_CHANGE))
      (if fUseInstantSend then 1 else 0) false
  else
    ApproximateBestSubset rs.bits1 (env.nInstantSendMaxValue * env.COIN)
      ((sortDescending st.vValue).map Prod.fst) st.nTotalLower nTargetValue
      (if fUseInstantSend then 1 else 0) false

/-- The coins of the sorted `vValue` that the approximation flags. -/
def approxSubset (env : WalletEnv) (rs : RandomSource) (nTargetValue : CAmount)
    (fUseInstantSend : Bool) (st : ScanState) : List (CAmount × CInput) :=
  flaggedCoins (sortDescending st.vValue) (approxBest env rs nTargetValue fUseInstantSend st).1

/-- Whether `SelectCoinsMinConf` succeeds, read off the candidates without regard
to their order: an eligible coin equals the target, or the below-threshold
coins sum to the target or more, or some larger coin lies below the ceiling
for a lowest larger coin. -/
def minConfSucceeds (env : WalletEnv) (nTargetValue : CAmount) (nConfMine nConfTheirs : Int)
    (fUseInstantSend : Bool) (l : List COutput) : Bool :=
  l.any (fun c => eligible env nConfMine nConfTheirs c && decide (c.nValue = nTargetValue)) ||
  decide (nTargetValue ≤ ((belowCoins env nTargetValue nConfMine nConfTheirs l).map
    COutput.nValue).sum) ||
  (largerCoins env nTargetValue nConfMine nConfTheirs l).any
    (fun c => decide (c.nValue < lowestCeiling env fUseInstantSend))

/-- The time that the scan of `AddToWallet` reads from an entry of `wtxOrdered`:
for a tracked transaction its smart time, or its received time when the smart
time is zero; for an accounting entry its time.  The entry of the transaction
`self` gives none. -/
def entryTime (m : List (uint256 × CWalletTx)) (self : uint256) (e : Int × TxPair) :
    Option Int :=
  match e.2 with
  | TxPair.wtx h =>
    if h = self then none
    else (mapFind m h).map
      (fun pwtx => if pwtx.nTimeSmart = 0 then pwtx.nTimeReceived else pwtx.nTimeSmart)
  | TxPair.acentry nTime => some nTime

/-- The times of the ordered entries other than `self`, from the last order
position down. -/
def otherTimes (w : CWallet) (self : uint256) : List Int :=
  w.wtxOrdered.reverse.filterMap (entryTime w.mapWallet self)

/-- The first of `otherTimes` that is at most `nTimeReceived + 300`, or zero
when there is none. -/
def latestEntry (w : CWallet) (self : uint256) (nTimeReceived : Int) : Int :=
  ((otherTimes w self).find? (fun t => decide (t ≤ nTimeReceived + 300))).getD 0

/-- What `IsEquivalentTo` compares: the transaction with every input script
blanked. -/
def CWalletTx.body (t : CWalletTx) : Int × List (COutPoint × Nat) × List CTxOut × Int :=
  (t.nVersion, t.vin.map (fun i => (i.prevout, i.nSequence)), t.vout, t.nLockTime)

/-- The invariant under which the metadata synchronisation leaves the record
of `self` alone: the record keeps the body and the times of `r0`, and no other
record is equivalent to it. -/
def SmartTimeKept (r0 : CWalletTx) (self : uint256) (m : List (uint256 × CWalletTx)) : Prop :=
  (∃ r, mapFind m self = some r ∧ r.body = r0.body ∧ r.nTimeSmart = r0.nTimeSmart ∧
    r.nTimeReceived = r0.nTimeReceived) ∧
  ∀ k t, k ≠ self → mapFind m k = some t → IsEquivalentTo t r0 = false

/-- The first two tests of the merge branch of `AddToWallet`, which write the
block association. -/
def mergeBlock (wtx wtxIn : CWalletTx) : CWalletTx × Bool :=
  if decide (wtxIn.hashBlock = 0) &&
      (if !wtxIn.hashUnset && decide (wtxIn.hashBlock ≠ wtx.hashBlock) then
        (({ wtx with hashBlock := wtxIn.hashBlock }, true) : CWalletTx × Bool)
       else (wtx, false)).1.isAbandoned then
    ({ (if !wtxIn.hashUnset && decide (wtxIn.hashBlock ≠ wtx.hashBlock) then
        (({ wtx with hashBlock := wtxIn.hashBlock }, true) : CWalletTx × Bool)
       else (wtx, false)).1 with hashBlock := wtxIn.hashBlock }, true)
  else
    if !wtxIn.hashUnset && decide (wtxIn.hashBlock ≠ wtx.hashBlock) then
      ({ wtx with hashBlock := wtxIn.hashBlock }, true)
    else (wtx, false)

/-- The third test of the merge branch, which writes the index. -/
def mergeIndex (wtxIn : CWalletTx) (s : CWalletTx × Bool) : CWalletTx × Bool :=
  if decide (wtxIn.nIndex ≠ -1) && decide (wtxIn.nIndex ≠ s.1.nIndex) then
    ({ s.1 with nIndex := wtxIn.nIndex }, true) else s

/-- The fourth test of the merge branch, which writes the from-me flag. -/
def mergeFromMe (wtxIn : CWalletTx) (s : CWalletTx × Bool) : CWalletTx × Bool :=
  if wtxIn.fFromMe && decide (wtxIn.fFromMe ≠ s.1.fFromMe) then
    ({ s.1 with fFromMe := wtxIn.fFromMe }, true) else s

/-- The invariant of the second loop of `GetAddressGroupings`, `raw` being the
raw groupings merged so far: the allocated groups have distinct addresses
below the next one; `setmap` sends an address to the group that holds it, and
to nothing when no group holds it; the groups hold the addresses of `raw`, and
each raw grouping lies within one group. -/
structure GroupsInv (raw : List (List CTxDestination)) (st : AddressGroups) : Prop where
  fresh : ∀ e ∈ st.uniqueGroupings, e.1 < st.nAlloc
  distinct : (st.uniqueGroupings.map Prod.fst).Nodup
  index : ∀ a p, setmapFind st.setmap a = some p ↔ ∃ g, (p, g) ∈ st.uniqueGroupings ∧ a ∈ g
  union : ∀ a, (∃ e ∈ st.uniqueGroupings, a ∈ e.2) ↔ ∃ r ∈ raw, a ∈ r
  together : ∀ r ∈ raw, ∃ e ∈ st.uniqueGroupings, ∀ a ∈ r, a ∈ e.2

/-! ## Theorems: ledger -/

theorem mapFind_mapSet (m : List (uint256 × CWalletTx)) (k k2 : uint256) (v : CWalletTx) :
    mapFind (mapSet m k v) k2 =
      if k2 = k then (mapFind m k).map (fun _ => v) else mapFind m k2 := by
  induction m with
  | nil => simp [mapSet, mapFind]
  | cons p t ih =>
    obtain ⟨a, b⟩ := p
    by_cases h1 : a = k
    · by_cases h2 : k2 = k
      · subst h1; subst h2; simp [mapSet, mapFind]
      · subst h1
        have h3 : ¬ a = k2 := fun h => h2 h.symm
        simp [mapSet, mapFind, h2, h3]
    · by_cases h2 : k2 = k
      · subst h2
        simp [mapSet, mapFind, h1, ih]
      · by_cases h3 : a = k2
        · simp [mapSet, mapFind, h1, h2, h3]
        · simp [mapSet, mapFind, h1, h2, h3, ih]

theorem mapFind_mapInsert_ne (m : List (uint256 × CWalletTx)) (k k2 : uint256) (v : CWalletTx)
    (h : k2 ≠ k) : mapFind (mapInsert m k v) k2 = mapFind m k2 := by
  induction m with
  | nil =>
    have h3 : ¬ k = k2 := fun e => h e.symm
    simp [mapInsert, mapFind, h3]
  | cons p t ih =>
    obtain ⟨a, b⟩ := p
    have h3 : ¬ k = k2 := fun e => h e.symm
    by_cases h1 : k < a
    · simp [mapInsert, mapFind, h1, h3]
    · by_cases h4 : a = k2
      · subst h4
        simp [mapInsert, mapFind, h1]
      · simp [mapInsert, mapFind, h1, h4, ih]

theorem mapFind_mapInsert_self (m : List (uint256 × CWalletTx)) (k : uint256) (v : CWalletTx)
    (h : mapFind m k = none) : mapFind (mapInsert m k v) k = some v := by
  induction m with
  | nil => simp [mapInsert, mapFind]
  | cons p t ih =>
    obtain ⟨a, b⟩ := p
    by_cases h4 : a = k
    · simp [mapFind, h4] at h
    · have ht : mapFind t k = none := by simpa [mapFind, h4] using h
      by_cases h1 : k < a
      · simp [mapInsert, mapFind, h1]
      · simp [mapInsert, mapFind, h1, h4, ih ht]

theorem corePreserved_refl (m : List (uint256 × CWalletTx)) : CorePreserved m m :=
  fun _ v h => ⟨v, h, rfl⟩

theorem corePreserved_trans {m1 m2 m3 : List (uint256 × CWalletTx)}
    (h1 : CorePreserved m1 m2) (h2 : CorePreserved m2 m3) : CorePreserved m1 m3 := by
  intro k v hv
  obtain ⟨v2, hv2, c2⟩ := h1 k v hv
  obtain ⟨v3, hv3, c3⟩ := h2 k v2 hv2
  exact ⟨v3, hv3, c3.trans c2⟩

theorem corePreserved_mapSet (m : List (uint256 × CWalletTx)) (k : uint256) (v0 v : CWalletTx)
    (h0 : mapFind m k = some v0) (hc : v.core = v0.core) : CorePreserved m (mapSet m k v) := by
  intro k2 v2 hv2
  rw [mapFind_mapSet]
  by_cases h : k2 = k
  · subst h
    rw [h0] at hv2
    cases hv2
    exact ⟨v, by simp [h0], hc⟩
  · exact ⟨v2, by simp [h, hv2], rfl⟩

theorem corePreserved_mapInsert (m : List (uint256 × CWalletTx)) (k : uint256) (v : CWalletTx)
    (h0 : mapFind m k = none) : CorePreserved m (mapInsert m k v) := by
  intro k2 v2 hv2
  have h : k2 ≠ k := by
    intro e
    subst e
    rw [h0] at hv2
    cases hv2
  exact ⟨v2, by rw [mapFind_mapInsert_ne _ _ _ _ h]; exact hv2, rfl⟩

theorem corePreserved_mapAt (m : List (uint256 × CWalletTx)) (k : uint256) :
    CorePreserved m (mapAt m k).2 := by
  unfold mapAt
  cases h : mapFind m k with
  | none => exact corePreserved_mapInsert m k _ h
  | some v => exact corePreserved_refl m

theorem mapAt_find (m : List (uint256 × CWalletTx)) (k : uint256) :
    mapFind (mapAt m k).2 k = some (mapAt m k).1 := by
  unfold mapAt
  cases h : mapFind m k with
  | none => exact mapFind_mapInsert_self m k _ h
  | some v => exact h

theorem corePreserved_syncFindMin (range : List uint256) :
    ∀ (n : Int) (c : Option uint256) (m : List (uint256 × CWalletTx)),
      CorePreserved m (syncFindMin range n c m).2 := by
  induction range with
  | nil => intro n c m; exact corePreserved_refl m
  | cons h t ih =>
    intro n c m
    simp only [syncFindMin]
    split
    · exact corePreserved_trans (corePreserved_mapAt m h) (ih _ _ _)
    · exact corePreserved_trans (corePreserved_mapAt m h) (ih _ _ _)

theorem corePreserved_syncCopy (cf : uint256) (range : List uint256) :
    ∀ (m : List (uint256 × CWalletTx)), CorePreserved m (syncCopy cf range m) := by
  induction range with
  | nil => intro m; exact corePreserved_refl m
  | cons h t ih =>
    intro m
    simp only [syncCopy]
    split
    · exact corePreserved_trans (corePreserved_mapAt m h) (ih _)
    · split
      · exact corePreserved_trans (corePreserved_mapAt m h) (ih _)
      · split
        · exact corePreserved_trans (corePreserved_mapAt m h) (ih _)
        · refine corePreserved_trans (corePreserved_mapAt m h) ?_
          refine corePreserved_trans ?_ (ih _)
          exact corePreserved_mapSet _ h _ _ (mapAt_find m h) rfl

theorem corePreserved_SyncMetaData (w : CWallet) (range : List uint256) :
    CorePreserved w.mapWallet (SyncMetaData w range).mapWallet ∧
      (SyncMetaData w range).mapTxSpends = w.mapTxSpends := by
  unfold SyncMetaData
  have h1 := corePreserved_syncFindMin range 2147483647 none w.mapWallet
  generalize syncFindMin range 2147483647 none w.mapWallet = r at h1
  obtain ⟨c, m⟩ := r
  cases c with
  | none => exact ⟨h1, rfl⟩
  | some cf => exact ⟨corePreserved_trans h1 (corePreserved_syncCopy cf range m), rfl⟩

theorem mem_spendsInsert (s : List (COutPoint × uint256)) (o : COutPoint) (h : uint256)
    (e : COutPoint × uint256) : e ∈ spendsInsert s o h ↔ e = (o, h) ∨ e ∈ s := by
  induction s with
  | nil => simp [spendsInsert]
  | cons p t ih =>
    obtain ⟨a, b⟩ := p
    by_cases h1 : o.lt a = true
    · simp [spendsInsert, h1]
    · have h2 : o.lt a = false := by simpa using h1
      simp only [spendsInsert, h2, Bool.false_eq_true, if_false, List.mem_cons, ih]
      tauto

theorem addToSpendsOutpoint_spec (w : CWallet) (o : COutPoint) (h : uint256) :
    CorePreserved w.mapWallet (AddToSpendsOutpoint w o h).mapWallet ∧
      ∀ e, e ∈ (AddToSpendsOutpoint w o h).mapTxSpends ↔ e = (o, h) ∨ e ∈ w.mapTxSpends := by
  unfold AddToSpendsOutpoint
  simp only
  have h1 := corePreserved_SyncMetaData
    { w with mapTxSpends := spendsInsert w.mapTxSpends o h }
    (equalRange (spendsInsert w.mapTxSpends o h) o)
  refine ⟨h1.1, ?_⟩
  intro e
  rw [h1.2]
  exact mem_spendsInsert _ _ _ _

theorem addToSpends_foldl_spec (wtxid : uint256) (vin : List CTxIn) :
    ∀ w : CWallet,
      CorePreserved w.mapWallet
        (vin.foldl (fun acc txin => AddToSpendsOutpoint acc txin.prevout wtxid) w).mapWallet ∧
      (∀ e, e ∈ w.mapTxSpends →
        e ∈ (vin.foldl (fun acc txin => AddToSpendsOutpoint acc txin.prevout wtxid) w).mapTxSpends) ∧
      (∀ txin ∈ vin, (txin.prevout, wtxid) ∈
        (vin.foldl (fun acc txin => AddToSpendsOutpoint acc txin.prevout wtxid) w).mapTxSpends) := by
  induction vin with
  | nil => intro w; exact ⟨corePreserved_refl _, fun _ h => h, by simp⟩
  | cons a t ih =>
    intro w
    simp only [List.foldl_cons]
    obtain ⟨c1, s1⟩ := addToSpendsOutpoint_spec w a.prevout wtxid
    obtain ⟨c2, s2, s3⟩ := ih (AddToSpendsOutpoint w a.prevout wtxid)
    refine ⟨corePreserved_trans c1 c2, ?_, ?_⟩
    · intro e he
      exact s2 e ((s1 e).2 (Or.inr he))
    · intro txin htx
      rcases List.mem_cons.1 htx with h | h
      · subst h
        exact s2 _ ((s1 _).2 (Or.inl rfl))
      · exact s3 txin h

theorem addToSpends_spec (w : CWallet) (wtxid : uint256) (thisTx : CWalletTx)
    (hf : mapFind w.mapWallet wtxid = some thisTx) :
    ∃ w2, AddToSpends w wtxid = some w2 ∧ CorePreserved w.mapWallet w2.mapWallet ∧
      (thisTx.fCoinBase = false → thisTx.fZerocoinSpend = false →
        ∀ txin ∈ thisTx.vin, (txin.prevout, wtxid) ∈ w2.mapTxSpends) := by
  unfold AddToSpends
  rw [hf]
  by_cases hc : (thisTx.fCoinBase || thisTx.fZerocoinSpend) = true
  · refine ⟨w, by simp [hc], corePreserved_refl _, ?_⟩
    intro h1 h2
    simp [h1, h2] at hc
  · obtain ⟨c, _, s⟩ := addToSpends_foldl_spec wtxid thisTx.vin w
    exact ⟨_, by simp [hc], c, fun _ _ => s⟩

theorem spendsIt_of_core (env : ChainEnv) (a b : CWalletTx) (h : a.core = b.core) :
    spendsIt env a ↔ spendsIt env b := by
  simp only [CWalletTx.core, Prod.mk.injEq] at h
  obtain ⟨_, hb, hi, _, _, _⟩ := h
  simp only [spendsIt, GetDepthInMainChain, CWalletTx.hashUnset, CWalletTx.isAbandoned, hb, hi]

theorem isSpent_iff (env : ChainEnv) (w : CWallet) (hash : uint256) (n : Nat) :
    IsSpent env w hash n = true ↔
      ∃ wtxid wtx, ((⟨hash, n⟩ : COutPoint), wtxid) ∈ w.mapTxSpends ∧
        mapFind w.mapWallet wtxid = some wtx ∧ spendsIt env wtx := by
  unfold IsSpent equalRange spendsIt
  simp only [List.any_eq_true, List.mem_map, List.mem_filter, decide_eq_true_eq]
  constructor
  · rintro ⟨wtxid, ⟨⟨o, k⟩, ⟨hmem, ho⟩, hk⟩, hcond⟩
    simp only at ho hk
    subst ho
    subst hk
    cases hf : mapFind w.mapWallet k with
    | none => simp [hf] at hcond
    | some wtx =>
      refine ⟨k, wtx, hmem, hf, ?_⟩
      simp only [hf, Bool.or_eq_true, Bool.and_eq_true, decide_eq_true_eq,
        Bool.not_eq_true'] at hcond
      exact hcond
  · rintro ⟨wtxid, wtx, hmem, hf, hcond⟩
    refine ⟨wtxid, ⟨(⟨hash, n⟩, wtxid), ⟨hmem, rfl⟩, rfl⟩, ?_⟩
    simp only [hf, Bool.or_eq_true, Bool.and_eq_true, decide_eq_true_eq, Bool.not_eq_true']
    exact hcond

theorem isSpent_of_indexed (env : ChainEnv) (w : CWallet) (hash : uint256) (rec : CWalletTx)
    (hf : mapFind w.mapWallet hash = some rec)
    (hidx : ∀ txin ∈ rec.vin, (txin.prevout, hash) ∈ w.mapTxSpends)
    (hd : GetDepthInMainChain env rec ≥ 0) (ha : rec.isAbandoned = false) :
    ∀ txin ∈ rec.vin, IsSpent env w txin.prevout.hash txin.prevout.n = true := by
  intro txin htx
  rw [isSpent_iff]
  refine ⟨hash, rec, hidx txin htx, hf, ?_⟩
  unfold spendsIt
  rcases lt_or_eq_of_le hd with h | h
  · exact Or.inl h
  · exact Or.inr ⟨h.symm, ha⟩

theorem mergeWalletTx_core (a b : CWalletTx) :
    (mergeWalletTx a b).1.vin = a.vin ∧ (mergeWalletTx a b).1.fCoinBase = a.fCoinBase ∧
      (mergeWalletTx a b).1.fZerocoinSpend = a.fZerocoinSpend := by
  unfold mergeWalletTx
  simp only
  split_ifs <;> exact ⟨rfl, rfl, rfl⟩

theorem addToSpends_indexed (w1 : CWallet) (hash : uint256) (t : CWalletTx)
    (ht : mapFind w1.mapWallet hash = some t) :
    ∃ cur, mapFind ((AddToSpends w1 hash).getD w1).mapWallet hash = some cur ∧
      cur.core = t.core ∧
      (cur.fCoinBase = false → cur.fZerocoinSpend = false →
        ∀ txin ∈ cur.vin, (txin.prevout, hash) ∈ ((AddToSpends w1 hash).getD w1).mapTxSpends) := by
  obtain ⟨w3, hw3, c, s⟩ := addToSpends_spec w1 hash t ht
  rw [hw3, Option.getD_some]
  obtain ⟨v2, hv2, hcore⟩ := c _ _ ht
  refine ⟨v2, hv2, hcore, ?_⟩
  simp only [CWalletTx.core, Prod.mk.injEq] at hcore
  obtain ⟨_, _, _, hvin, hcb2, hzc2⟩ := hcore
  intro h1 h2
  rw [hvin]
  exact s (by rw [← hcb2]; exact h1) (by rw [← hzc2]; exact h2)

theorem addToWalletLoad_indexed (w : CWallet) (wtxIn rec : CWalletTx)
    (hrec : mapFind (addToWalletLoad w wtxIn).mapWallet wtxIn.hash = some rec)
    (hcb : rec.fCoinBase = false) (hzc : rec.fZerocoinSpend = false) :
    ∀ txin ∈ rec.vin, (txin.prevout, wtxIn.hash) ∈ (addToWalletLoad w wtxIn).mapTxSpends := by
  unfold addToWalletLoad at hrec ⊢
  simp only at hrec ⊢
  have hfm : mapFind (match mapFind w.mapWallet wtxIn.hash with
      | some _ => mapSet w.mapWallet wtxIn.hash wtxIn.BindWallet
      | none => mapInsert w.mapWallet wtxIn.hash wtxIn.BindWallet) wtxIn.hash
      = some wtxIn.BindWallet := by
    cases hq : mapFind w.mapWallet wtxIn.hash with
    | none => exact mapFind_mapInsert_self _ _ _ hq
    | some q => simp [mapFind_mapSet, hq]
  obtain ⟨cur, hcur, _, hidx⟩ := addToSpends_indexed
    { w with
      mapWallet := (match mapFind w.mapWallet wtxIn.hash with
        | some _ => mapSet w.mapWallet wtxIn.hash wtxIn.BindWallet
        | none => mapInsert w.mapWallet wtxIn.hash wtxIn.BindWallet),
      wtxOrdered := orderedInsert w.wtxOrdered wtxIn.BindWallet.nOrderPos (TxPair.wtx wtxIn.hash) }
    wtxIn.hash _ hfm
  rw [hcur] at hrec
  cases hrec
  exact hidx hcb hzc

theorem addToWalletNew_indexed (env : ChainEnv) (fWriteOk : Bool) (w : CWallet)
    (wtxIn rec : CWalletTx) (hq : mapFind w.mapWallet wtxIn.hash = none)
    (hrec : mapFind (addToWalletNew env fWriteOk w wtxIn).2.mapWallet wtxIn.hash = some rec)
    (hcb : rec.fCoinBase = false) (hzc : rec.fZerocoinSpend = false) :
    ∀ txin ∈ rec.vin,
      (txin.prevout, wtxIn.hash) ∈ (addToWalletNew env fWriteOk w wtxIn).2.mapTxSpends := by
  unfold addToWalletNew at hrec ⊢
  simp only at hrec ⊢
  have hfm : mapFind (mapInsert w.mapWallet wtxIn.hash (newWalletTx env w wtxIn)) wtxIn.hash
      = some (newWalletTx env w wtxIn) := mapFind_mapInsert_self _ _ _ hq
  obtain ⟨cur, hcur, _, hidx⟩ := addToSpends_indexed
    { withOrderPos w wtxIn.hash with
      mapWallet := mapInsert w.mapWallet wtxIn.hash (newWalletTx env w wtxIn) }
    wtxIn.hash _ hfm
  by_cases hwr : fWriteOk = true
  · simp only [hwr, Bool.not_true, Bool.false_eq_true, if_false, hcur] at hrec ⊢
    simp only [mapFind_mapSet, if_true, hcur, Option.map_some'] at hrec
    cases hrec
    exact hidx hcb hzc
  · have hwr2 : fWriteOk = false := by simpa using hwr
    simp only [hwr2, Bool.not_false, if_true] at hrec ⊢
    rw [hcur] at hrec
    cases hrec
    exact hidx hcb hzc

theorem addToWalletMerge_indexed (fWriteOk : Bool) (w : CWallet) (wtxIn found rec : CWalletTx)
    (hinv : SpendsIndexed w) (hq : mapFind w.mapWallet wtxIn.hash = some found)
    (hrec : mapFind (addToWalletMerge fWriteOk w wtxIn found).2.mapWallet wtxIn.hash = some rec)
    (hcb : rec.fCoinBase = false) (hzc : rec.fZerocoinSpend = false) :
    ∀ txin ∈ rec.vin,
      (txin.prevout, wtxIn.hash) ∈ (addToWalletMerge fWriteOk w wtxIn found).2.mapTxSpends := by
  obtain ⟨mv, mc, mz⟩ := mergeWalletTx_core found.BindWallet wtxIn
  have hidx := hinv _ _ hq
  unfold addToWalletMerge at hrec ⊢
  simp only at hrec ⊢
  split_ifs at hrec ⊢
  · simp only [mapFind_mapSet, if_true, hq, Option.map_some'] at hrec
    cases hrec
    rw [mv]
    rw [mc] at hcb
    rw [mz] at hzc
    exact hidx hcb hzc
  · simp only [mapFind_mapSet, if_true, hq, Option.map_some'] at hrec
    cases hrec
    have e1 : (mergeWalletTx found.BindWallet wtxIn).1.MarkDirty.vin = found.vin := mv
    have e2 : (mergeWalletTx found.BindWallet wtxIn).1.MarkDirty.fCoinBase = found.fCoinBase := mc
    have e3 : (mergeWalletTx found.BindWallet wtxIn).1.MarkDirty.fZerocoinSpend
        = found.fZerocoinSpend := mz
    rw [e1]
    rw [e2] at hcb
    rw [e3] at hzc
    exact hidx hcb hzc

/-- The state reached by `AddToWallet` indexes the inputs of the record it
stores under the hash of the added transaction. -/
theorem addToWallet_indexed (env : ChainEnv) (fWriteOk : Bool) (w : CWallet) (wtxIn : CWalletTx)
    (fFromLoadWallet : Bool) (hinv : SpendsIndexed w) (rec : CWalletTx)
    (hrec : mapFind (AddToWallet env fWriteOk w wtxIn fFromLoadWallet).2.mapWallet wtxIn.hash
      = some rec)
    (hcb : rec.fCoinBase = false) (hzc : rec.fZerocoinSpend = false) :
    ∀ txin ∈ rec.vin,
      (txin.prevout, wtxIn.hash) ∈
        (AddToWallet env fWriteOk w wtxIn fFromLoadWallet).2.mapTxSpends := by
  unfold AddToWallet at hrec ⊢
  by_cases hl : fFromLoadWallet = true
  · simp only [hl, if_true] at hrec ⊢
    exact addToWalletLoad_indexed w wtxIn rec hrec hcb hzc
  · have hl2 : fFromLoadWallet = false := by simpa using hl
    simp only [hl2, Bool.false_eq_true, if_false] at hrec ⊢
    cases hq : mapFind w.mapWallet wtxIn.hash with
    | none =>
      simp only [hq] at hrec ⊢
      exact addToWalletNew_indexed env fWriteOk w wtxIn rec hq hrec hcb hzc
    | some found =>
      simp only [hq] at hrec ⊢
      exact addToWalletMerge_indexed fWriteOk w wtxIn found rec hinv hq hrec hcb hzc

/-! ## Theorems: 64-bit amounts -/

theorem toInt64_of_range (x : Int) (h1 : -9223372036854775808 ≤ x) (h2 : x ≤ INT64_MAX) :
    toInt64 x = x := by
  unfold INT64_MAX at h2
  unfold toInt64
  omega

theorem toInt64_range (x : Int) :
    -9223372036854775808 ≤ toInt64 x ∧ toInt64 x ≤ INT64_MAX := by
  unfold toInt64 INT64_MAX
  omega

theorem target_le_threshold (T nMinChange : CAmount) (h0 : 0 ≤ nMinChange)
    (hT : -9223372036854775808 ≤ T) (h : T + nMinChange ≤ INT64_MAX) :
    T ≤ toInt64 (T + nMinChange) := by
  rw [toInt64_of_range _ (by linarith) h]
  linarith

/-! ## Theorems: the scan of `SelectCoinsMinConf` -/

theorem scanCoins_cons (env : WalletEnv) (nTargetValue : CAmount) (nConfMine nConfTheirs : Int)
    (a : COutput) (t : List COutput) (st : ScanState) :
    scanCoins env nTargetValue nConfMine nConfTheirs (a :: t) st =
      if !a.fSpendable then scanCoins env nTargetValue nConfMine nConfTheirs t st
      else if a.nDepth < (if env.IsFromMe a.tx then nConfMine else nConfTheirs) then
        scanCoins env nTargetValue nConfMine nConfTheirs t st
      else if a.nValue = nTargetValue then ScanResult.exact (a.nValue, (a.tx, a.i))
      else if a.nValue < toInt64 (nTargetValue + env.MIN_CHANGE) then
        scanCoins env nTargetValue nConfMine nConfTheirs t
          { st with vValue := st.vValue ++ [(a.nValue, (a.tx, a.i))],
                    nTotalLower := st.nTotalLower + a.nValue }
      else if a.nValue < st.coinLowestLarger.1 then
        scanCoins env nTargetValue nConfMine nConfTheirs t
          { st with coinLowestLarger := (a.nValue, some (a.tx, a.i)) }
      else scanCoins env nTargetValue nConfMine nConfTheirs t st := by
  rw [scanCoins]

theorem scanCoins_done (env : WalletEnv) (nTargetValue : CAmount) (nConfMine nConfTheirs : Int)
    (l : List COutput) :
    ∀ st : ScanState,
      (∀ c ∈ l, eligible env nConfMine nConfTheirs c = true → c.nValue ≠ nTargetValue) →
      scanCoins env nTargetValue nConfMine nConfTheirs l st = ScanResult.done
        { vValue := st.vValue ++
            (belowCoins env nTargetValue nConfMine nConfTheirs l).map COutput.toCoin,
          nTotalLower := st.nTotalLower +
            ((belowCoins env nTargetValue nConfMine nConfTheirs l).map COutput.nValue).sum,
          coinLowestLarger := lowestFold st.coinLowestLarger
            (largerCoins env nTargetValue nConfMine nConfTheirs l) } := by
  induction l with
  | nil =>
    intro st _
    simp [scanCoins, belowCoins, largerCoins, lowestFold]
  | cons a t ih =>
    intro st hne
    have hne2 : ∀ c ∈ t, eligible env nConfMine nConfTheirs c = true → c.nValue ≠ nTargetValue :=
      fun c hc => hne c (List.mem_cons_of_mem _ hc)
    have ha := hne a (List.mem_cons_self _ _)
    rw [scanCoins_cons]
    by_cases h1 : a.fSpendable = true
    · by_cases h2 : a.nDepth < (if env.IsFromMe a.tx = true then nConfMine else nConfTheirs)
      · have he : eligible env nConfMine nConfTheirs a = false := by
          simp [eligible, h1, h2]
        simp only [h1, Bool.not_true, Bool.false_eq_true, if_false, h2, if_true]
        rw [ih st hne2]
        simp [belowCoins, largerCoins, List.filter_cons, he]
      · have he : eligible env nConfMine nConfTheirs a = true := by
          simp [eligible, h1, h2]
        have hv : ¬ a.nValue = nTargetValue := ha he
        simp only [h1, Bool.not_true, Bool.false_eq_true, if_false, h2, hv]
        by_cases h3 : a.nValue < toInt64 (nTargetValue + env.MIN_CHANGE)
        · simp only [h3, if_true]
          rw [ih _ hne2]
          simp [belowCoins, largerCoins, List.filter_cons, he, h3, COutput.toCoin, add_assoc]
        · simp only [h3, if_false]
          by_cases h4 : a.nValue < st.coinLowestLarger.1
          · simp only [h4, if_true]
            rw [ih _ hne2]
            simp [belowCoins, largerCoins, List.filter_cons, he, h3, lowestFold, h4]
          · simp only [h4, if_false]
            rw [ih _ hne2]
            simp [belowCoins, largerCoins, List.filter_cons, he, h3, lowestFold, h4]
    · have h1f : a.fSpendable = false := by simpa using h1
      have he : eligible env nConfMine nConfTheirs a = false := by
        simp [eligible, h1f]
      simp only [h1f, Bool.not_false, if_true]
      rw [ih st hne2]
      simp [belowCoins, largerCoins, List.filter_cons, he]

theorem scanCoins_exact (env : WalletEnv) (nTargetValue : CAmount) (nConfMine nConfTheirs : Int)
    (l : List COutput) :
    ∀ st : ScanState,
      (∃ c ∈ l, eligible env nConfMine nConfTheirs c = true ∧ c.nValue = nTargetValue) →
      ∃ c ∈ l, eligible env nConfMine nConfTheirs c = true ∧ c.nValue = nTargetValue ∧
        scanCoins env nTargetValue nConfMine nConfTheirs l st = ScanResult.exact c.toCoin := by
  induction l with
  | nil =>
    intro st h
    obtain ⟨c, hc, _⟩ := h
    cases hc
  | cons a t ih =>
    intro st h
    by_cases hx : eligible env nConfMine nConfTheirs a = true ∧ a.nValue = nTargetValue
    · refine ⟨a, List.mem_cons_self _ _, hx.1, hx.2, ?_⟩
      have he := hx.1
      simp only [eligible, Bool.and_eq_true, Bool.not_eq_true', decide_eq_false_iff_not] at he
      rw [scanCoins_cons]
      simp [he.1, he.2, hx.2, COutput.toCoin]
    · have ht : ∃ c ∈ t, eligible env nConfMine nConfTheirs c = true ∧ c.nValue = nTargetValue := by
        obtain ⟨c, hc, hce⟩ := h
        rcases List.mem_cons.1 hc with e | e
        · subst e
          exact absurd hce hx
        · exact ⟨c, e, hce⟩
      have step : ∀ st2 : ScanState, ∃ st3 : ScanState,
          scanCoins env nTargetValue nConfMine nConfTheirs (a :: t) st2 =
            scanCoins env nTargetValue nConfMine nConfTheirs t st3 := by
        intro st2
        rw [scanCoins_cons]
        by_cases h1 : a.fSpendable = true
        · by_cases h2 : a.nDepth < (if env.IsFromMe a.tx = true then nConfMine else nConfTheirs)
          · exact ⟨st2, by simp [h1, h2]⟩
          · have he : eligible env nConfMine nConfTheirs a = true := by
              simp [eligible, h1, h2]
            have hv : ¬ a.nValue = nTargetValue := fun e => hx ⟨he, e⟩
            simp only [h1, Bool.not_true, Bool.false_eq_true, if_false, h2, hv]
            split_ifs
            · exact ⟨_, rfl⟩
            · exact ⟨_, rfl⟩
            · exact ⟨_, rfl⟩
        · have h1f : a.fSpendable = false := by simpa using h1
          exact ⟨st2, by simp [h1f]⟩
      obtain ⟨st3, hst3⟩ := step st
      obtain ⟨c, hc, he, hv, hs⟩ := ih st3 ht
      exact ⟨c, List.mem_cons_of_mem _ hc, he, hv, by rw [hst3, hs]⟩

theorem lowestFold_spec (l : List COutput) :
    ∀ init : CAmount × Option CInput,
      (lowestFold init l = init ∧ ∀ c ∈ l, ¬ c.nValue < init.1) ∨
      (∃ c ∈ l, lowestFold init l = (c.nValue, some (c.tx, c.i)) ∧ c.nValue < init.1 ∧
        ∀ c2 ∈ l, c.nValue ≤ c2.nValue) := by
  induction l with
  | nil => intro init; left; simp [lowestFold]
  | cons a t ih =>
    intro init
    have hstep : lowestFold init (a :: t) =
        lowestFold (if a.nValue < init.1 then (a.nValue, some (a.tx, a.i)) else init) t := by
      simp [lowestFold]
    rw [hstep]
    by_cases h : a.nValue < init.1
    · simp only [h, if_true]
      right
      rcases ih (a.nValue, some (a.tx, a.i)) with ⟨e, hall⟩ | ⟨c, hc, e, hlt, hmin⟩
      · refine ⟨a, List.mem_cons_self _ _, e, h, ?_⟩
        intro c2 hc2
        rcases List.mem_cons.1 hc2 with e2 | e2
        · subst e2; exact le_refl _
        · exact not_lt.1 (hall c2 e2)
      · refine ⟨c, List.mem_cons_of_mem _ hc, e, lt_trans hlt h, ?_⟩
        intro c2 hc2
        rcases List.mem_cons.1 hc2 with e2 | e2
        · subst e2; exact le_of_lt hlt
        · exact hmin c2 e2
    · simp only [h, if_false]
      rcases ih init with ⟨e, hall⟩ | ⟨c, hc, e, hlt, hmin⟩
      · left
        refine ⟨e, ?_⟩
        intro c2 hc2
        rcases List.mem_cons.1 hc2 with e2 | e2
        · subst e2; exact h
        · exact hall c2 e2
      · right
        refine ⟨c, List.mem_cons_of_mem _ hc, e, hlt, ?_⟩
        intro c2 hc2
        rcases List.mem_cons.1 hc2 with e2 | e2
        · subst e2; exact le_of_lt (lt_of_lt_of_le hlt (not_lt.1 h))
        · exact hmin c2 e2

theorem foldl_add_fst (l : List (CAmount × CInput)) :
    ∀ acc : CAmount, l.foldl (fun acc c => acc + c.1) acc = acc + (l.map Prod.fst).sum := by
  induction l with
  | nil => intro acc; simp
  | cons a t ih => intro acc; simp [ih, add_assoc]

theorem lowestFold_none (l : List COutput) (init : CAmount × Option CInput)
    (h : (lowestFold init l).2 = none) :
    lowestFold init l = init ∧ ∀ c ∈ l, ¬ c.nValue < init.1 := by
  rcases lowestFold_spec l init with h1 | ⟨c, _, e, _, _⟩
  · exact h1
  · rw [e] at h
    cases h

theorem selectCoinsMinConf_exact (env : WalletEnv) (rs : RandomSource) (nTargetValue : CAmount)
    (nConfMine nConfTheirs : Int) (nMaxAncestors : Nat) (vCoins : List COutput)
    (fUseInstantSend : Bool)
    (h : ∃ c ∈ vCoins, eligible env nConfMine nConfTheirs c = true ∧ c.nValue = nTargetValue) :
    ∃ c ∈ vCoins, eligible env nConfMine nConfTheirs c = true ∧ c.nValue = nTargetValue ∧
      SelectCoinsMinConf env rs nTargetValue nConfMine nConfTheirs nMaxAncestors vCoins
        fUseInstantSend =
        { fSuccess := true, setCoinsRet := [(c.tx, c.i)], nValueRet := nTargetValue,
          nApproxCalls := 0 } := by
  have h2 : ∃ c ∈ rs.order vCoins,
      eligible env nConfMine nConfTheirs c = true ∧ c.nValue = nTargetValue := by
    obtain ⟨c, hc, hce⟩ := h
    exact ⟨c, (rs.order_perm vCoins).mem_iff.2 hc, hce⟩
  obtain ⟨c, hc, he, hv, hs⟩ := scanCoins_exact env nTargetValue nConfMine nConfTheirs
    (rs.order vCoins)
    { vValue := [], nTotalLower := 0,
      coinLowestLarger := (if fUseInstantSend then env.nInstantSendMaxValue * env.COIN
        else INT64_MAX, none) } h2
  refine ⟨c, (rs.order_perm vCoins).mem_iff.1 hc, he, hv, ?_⟩
  unfold SelectCoinsMinConf tryDenomPass
  simp only [hs]
  simp [coinSetInsert, COutput.toCoin, hv]

theorem tryDenomPass_noexact (env : WalletEnv) (nTargetValue : CAmount)
    (nConfMine nConfTheirs : Int) (l : List COutput) (lowest : CAmount × Option CInput)
    (tryDenom : Nat)
    (h : ∀ c ∈ l, eligible env nConfMine nConfTheirs c = true → c.nValue ≠ nTargetValue) :
    tryDenomPass env nTargetValue nConfMine nConfTheirs l lowest tryDenom =
      passAfterScan nTargetValue (scanFrom env nTargetValue nConfMine nConfTheirs lowest l)
        tryDenom := by
  unfold tryDenomPass scanFrom
  rw [scanCoins_done env nTargetValue nConfMine nConfTheirs l _ h]
  simp only [List.nil_append, zero_add]

theorem selectCoinsMinConf_noexact (env : WalletEnv) (rs : RandomSource) (nTargetValue : CAmount)
    (nConfMine nConfTheirs : Int) (nMaxAncestors : Nat) (vCoins : List COutput)
    (fUseInstantSend : Bool)
    (h : ∀ c ∈ vCoins, eligible env nConfMine nConfTheirs c = true → c.nValue ≠ nTargetValue) :
    SelectCoinsMinConf env rs nTargetValue nConfMine nConfTheirs nMaxAncestors vCoins
        fUseInstantSend =
      resultOfScan env rs nTargetValue fUseInstantSend
        (scanFinal env nTargetValue nConfMine nConfTheirs fUseInstantSend (rs.order vCoins)) := by
  have h2 : ∀ c ∈ rs.order vCoins,
      eligible env nConfMine nConfTheirs c = true → c.nValue ≠ nTargetValue :=
    fun c hc => h c ((rs.order_perm vCoins).mem_iff.1 hc)
  have key : ∀ st : ScanState,
      st = scanFinal env nTargetValue nConfMine nConfTheirs fUseInstantSend (rs.order vCoins) →
      (match passAfterScan nTargetValue st 0 with
        | PassOutcome.ret r => r
        | PassOutcome.approx st => approxPhase env rs nTargetValue fUseInstantSend st
        | PassOutcome.again st0 =>
          match tryDenomPass env nTargetValue nConfMine nConfTheirs (rs.order vCoins)
              st0.coinLowestLarger 1 with
          | PassOutcome.ret r => r
          | PassOutcome.approx st => approxPhase env rs nTargetValue fUseInstantSend st
          | PassOutcome.again st => approxPhase env rs nTargetValue fUseInstantSend st) =
        resultOfScan env rs nTargetValue fUseInstantSend st := by
    intro st hst
    unfold resultOfScan
    by_cases e1 : st.nTotalLower = nTargetValue
    · simp only [passAfterScan, e1, if_true]
    · by_cases e2 : st.nTotalLower < nTargetValue
      · cases e3 : st.coinLowestLarger.2 with
        | some c => simp only [passAfterScan, e1, if_false, e2, if_true, e3]
        | none =>
          simp only [passAfterScan, e1, if_false, e2, if_true, e3]
          rw [tryDenomPass_noexact env nTargetValue nConfMine nConfTheirs (rs.order vCoins) _ 1 h2]
          have hl : st.coinLowestLarger = lowestFold (lowestCeiling env fUseInstantSend, none)
              (largerCoins env nTargetValue nConfMine nConfTheirs (rs.order vCoins)) := by
            rw [hst]; rfl
          have hn := lowestFold_none _ (lowestCeiling env fUseInstantSend, none)
            (by rw [← hl]; exact e3)
          have hfix : scanFrom env nTargetValue nConfMine nConfTheirs st.coinLowestLarger
              (rs.order vCoins) = st := by
            rw [hl, hst]
            unfold scanFinal scanFrom
            simp only [hn.1]
          rw [hfix]
          simp [passAfterScan, e1, e2, e3]
      · simp only [passAfterScan, e1, if_false, e2]
  unfold SelectCoinsMinConf
  simp only
  rw [tryDenomPass_noexact env nTargetValue nConfMine nConfTheirs (rs.order vCoins) _ 0 h2]
  exact key _ rfl

theorem belowCoins_sum_order (env : WalletEnv) (rs : RandomSource) (nTargetValue : CAmount)
    (nConfMine nConfTheirs : Int) (l : List COutput) :
    ((belowCoins env nTargetValue nConfMine nConfTheirs (rs.order l)).map COutput.nValue).sum =
      ((belowCoins env nTargetValue nConfMine nConfTheirs l).map COutput.nValue).sum :=
  (((rs.order_perm l).filter _).map _).sum_eq

theorem mem_belowCoins_order (env : WalletEnv) (rs : RandomSource) (nTargetValue : CAmount)
    (nConfMine nConfTheirs : Int) (l : List COutput) (c : COutput) :
    c ∈ belowCoins env nTargetValue nConfMine nConfTheirs (rs.order l) ↔
      c ∈ l ∧ eligible env nConfMine nConfTheirs c = true ∧
        c.nValue < toInt64 (nTargetValue + env.MIN_CHANGE) := by
  unfold belowCoins
  rw [List.mem_filter, (rs.order_perm l).mem_iff]
  simp

theorem mem_largerCoins_order (env : WalletEnv) (rs : RandomSource) (nTargetValue : CAmount)
    (nConfMine nConfTheirs : Int) (l : List COutput) (c : COutput) :
    c ∈ largerCoins env nTargetValue nConfMine nConfTheirs (rs.order l) ↔
      c ∈ l ∧ eligible env nConfMine nConfTheirs c = true ∧
        toInt64 (nTargetValue + env.MIN_CHANGE) ≤ c.nValue := by
  unfold largerCoins
  rw [List.mem_filter, (rs.order_perm l).mem_iff]
  simp

/-! ## Theorems: `ApproximateBestSubset` -/

theorem flaggedSum_set (vals : List CAmount) :
    ∀ (flags : List Bool) (i : Nat) (b : Bool), flags.length = vals.length → i < vals.length →
      flaggedSum vals (flags.set i b) =
        flaggedSum vals flags - (if flags.getD i false then vals.getD i 0 else 0)
          + (if b then vals.getD i 0 else 0) := by
  induction vals with
  | nil => intro flags i b _ hi; simp at hi
  | cons v vs ih =>
    intro flags i b hlen hi
    cases flags with
    | nil => simp at hlen
    | cons f fs =>
      cases i with
      | zero =>
        simp only [List.set_cons_zero, flaggedSum, List.getD_cons_zero]
        ring
      | succ j =>
        have hlen2 : fs.length = vs.length := by simpa using hlen
        have hj : j < vs.length := by simpa using hi
        simp only [List.set_cons_succ, flaggedSum, List.getD_cons_succ, ih fs j b hlen2 hj]
        ring

theorem getD_set_self (flags : List Bool) (i : Nat) (b : Bool) (h : i < flags.length) :
    (flags.set i b).getD i false = b := by
  simp [List.getD_eq_getElem?_getD, List.getElem?_set, h]

theorem getD_set_ne (flags : List Bool) (i j : Nat) (b : Bool) (h : j ≠ i) :
    (flags.set i b).getD j false = flags.getD j false := by
  have h2 : ¬ i = j := fun e => h e.symm
  simp [List.getD_eq_getElem?_getD, List.getElem?_set, h2]

theorem flaggedSum_replicate_true (vals : List CAmount) :
    flaggedSum vals (List.replicate vals.length true) = vals.sum := by
  induction vals with
  | nil => rfl
  | cons v vs ih => simp [List.replicate_succ, flaggedSum, ih]

theorem flaggedSum_replicate_false (vals : List CAmount) :
    flaggedSum vals (List.replicate vals.length false) = 0 := by
  induction vals with
  | nil => rfl
  | cons v vs ih => simp [List.replicate_succ, flaggedSum, ih]

theorem approxStep_inv (rand : Nat → Bool) (T : CAmount) (fIS : Bool) (nCap : CAmount)
    (nPass : Nat) (vals : List CAmount) (st : ApproxState) (i : Nat) (v : CAmount)
    (hv : vals.getD i 0 = v) (hi : i < vals.length)
    (hfalse : nPass = 0 → st.vfIncluded.getD i false = false)
    (inv : ApproxInv vals T st) :
    ApproxInv vals T (approxStep rand T fIS nCap nPass st i v) ∧
      ∀ j, j ≠ i →
        (approxStep rand T fIS nCap nPass st i v).vfIncluded.getD j false
          = st.vfIncluded.getD j false := by
  obtain ⟨l1, s1, l2, s2, hT⟩ := inv
  unfold approxStep
  by_cases hskip : (fIS && decide (st.nTotal + v > nCap)) = true
  · simp only [hskip, if_true]
    exact ⟨⟨l1, s1, l2, s2, hT⟩, fun _ _ => trivial⟩
  · simp only [hskip, Bool.false_eq_true, if_false]
    by_cases htake : (if nPass = 0 then rand st.nDraws else !(st.vfIncluded.getD i false)) = true
    · simp only [htake, if_true]
      have hfi : st.vfIncluded.getD i false = false := by
        by_cases hp : nPass = 0
        · exact hfalse hp
        · simpa [hp] using htake
      have hi2 : i < st.vfIncluded.length := by rw [l1]; exact hi
      have hset : flaggedSum vals (st.vfIncluded.set i true) = st.nTotal + v := by
        rw [flaggedSum_set vals _ i true l1 hi, hfi, s1, hv]
        simp
      have hlen : (st.vfIncluded.set i true).length = vals.length := by
        rw [List.length_set]; exact l1
      by_cases hreach : st.nTotal + v ≥ T
      · simp only [hreach, if_true]
        refine ⟨⟨?_, ?_, ?_, ?_, ?_⟩, ?_⟩
        · simp only [List.length_set]; exact l1
        · show flaggedSum vals ((st.vfIncluded.set i true).set i false) = st.nTotal + v - v
          rw [flaggedSum_set vals _ i false hlen hi, hset,
            getD_set_self _ _ _ hi2, hv]
          simp
        · show (if st.nTotal + v < st.nBest then st.vfIncluded.set i true
            else st.vfBest).length = vals.length
          split_ifs
          · exact hlen
          · exact l2
        · show flaggedSum vals (if st.nTotal + v < st.nBest then st.vfIncluded.set i true
            else st.vfBest) = (if st.nTotal + v < st.nBest then st.nTotal + v else st.nBest)
          split_ifs
          · exact hset
          · exact s2
        · show T ≤ (if st.nTotal + v < st.nBest then st.nTotal + v else st.nBest)
          split_ifs
          · exact hreach
          · exact hT
        · intro j hj
          show ((st.vfIncluded.set i true).set i false).getD j false = _
          rw [getD_set_ne _ _ _ _ hj, getD_set_ne _ _ _ _ hj]
      · simp only [hreach, if_false]
        refine ⟨⟨hlen, hset, l2, s2, hT⟩, ?_⟩
        intro j hj
        exact getD_set_ne _ _ _ _ hj
    · simp only [htake, Bool.false_eq_true, if_false]
      exact ⟨⟨l1, s1, l2, s2, hT⟩, fun _ _ => trivial⟩

theorem approxInner_inv (rand : Nat → Bool) (T : CAmount) (fIS : Bool) (nCap : CAmount)
    (nPass : Nat) (vals : List CAmount) (rest : List CAmount) :
    ∀ (i : Nat) (st : ApproxState), vals.drop i = rest →
      (nPass = 0 → ∀ j, i ≤ j → st.vfIncluded.getD j false = false) →
      ApproxInv vals T st →
      ApproxInv vals T (approxInner rand T fIS nCap nPass rest i st) := by
  induction rest with
  | nil => intro i st _ _ inv; exact inv
  | cons v rest ih =>
    intro i st hdrop hsuf inv
    have hi : i < vals.length := by
      by_contra hcon
      rw [List.drop_eq_nil_of_le (not_lt.1 hcon)] at hdrop
      cases hdrop
    have hd := List.drop_eq_getElem_cons hi
    rw [hdrop] at hd
    have hv : vals.getD i 0 = v := by
      rw [List.getD_eq_getElem _ _ hi]
      exact (List.cons.inj hd).1.symm
    have hrest : vals.drop (i + 1) = rest := (List.cons.inj hd).2.symm
    obtain ⟨inv2, hkeep⟩ := approxStep_inv rand T fIS nCap nPass vals st i v hv hi
      (fun hp => hsuf hp i (le_refl i)) inv
    simp only [approxInner]
    refine ih (i + 1) _ hrest ?_ inv2
    intro hp j hj
    rw [hkeep j (by omega)]
    exact hsuf hp j (by omega)

theorem approxRep_inv (rand : Nat → Bool) (T : CAmount) (fIS : Bool) (nCap : CAmount)
    (vals : List CAmount) (st : ApproxState) (inv : BestInv vals T st) :
    BestInv vals T (approxRep rand T fIS nCap vals st) := by
  obtain ⟨l2, s2, hT⟩ := inv
  have inv0 : ApproxInv vals T
      { st with vfIncluded := List.replicate vals.length false, nTotal := 0,
                fReachedTarget := false } :=
    ⟨by simp, flaggedSum_replicate_false vals, l2, s2, hT⟩
  have hrep : ∀ j : Nat, (List.replicate vals.length false).getD j false = false := by
    intro j
    simp only [List.getD_eq_getElem?_getD, List.getElem?_replicate]
    split_ifs <;> rfl
  have inv1 := approxInner_inv rand T fIS nCap 0 vals vals 0 _ (by simp)
    (fun _ j _ => hrep j) inv0
  unfold approxRep
  simp only
  split_ifs
  · exact inv1.2.2
  · exact (approxInner_inv rand T fIS nCap 1 vals vals 0 _ (by simp)
      (fun hp => absurd hp (by decide)) inv1).2.2

theorem approxLoop_inv (rand : Nat → Bool) (T : CAmount) (fIS : Bool) (nCap : CAmount)
    (vals : List CAmount) (n : Nat) :
    ∀ st : ApproxState, BestInv vals T st →
      BestInv vals T (approxLoop rand T fIS nCap vals n st) := by
  induction n with
  | zero => intro st inv; exact inv
  | succ n ih =>
    intro st inv
    simp only [approxLoop]
    split_ifs
    · exact inv
    · exact ih _ (approxRep_inv rand T fIS nCap vals st inv)

theorem approxTrim_spec (T : CAmount) (vals : List CAmount) :
    ∀ (flags : List Bool) (nBest : CAmount), flags.length = vals.length → T ≤ nBest →
      (approxTrim T vals flags nBest).1.length = vals.length ∧
      T ≤ (approxTrim T vals flags nBest).2 ∧
      flaggedSum vals (approxTrim T vals flags nBest).1 - (approxTrim T vals flags nBest).2
        = flaggedSum vals flags - nBest := by
  induction vals with
  | nil =>
    intro flags nBest hlen hT
    cases flags with
    | nil => simp [approxTrim, hT]
    | cons f fs => simp at hlen
  | cons v vs ih =>
    intro flags nBest hlen hT
    cases flags with
    | nil => simp at hlen
    | cons f fs =>
      have hlen2 : fs.length = vs.length := by simpa using hlen
      simp only [approxTrim]
      by_cases hc : (f && decide (nBest - v ≥ T)) = true
      · simp only [hc, if_true]
        have hf : f = true := by
          simp only [Bool.and_eq_true] at hc; exact hc.1
        have hge : T ≤ nBest - v := by
          simp only [Bool.and_eq_true, decide_eq_true_eq] at hc; exact hc.2
        obtain ⟨a, b, c⟩ := ih fs (nBest - v) hlen2 hge
        refine ⟨by simp [a], b, ?_⟩
        simp only [flaggedSum, hf, if_true, Bool.false_eq_true, if_false]
        linarith
      · simp only [hc, Bool.false_eq_true, if_false]
        obtain ⟨a, b, c⟩ := ih fs nBest hlen2 hT
        refine ⟨by simp [a], b, ?_⟩
        simp only [flaggedSum]
        linarith

/-- For every random source, iteration count and InstantSend flag, when the
values sum to `nTotalLower` and that meets the target, the subset returned by
`ApproximateBestSubset` flags coins whose total is `nBest`, and `nBest` meets
the target. -/
theorem approximateBestSubset_spec (rand : Nat → Bool) (nCap : CAmount) (vals : List CAmount)
    (nTotalLower T : CAmount) (iterations : Int) (fIS : Bool)
    (hsum : vals.sum = nTotalLower) (hT : T ≤ nTotalLower) :
    (ApproximateBestSubset rand nCap vals nTotalLower T iterations fIS).1.length = vals.length ∧
    T ≤ (ApproximateBestSubset rand nCap vals nTotalLower T iterations fIS).2 ∧
    flaggedSum vals (ApproximateBestSubset rand nCap vals nTotalLower T iterations fIS).1
      = (ApproximateBestSubset rand nCap vals nTotalLower T iterations fIS).2 := by
  have inv0 : BestInv vals T
      { nTotal := 0, vfIncluded := [], fReachedTarget := false, nBest := nTotalLower,
        vfBest := List.replicate vals.length true, nDraws := 0 } :=
    ⟨by simp, by rw [flaggedSum_replicate_true]; exact hsum, hT⟩
  obtain ⟨l2, s2, h2⟩ := approxLoop_inv rand T fIS nCap vals iterations.toNat _ inv0
  obtain ⟨a, b, c⟩ := approxTrim_spec T vals _ _ l2 h2
  unfold ApproximateBestSubset
  simp only
  refine ⟨a, b, ?_⟩
  rw [s2] at c
  linarith

/-! ## Theorems: soundness of `SelectCoinsMinConf` -/

theorem coinSetInsert_fresh (s : List CInput) (c : CInput) (h : c.key ∉ s.map CInput.key) :
    coinSetInsert s c = s ++ [c] := by
  unfold coinSetInsert
  have : s.any (fun x => decide (x.key = c.key)) = false := by
    rw [List.any_eq_false]
    intro x hx
    simp only [decide_eq_true_eq]
    intro e
    exact h (List.mem_map.2 ⟨x, hx, e⟩)
  simp [this]

theorem coinSet_foldl_fresh (l : List (CAmount × CInput)) :
    ∀ s : List CInput, ((s ++ l.map Prod.snd).map CInput.key).Nodup →
      l.foldl (fun acc c => coinSetInsert acc c.2) s = s ++ l.map Prod.snd := by
  induction l with
  | nil => intro s _; simp
  | cons a t ih =>
    intro s hnd
    simp only [List.foldl_cons]
    have hfresh : a.2.key ∉ s.map CInput.key := by
      simp only [List.map_cons, List.map_append, List.nodup_append, List.nodup_cons] at hnd
      intro hin
      exact hnd.2.2 hin (List.mem_cons_self _ _)
    rw [coinSetInsert_fresh s a.2 hfresh]
    have hnd2 : (((s ++ [a.2]) ++ t.map Prod.snd).map CInput.key).Nodup := by
      simpa using hnd
    rw [ih (s ++ [a.2]) hnd2]
    simp

theorem flaggedCoins_sublist (l : List (CAmount × CInput)) :
    ∀ flags : List Bool, (flaggedCoins l flags).Sublist l := by
  induction l with
  | nil => intro flags; cases flags <;> simp [flaggedCoins]
  | cons a t ih =>
    intro flags
    cases flags with
    | nil => simp [flaggedCoins]
    | cons b bs =>
      simp only [flaggedCoins]
      split_ifs
      · exact (ih bs).cons₂ a
      · exact (ih bs).cons a

theorem flaggedCoins_sum (l : List (CAmount × CInput)) :
    ∀ flags : List Bool,
      ((flaggedCoins l flags).map Prod.fst).sum = flaggedSum (l.map Prod.fst) flags := by
  induction l with
  | nil => intro flags; cases flags <;> simp [flaggedCoins, flaggedSum]
  | cons a t ih =>
    intro flags
    cases flags with
    | nil => simp [flaggedCoins, flaggedSum]
    | cons b bs =>
      simp only [flaggedCoins, List.map_cons, flaggedSum]
      split_ifs
      · simp [ih bs]
      · simp [ih bs]

/-- The facts about a list of `vValue` entries that make a selection built
from it sound. -/
theorem selection_of_entries (vCoins : List COutput) (l : List (CAmount × CInput))
    (hnd : (l.map (fun c => c.2.key)).Nodup)
    (hval : ∀ e ∈ l, e.1 = e.2.nValue)
    (horig : ∀ e ∈ l, ∃ c ∈ vCoins, c.fSpendable = true ∧ e.2 = (c.tx, c.i)) :
    selValue (l.foldl (fun acc c => coinSetInsert acc c.2) [])
        = l.foldl (fun acc c => acc + c.1) 0 ∧
    ((l.foldl (fun acc c => coinSetInsert acc c.2) []).map CInput.key).Nodup ∧
    (∀ x ∈ l.foldl (fun acc c => coinSetInsert acc c.2) [],
      ∃ c ∈ vCoins, c.fSpendable = true ∧ x = (c.tx, c.i)) := by
  have hnd2 : ((([] : List CInput) ++ l.map Prod.snd).map CInput.key).Nodup := by
    simpa [List.map_map, Function.comp] using hnd
  rw [coinSet_foldl_fresh l [] hnd2, foldl_add_fst, zero_add, List.nil_append]
  refine ⟨?_, by simpa [List.map_map, Function.comp] using hnd, ?_⟩
  · unfold selValue
    rw [List.map_map]
    congr 1
    apply List.map_congr_left
    intro e he
    exact (hval e he).symm
  · intro x hx
    obtain ⟨e, he, rfl⟩ := List.mem_map.1 hx
    exact horig e he

theorem eligible_spendable (env : WalletEnv) (nConfMine nConfTheirs : Int) (c : COutput)
    (h : eligible env nConfMine nConfTheirs c = true) : c.fSpendable = true := by
  simp only [eligible, Bool.and_eq_true] at h
  exact h.1

theorem soundSelection_single (vCoins : List COutput) (T : CAmount) (nThreshold : CAmount)
    (hthr : T ≤ nThreshold) (c : CInput) (v : CAmount) (n : Nat)
    (h : ∃ o ∈ vCoins, o.fSpendable = true ∧ c = (o.tx, o.i) ∧ v = o.nValue ∧
      nThreshold ≤ o.nValue) :
    SoundSelection vCoins T
      { fSuccess := true, setCoinsRet := coinSetInsert [] c, nValueRet := 0 + v,
        nApproxCalls := n } := by
  obtain ⟨o, ho, hsp, rfl, rfl, hge⟩ := h
  refine ⟨fun _ => ?_, (by intro h; cases h), ?_, by simp [coinSetInsert], ?_⟩
  · simp only [zero_add]; linarith
  · simp [selValue, coinSetInsert, COutput.nValue]
  · intro x hx
    simp only [coinSetInsert, List.any_nil, Bool.false_eq_true, if_false, List.nil_append,
      List.mem_singleton] at hx
    exact ⟨o, ho, hsp, hx⟩

theorem soundSelection_flagged (vCoins : List COutput) (T : CAmount)
    (vV : List (CAmount × CInput))
    (hB : ∀ e ∈ vV, e.1 = e.2.nValue ∧ ∃ c ∈ vCoins, c.fSpendable = true ∧ e.2 = (c.tx, c.i))
    (hBnd : (vV.map (fun c => c.2.key)).Nodup)
    (flags : List Bool) (nBest : CAmount) (n : Nat) (hge : T ≤ nBest)
    (hfs : flaggedSum (vV.map Prod.fst) flags = nBest) :
    SoundSelection vCoins T
      { fSuccess := true,
        setCoinsRet := (flaggedCoins vV flags).foldl (fun acc c => coinSetInsert acc c.2) [],
        nValueRet := (flaggedCoins vV flags).foldl (fun acc c => acc + c.1) 0,
        nApproxCalls := n } := by
  have hsub := flaggedCoins_sublist vV flags
  obtain ⟨a, b, c⟩ := selection_of_entries vCoins (flaggedCoins vV flags)
    (hBnd.sublist (hsub.map _))
    (fun e he => (hB e (hsub.subset he)).1) (fun e he => (hB e (hsub.subset he)).2)
  refine ⟨fun _ => ?_, (by intro h; cases h), a, b, c⟩
  show T ≤ (flaggedCoins vV flags).foldl (fun acc c => acc + c.1) 0
  rw [foldl_add_fst, zero_add, flaggedCoins_sum, hfs]
  exact hge

theorem approxPhase_sound (env : WalletEnv) (rs : RandomSource) (T : CAmount)
    (fUseInstantSend : Bool) (st : ScanState) (vCoins : List COutput) (L : CAmount)
    (hL : L ≤ T) (hthr : L ≤ toInt64 (T + env.MIN_CHANGE)) (hgt : T < st.nTotalLower)
    (hsum : (st.vValue.map Prod.fst).sum = st.nTotalLower)
    (hB : ∀ e ∈ st.vValue,
      e.1 = e.2.nValue ∧ ∃ c ∈ vCoins, c.fSpendable = true ∧ e.2 = (c.tx, c.i))
    (hBnd : (st.vValue.map (fun c => c.2.key)).Nodup)
    (hLow : ∀ c, st.coinLowestLarger.2 = some c →
      ∃ o ∈ vCoins, o.fSpendable = true ∧ c = (o.tx, o.i) ∧ st.coinLowestLarger.1 = o.nValue ∧
        toInt64 (T + env.MIN_CHANGE) ≤ o.nValue) :
    SoundSelection vCoins L (approxPhase env rs T fUseInstantSend st) := by
  have hperm : (sortDescending st.vValue).Perm st.vValue := List.perm_insertionSort _ _
  have hsumS : ((sortDescending st.vValue).map Prod.fst).sum = st.nTotalLower := by
    rw [((hperm.map Prod.fst).sum_eq), hsum]
  have hBS : ∀ e ∈ sortDescending st.vValue,
      e.1 = e.2.nValue ∧ ∃ c ∈ vCoins, c.fSpendable = true ∧ e.2 = (c.tx, c.i) :=
    fun e he => hB e (hperm.mem_iff.1 he)
  have hndS : ((sortDescending st.vValue).map (fun c => c.2.key)).Nodup := by
    rw [((hperm.map (fun c => c.2.key)).nodup_iff)]
    exact hBnd
  unfold approxPhase
  simp only
  generalize (if fUseInstantSend = true then (1 : Int) else 0) = iters
  obtain ⟨_, r1ge, r1s⟩ := approximateBestSubset_spec rs.bits1
    (env.nInstantSendMaxValue * env.COIN) ((sortDescending st.vValue).map Prod.fst)
    st.nTotalLower T iters false hsumS (le_of_lt hgt)
  generalize ApproximateBestSubset rs.bits1 (env.nInstantSendMaxValue * env.COIN)
    ((sortDescending st.vValue).map Prod.fst) st.nTotalLower T iters false = r1 at r1ge r1s ⊢
  by_cases hsec : (decide (r1.2 ≠ T) && decide (st.nTotalLower ≥ toInt64 (T + env.MIN_CHANGE))) = true
  · simp only [hsec, if_true]
    have hge2 : toInt64 (T + env.MIN_CHANGE) ≤ st.nTotalLower := by
      simp only [Bool.and_eq_true, decide_eq_true_eq] at hsec
      exact hsec.2
    obtain ⟨_, r2ge, r2s⟩ := approximateBestSubset_spec rs.bits2
      (env.nInstantSendMaxValue * env.COIN) ((sortDescending st.vValue).map Prod.fst)
      st.nTotalLower (toInt64 (T + env.MIN_CHANGE)) iters false hsumS hge2
    generalize ApproximateBestSubset rs.bits2 (env.nInstantSendMaxValue * env.COIN)
      ((sortDescending st.vValue).map Prod.fst) st.nTotalLower (toInt64 (T + env.MIN_CHANGE)) iters false
      = r2 at r2ge r2s ⊢
    cases e3 : st.coinLowestLarger.2 with
    | none => exact soundSelection_flagged vCoins L _ hBS hndS _ _ 2 (le_trans hthr r2ge) r2s
    | some c =>
      simp only
      split_ifs
      · exact soundSelection_single vCoins L _ hthr c _ 2 (hLow c e3)
      · exact soundSelection_flagged vCoins L _ hBS hndS _ _ 2 (le_trans hthr r2ge) r2s
  · simp only [hsec, Bool.false_eq_true, if_false]
    cases e3 : st.coinLowestLarger.2 with
    | none => exact soundSelection_flagged vCoins L _ hBS hndS _ _ 1 (le_trans hL r1ge) r1s
    | some c =>
      simp only
      split_ifs
      · exact soundSelection_single vCoins L _ hthr c _ 1 (hLow c e3)
      · exact soundSelection_flagged vCoins L _ hBS hndS _ _ 1 (le_trans hL r1ge) r1s

theorem selectCoinsMinConf_sound (env : WalletEnv) (rs : RandomSource) (nTargetValue : CAmount)
    (nConfMine nConfTheirs : Int) (nMaxAncestors : Nat) (vCoins : List COutput)
    (fUseInstantSend : Bool) (L : CAmount) (hLT : L ≤ nTargetValue)
    (hthr : L ≤ toInt64 (nTargetValue + env.MIN_CHANGE))
    (hnd : (vCoins.map COutput.key).Nodup) :
    SoundSelection vCoins L
      (SelectCoinsMinConf env rs nTargetValue nConfMine nConfTheirs nMaxAncestors vCoins
        fUseInstantSend) := by
  by_cases hex : ∃ c ∈ vCoins, eligible env nConfMine nConfTheirs c = true ∧
      c.nValue = nTargetValue
  · obtain ⟨c, hc, he, hv, hr⟩ := selectCoinsMinConf_exact env rs nTargetValue nConfMine
      nConfTheirs nMaxAncestors vCoins fUseInstantSend hex
    rw [hr]
    refine ⟨fun _ => hLT, (by intro h; cases h), ?_, by simp, ?_⟩
    · simp [selValue, ← hv, COutput.nValue]
    · intro x hx
      simp only [List.mem_singleton] at hx
      exact ⟨c, hc, eligible_spendable _ _ _ _ he, hx⟩
  · have hne : ∀ c ∈ vCoins, eligible env nConfMine nConfTheirs c = true →
        c.nValue ≠ nTargetValue := fun c hc he hv => hex ⟨c, hc, he, hv⟩
    rw [selectCoinsMinConf_noexact env rs nTargetValue nConfMine nConfTheirs nMaxAncestors
      vCoins fUseInstantSend hne]
    have hB : ∀ e ∈ (scanFinal env nTargetValue nConfMine nConfTheirs fUseInstantSend
        (rs.order vCoins)).vValue,
        e.1 = e.2.nValue ∧ ∃ c ∈ vCoins, c.fSpendable = true ∧ e.2 = (c.tx, c.i) := by
      intro e he
      obtain ⟨c, hc, rfl⟩ := List.mem_map.1 he
      obtain ⟨h1, h2, _⟩ := (mem_belowCoins_order _ _ _ _ _ _ _).1 hc
      exact ⟨rfl, c, h1, eligible_spendable _ _ _ _ h2, rfl⟩
    have hBnd : ((scanFinal env nTargetValue nConfMine nConfTheirs fUseInstantSend
        (rs.order vCoins)).vValue.map (fun c => c.2.key)).Nodup := by
      show (((belowCoins env nTargetValue nConfMine nConfTheirs (rs.order vCoins)).map
        COutput.toCoin).map (fun c => c.2.key)).Nodup
      rw [List.map_map]
      have h1 : ((rs.order vCoins).map COutput.key).Nodup :=
        (((rs.order_perm vCoins).map COutput.key).nodup_iff).2 hnd
      exact h1.sublist ((List.filter_sublist _).map _)
    have hL : ∀ c, (scanFinal env nTargetValue nConfMine nConfTheirs fUseInstantSend
        (rs.order vCoins)).coinLowestLarger.2 = some c →
        ∃ o ∈ vCoins, o.fSpendable = true ∧ c = (o.tx, o.i) ∧
          (scanFinal env nTargetValue nConfMine nConfTheirs fUseInstantSend
            (rs.order vCoins)).coinLowestLarger.1 = o.nValue ∧
          toInt64 (nTargetValue + env.MIN_CHANGE) ≤ o.nValue := by
      intro c hc
      have hl : (scanFinal env nTargetValue nConfMine nConfTheirs fUseInstantSend
          (rs.order vCoins)).coinLowestLarger
          = lowestFold (lowestCeiling env fUseInstantSend, none)
            (largerCoins env nTargetValue nConfMine nConfTheirs (rs.order vCoins)) := rfl
      rw [hl] at hc ⊢
      rcases lowestFold_spec (largerCoins env nTargetValue nConfMine nConfTheirs
        (rs.order vCoins)) (lowestCeiling env fUseInstantSend, none) with
        ⟨e, _⟩ | ⟨o, ho, e, _, _⟩
      · rw [e] at hc; cases hc
      · rw [e] at hc ⊢
        obtain ⟨h1, h2, h3⟩ := (mem_largerCoins_order _ _ _ _ _ _ _).1 ho
        cases hc
        exact ⟨o, h1, eligible_spendable _ _ _ _ h2, rfl, rfl, h3⟩
    have hsumB : ((scanFinal env nTargetValue nConfMine nConfTheirs fUseInstantSend
        (rs.order vCoins)).vValue.map Prod.fst).sum
        = (scanFinal env nTargetValue nConfMine nConfTheirs fUseInstantSend
            (rs.order vCoins)).nTotalLower := by
      show (((belowCoins env nTargetValue nConfMine nConfTheirs (rs.order vCoins)).map
        COutput.toCoin).map Prod.fst).sum = _
      rw [List.map_map]; rfl
    generalize scanFinal env nTargetValue nConfMine nConfTheirs fUseInstantSend
      (rs.order vCoins) = st at hL hB hBnd hsumB ⊢
    unfold resultOfScan
    by_cases e1 : st.nTotalLower = nTargetValue
    · simp only [e1, if_true]
      obtain ⟨a, b, c⟩ := selection_of_entries vCoins st.vValue hBnd
        (fun e he => (hB e he).1) (fun e he => (hB e he).2)
      refine ⟨fun _ => ?_, (by intro h; cases h), a, b, c⟩
      show L ≤ st.vValue.foldl (fun acc c => acc + c.1) 0
      rw [foldl_add_fst, zero_add, hsumB, e1]
      exact hLT
    · by_cases e2 : st.nTotalLower < nTargetValue
      · simp only [e1, if_false, e2, if_true]
        cases e3 : st.coinLowestLarger.2 with
        | none =>
          exact ⟨(by intro h; cases h), fun _ => ⟨rfl, rfl⟩, rfl, by simp, by simp⟩
        | some c =>
          exact soundSelection_single vCoins L _ hthr c _ 0 (hL c e3)
      · simp only [e1, if_false, e2]
        have hgt : nTargetValue < st.nTotalLower :=
          lt_of_le_of_ne (not_lt.1 e2) (fun e => e1 e.symm)
        exact approxPhase_sound env rs nTargetValue fUseInstantSend st vCoins L hLT hthr hgt
          hsumB hB hBnd hL

/-! ## Theorems: candidates of `AvailableCoins` -/

theorem availableOutput_some (env : WalletEnv) (w : CWallet) (cc : Option CCoinControl)
    (fz : Bool) (ct : AvailableCoinsType) (wtxid : uint256) (pcoin : CWalletTx) (nDepth : Int)
    (i : Nat) (txout : CTxOut) (c : COutput)
    (h : availableOutput env w cc fz ct wtxid pcoin nDepth i txout = some c) :
    c = makeOutput env cc pcoin nDepth i txout ∧
      availableCond env w cc fz ct wtxid i txout = true := by
  unfold availableOutput at h
  by_cases h1 : (!coinTypeFound env ct txout.nValue) = true
  · simp [h1] at h
  · by_cases h2 : availableCond env w cc fz ct wtxid i txout = true
    · simp only [h1, Bool.false_eq_true, if_false, h2, if_true, Option.some.injEq] at h
      exact ⟨h.symm, h2⟩
    · simp [h1, h2] at h

theorem availableCond_pos (env : WalletEnv) (w : CWallet) (cc : Option CCoinControl)
    (ct : AvailableCoinsType) (wtxid : uint256) (i : Nat) (txout : CTxOut)
    (h : availableCond env w cc false ct wtxid i txout = true) : txout.nValue > 0 := by
  simp only [availableCond, Bool.or_false, Bool.and_eq_true, decide_eq_true_eq] at h
  exact h.1.2

theorem mem_availableOutputs (env : WalletEnv) (w : CWallet) (cc : Option CCoinControl)
    (fz : Bool) (ct : AvailableCoinsType) (wtxid : uint256) (pcoin : CWalletTx) (nDepth : Int)
    (rest : List CTxOut) :
    ∀ (i : Nat) (c : COutput), pcoin.vout.drop i = rest →
      c ∈ availableOutputs env w cc fz ct wtxid pcoin nDepth i rest →
      c.tx = pcoin ∧ i ≤ c.i ∧ c.nDepth = nDepth ∧ (fz = false → c.nValue > 0) := by
  induction rest with
  | nil => intro i c _ hc; simp [availableOutputs] at hc
  | cons txout rest ih =>
    intro i c hdrop hc
    have hi : i < pcoin.vout.length := by
      by_contra hcon
      rw [List.drop_eq_nil_of_le (not_lt.1 hcon)] at hdrop
      cases hdrop
    have hd := List.drop_eq_getElem_cons hi
    rw [hdrop] at hd
    have hv : pcoin.vout.getD i ⟨0, 0, 0⟩ = txout := by
      rw [List.getD_eq_getElem _ _ hi]
      exact (List.cons.inj hd).1.symm
    have hrest : pcoin.vout.drop (i + 1) = rest := (List.cons.inj hd).2.symm
    simp only [availableOutputs] at hc
    cases ho : availableOutput env w cc fz ct wtxid pcoin nDepth i txout with
    | none =>
      rw [ho] at hc
      obtain ⟨a, b, c2, d⟩ := ih (i + 1) c hrest hc
      exact ⟨a, by omega, c2, d⟩
    | some o =>
      rw [ho] at hc
      rcases List.mem_cons.1 hc with e | e
      · subst e
        obtain ⟨a, d⟩ := availableOutput_some _ _ _ _ _ _ _ _ _ _ _ ho
        subst a
        refine ⟨rfl, le_refl _, rfl, ?_⟩
        intro hfz
        subst hfz
        have : (makeOutput env cc pcoin nDepth i txout).nValue = txout.nValue := by
          simp only [COutput.nValue, CInput.nValue, makeOutput, hv]
        rw [this]
        exact availableCond_pos _ _ _ _ _ _ _ d
      · obtain ⟨a, b, c2, d⟩ := ih (i + 1) c hrest e
        exact ⟨a, by omega, c2, d⟩

theorem mem_availableOfTx (env : WalletEnv) (w : CWallet) (fOnly : Bool)
    (cc : Option CCoinControl) (fz : Bool) (ct : AvailableCoinsType) (fIS : Bool)
    (wtxid : uint256) (pcoin : CWalletTx) (c : COutput)
    (hc : c ∈ availableOfTx env w fOnly cc fz ct fIS wtxid pcoin) :
    c.tx = pcoin ∧ c.nDepth = GetDepthInMainChainIX env pcoin false ∧
      (fz = false → c.nValue > 0) ∧ (fOnly = true → IsTrusted env w pcoin = true) := by
  unfold availableOfTx at hc
  by_cases h1 : (!env.CheckFinalTx pcoin) = true
  · simp [h1] at hc
  · by_cases h2 : (fOnly && !IsTrusted env w pcoin) = true
    · simp [h1, h2] at hc
    · by_cases h3 : (pcoin.fCoinBase && decide (GetBlocksToMaturity env pcoin > 0)) = true
      · simp [h1, h2, h3] at hc
      · simp only [h1, h2, h3, Bool.false_eq_true, if_false] at hc
        split_ifs at hc
        · exact absurd hc (List.not_mem_nil _)
        · exact absurd hc (List.not_mem_nil _)
        · obtain ⟨a, _, c2, d⟩ := mem_availableOutputs env w cc fz ct wtxid pcoin _ pcoin.vout 0 c
            (by simp) hc
          refine ⟨a, c2, d, ?_⟩
          intro hf
          simpa [hf] using h2

theorem availableOutputs_keys (env : WalletEnv) (w : CWallet) (cc : Option CCoinControl)
    (fz : Bool) (ct : AvailableCoinsType) (wtxid : uint256) (pcoin : CWalletTx) (nDepth : Int)
    (rest : List CTxOut) :
    ∀ (i : Nat), pcoin.vout.drop i = rest →
      ((availableOutputs env w cc fz ct wtxid pcoin nDepth i rest).map COutput.key).Nodup := by
  induction rest with
  | nil => intro i _; simp [availableOutputs]
  | cons txout rest ih =>
    intro i hdrop
    have hi : i < pcoin.vout.length := by
      by_contra hcon
      rw [List.drop_eq_nil_of_le (not_lt.1 hcon)] at hdrop
      cases hdrop
    have hd := List.drop_eq_getElem_cons hi
    rw [hdrop] at hd
    have hrest : pcoin.vout.drop (i + 1) = rest := (List.cons.inj hd).2.symm
    simp only [availableOutputs]
    cases ho : availableOutput env w cc fz ct wtxid pcoin nDepth i txout with
    | none => exact ih (i + 1) hrest
    | some o =>
      simp only [List.map_cons, List.nodup_cons]
      refine ⟨?_, ih (i + 1) hrest⟩
      intro hin
      obtain ⟨c, hc, hkey⟩ := List.mem_map.1 hin
      obtain ⟨_, hge, _, _⟩ := mem_availableOutputs env w cc fz ct wtxid pcoin nDepth rest
        (i + 1) c hrest hc
      obtain ⟨ho2, _⟩ := availableOutput_some _ _ _ _ _ _ _ _ _ _ _ ho
      have : c.i = o.i := by
        have := congrArg Prod.snd hkey
        exact this
      rw [ho2] at this
      simp only [makeOutput] at this
      omega

theorem availableOfTx_keys (env : WalletEnv) (w : CWallet) (fOnly : Bool)
    (cc : Option CCoinControl) (fz : Bool) (ct : AvailableCoinsType) (fIS : Bool)
    (wtxid : uint256) (pcoin : CWalletTx) :
    ((availableOfTx env w fOnly cc fz ct fIS wtxid pcoin).map COutput.key).Nodup := by
  unfold availableOfTx
  simp only
  split_ifs
  all_goals first
    | exact List.nodup_nil
    | exact availableOutputs_keys env w cc fz ct wtxid pcoin _ pcoin.vout 0 (by simp)

theorem availableCoins_keys_aux (env : WalletEnv) (w : CWallet) (fOnly : Bool)
    (cc : Option CCoinControl) (fz : Bool) (ct : AvailableCoinsType) (fIS : Bool)
    (l : List (uint256 × CWalletTx)) (hnd : (l.map Prod.fst).Nodup)
    (hk : ∀ e ∈ l, e.2.hash = e.1) :
    ((l.flatMap (fun e => availableOfTx env w fOnly cc fz ct fIS e.1 e.2)).map
      COutput.key).Nodup := by
  induction l with
  | nil => simp
  | cons e t ih =>
    simp only [List.map_cons, List.nodup_cons] at hnd
    simp only [List.flatMap_cons, List.map_append]
    rw [List.nodup_append]
    refine ⟨availableOfTx_keys _ _ _ _ _ _ _ _ _, ih hnd.2
      (fun e2 h2 => hk e2 (List.mem_cons_of_mem _ h2)), ?_⟩
    intro key h1 h2
    obtain ⟨c1, hc1, hk1⟩ := List.mem_map.1 h1
    obtain ⟨c2, hc2, hk2⟩ := List.mem_map.1 h2
    obtain ⟨e2, he2, hin2⟩ := List.mem_flatMap.1 hc2
    have t1 := (mem_availableOfTx env w fOnly cc fz ct fIS e.1 e.2 c1 hc1).1
    have t2 := (mem_availableOfTx env w fOnly cc fz ct fIS e2.1 e2.2 c2 hin2).1
    have hh : e.2.hash = e2.2.hash := by
      have a1 : c1.tx.hash = key.1 := congrArg Prod.fst hk1
      have a2 : c2.tx.hash = key.1 := congrArg Prod.fst hk2
      rw [← t1, ← t2, a1, a2]
    rw [hk e (List.mem_cons_self _ _), hk e2 (List.mem_cons_of_mem _ he2)] at hh
    exact hnd.1 (List.mem_map.2 ⟨e2, he2, hh.symm⟩)

theorem availableCoins_keys (env : WalletEnv) (w : CWallet) (fOnly : Bool)
    (cc : Option CCoinControl) (fz : Bool) (ct : AvailableCoinsType) (fIS : Bool)
    (hwf : WalletWF w) :
    ((AvailableCoins env w fOnly cc fz ct fIS).map COutput.key).Nodup :=
  availableCoins_keys_aux env w fOnly cc fz ct fIS w.mapWallet hwf.1 hwf.2

theorem eligible_sum_split (env : WalletEnv) (T : CAmount) (nConfMine nConfTheirs : Int)
    (l : List COutput) :
    ((l.filter (fun c => eligible env nConfMine nConfTheirs c)).map COutput.nValue).sum =
      ((belowCoins env T nConfMine nConfTheirs l).map COutput.nValue).sum +
      ((largerCoins env T nConfMine nConfTheirs l).map COutput.nValue).sum := by
  induction l with
  | nil => simp [belowCoins, largerCoins]
  | cons a t ih =>
    unfold belowCoins largerCoins at ih ⊢
    simp only [List.filter_cons]
    by_cases he : eligible env nConfMine nConfTheirs a = true
    · by_cases hb : a.nValue < toInt64 (T + env.MIN_CHANGE)
      · simp only [he, hb, decide_True, Bool.and_self, if_true, List.map_cons, List.sum_cons,
          Bool.not_true, Bool.and_false, Bool.false_eq_true, if_false, ih]
        ring
      · simp only [he, hb, decide_False, Bool.and_false, Bool.false_eq_true, if_false, if_true,
          List.map_cons, List.sum_cons, Bool.not_false, Bool.and_self, ih]
        ring
    · have he2 : eligible env nConfMine nConfTheirs a = false := Bool.eq_false_iff.2 he
      simp only [he2, Bool.false_and, Bool.false_eq_true, if_false, ih]

theorem approxPhase_success (env : WalletEnv) (rs : RandomSource) (T : CAmount) (fIS : Bool)
    (st : ScanState) : (approxPhase env rs T fIS st).fSuccess = true := by
  unfold approxPhase
  simp only
  split
  · split_ifs <;> rfl
  · rfl

theorem selectCoinsMinConf_succeeds (env : WalletEnv) (rs : RandomSource) (T : CAmount)
    (nConfMine nConfTheirs : Int) (nMaxAncestors : Nat) (vCoins : List COutput)
    (hlt : ∀ c ∈ vCoins, eligible env nConfMine nConfTheirs c = true → c.nValue < INT64_MAX)
    (hsum : T ≤ ((vCoins.filter (fun c => eligible env nConfMine nConfTheirs c)).map
      COutput.nValue).sum) :
    (SelectCoinsMinConf env rs T nConfMine nConfTheirs nMaxAncestors vCoins false).fSuccess
      = true := by
  by_cases hex : ∃ c ∈ vCoins, eligible env nConfMine nConfTheirs c = true ∧ c.nValue = T
  · obtain ⟨c, _, _, _, hr⟩ := selectCoinsMinConf_exact env rs T nConfMine nConfTheirs
      nMaxAncestors vCoins false hex
    rw [hr]
  · have hne : ∀ c ∈ vCoins, eligible env nConfMine nConfTheirs c = true → c.nValue ≠ T :=
      fun c hc he hv => hex ⟨c, hc, he, hv⟩
    rw [selectCoinsMinConf_noexact env rs T nConfMine nConfTheirs nMaxAncestors vCoins false hne]
    have hl : (scanFinal env T nConfMine nConfTheirs false (rs.order vCoins)).coinLowestLarger
        = lowestFold (lowestCeiling env false, none)
          (largerCoins env T nConfMine nConfTheirs (rs.order vCoins)) := rfl
    have hs : (scanFinal env T nConfMine nConfTheirs false (rs.order vCoins)).nTotalLower
        = ((belowCoins env T nConfMine nConfTheirs vCoins).map COutput.nValue).sum := by
      show ((belowCoins env T nConfMine nConfTheirs (rs.order vCoins)).map COutput.nValue).sum = _
      exact belowCoins_sum_order _ _ _ _ _ _
    unfold resultOfScan
    by_cases e1 : (scanFinal env T nConfMine nConfTheirs false (rs.order vCoins)).nTotalLower = T
    · simp only [e1, if_true]
    · by_cases e2 : (scanFinal env T nConfMine nConfTheirs false (rs.order vCoins)).nTotalLower < T
      · simp only [e1, if_false, e2, if_true]
        cases e3 : (scanFinal env T nConfMine nConfTheirs false
            (rs.order vCoins)).coinLowestLarger.2 with
        | some c => rfl
        | none =>
          exfalso
          rw [hl] at e3
          obtain ⟨_, hall⟩ := lowestFold_none _ _ e3
          have hempty : largerCoins env T nConfMine nConfTheirs vCoins = [] := by
            rw [List.eq_nil_iff_forall_not_mem]
            intro c hc
            have hc2 : c ∈ largerCoins env T nConfMine nConfTheirs (rs.order vCoins) := by
              unfold largerCoins at hc ⊢
              rw [List.mem_filter] at hc ⊢
              exact ⟨(rs.order_perm vCoins).mem_iff.2 hc.1, hc.2⟩
            obtain ⟨h1, h2, _⟩ := (mem_largerCoins_order _ _ _ _ _ _ _).1 hc2
            exact hall c hc2 (hlt c h1 h2)
          rw [eligible_sum_split env T, hempty] at hsum
          rw [hs] at e2
          simp only [List.map_nil, List.sum_nil, add_zero] at hsum
          exact absurd e2 (not_lt.2 hsum)
      · simp only [e1, if_false, e2]
        exact approxPhase_success _ _ _ _ _

theorem soundSelection_calls (vCoins : List COutput) (T : CAmount) (r : SelectResult) (n : Nat)
    (h : SoundSelection vCoins T r) :
    SoundSelection vCoins T { r with nApproxCalls := n } := h

theorem runTiers_sound (env : WalletEnv) (rs : Nat → RandomSource) (T : CAmount)
    (vCoins : List COutput) (fIS : Bool) (hthr : T ≤ toInt64 (T + env.MIN_CHANGE))
    (hnd : (vCoins.map COutput.key).Nodup) (tiers : List Tier) :
    ∀ (k : Nat) (cur : SelectResult), cur.fSuccess = false →
      (runTiers env rs T vCoins fIS tiers k cur).fSuccess = true →
      SoundSelection vCoins T (runTiers env rs T vCoins fIS tiers k cur) := by
  induction tiers with
  | nil =>
    intro k cur hc hs
    simp only [runTiers] at hs
    rw [hc] at hs
    cases hs
  | cons t rest ih =>
    intro k cur hc hs
    simp only [runTiers] at hs ⊢
    by_cases hen : t.fEnabled = true
    · simp only [hen, Bool.not_true, Bool.false_eq_true, if_false] at hs ⊢
      by_cases hr : (SelectCoinsMinConf env (rs k) T t.nConfMine t.nConfTheirs t.nMaxAncestors
          vCoins fIS).fSuccess = true
      · rw [if_pos hr]
        exact soundSelection_calls vCoins T _ _
          (selectCoinsMinConf_sound env (rs k) T t.nConfMine t.nConfTheirs t.nMaxAncestors
            vCoins fIS T (le_refl T) hthr hnd)
      · rw [if_neg hr] at hs ⊢
        exact ih (k + 1) _ (Bool.eq_false_iff.2 hr) hs
    · have hen2 : t.fEnabled = false := Bool.eq_false_iff.2 hen
      simp only [hen2, Bool.not_false, if_true] at hs ⊢
      exact ih (k + 1) cur hc hs

theorem coinSet_foldl_fresh_map {α : Type} (f : α → CInput) (l : List α) :
    ∀ s : List CInput, ((s ++ l.map f).map CInput.key).Nodup →
      l.foldl (fun acc a => coinSetInsert acc (f a)) s = s ++ l.map f := by
  induction l with
  | nil => intro s _; simp
  | cons a t ih =>
    intro s hnd
    simp only [List.foldl_cons]
    have hfresh : (f a).key ∉ s.map CInput.key := by
      simp only [List.map_cons, List.map_append, List.nodup_append, List.nodup_cons] at hnd
      intro hin
      exact hnd.2.2 hin (List.mem_cons_self _ _)
    rw [coinSetInsert_fresh s (f a) hfresh]
    have hnd2 : (((s ++ [f a]) ++ t.map f).map CInput.key).Nodup := by
      simpa using hnd
    rw [ih (s ++ [f a]) hnd2]
    simp

theorem mapFind_mem (m : List (uint256 × CWalletTx)) (k : uint256) (v : CWalletTx)
    (h : mapFind m k = some v) : (k, v) ∈ m := by
  induction m with
  | nil => simp [mapFind] at h
  | cons p t ih =>
    obtain ⟨a, b⟩ := p
    by_cases e : a = k
    · subst e
      simp only [mapFind, if_true, Option.some.injEq] at h
      subst h
      exact List.mem_cons_self _ _
    · simp only [mapFind, e, if_false] at h
      exact List.mem_cons_of_mem _ (ih h)

theorem collectPresets_spec (w : CWallet) (hwf : WalletWF w) (ops : List COutPoint) :
    ∀ (v : CAmount) (s : List CInput) (pv : CAmount) (ps : List CInput),
      collectPresets w ops v s = some (pv, ps) → selValue s = v →
      (s.map CInput.key ++ ops.map (fun o => (o.hash, o.n))).Nodup →
      selValue ps = pv ∧ (ps.map CInput.key).Nodup := by
  induction ops with
  | nil =>
    intro v s pv ps h hv hnd
    simp only [collectPresets, Option.some.injEq, Prod.mk.injEq] at h
    obtain ⟨rfl, rfl⟩ := h
    exact ⟨hv, by simpa using hnd⟩
  | cons o rest ih =>
    intro v s pv ps h hv hnd
    simp only [collectPresets] at h
    cases hf : mapFind w.mapWallet o.hash with
    | none => rw [hf] at h; cases h
    | some pcoin =>
      rw [hf] at h
      simp only at h
      split_ifs at h with hlen
      have hh : pcoin.hash = o.hash := hwf.2 _ (mapFind_mem _ _ _ hf)
      have hkey : CInput.key (pcoin, o.n) = (o.hash, o.n) := by
        simp [CInput.key, hh]
      have hfresh : CInput.key (pcoin, o.n) ∉ s.map CInput.key := by
        rw [hkey]
        simp only [List.map_cons, List.nodup_append, List.nodup_cons] at hnd
        intro hin
        exact hnd.2.2 hin (List.mem_cons_self _ _)
      rw [coinSetInsert_fresh s _ hfresh] at h
      refine ih _ _ pv ps h ?_ ?_
      · simp [selValue, ← hv]
      · simp only [List.map_append, List.map_cons, List.map_nil, hkey, List.append_assoc,
          List.singleton_append]
        simpa using hnd

theorem collectPresets_keys (w : CWallet) (ops : List COutPoint) :
    ∀ (v : CAmount) (s : List CInput) (pv : CAmount) (ps : List CInput),
      collectPresets w ops v s = some (pv, ps) → s = [] ∨ ops ≠ [] → ps ≠ [] → ops ≠ [] := by
  intro v s pv ps h hs hps hops
  subst hops
  simp only [collectPresets, Option.some.injEq, Prod.mk.injEq] at h
  rcases hs with hs | hs
  · rw [hs] at h; exact hps h.2.symm
  · exact hs rfl

theorem foldl_add_nValue (l : List COutput) :
    ∀ acc : CAmount,
      l.foldl (fun acc out => acc + out.nValue) acc = acc + (l.map COutput.nValue).sum := by
  induction l with
  | nil => intro acc; simp
  | cons a t ih => intro acc; simp [ih, add_assoc]

theorem selectOnlySelected_sound (vCoins : List COutput) (T : CAmount)
    (hkeys : (vCoins.map COutput.key).Nodup)
    (hs : (selectOnlySelected vCoins T [] 0).fSuccess = true) :
    T ≤ (selectOnlySelected vCoins T [] 0).nValueRet ∧
      selValue (selectOnlySelected vCoins T [] 0).setCoinsRet
        = (selectOnlySelected vCoins T [] 0).nValueRet := by
  unfold selectOnlySelected at hs ⊢
  simp only [decide_eq_true_eq] at hs
  refine ⟨hs, ?_⟩
  simp only
  have hnd : ((([] : List CInput) ++ (vCoins.filter (fun out => out.fSpendable)).map
      (fun out => (out.tx, out.i))).map CInput.key).Nodup := by
    simp only [List.nil_append, List.map_map]
    exact hkeys.sublist ((List.filter_sublist _).map _)
  rw [coinSet_foldl_fresh_map (fun out : COutput => (out.tx, out.i)) _ [] hnd, foldl_add_nValue]
  simp only [selValue, List.nil_append, List.map_map, zero_add]
  rfl

theorem foldl_coinSetInsert_fresh (ps s : List CInput)
    (hnd : ((s ++ ps).map CInput.key).Nodup) : ps.foldl coinSetInsert s = s ++ ps := by
  have hnd3 : ((s ++ ps.map id).map CInput.key).Nodup := by
    simpa using hnd
  have := coinSet_foldl_fresh_map id ps s hnd3
  simpa using this

theorem selectWithPresets_sound (env : WalletEnv) (rs : Nat → RandomSource) (T : CAmount)
    (vCoins : List COutput) (fIS : Bool) (pv : CAmount) (ps : List CInput)
    (hthr : pv < T → T - pv ≤ toInt64 (T - pv + env.MIN_CHANGE))
    (hnd : (vCoins.map COutput.key).Nodup)
    (hpv : selValue ps = pv) (hpnd : (ps.map CInput.key).Nodup)
    (hdisj : ∀ c ∈ vCoins, c.key ∉ ps.map CInput.key)
    (hs : (selectWithPresets env rs T vCoins fIS pv ps [] 0).fSuccess = true) :
    T ≤ (selectWithPresets env rs T vCoins fIS pv ps [] 0).nValueRet ∧
      selValue (selectWithPresets env rs T vCoins fIS pv ps [] 0).setCoinsRet
        = (selectWithPresets env rs T vCoins fIS pv ps [] 0).nValueRet := by
  unfold selectWithPresets at hs ⊢
  simp only at hs ⊢
  unfold tiersResult at hs ⊢
  by_cases hle : T ≤ pv
  · rw [if_pos hle]
    simp only
    rw [foldl_coinSetInsert_fresh ps [] (by simpa using hpnd)]
    simp only [List.nil_append, zero_add]
    exact ⟨hle, hpv⟩
  · rw [if_neg hle] at hs ⊢
    obtain ⟨h1, _, h3, h4, h5⟩ := runTiers_sound env rs (T - pv) vCoins fIS
      (hthr (not_le.1 hle)) hnd (selectTiers env) 0
      { fSuccess := false, setCoinsRet := [], nValueRet := 0, nApproxCalls := 0 } rfl hs
    generalize runTiers env rs (T - pv) vCoins fIS (selectTiers env) 0
      { fSuccess := false, setCoinsRet := [], nValueRet := 0, nApproxCalls := 0 } = r
      at hs h1 h3 h4 h5 ⊢
    have hnd3 : ((r.setCoinsRet ++ ps).map CInput.key).Nodup := by
      simp only [List.map_append]
      rw [List.nodup_append]
      refine ⟨h4, hpnd, ?_⟩
      intro key hk1 hk2
      obtain ⟨x, hx, hxk⟩ := List.mem_map.1 hk1
      obtain ⟨c, hc, _, hxc⟩ := h5 x hx
      apply hdisj c hc
      rw [← hxk, hxc] at hk2
      exact hk2
    rw [foldl_coinSetInsert_fresh ps r.setCoinsRet hnd3]
    have h1' := h1 hs
    refine ⟨by linarith, ?_⟩
    simp only [selValue, List.map_append, List.sum_append] at h3 hpv ⊢
    rw [h3, hpv]

theorem erasePresets_spec (cc : Option CCoinControl) (ps : List CInput) (vCoins : List COutput)
    (hkeys : (vCoins.map COutput.key).Nodup) (hps : ps ≠ [] → optListSelected cc ≠ []) :
    ((erasePresets (optHasSelected cc) ps vCoins).map COutput.key).Nodup ∧
      ∀ c ∈ erasePresets (optHasSelected cc) ps vCoins, c.key ∉ ps.map CInput.key := by
  unfold erasePresets
  constructor
  · split_ifs
    · exact hkeys.sublist ((List.filter_sublist _).map _)
    · exact hkeys
  · intro c hc hin
    by_cases hp : ps = []
    · rw [hp] at hin; cases hin
    · have hops := hps hp
      have hhas : optHasSelected cc = true := by
        cases cc with
        | none => exact absurd rfl hops
        | some c2 =>
          simp only [optListSelected] at hops
          simp only [optHasSelected, CCoinControl.HasSelected]
          cases hl : c2.setSelected with
          | nil => exact absurd hl hops
          | cons a t => rfl
      rw [if_pos hhas, List.mem_filter] at hc
      obtain ⟨p, hp2, hpk⟩ := List.mem_map.1 hin
      have : ps.any (fun p => decide (p.key = c.key)) = true :=
        List.any_eq_true.2 ⟨p, hp2, by simpa using hpk⟩
      simp [this] at hc

theorem selectCoins_sound (env : WalletEnv) (w : CWallet) (rs : Nat → RandomSource)
    (T : CAmount) (cc : Option CCoinControl) (ct : AvailableCoinsType) (fIS : Bool)
    (hthr : ∀ pr, collectPresets w (optListSelected cc) 0 [] = some pr → pr.1 < T →
      T - pr.1 ≤ toInt64 (T - pr.1 + env.MIN_CHANGE))
    (hwf : WalletWF w)
    (hsel : (optListSelected cc).Nodup)
    (hs : (SelectCoins env w rs T [] 0 cc ct fIS).fSuccess = true) :
    T ≤ (SelectCoins env w rs T [] 0 cc ct fIS).nValueRet ∧
      selValue (SelectCoins env w rs T [] 0 cc ct fIS).setCoinsRet
        = (SelectCoins env w rs T [] 0 cc ct fIS).nValueRet := by
  have hkeys := availableCoins_keys env w true cc false ct fIS hwf
  unfold SelectCoins at hs ⊢
  by_cases hfo : optOnlySelected cc = true
  · rw [if_pos hfo] at hs ⊢
    exact selectOnlySelected_sound _ T hkeys hs
  · rw [if_neg hfo] at hs ⊢
    cases hcp : collectPresets w (optListSelected cc) 0 [] with
    | none =>
      rw [hcp] at hs
      cases hs
    | some pr =>
      obtain ⟨pv, ps⟩ := pr
      rw [hcp] at hs
      simp only at hs ⊢
      have hopsnd : ((optListSelected cc).map (fun o => (o.hash, o.n))).Nodup := by
        refine (List.nodup_map_iff ?_).2 hsel
        intro a b hab
        cases a; cases b
        simp only [Prod.mk.injEq] at hab
        simp [hab.1, hab.2]
      obtain ⟨hpv, hpnd⟩ := collectPresets_spec w hwf _ 0 [] pv ps hcp rfl
        (by simpa using hopsnd)
      have hps : ps ≠ [] → optListSelected cc ≠ [] :=
        collectPresets_keys w _ 0 [] pv ps hcp (Or.inl rfl)
      obtain ⟨e1, e2⟩ := erasePresets_spec cc ps _ hkeys hps
      exact selectWithPresets_sound env rs T _ fIS pv ps (hthr (pv, ps) hcp) e1 hpv hpnd e2 hs

/-! ## Claims C3 and C4 -/

theorem sumRecipients_count (l : List CRecipient) :
    ∀ (v : CAmount) (n : Nat) (v2 : CAmount) (n2 : Nat),
      sumRecipients l v n = some (v2, n2) → n2 = n + countSubtract l := by
  induction l with
  | nil =>
    intro v n v2 n2 h
    simp only [sumRecipients, Option.some.injEq, Prod.mk.injEq] at h
    simp [countSubtract, h.2.symm]
  | cons r rest ih =>
    intro v n v2 n2 h
    simp only [sumRecipients] at h
    by_cases hc : v < 0 ∨ r.nAmount < 0
    · rw [if_pos hc] at h; cases h
    · rw [if_neg hc] at h
      have e2 := ih _ _ _ _ h
      simp only [countSubtract, List.countP_cons] at e2 ⊢
      rw [e2]
      by_cases hm : r.fSubtractFeeFromAmount = true
      · simp [hm]; omega
      · simp [hm]

theorem sumRecipients_nonneg (l : List CRecipient) :
    ∀ (v : CAmount) (n : Nat) (v2 : CAmount) (n2 : Nat),
      sumRecipients l v n = some (v2, n2) → ∀ r ∈ l, 0 ≤ r.nAmount := by
  induction l with
  | nil => intro v n v2 n2 _ r hr; cases hr
  | cons a rest ih =>
    intro v n v2 n2 h r hr
    simp only [sumRecipients] at h
    by_cases hc : v < 0 ∨ a.nAmount < 0
    · rw [if_pos hc] at h; cases h
    · rw [if_neg hc] at h
      rcases List.mem_cons.1 hr with e | e
      · rw [e]
        exact not_lt.1 (fun hlt => hc (Or.inr hlt))
      · exact ih _ _ _ _ h r e

theorem sumAmounts_nonneg (l : List CRecipient) (h : ∀ r ∈ l, 0 ≤ r.nAmount) :
    0 ≤ sumAmounts l := by
  unfold sumAmounts
  apply List.sum_nonneg
  intro x hx
  obtain ⟨r, hr, rfl⟩ := List.mem_map.1 hx
  exact h r hr

/-- Within the 64-bit range the first loop of `CreateTransaction` computes the
exact total of the requested amounts. -/
theorem sumRecipients_exact (l : List CRecipient) :
    ∀ (v : CAmount) (n : Nat) (v2 : CAmount) (n2 : Nat),
      sumRecipients l v n = some (v2, n2) → 0 ≤ v → v + sumAmounts l ≤ INT64_MAX →
      v2 = v + sumAmounts l := by
  induction l with
  | nil =>
    intro v n v2 n2 h _ _
    simp only [sumRecipients, Option.some.injEq, Prod.mk.injEq] at h
    simp [sumAmounts, h.1.symm]
  | cons r rest ih =>
    intro v n v2 n2 h hv hle
    simp only [sumRecipients] at h
    by_cases hc : v < 0 ∨ r.nAmount < 0
    · rw [if_pos hc] at h; cases h
    · rw [if_neg hc] at h
      have hr : 0 ≤ r.nAmount := not_lt.1 (fun hlt => hc (Or.inr hlt))
      have hrest : 0 ≤ sumAmounts rest :=
        sumAmounts_nonneg rest (sumRecipients_nonneg rest _ _ _ _ h)
      have hcons : sumAmounts (r :: rest) = r.nAmount + sumAmounts rest := by
        simp [sumAmounts]
      rw [hcons] at hle ⊢
      have hw : toInt64 (v + r.nAmount) = v + r.nAmount :=
        toInt64_of_range _ (by linarith) (by linarith)
      rw [hw] at h
      have := ih _ _ _ _ h (by linarith) (by linarith)
      rw [this]; ring

theorem insertAt_outValue (x : CTxOut) (l : List CTxOut) :
    ∀ n, outValue (insertAt n x l) = x.nValue + outValue l := by
  induction l with
  | nil => intro n; simp [insertAt, outValue]
  | cons a rest ih =>
    intro n
    cases n with
    | zero => simp [insertAt, outValue]
    | succ m =>
      have h := ih m
      simp only [outValue, insertAt, List.map_cons, List.sum_cons] at h ⊢
      rw [h]; ring

theorem mem_insertAt (x o : CTxOut) (l : List CTxOut) :
    ∀ n, o ∈ insertAt n x l → o = x ∨ o ∈ l := by
  induction l with
  | nil => intro n h; simp [insertAt] at h; exact Or.inl h
  | cons a rest ih =>
    intro n h
    cases n with
    | zero =>
      simp only [insertAt, List.mem_cons] at h ⊢
      exact h
    | succ m =>
      simp only [insertAt, List.mem_cons] at h ⊢
      rcases h with h | h
      · exact Or.inr (Or.inl h)
      · rcases ih m h with h2 | h2
        · exact Or.inl h2
        · exact Or.inr (Or.inr h2)

theorem deductFromFirst_nodust (env : BuilderEnv) (d : CAmount) (l : List CRecipient) :
    ∀ (outs outs2 : List CTxOut), (∀ o ∈ outs, IsDust env o = false) →
      deductFromFirst env d l outs = Except.ok outs2 → ∀ o ∈ outs2, IsDust env o = false := by
  induction l with
  | nil =>
    intro outs outs2 hnd h
    simp only [deductFromFirst, Except.ok.injEq] at h
    subst h; exact hnd
  | cons r rest ih =>
    intro outs outs2 hnd h
    cases outs with
    | nil =>
      simp only [deductFromFirst, Except.ok.injEq] at h
      subst h; exact hnd
    | cons t ts =>
      simp only [deductFromFirst] at h
      by_cases hm : r.fSubtractFeeFromAmount = true
      · rw [if_pos hm] at h
        by_cases hd : IsDust env { t with nValue := t.nValue - d } = true
        · rw [if_pos hd] at h; cases h
        · rw [if_neg hd] at h
          simp only [Except.ok.injEq] at h
          subst h
          intro o ho
          rcases List.mem_cons.1 ho with e | e
          · rw [e]; exact Bool.eq_false_iff.2 hd
          · exact hnd o (List.mem_cons_of_mem _ e)
      · rw [if_neg hm] at h
        cases hr : deductFromFirst env d rest ts with
        | error e => rw [hr] at h; cases h
        | ok o2 =>
          rw [hr] at h
          simp only [Except.ok.injEq] at h
          subst h
          intro o ho
          rcases List.mem_cons.1 ho with e | e
          · rw [e]; exact hnd t (List.mem_cons_self _ _)
          · exact ih ts o2 (fun x hx => hnd x (List.mem_cons_of_mem _ hx)) hr o e

theorem deductFromFirst_sum (env : BuilderEnv) (d : CAmount) (l : List CRecipient) :
    ∀ (outs outs2 : List CTxOut), l.length = outs.length → 0 < countSubtract l →
      deductFromFirst env d l outs = Except.ok outs2 → outValue outs2 = outValue outs - d := by
  induction l with
  | nil => intro outs outs2 _ hk _; simp [countSubtract] at hk
  | cons r rest ih =>
    intro outs outs2 hlen hk h
    cases outs with
    | nil => simp at hlen
    | cons t ts =>
      simp only [deductFromFirst] at h
      by_cases hm : r.fSubtractFeeFromAmount = true
      · rw [if_pos hm] at h
        by_cases hd : IsDust env { t with nValue := t.nValue - d } = true
        · rw [if_pos hd] at h; cases h
        · rw [if_neg hd] at h
          simp only [Except.ok.injEq] at h
          subst h
          simp only [outValue, List.map_cons, List.sum_cons]
          ring
      · rw [if_neg hm] at h
        cases hr : deductFromFirst env d rest ts with
        | error e => rw [hr] at h; cases h
        | ok o2 =>
          rw [hr] at h
          simp only [Except.ok.injEq] at h
          subst h
          have hk2 : 0 < countSubtract rest := by
            simp only [countSubtract, List.countP_cons] at hk ⊢
            simpa [hm] using hk
          have hl2 : rest.length = ts.length := by simpa using hlen
          have := ih ts o2 hl2 hk2 hr
          simp only [outValue, List.map_cons, List.sum_cons] at this ⊢
          rw [this]; ring

theorem isDust_raised (env : BuilderEnv) (t : CTxOut) (x : CAmount)
    (hx : x = env.GetDustThreshold t.scriptPubKey) :
    IsDust env { t with nValue := x } = false := by
  simp [IsDust, hx]

theorem raiseDustChange_nodust (env : BuilderEnv) (vecSend : List CRecipient) (nSubtract : Nat)
    (vout : List CTxOut) (t : CTxOut) (p : CTxOut × List CTxOut)
    (hnd : ∀ o ∈ vout, IsDust env o = false)
    (h : raiseDustChange env vecSend nSubtract vout t = Except.ok p) :
    ∀ o ∈ p.2, IsDust env o = false := by
  unfold raiseDustChange at h
  by_cases hc : (decide (nSubtract > 0) && IsDust env t) = true
  · rw [if_pos hc] at h
    simp only at h
    cases hr : deductFromFirst env (env.GetDustThreshold t.scriptPubKey - t.nValue) vecSend vout with
    | error e => rw [hr] at h; cases h
    | ok v2 =>
      rw [hr] at h
      simp only [Except.ok.injEq] at h
      subst h
      exact deductFromFirst_nodust env _ vecSend vout v2 hnd hr
  · rw [if_neg hc] at h
    simp only [Except.ok.injEq] at h
    subst h
    exact hnd

theorem raiseDustChange_sum (env : BuilderEnv) (vecSend : List CRecipient)
    (vout : List CTxOut) (t : CTxOut) (p : CTxOut × List CTxOut)
    (hlen : vecSend.length = vout.length)
    (h : raiseDustChange env vecSend (countSubtract vecSend) vout t = Except.ok p) :
    p.1.nValue + outValue p.2 = t.nValue + outValue vout ∧
      (IsDust env p.1 = true → p.2 = vout ∧ countSubtract vecSend = 0) := by
  unfold raiseDustChange at h
  by_cases hc : (decide (countSubtract vecSend > 0) && IsDust env t) = true
  · rw [if_pos hc] at h
    simp only at h
    have hk : 0 < countSubtract vecSend := by
      simp only [Bool.and_eq_true, decide_eq_true_eq] at hc
      exact hc.1
    cases hr : deductFromFirst env (env.GetDustThreshold t.scriptPubKey - t.nValue) vecSend vout with
    | error e => rw [hr] at h; cases h
    | ok v2 =>
      rw [hr] at h
      simp only [Except.ok.injEq] at h
      subst h
      have hs := deductFromFirst_sum env _ vecSend vout v2 hlen hk hr
      refine ⟨?_, ?_⟩
      · simp only [hs]; ring
      · intro hd
        have hn : IsDust env { t with nValue := t.nValue +
            (env.GetDustThreshold t.scriptPubKey - t.nValue) } = false :=
          isDust_raised env t _ (by ring)
        rw [hn] at hd
        cases hd
  · rw [if_neg hc] at h
    simp only [Except.ok.injEq] at h
    subst h
    refine ⟨rfl, fun hd => ⟨rfl, ?_⟩⟩
    simp only [Bool.and_eq_true, decide_eq_true_eq, not_and] at hc
    by_contra hk
    exact hc (Nat.pos_of_ne_zero hk) hd

theorem placeChange_nodust (env : BuilderEnv) (rnd : BuilderRandom) (nPass : Nat) (t : CTxOut)
    (vout : List CTxOut) (nChange nFeeRet : CAmount) (pos : Int) (ch : ChangeResult)
    (hnd : ∀ o ∈ vout, IsDust env o = false)
    (h : placeChange env rnd nPass t vout nChange nFeeRet pos = Except.ok ch) :
    ∀ o ∈ ch.vout, IsDust env o = false := by
  unfold placeChange at h
  by_cases hd : IsDust env t = true
  · rw [if_pos hd] at h
    simp only [Except.ok.injEq] at h
    subst h
    exact hnd
  · rw [if_neg hd] at h
    have ht : IsDust env t = false := Bool.eq_false_iff.2 hd
    have key : ∀ n, ∀ o ∈ insertAt n t vout, IsDust env o = false := by
      intro n o ho
      rcases mem_insertAt t o vout n ho with e | e
      · rw [e]; exact ht
      · exact hnd o e
    by_cases hp : pos = -1
    · rw [if_pos hp] at h
      simp only [Except.ok.injEq] at h
      subst h
      exact key _
    · rw [if_neg hp] at h
      by_cases hr : toUInt32 (toInt32 pos) > vout.length
      · rw [if_pos hr] at h; cases h
      · rw [if_neg hr] at h
        simp only [Except.ok.injEq] at h
        subst h
        exact key _

theorem placeChange_sum (env : BuilderEnv) (rnd : BuilderRandom) (nPass : Nat) (t : CTxOut)
    (vout : List CTxOut) (nChange nFeeRet : CAmount) (pos : Int) (ch : ChangeResult)
    (h : placeChange env rnd nPass t vout nChange nFeeRet pos = Except.ok ch) :
    outValue ch.vout + ch.nFeeRet =
      if IsDust env t = true then outValue vout + nFeeRet + nChange
      else t.nValue + outValue vout + nFeeRet := by
  unfold placeChange at h
  by_cases hd : IsDust env t = true
  · rw [if_pos hd] at h ⊢
    simp only [Except.ok.injEq] at h
    subst h
    simp only
    ring
  · rw [if_neg hd] at h ⊢
    by_cases hp : pos = -1
    · rw [if_pos hp] at h
      simp only [Except.ok.injEq] at h
      subst h
      simp only [insertAt_outValue]
    · rw [if_neg hp] at h
      by_cases hr : toUInt32 (toInt32 pos) > vout.length
      · rw [if_pos hr] at h; cases h
      · rw [if_neg hr] at h
        simp only [Except.ok.injEq] at h
        subst h
        simp only [insertAt_outValue]

theorem addChange_nodust (env : BuilderEnv) (rnd : BuilderRandom) (nPass : Nat)
    (vecSend : List CRecipient) (cc : Option CCoinControl) (nSubtract : Nat)
    (vout : List CTxOut) (nChange nFeeRet : CAmount) (pos : Int) (ch : ChangeResult)
    (hnd : ∀ o ∈ vout, IsDust env o = false)
    (h : addChange env rnd nPass vecSend cc nSubtract vout nChange nFeeRet pos = Except.ok ch) :
    ∀ o ∈ ch.vout, IsDust env o = false := by
  unfold addChange at h
  by_cases hc : nChange > 0
  · rw [if_pos hc] at h
    cases hs : changeScript env cc with
    | none => rw [hs] at h; cases h
    | some script =>
      rw [hs] at h
      simp only at h
      cases hr : raiseDustChange env vecSend nSubtract vout ⟨nChange, script, 0⟩ with
      | error e => rw [hr] at h; cases h
      | ok p =>
        rw [hr] at h
        simp only at h
        exact placeChange_nodust env rnd nPass p.1 p.2 nChange nFeeRet pos ch
          (raiseDustChange_nodust env vecSend nSubtract vout _ p hnd hr) h
  · rw [if_neg hc] at h
    simp only [Except.ok.injEq] at h
    subst h
    exact hnd

theorem addChange_sum (env : BuilderEnv) (rnd : BuilderRandom) (nPass : Nat)
    (vecSend : List CRecipient) (cc : Option CCoinControl)
    (vout : List CTxOut) (nChange nFeeRet : CAmount) (pos : Int) (ch : ChangeResult)
    (hlen : vecSend.length = vout.length) (h0 : 0 ≤ nChange)
    (h : addChange env rnd nPass vecSend cc (countSubtract vecSend) vout nChange nFeeRet pos
      = Except.ok ch) :
    outValue ch.vout + ch.nFeeRet = outValue vout + nFeeRet + nChange := by
  unfold addChange at h
  by_cases hc : nChange > 0
  · rw [if_pos hc] at h
    cases hs : changeScript env cc with
    | none => rw [hs] at h; cases h
    | some script =>
      rw [hs] at h
      simp only at h
      cases hr : raiseDustChange env vecSend (countSubtract vecSend) vout ⟨nChange, script, 0⟩ with
      | error e => rw [hr] at h; cases h
      | ok p =>
        rw [hr] at h
        simp only at h
        have h1 := placeChange_sum env rnd nPass p.1 p.2 nChange nFeeRet pos ch h
        obtain ⟨h2, h3⟩ := raiseDustChange_sum env vecSend vout _ p hlen hr
        simp only at h2
        by_cases hd : IsDust env p.1 = true
        · rw [if_pos hd] at h1
          rw [h1, (h3 hd).1]
        · rw [if_neg hd] at h1
          rw [h1]
          linarith
  · rw [if_neg hc] at h
    simp only [Except.ok.injEq] at h
    subst h
    have : nChange = 0 := le_antisymm (not_lt.1 hc) h0
    simp only [this]
    ring

theorem finishPass_done (env : BuilderEnv) (sign fIS : Bool) (tx : TxDraft) (nFeeRet : CAmount)
    (pos : Int) (tx2 : TxDraft) (fee2 : CAmount) (pos2 : Int)
    (h : finishPass env sign fIS tx nFeeRet pos = PassResult.done tx2 fee2 pos2) :
    tx2 = tx ∧ fee2 = nFeeRet ∧ pos2 = pos := by
  unfold finishPass at h
  split at h
  · cases h
  · dsimp only at h
    split at h
    · cases h
    · split at h
      · cases h
        exact ⟨rfl, rfl, rfl⟩
      · split at h
        · split at h
          · cases h
            exact ⟨rfl, rfl, rfl⟩
          · cases h
        · split at h
          · cases h
            exact ⟨rfl, rfl, rfl⟩
          · cases h

/-! ## Theorems: payee outputs -/

theorem payeeOutputs_length (F : CAmount) (n : Nat) (l : List CRecipient) :
    ∀ fFirst : Bool, (payeeOutputs F n l fFirst).length = l.length := by
  induction l with
  | nil => intro _; rfl
  | cons r rest ih => intro fFirst; simp [payeeOutputs, ih]

theorem payeeOutputs_value (F : CAmount) (n : Nat) (l : List CRecipient) :
    ∀ (fFirst : Bool) (i : Nat) (r : CRecipient), l[i]? = some r →
      ∃ o, (payeeOutputs F n l fFirst)[i]? = some o ∧ o.scriptPubKey = r.scriptPubKey ∧
        o.nValue = r.nAmount -
          (if r.fSubtractFeeFromAmount then
            Int.tdiv F n +
              (if fFirst = true ∧ i = l.findIdx (fun x => x.fSubtractFeeFromAmount) then
                Int.tmod F n else 0)
           else 0) := by
  induction l with
  | nil => intro fFirst i r h; simp at h
  | cons a rest ih =>
    intro fFirst i r h
    cases i with
    | zero =>
      simp only [List.getElem?_cons_zero, Option.some.injEq] at h
      subst h
      simp only [payeeOutputs, List.getElem?_cons_zero, Option.some.injEq, exists_eq_left',
        payeeTxOut, List.findIdx_cons]
      by_cases hm : a.fSubtractFeeFromAmount = true
      · cases fFirst <;> (simp [hm]; try ring)
      · have hm2 : a.fSubtractFeeFromAmount = false := Bool.eq_false_iff.2 hm
        simp [hm2]
    | succ j =>
      simp only [List.getElem?_cons_succ] at h
      simp only [payeeOutputs, List.getElem?_cons_succ, List.findIdx_cons]
      obtain ⟨o, ho, hs, hv⟩ := ih (payeeTxOut a F n fFirst).2 j r h
      refine ⟨o, ho, hs, ?_⟩
      rw [hv]
      by_cases hm : a.fSubtractFeeFromAmount = true
      · have h2 : (payeeTxOut a F n fFirst).2 = false := by
          cases fFirst <;> simp [payeeTxOut, hm]
        simp [h2, hm]
      · have hm2 : a.fSubtractFeeFromAmount = false := Bool.eq_false_iff.2 hm
        have h2 : (payeeTxOut a F n fFirst).2 = fFirst := by
          simp [payeeTxOut, hm2]
        simp [h2, hm2]

theorem payeeOutputs_sum (F : CAmount) (n : Nat) (l : List CRecipient) :
    ∀ fFirst : Bool,
      outValue (payeeOutputs F n l fFirst) =
        sumAmounts l - (countSubtract l : Int) * Int.tdiv F n -
          (if fFirst = true ∧ 0 < countSubtract l then Int.tmod F n else 0) := by
  induction l with
  | nil => intro fFirst; simp [payeeOutputs, outValue, sumAmounts, countSubtract]
  | cons a rest ih =>
    intro fFirst
    have hrec := ih (payeeTxOut a F n fFirst).2
    simp only [outValue, sumAmounts, countSubtract] at hrec ⊢
    simp only [payeeOutputs, List.map_cons, List.sum_cons, hrec, List.countP_cons]
    by_cases hm : a.fSubtractFeeFromAmount = true
    · cases fFirst
      · simp [payeeTxOut, hm]; ring
      · simp [payeeTxOut, hm]; ring
    · have hm2 : a.fSubtractFeeFromAmount = false := Bool.eq_false_iff.2 hm
      simp [payeeTxOut, hm2]
      ring

theorem payeeOutputs_total (F : CAmount) (l : List CRecipient) :
    outValue (payeeOutputs F (countSubtract l) l true) =
      sumAmounts l - (if countSubtract l = 0 then 0 else F) := by
  rw [payeeOutputs_sum]
  by_cases hk : countSubtract l = 0
  · simp [hk]
  · have hpos : 0 < countSubtract l := Nat.pos_of_ne_zero hk
    simp only [hpos, and_self, if_true, hk, if_false]
    have := Int.tdiv_add_tmod F (countSubtract l : Int)
    linarith

theorem buildPayeeOutputs_ok (env : BuilderEnv) (F : CAmount) (n : Nat)
    (l : List CRecipient) :
    ∀ (fFirst : Bool) (outs : List CTxOut),
      buildPayeeOutputs env F n l fFirst = Except.ok outs →
      outs = payeeOutputs F n l fFirst ∧ ∀ o ∈ outs, IsDust env o = false := by
  induction l with
  | nil =>
    intro fFirst outs h
    simp only [buildPayeeOutputs, Except.ok.injEq] at h
    subst h
    exact ⟨rfl, by simp⟩
  | cons a rest ih =>
    intro fFirst outs h
    simp only [buildPayeeOutputs] at h
    by_cases hd : IsDust env (payeeTxOut a F n fFirst).1 = true
    · rw [if_pos hd] at h; cases h
    · rw [if_neg hd] at h
      cases hb : buildPayeeOutputs env F n rest (payeeTxOut a F n fFirst).2 with
      | error e => rw [hb] at h; cases h
      | ok outs2 =>
        rw [hb] at h
        simp only [Except.ok.injEq] at h
        subst h
        obtain ⟨e1, e2⟩ := ih _ _ hb
        refine ⟨by rw [e1]; rfl, ?_⟩
        intro o ho
        rcases List.mem_cons.1 ho with e | e
        · rw [e]; exact Bool.eq_false_iff.2 hd
        · exact e2 o e

theorem createPass_nodust (env : BuilderEnv) (w : CWallet) (rnd : BuilderRandom) (nPass : Nat)
    (vecSend : List CRecipient) (nValue : CAmount) (nSubtract : Nat) (posReq : Int)
    (cc : Option CCoinControl) (sign : Bool) (ct : AvailableCoinsType) (fIS : Bool)
    (F : CAmount) (tx : TxDraft) (fee : CAmount) (pos : Int)
    (h : createPass env w rnd nPass vecSend nValue nSubtract posReq cc sign ct fIS F
      = PassResult.done tx fee pos) :
    ∀ o ∈ tx.vout, IsDust env o = false := by
  unfold createPass at h
  dsimp only at h
  cases hb : buildPayeeOutputs env F nSubtract vecSend true with
  | error e => rw [hb] at h; cases h
  | ok vout =>
    rw [hb] at h
    dsimp only at h
    obtain ⟨_, hnd⟩ := buildPayeeOutputs_ok env F nSubtract vecSend true vout hb
    generalize (if nSubtract = 0 then toInt64 (nValue + F) else nValue) = T at h
    generalize SelectCoins env.wallet w (rnd.select nPass) T [] 0 cc ct fIS = sel at h
    split at h
    · split at h <;> cases h
    · split at h
      · cases h
      · split at h
        · cases h
        · split at h
          · cases h
          · split at h
            · cases h
            · rename_i ch hch
              obtain ⟨e1, _, _⟩ := finishPass_done _ _ _ _ _ _ _ _ _ h
              subst e1
              exact addChange_nodust env rnd nPass vecSend cc nSubtract vout _ _ _ ch hnd hch

/-- The balance of a finished pass, when no amount leaves the 64-bit range:
the target is the exact sum, the selection meets it, and the change is the
exact difference. -/
theorem createPass_balance (env : BuilderEnv) (w : CWallet) (rnd : BuilderRandom) (nPass : Nat)
    (vecSend : List CRecipient) (posReq : Int)
    (cc : Option CCoinControl) (sign : Bool) (ct : AvailableCoinsType) (fIS : Bool)
    (F : CAmount) (tx : TxDraft) (fee : CAmount) (pos : Int)
    (h : createPass env w rnd nPass vecSend (sumAmounts vecSend) (countSubtract vecSend) posReq
      cc sign ct fIS F = PassResult.done tx fee pos)
    (hwf : WalletWF w) (hsel : (optListSelected cc).Nodup)
    (hT : toInt64 (sumAmounts vecSend + F) = sumAmounts vecSend + F)
    (hthr : ∀ T, T = (if countSubtract vecSend = 0 then sumAmounts vecSend + F
        else sumAmounts vecSend) →
      ∀ pr, collectPresets w (optListSelected cc) 0 [] = some pr → pr.1 < T →
        T - pr.1 ≤ toInt64 (T - pr.1 + env.wallet.MIN_CHANGE))
    (hin : ∀ T, T = (if countSubtract vecSend = 0 then sumAmounts vecSend + F
        else sumAmounts vecSend) → selValue tx.vin - T ≤ INT64_MAX) :
    selValue tx.vin = outValue tx.vout + fee := by
  unfold createPass at h
  dsimp only at h
  cases hb : buildPayeeOutputs env F (countSubtract vecSend) vecSend true with
  | error e => rw [hb] at h; cases h
  | ok vout =>
    rw [hb] at h
    dsimp only at h
    obtain ⟨hv, _⟩ := buildPayeeOutputs_ok env F (countSubtract vecSend) vecSend true vout hb
    rw [hT] at h
    generalize hTd : (if countSubtract vecSend = 0 then sumAmounts vecSend + F
      else sumAmounts vecSend) = T at h
    have hsound := selectCoins_sound env.wallet w (rnd.select nPass) T cc ct fIS
      (hthr T hTd.symm) hwf hsel
    have hinT := hin T hTd.symm
    generalize SelectCoins env.wallet w (rnd.select nPass) T [] 0 cc ct fIS = sel at h hsound
    split at h
    · split at h <;> cases h
    · rename_i hns
      have hsucc : sel.fSuccess = true := by simpa using hns
      split at h
      · cases h
      · split at h
        · cases h
        · split at h
          · cases h
          · split at h
            · cases h
            · rename_i ch hch
              obtain ⟨e1, e2, _⟩ := finishPass_done _ _ _ _ _ _ _ _ _ h
              subst e1
              subst e2
              obtain ⟨hge, hval⟩ := hsound hsucc
              simp only at hinT
              rw [hval] at hinT
              have hw : toInt64 (sel.nValueRet - T) = sel.nValueRet - T :=
                toInt64_of_range _ (by linarith) hinT
              rw [hw] at hch
              have hlen : vecSend.length = vout.length := by
                rw [hv, payeeOutputs_length]
              have hsum := addChange_sum env rnd nPass vecSend cc vout _ _ _ ch hlen
                (sub_nonneg.2 hge) hch
              have htot := payeeOutputs_total F vecSend
              rw [← hv] at htot
              simp only
              rw [hval]
              by_cases hz : countSubtract vecSend = 0
              · rw [if_pos hz] at hTd htot
                linarith
              · rw [if_neg hz] at hTd htot
                linarith

theorem createLoop_ok (env : BuilderEnv) (w : CWallet) (rnd : BuilderRandom)
    (vecSend : List CRecipient) (nValue : CAmount) (nSubtract : Nat) (posReq : Int)
    (cc : Option CCoinControl) (sign : Bool) (ct : AvailableCoinsType) (fIS : Bool)
    (tx : TxDraft) (fee : CAmount) (pos : Int) :
    ∀ (fuel nPass : Nat) (F : CAmount),
      createLoop env w rnd vecSend nValue nSubtract posReq cc sign ct fIS fuel nPass F
        = Except.ok (tx, fee, pos) →
      ∃ n G, createPass env w rnd n vecSend nValue nSubtract posReq cc sign ct fIS G
        = PassResult.done tx fee pos := by
  intro fuel
  induction fuel with
  | zero => intro nPass F h; simp [createLoop] at h
  | succ k ih =>
    intro nPass F h
    simp only [createLoop] at h
    cases hp : createPass env w rnd nPass vecSend nValue nSubtract posReq cc sign ct fIS F with
    | fail e => rw [hp] at h; cases h
    | done tx2 fee2 pos2 =>
      rw [hp] at h
      simp only [Except.ok.injEq, Prod.mk.injEq] at h
      obtain ⟨e1, e2, e3⟩ := h
      subst e1; subst e2; subst e3
      exact ⟨nPass, F, hp⟩
    | retry fee2 =>
      rw [hp] at h
      exact ih _ _ h

theorem createTransaction_ok (env : BuilderEnv) (w : CWallet) (rnd : BuilderRandom) (fuel : Nat)
    (vecSend : List CRecipient) (posReq : Int) (cc : Option CCoinControl) (sign : Bool)
    (ct : AvailableCoinsType) (fIS : Bool) (r : CreateResult)
    (h : CreateTransaction env w rnd fuel vecSend posReq cc sign ct fIS = Except.ok r) :
    ∃ nValue n G fee, sumRecipients vecSend 0 0 = some (nValue, countSubtract vecSend) ∧
      0 ≤ nValue ∧
      createPass env w rnd n vecSend nValue (countSubtract vecSend) posReq
        cc sign ct fIS G = PassResult.done r.tx fee r.nChangePosInOut ∧
      r.nFeeRet = if fIS = true then fee + env.nLockRequestMinFee else fee := by
  unfold CreateTransaction at h
  cases hsr : sumRecipients vecSend 0 0 with
  | none => rw [hsr] at h; cases h
  | some p =>
    obtain ⟨nValue, nSubtract⟩ := p
    rw [hsr] at h
    dsimp only at h
    have e2 := sumRecipients_count vecSend 0 0 nValue nSubtract hsr
    rw [Nat.zero_add] at e2
    subst e2
    split at h
    · cases h
    · rename_i hchk
      have hnv : 0 ≤ nValue := by
        simp only [Bool.or_eq_true, decide_eq_true_eq, not_or, not_lt] at hchk
        exact hchk.2
      cases hl : createLoop env w rnd vecSend nValue (countSubtract vecSend) posReq
          cc sign ct fIS fuel 0 env.nPayTxFeePerK with
      | error e => rw [hl] at h; cases h
      | ok q =>
        obtain ⟨tx, fee, pos⟩ := q
        rw [hl] at h
        dsimp only at h
        split at h
        · cases h
        · simp only [Except.ok.injEq] at h
          subst h
          obtain ⟨n, G, hp⟩ := createLoop_ok env w rnd vecSend _ _ posReq cc sign ct fIS tx fee pos
            fuel 0 _ hl
          exact ⟨nValue, n, G, fee, rfl, hnv, hp, rfl⟩

/-! ## Claims C1 and C2 -/

/-- C2: no output of a transaction that `CreateTransaction` built
successfully is dust, be it a payee output, reduced or not, or the change
output. -/
theorem C2_no_output_is_dust (env : BuilderEnv) (w : CWallet) (rnd : BuilderRandom)
    (fuel : Nat) (vecSend : List CRecipient) (posReq : Int) (cc : Option CCoinControl)
    (sign : Bool) (ct : AvailableCoinsType) (fIS : Bool) (r : CreateResult)
    (h : CreateTransaction env w rnd fuel vecSend posReq cc sign ct fIS = Except.ok r) :
    ∀ o ∈ r.tx.vout, IsDust env o = false := by
  obtain ⟨_, n, G, fee, _, _, hp, _⟩ := createTransaction_ok env w rnd fuel vecSend posReq cc
    sign ct fIS r h
  exact createPass_nodust env w rnd n vecSend _ _ posReq cc sign ct fIS G r.tx fee
    r.nChangePosInOut hp

/-- C1 as stated fails under InstantSend: for one payee of 5000 at the fee
1000, paid from a coin of 10000, the built transaction has inputs 10000 and
outputs 9000, while the reported fee is 2000, the lock-request minimum fee
1000 having been added after the transaction was built. -/
theorem C1_instantsend_fee_exceeds_paid_fee :
    CreateTransaction (sampleBuilderEnv [] 1000) sampleWalletBig BuilderRandom.trivial 3
        [⟨1, 5000, false⟩] (-1) none true AvailableCoinsType.ALL_COINS true
      = Except.ok ⟨sampleBuiltTx, 2000, 0⟩ ∧
    selValue sampleBuiltTx.vin = 10000 ∧ outValue sampleBuiltTx.vout = 9000 ∧
    selValue sampleBuiltTx.vin ≠ outValue sampleBuiltTx.vout + 2000 := by
  decide

/-- C2 on a payment of 9950 whose payee bears the fee 1000: the change of 50
is raised to the dust threshold 100, the payment becomes 8900, and neither
output is dust. -/
theorem C2_no_output_is_dust_witness :
    CreateTransaction (sampleBuilderEnv [] 1000) sampleWalletBig BuilderRandom.trivial 3
        [⟨1, 9950, true⟩] (-1) none true AvailableCoinsType.ALL_COINS false
      = Except.ok ⟨sampleRaisedTx, 1000, 0⟩ ∧
    ∀ o ∈ sampleRaisedTx.vout, IsDust (sampleBuilderEnv [] 1000) o = false :=
  ⟨by decide,
    C2_no_output_is_dust (sampleBuilderEnv [] 1000) sampleWalletBig BuilderRandom.trivial 3
      [⟨1, 9950, true⟩] (-1) none true AvailableCoinsType.ALL_COINS false
      ⟨sampleRaisedTx, 1000, 0⟩ (by decide)⟩

/-! ## Claim C7 -/

/-- C7: with `k` recipients marked subtract-fee, `k` at least 1, and a fee
`F` that is not negative, the payee loop of `CreateTransaction` computes for
every recipient an output to the same script whose value is the requested
amount, less `F / k` when the recipient is marked, less `F % k` in addition
when it is the first marked one; the outputs total the requested amounts
less `F` exactly; and these are the outputs the loop returns whenever it does
not stop at a dust output. -/
theorem C7_subtract_fee_split (env : BuilderEnv) (vecSend : List CRecipient) (F : CAmount)
    (hk : 1 ≤ countSubtract vecSend) (hF : 0 ≤ F) :
    (∀ (i : Nat) (r : CRecipient), vecSend[i]? = some r →
      ∃ o, (payeeOutputs F (countSubtract vecSend) vecSend true)[i]? = some o ∧
        o.scriptPubKey = r.scriptPubKey ∧
        o.nValue = r.nAmount -
          (if r.fSubtractFeeFromAmount then
            F / (countSubtract vecSend : Int) +
              (if i = vecSend.findIdx (fun x => x.fSubtractFeeFromAmount) then
                F % (countSubtract vecSend : Int) else 0)
           else 0)) ∧
    sumAmounts vecSend - outValue (payeeOutputs F (countSubtract vecSend) vecSend true) = F ∧
    (∀ outs, buildPayeeOutputs env F (countSubtract vecSend) vecSend true = Except.ok outs →
      outs = payeeOutputs F (countSubtract vecSend) vecSend true) := by
  have hk0 : (0 : Int) ≤ (countSubtract vecSend : Int) := Int.ofNat_nonneg _
  refine ⟨?_, ?_, ?_⟩
  · intro i r hr
    obtain ⟨o, ho, hs, hv⟩ := payeeOutputs_value F (countSubtract vecSend) vecSend true i r hr
    refine ⟨o, ho, hs, ?_⟩
    rw [hv, Int.tdiv_eq_ediv hF hk0, Int.tmod_eq_emod hF hk0]
    simp
  · rw [payeeOutputs_total]
    have : countSubtract vecSend ≠ 0 := by omega
    simp [this]
  · intro outs h
    exact (buildPayeeOutputs_ok env F _ vecSend true outs h).1

/-- C7 on the scenario of the spec: one marked payee of 5000, fee 1000. -/
theorem C7_subtract_fee_split_witness :
    1 ≤ countSubtract [(⟨1, 5000, true⟩ : CRecipient)] ∧ (0 : CAmount) ≤ 1000 ∧
    payeeOutputs 1000 (countSubtract [(⟨1, 5000, true⟩ : CRecipient)])
      [(⟨1, 5000, true⟩ : CRecipient)] true = [⟨4000, 1, 0⟩] ∧
    buildPayeeOutputs (sampleBuilderEnv [] 1000) 1000
      (countSubtract [(⟨1, 5000, true⟩ : CRecipient)]) [(⟨1, 5000, true⟩ : CRecipient)] true
      = Except.ok [⟨4000, 1, 0⟩] ∧
    sumAmounts [(⟨1, 5000, true⟩ : CRecipient)] -
      outValue (payeeOutputs 1000 (countSubtract [(⟨1, 5000, true⟩ : CRecipient)])
        [(⟨1, 5000, true⟩ : CRecipient)] true) = 1000 :=
  ⟨by decide, by decide, by decide, by decide,
    (C7_subtract_fee_split (sampleBuilderEnv [] 1000) [(⟨1, 5000, true⟩ : CRecipient)] 1000
      (by decide) (by decide)).2.1⟩

/-! ## Claims C8 to C10 -/

/-- C8 (as stated, refuted): an unconfirmed, not abandoned claimant that is
absent from the mempool makes `IsSpent` true, although no claimant is active
in the spec's sense, which also asks for mempool presence. -/
theorem C8_isSpent_ignores_mempool :
    IsSpent (sampleEnv []) sampleWallet 3 0 = true ∧
      specIsSpent (sampleEnv []) sampleWallet 3 0 = false := by
  decide

/-- C8 (amended): `IsSpent` is true exactly when some claimant of the
outpoint recorded in `mapTxSpends` is tracked in `mapWallet` and has depth
above zero, or depth zero and is not abandoned; the mempool is not consulted. -/
theorem C8_isSpent_iff_claimant (env : ChainEnv) (w : CWallet) (hash : uint256) (n : Nat) :
    IsSpent env w hash n = true ↔
      ∃ wtxid wtx, ((⟨hash, n⟩ : COutPoint), wtxid) ∈ w.mapTxSpends ∧
        mapFind w.mapWallet wtxid = some wtx ∧
        (GetDepthInMainChain env wtx > 0 ∨
          (GetDepthInMainChain env wtx = 0 ∧ wtx.isAbandoned = false)) :=
  isSpent_iff env w hash n

/-- C10: `AbandonTransaction` on a tracked transaction whose depth is above
zero or that is in the mempool returns `false` and leaves the whole wallet
state (every record with its block association, index, abandoned flag and
cache flags, and `mapTxSpends`) as it was. -/
theorem C10_abandon_rejected_unchanged (env : ChainEnv) (w : CWallet) (hashTx : uint256)
    (origtx : CWalletTx) (hf : mapFind w.mapWallet hashTx = some origtx)
    (h : GetDepthInMainChain env origtx > 0 ∨ InMempool env origtx = true) :
    AbandonTransaction env w hashTx = Except.ok (false, w) := by
  unfold AbandonTransaction
  rw [hf]
  have hc : (decide (GetDepthInMainChain env origtx > 0) || InMempool env origtx) = true := by
    rcases h with h | h
    · simp [h]
    · simp [h]
  simp only [hc, if_true]

/-- C10 on a confirmed transaction (depth 3). -/
theorem C10_abandon_rejected_unchanged_witness :
    mapFind sampleWalletConfirmed.mapWallet 5 = some sampleConfirmed ∧
    (GetDepthInMainChain (sampleEnv []) sampleConfirmed > 0 ∨
      InMempool (sampleEnv []) sampleConfirmed = true) ∧
    AbandonTransaction (sampleEnv []) sampleWalletConfirmed 5
      = Except.ok (false, sampleWalletConfirmed) :=
  ⟨by decide, Or.inl (by decide),
    C10_abandon_rejected_unchanged (sampleEnv []) sampleWalletConfirmed 5 sampleConfirmed
      (by decide) (Or.inl (by decide))⟩

/-! ## Theorems: sets and the spend index -/

theorem mem_setInsert (s : List uint256) (h y : uint256) :
    y ∈ setInsert s h ↔ y = h ∨ y ∈ s := by
  induction s with
  | nil => simp [setInsert]
  | cons x t ih =>
    simp only [setInsert]
    by_cases h1 : h < x
    · rw [if_pos h1]; simp
    · rw [if_neg h1]
      by_cases h2 : h = x
      · rw [if_pos h2]
        subst h2
        simp
      · rw [if_neg h2]
        simp only [List.mem_cons, ih]
        tauto

theorem setInsert_sorted (s : List uint256) (h : uint256) (hs : s.Pairwise (· < ·)) :
    (setInsert s h).Pairwise (· < ·) := by
  induction s with
  | nil => simp [setInsert]
  | cons x t ih =>
    simp only [setInsert]
    rw [List.pairwise_cons] at hs
    by_cases h1 : h < x
    · rw [if_pos h1]
      refine List.pairwise_cons.2 ⟨?_, List.pairwise_cons.2 hs⟩
      intro a ha
      rcases List.mem_cons.1 ha with e | e
      · rw [e]; exact h1
      · exact lt_trans h1 (hs.1 a e)
    · rw [if_neg h1]
      by_cases h2 : h = x
      · rw [if_pos h2]
        exact List.pairwise_cons.2 hs
      · rw [if_neg h2]
        refine List.pairwise_cons.2 ⟨?_, ih hs.2⟩
        intro a ha
        rcases (mem_setInsert t h a).1 ha with e | e
        · rw [e]
          exact lt_of_le_of_ne (not_lt.1 h1) (fun e2 => h2 e2.symm)
        · exact hs.1 a e

theorem mem_enqueue (done : List uint256) (l : List (COutPoint × uint256)) :
    ∀ (todo : List uint256) (y : uint256),
      y ∈ l.foldl (enqueueSpender done) todo ↔
        y ∈ todo ∨ (y ∉ done ∧ ∃ e ∈ l, e.2 = y) := by
  induction l with
  | nil => intro todo y; simp
  | cons e rest ih =>
    intro todo y
    rw [List.foldl_cons, ih]
    unfold enqueueSpender
    by_cases hc : done.contains e.2 = true
    · rw [if_pos hc]
      have hd : e.2 ∈ done := by simpa using hc
      constructor
      · rintro (h | ⟨h1, e2, h2, h3⟩)
        · exact Or.inl h
        · exact Or.inr ⟨h1, e2, List.mem_cons_of_mem _ h2, h3⟩
      · rintro (h | ⟨h1, e2, h2, h3⟩)
        · exact Or.inl h
        · rcases List.mem_cons.1 h2 with e3 | e3
          · subst e3
            rw [h3] at hd
            exact absurd hd h1
          · exact Or.inr ⟨h1, e2, e3, h3⟩
    · rw [if_neg hc]
      have hd : e.2 ∉ done := by simpa using hc
      rw [mem_setInsert]
      constructor
      · rintro ((h | h) | ⟨h1, e2, h2, h3⟩)
        · exact Or.inr ⟨by rw [h]; exact hd, e, List.mem_cons_self _ _, h.symm⟩
        · exact Or.inl h
        · exact Or.inr ⟨h1, e2, List.mem_cons_of_mem _ h2, h3⟩
      · rintro (h | ⟨h1, e2, h2, h3⟩)
        · exact Or.inl (Or.inr h)
        · rcases List.mem_cons.1 h2 with e3 | e3
          · subst e3
            exact Or.inl (Or.inl h3.symm)
          · exact Or.inr ⟨h1, e2, e3, h3⟩

theorem enqueue_sorted (done : List uint256) (l : List (COutPoint × uint256)) :
    ∀ todo : List uint256, todo.Pairwise (· < ·) →
      (l.foldl (enqueueSpender done) todo).Pairwise (· < ·) := by
  induction l with
  | nil => intro todo h; exact h
  | cons e rest ih =>
    intro todo h
    rw [List.foldl_cons]
    apply ih
    unfold enqueueSpender
    by_cases hc : done.contains e.2 = true
    · rw [if_pos hc]; exact h
    · rw [if_neg hc]; exact setInsert_sorted todo e.2 h

theorem spendsFrom_subset (s : List (COutPoint × uint256)) (start now : uint256)
    (e : COutPoint × uint256) (h : e ∈ spendsFrom s start now) : e ∈ s := by
  unfold spendsFrom at h
  exact (List.dropWhile_sublist _).subset ((List.takeWhile_sublist _).subset h)

theorem mem_takeWhile_hash (now : uint256) (l : List (COutPoint × uint256)) :
    SpendsSorted l → (∀ b ∈ l, now ≤ b.1.hash) →
      ∀ e ∈ l, e.1.hash = now → e ∈ l.takeWhile (fun x => decide (x.1.hash = now)) := by
  induction l with
  | nil => intro _ _ e he; cases he
  | cons a t ih =>
    intro hs hge e he hn
    unfold SpendsSorted at hs
    rw [List.pairwise_cons] at hs
    by_cases ha : a.1.hash = now
    · rw [List.takeWhile_cons_of_pos (by simpa using ha)]
      rcases List.mem_cons.1 he with e1 | e1
      · rw [e1]; exact List.mem_cons_self _ _
      · exact List.mem_cons_of_mem _
          (ih hs.2 (fun b hb => hge b (List.mem_cons_of_mem _ hb)) e e1 hn)
    · exfalso
      rcases List.mem_cons.1 he with e1 | e1
      · rw [e1] at hn; exact ha hn
      · have h1 := hs.1 e e1
        have h2 : now < a.1.hash :=
          lt_of_le_of_ne (hge a (List.mem_cons_self _ _)) (fun x => ha x.symm)
        simp [COutPoint.lt, hn, h2] at h1

theorem mem_spendsFrom (s : List (COutPoint × uint256)) (now : uint256) :
    SpendsSorted s → ∀ e ∈ s, e.1.hash = now → e ∈ spendsFrom s now now := by
  induction s with
  | nil => intro _ e he; cases he
  | cons a t ih =>
    intro hs e he hn
    have hs2 := hs
    unfold SpendsSorted at hs2
    rw [List.pairwise_cons] at hs2
    unfold spendsFrom
    by_cases ha : a.1.lt ⟨now, 0⟩ = true
    · simp only [List.dropWhile_cons, ha, if_true]
      rcases List.mem_cons.1 he with e1 | e1
      · exfalso
        rw [← e1] at ha
        simp [COutPoint.lt, hn] at ha
      · exact ih hs2.2 e e1 hn
    · simp only [List.dropWhile_cons, ha, if_false]
      have hage : now ≤ a.1.hash := by
        by_contra hlt
        exact ha (by simp [COutPoint.lt, not_le.1 hlt])
      refine mem_takeWhile_hash now (a :: t) hs ?_ e he hn
      intro b hb
      rcases List.mem_cons.1 hb with e1 | e1
      · rw [e1]; exact hage
      · have h1 := hs2.1 b e1
        by_contra hlt
        have h2 : b.1.hash < a.1.hash := lt_of_lt_of_le (not_le.1 hlt) hage
        simp [COutPoint.lt, h2] at h1

/-! ## Theorems: abandonment -/

theorem abandonSkips_of_core (env : ChainEnv) (a b : CWalletTx) (h : a.core = b.core) :
    (abandonSkips env a ↔ abandonSkips env b) ∧ InMempool env a = InMempool env b := by
  simp only [CWalletTx.core, Prod.mk.injEq] at h
  obtain ⟨hh, hb, hi, _, _, _⟩ := h
  simp only [abandonSkips, GetDepthInMainChain, CWalletTx.hashUnset, CWalletTx.isAbandoned,
    InMempool, hh, hb, hi, and_self]

theorem markDirty_core (r : CWalletTx) : r.MarkDirty.core = r.core := rfl

theorem markInputsDirty_core (vin : List CTxIn) :
    ∀ m : List (uint256 × CWalletTx), CorePreserved m (markInputsDirty m vin) := by
  induction vin with
  | nil => intro m; exact corePreserved_refl m
  | cons txin rest ih =>
    intro m
    simp only [markInputsDirty, List.foldl_cons]
    cases hf : mapFind m txin.prevout.hash with
    | none => exact ih m
    | some prev =>
      exact corePreserved_trans
        (corePreserved_mapSet m txin.prevout.hash prev prev.MarkDirty hf (markDirty_core prev))
        (ih _)

theorem abandoned_skips (env : ChainEnv) (r : CWalletTx) (h : r.isAbandoned = true) :
    abandonSkips env r := by
  simp only [CWalletTx.isAbandoned, decide_eq_true_eq] at h
  simp [abandonSkips, GetDepthInMainChain, CWalletTx.hashUnset, CWalletTx.isAbandoned, h]

theorem abandonSettled_of_core (env : ChainEnv) (hashTx : uint256) (w w2 : CWallet)
    (hc : CorePreserved w.mapWallet w2.mapWallet) (h : AbandonSettled env hashTx w) :
    AbandonSettled env hashTx w2 := by
  obtain ⟨r, hr, hs, hm⟩ := h
  obtain ⟨r2, hr2, hcore⟩ := hc hashTx r hr
  obtain ⟨e1, e2⟩ := abandonSkips_of_core env r2 r hcore
  exact ⟨r2, hr2, e1.2 hs, e2.trans hm⟩

theorem abandonLoop_settled (env : ChainEnv) (hashTx : uint256) :
    ∀ (fuel : Nat) (todo done : List uint256) (w w1 : CWallet),
      AbandonSettled env hashTx w →
      abandonLoop env hashTx fuel todo done w = Except.ok w1 →
      AbandonSettled env hashTx w1 := by
  intro fuel
  induction fuel with
  | zero =>
    intro todo done w w1 hP h
    cases todo with
    | nil =>
      simp only [abandonLoop, Except.ok.injEq] at h
      subst h; exact hP
    | cons now rest => simp [abandonLoop] at h
  | succ k ih =>
    intro todo done w w1 hP h
    cases todo with
    | nil =>
      simp only [abandonLoop, Except.ok.injEq] at h
      subst h; exact hP
    | cons now rest =>
      simp only [abandonLoop] at h
      cases hf : mapFind w.mapWallet now with
      | none => rw [hf] at h; cases h
      | some wtx =>
        rw [hf] at h
        dsimp only at h
        split at h
        · cases h
        · split at h
          · rename_i hcond
            split at h
            · cases h
            · refine ih _ _ _ w1 ?_ h
              have hne : hashTx ≠ now := by
                intro e
                subst e
                obtain ⟨r, hr, hs, _⟩ := hP
                rw [hf] at hr
                cases hr
                exact hs.2 hcond
              obtain ⟨r, hr, hs, hm⟩ := hP
              have h1 : mapFind (mapSet w.mapWallet now
                  ({ wtx with nIndex := -1 } : CWalletTx).setAbandoned.MarkDirty) hashTx
                  = some r := by
                rw [mapFind_mapSet, if_neg hne]; exact hr
              obtain ⟨r2, hr2, hcore⟩ := markInputsDirty_core _ _ hashTx r h1
              obtain ⟨e1, e2⟩ := abandonSkips_of_core env r2 r hcore
              exact ⟨r2, hr2, e1.2 hs, e2.trans hm⟩
          · exact ih _ _ _ w1 hP h

/-! ## Theorems: conflict propagation -/

theorem depth_of_core (env : ChainEnv) (a b : CWalletTx) (h : a.core = b.core) :
    GetDepthInMainChain env a = GetDepthInMainChain env b ∧ a.hashBlock = b.hashBlock ∧
      a.nIndex = b.nIndex := by
  simp only [CWalletTx.core, Prod.mk.injEq] at h
  obtain ⟨_, hb, hi, _, _, _⟩ := h
  refine ⟨?_, hb, hi⟩
  simp only [GetDepthInMainChain, CWalletTx.hashUnset, hb, hi]

theorem mapFind_markUpdated (m : List (uint256 × CWalletTx)) (now : uint256)
    (r r1 : CWalletTx) (vin : List CTxIn) (hr : mapFind m now = some r) :
    ∀ x rx, mapFind m x = some rx →
      ∃ r2, mapFind (markInputsDirty (mapSet m now r1) vin) x = some r2 ∧
        r2.core = if x = now then r1.core else rx.core := by
  intro x rx hx
  have h1 : mapFind (mapSet m now r1) x = some (if x = now then r1 else rx) := by
    rw [mapFind_mapSet]
    by_cases e : x = now
    · rw [if_pos e, if_pos e, hr]; rfl
    · rw [if_neg e, if_neg e]; exact hx
  obtain ⟨r2, hr2, hc⟩ := markInputsDirty_core vin _ x _ h1
  refine ⟨r2, hr2, ?_⟩
  rw [hc]
  by_cases e : x = now
  · rw [if_pos e, if_pos e]
  · rw [if_neg e, if_neg e]

theorem toFinset_setInsert (done : List uint256) (x : uint256) :
    (setInsert done x).toFinset = insert x done.toFinset := by
  ext y
  simp [mem_setInsert]

theorem worklistMeasure_insert (w : CWallet) (hashTx : uint256) (done : List uint256)
    (x : uint256) (hx : x ∈ worklistUniverse w hashTx) (hd : x ∉ done) :
    worklistMeasure w hashTx (setInsert done x) < worklistMeasure w hashTx done := by
  unfold worklistMeasure
  rw [toFinset_setInsert]
  apply Finset.card_lt_card
  rw [Finset.ssubset_iff_of_subset
    (Finset.sdiff_subset_sdiff (Finset.Subset.refl _) (Finset.subset_insert _ _))]
  refine ⟨x, ?_, ?_⟩
  · simp [hx, hd]
  · simp

theorem worklistMeasure_nil (w : CWallet) (hashTx : uint256) :
    worklistMeasure w hashTx [] ≤ w.mapTxSpends.length + 1 := by
  unfold worklistMeasure
  have h := List.toFinset_card_le (worklistUniverse w hashTx)
  simp only [List.toFinset_nil, Finset.sdiff_empty]
  simpa [worklistUniverse] using h

theorem conflictInv_init (env : ChainEnv) (w0 : CWallet) (hashBlock : uint256) (d : Int)
    (hashTx : uint256) : ConflictInv env w0 hashBlock d hashTx [hashTx] [] w0 where
  frame := ⟨rfl, rfl, rfl, rfl⟩
  sorted := List.pairwise_singleton _ _
  fresh := by
    intro x hx
    rw [List.mem_singleton] at hx
    subst hx
    exact ⟨List.not_mem_nil _, List.mem_cons_self _ _⟩
  records := fun x r0 h => ⟨r0, h, Or.inl rfl⟩
  closed := fun x hx => absurd hx (List.not_mem_nil _)
  start := Or.inl (List.mem_singleton_self _)

theorem conflictInv_skip (env : ChainEnv) (w0 : CWallet) (hashBlock : uint256) (d : Int)
    (hashTx now : uint256) (rest done : List uint256) (w : CWallet) (r : CWalletTx)
    (inv : ConflictInv env w0 hashBlock d hashTx (now :: rest) done w)
    (hr : mapFind w.mapWallet now = some r) (hcold : ¬ d < GetDepthInMainChain env r) :
    ConflictInv env w0 hashBlock d hashTx rest (setInsert done now) w where
  frame := inv.frame
  sorted := (List.pairwise_cons.1 inv.sorted).2
  fresh := by
    intro x hx
    obtain ⟨h1, h2⟩ := inv.fresh x (List.mem_cons_of_mem _ hx)
    refine ⟨?_, h2⟩
    rw [mem_setInsert]
    rintro (e | e)
    · have := (List.pairwise_cons.1 inv.sorted).1 x hx
      rw [e] at this
      exact lt_irrefl _ this
    · exact h1 e
  records := by
    intro x r0 h0
    obtain ⟨rx, hrx, hd⟩ := inv.records x r0 h0
    refine ⟨rx, hrx, ?_⟩
    rcases hd with hd | ⟨h1, h2⟩
    · exact Or.inl hd
    · exact Or.inr ⟨(mem_setInsert _ _ _).2 (Or.inr h1), h2⟩
  closed := by
    intro x hx hless
    rcases (mem_setInsert _ _ _).1 hx with e | e
    · exfalso
      subst e
      obtain ⟨r0, h0, hlt⟩ := hless
      obtain ⟨rx, hrx, hd⟩ := inv.records x r0 h0
      have hrr : rx = r := by
        rw [hr] at hrx
        exact (Option.some.inj hrx).symm
      rw [hrr] at hd
      rcases hd with hd | ⟨h1, _⟩
      · rw [(depth_of_core env _ _ hd).1] at hcold
        exact hcold hlt
      · exact (inv.fresh x (List.mem_cons_self _ _)).1 h1
    · obtain ⟨h1, h2⟩ := inv.closed x e hless
      refine ⟨h1, ?_⟩
      intro n y hy
      rcases h2 n y hy with h3 | h3
      · rcases List.mem_cons.1 h3 with e2 | e2
        · exact Or.inr ((mem_setInsert _ _ _).2 (Or.inl e2))
        · exact Or.inl e2
      · exact Or.inr ((mem_setInsert _ _ _).2 (Or.inr h3))
  start := by
    rcases inv.start with h | h
    · rcases List.mem_cons.1 h with e | e
      · exact Or.inr ((mem_setInsert _ _ _).2 (Or.inl e))
      · exact Or.inl e
    · exact Or.inr ((mem_setInsert _ _ _).2 (Or.inr h))

theorem conflictInv_update (env : ChainEnv) (w0 : CWallet) (hashBlock : uint256) (d : Int)
    (hashTx now : uint256) (rest done : List uint256) (w : CWallet) (r : CWalletTx)
    (hsorted : SpendsSorted w0.mapTxSpends)
    (inv : ConflictInv env w0 hashBlock d hashTx (now :: rest) done w)
    (hr : mapFind w.mapWallet now = some r) (hhot : d < GetDepthInMainChain env r) :
    ConflictInv env w0 hashBlock d hashTx
      ((spendsFrom w.mapTxSpends now now).foldl (enqueueSpender (setInsert done now)) rest)
      (setInsert done now)
      (conflictUpdate w hashBlock now r) where
  frame := inv.frame
  sorted := enqueue_sorted _ _ _ (List.pairwise_cons.1 inv.sorted).2
  fresh := by
    intro x hx
    rcases (mem_enqueue _ _ _ _).1 hx with h | ⟨h1, e, he, h2⟩
    · obtain ⟨h1, h2⟩ := inv.fresh x (List.mem_cons_of_mem _ h)
      refine ⟨?_, h2⟩
      rw [mem_setInsert]
      rintro (e | e)
      · have := (List.pairwise_cons.1 inv.sorted).1 x h
        rw [e] at this
        exact lt_irrefl _ this
      · exact h1 e
    · refine ⟨h1, ?_⟩
      have hm := spendsFrom_subset _ _ _ e he
      rw [inv.frame.1] at hm
      rw [← h2]
      exact List.mem_cons_of_mem _ (List.mem_map_of_mem Prod.snd hm)
  records := by
    intro x r0 h0
    obtain ⟨rx, hrx, hd⟩ := inv.records x r0 h0
    obtain ⟨r2, hr2, hc⟩ := mapFind_markUpdated w.mapWallet now r
      ({ r with nIndex := -1, hashBlock := hashBlock } : CWalletTx).MarkDirty
      ({ r with nIndex := -1, hashBlock := hashBlock } : CWalletTx).MarkDirty.vin hr x rx hrx
    refine ⟨r2, hr2, ?_⟩
    by_cases e : x = now
    · rw [if_pos e] at hc
      subst e
      have hrr : rx = r := by
        rw [hr] at hrx
        exact (Option.some.inj hrx).symm
      rw [hrr] at hd
      have hfresh := (inv.fresh x (List.mem_cons_self _ _)).1
      have hcore : r.core = r0.core := by
        rcases hd with hd | ⟨h1, _⟩
        · exact hd
        · exact absurd h1 hfresh
      refine Or.inr ⟨(mem_setInsert _ _ _).2 (Or.inl rfl), ?_, ?_, ?_⟩
      · rw [← (depth_of_core env _ _ hcore).1]; exact hhot
      · exact (depth_of_core env _ _ hc).2.1
      · exact (depth_of_core env _ _ hc).2.2
    · rw [if_neg e] at hc
      rcases hd with hd | ⟨h1, h2, h3, h4⟩
      · exact Or.inl (hc.trans hd)
      · refine Or.inr ⟨(mem_setInsert _ _ _).2 (Or.inr h1), h2, ?_, ?_⟩
        · rw [(depth_of_core env _ _ hc).2.1]; exact h3
        · rw [(depth_of_core env _ _ hc).2.2]; exact h4
  closed := by
    intro x hx hless
    have hmark : ∀ z, ConflictMarked w hashBlock z ∨ z = now →
        ConflictMarked (conflictUpdate w hashBlock now r) hashBlock z := by
      intro z hz
      by_cases e : z = now
      · obtain ⟨r2, hr2, hc⟩ := mapFind_markUpdated w.mapWallet now r
          ({ r with nIndex := -1, hashBlock := hashBlock } : CWalletTx).MarkDirty
          ({ r with nIndex := -1, hashBlock := hashBlock } : CWalletTx).MarkDirty.vin hr now r hr
        rw [if_pos rfl] at hc
        rw [e]
        exact ⟨r2, hr2, (depth_of_core env _ _ hc).2.1, (depth_of_core env _ _ hc).2.2⟩
      · rcases hz with ⟨rz, hrz, h3, h4⟩ | hz
        · obtain ⟨r2, hr2, hc⟩ := mapFind_markUpdated w.mapWallet now r
            ({ r with nIndex := -1, hashBlock := hashBlock } : CWalletTx).MarkDirty
            ({ r with nIndex := -1, hashBlock := hashBlock } : CWalletTx).MarkDirty.vin hr z rz
            hrz
          rw [if_neg e] at hc
          exact ⟨r2, hr2, by rw [(depth_of_core env _ _ hc).2.1]; exact h3,
            by rw [(depth_of_core env _ _ hc).2.2]; exact h4⟩
        · exact absurd hz e
    rcases (mem_setInsert _ _ _).1 hx with e | e
    · refine ⟨hmark x (Or.inr e), ?_⟩
      intro n y hy
      by_cases hyd : y ∈ setInsert done now
      · exact Or.inr hyd
      · refine Or.inl ((mem_enqueue _ _ _ _).2 (Or.inr ⟨hyd, (⟨x, n⟩, y), ?_, rfl⟩))
        rw [inv.frame.1]
        exact mem_spendsFrom _ now hsorted _ hy (by rw [e])
    · obtain ⟨h1, h2⟩ := inv.closed x e hless
      refine ⟨hmark x (Or.inl h1), ?_⟩
      intro n y hy
      rcases h2 n y hy with h3 | h3
      · rcases List.mem_cons.1 h3 with e2 | e2
        · exact Or.inr ((mem_setInsert _ _ _).2 (Or.inl e2))
        · exact Or.inl ((mem_enqueue _ _ _ _).2 (Or.inl e2))
      · exact Or.inr ((mem_setInsert _ _ _).2 (Or.inr h3))
  start := by
    rcases inv.start with h | h
    · rcases List.mem_cons.1 h with e | e
      · exact Or.inr ((mem_setInsert _ _ _).2 (Or.inl e))
      · exact Or.inl ((mem_enqueue _ _ _ _).2 (Or.inl e))
    · exact Or.inr ((mem_setInsert _ _ _).2 (Or.inr h))

theorem conflictLoop_spec (env : ChainEnv) (w0 : CWallet) (hashBlock : uint256) (d : Int)
    (hashTx : uint256) (hsorted : SpendsSorted w0.mapTxSpends)
    (htracked : ∀ x ∈ worklistUniverse w0 hashTx, ∃ r, mapFind w0.mapWallet x = some r) :
    ∀ (fuel : Nat) (todo done : List uint256) (w : CWallet),
      ConflictInv env w0 hashBlock d hashTx todo done w →
      worklistMeasure w0 hashTx done ≤ fuel →
      ∃ w1 done1, conflictLoop env hashBlock d fuel todo done w = Except.ok w1 ∧
        ConflictInv env w0 hashBlock d hashTx [] done1 w1 := by
  intro fuel
  induction fuel with
  | zero =>
    intro todo done w inv hm
    cases todo with
    | nil => exact ⟨w, done, by simp [conflictLoop], inv⟩
    | cons now rest =>
      exfalso
      obtain ⟨h1, h2⟩ := inv.fresh now (List.mem_cons_self _ _)
      have := worklistMeasure_insert w0 hashTx done now h2 h1
      omega
  | succ k ih =>
    intro todo done w inv hm
    cases todo with
    | nil => exact ⟨w, done, by simp [conflictLoop], inv⟩
    | cons now rest =>
      obtain ⟨h1, h2⟩ := inv.fresh now (List.mem_cons_self _ _)
      have hmeasure : worklistMeasure w0 hashTx (setInsert done now) ≤ k := by
        have := worklistMeasure_insert w0 hashTx done now h2 h1
        omega
      obtain ⟨r0, hr0⟩ := htracked now h2
      obtain ⟨r, hr, _⟩ := inv.records now r0 hr0
      simp only [conflictLoop, hr]
      by_cases hhot : d < GetDepthInMainChain env r
      · rw [if_pos hhot]
        exact ih _ _ _ (conflictInv_update env w0 hashBlock d hashTx now rest done w r hsorted
          inv hr hhot) hmeasure
      · rw [if_neg hhot]
        exact ih _ _ _ (conflictInv_skip env w0 hashBlock d hashTx now rest done w r inv hr hhot)
          hmeasure

theorem conflictReach_less (env : ChainEnv) (w : CWallet) (d : Int) (hashTx x : uint256)
    (h : ConflictReach env w d hashTx x) : LessConflicted env w d x := by
  cases h with
  | root h1 => exact h1
  | step x2 n _ _ _ h3 => exact h3

theorem conflictInv_reach (env : ChainEnv) (w0 : CWallet) (hashBlock : uint256) (d : Int)
    (hashTx : uint256) (done : List uint256) (w1 : CWallet)
    (inv : ConflictInv env w0 hashBlock d hashTx [] done w1) (x : uint256)
    (h : ConflictReach env w0 d hashTx x) : x ∈ done ∧ ConflictMarked w1 hashBlock x := by
  induction h with
  | root h1 =>
    have hin : hashTx ∈ done := by
      rcases inv.start with e | e
      · cases e
      · exact e
    exact ⟨hin, (inv.closed hashTx hin h1).1⟩
  | step x2 y n hx hy hless ih =>
    have hin : y ∈ done := by
      rcases (inv.closed x2 ih.1 (conflictReach_less env w0 d hashTx x2 hx)).2 n y hy with e | e
      · cases e
      · exact e
    exact ⟨hin, (inv.closed y hin hless).1⟩

theorem conflictConfirms_neg (env : ChainEnv) (hashBlock : uint256)
    (h : conflictConfirms env hashBlock < 0) :
    ∃ pindex, env.mapBlockIndex hashBlock = some pindex ∧ env.chainContains hashBlock = true ∧
      conflictConfirms env hashBlock = -(env.chainHeight - pindex.nHeight + 1) := by
  unfold conflictConfirms at h ⊢
  cases hb : env.mapBlockIndex hashBlock with
  | none => rw [hb] at h; simp at h
  | some pindex =>
    rw [hb] at h
    simp only at h ⊢
    by_cases hc : env.chainContains hashBlock = true
    · rw [if_pos hc]
      exact ⟨pindex, rfl, hc, rfl⟩
    · rw [if_neg hc] at h
      simp at h

theorem depth_of_marked (env : ChainEnv) (hashBlock : uint256) (r : CWalletTx)
    (hd : conflictConfirms env hashBlock < 0) (h0 : hashBlock ≠ 0)
    (h1 : hashBlock ≠ ABANDON_HASH) (hb : r.hashBlock = hashBlock) (hi : r.nIndex = -1) :
    GetDepthInMainChain env r = conflictConfirms env hashBlock := by
  obtain ⟨pindex, e1, e2, e3⟩ := conflictConfirms_neg env hashBlock hd
  rw [e3]
  simp [GetDepthInMainChain, CWalletTx.hashUnset, hb, hi, h0, h1, e1, e2]

theorem markConflicted_noop (env : ChainEnv) (w : CWallet) (hashBlock hashTx : uint256)
    (r : CWalletTx) (hr : mapFind w.mapWallet hashTx = some r)
    (hcold : conflictConfirms env hashBlock ≥ GetDepthInMainChain env r) :
    MarkConflicted env w hashBlock hashTx = Except.ok w := by
  unfold MarkConflicted
  by_cases hc : conflictConfirms env hashBlock ≥ 0
  · rw [if_pos hc]
  · rw [if_neg hc]
    simp only [conflictLoop, hr]
    rw [if_neg (not_lt.2 hcold)]

/-! ## Claims C11 and C12 -/

/-- C11 at a chain of three unconfirmed transactions `3`, `5`, `6` outside
the mempool, each spending output 0 of the one before: `AbandonTransaction`
on `3` succeeds and marks `3` and `5` abandoned, but `6`, which is at depth 0
and not abandoned, stays unabandoned, because the scan of `mapTxSpends` starts
at `COutPoint(hashTx, 0)` for every visited transaction. -/
theorem C11_abandon_misses_grandchild :
    ((⟨3, 0⟩ : COutPoint), 5) ∈ sampleChainWallet.mapTxSpends ∧
    ((⟨5, 0⟩ : COutPoint), 6) ∈ sampleChainWallet.mapTxSpends ∧
    (mapFind sampleChainWallet.mapWallet 6).map
      (fun r => (GetDepthInMainChain (sampleEnv []) r, r.isAbandoned)) = some (0, false) ∧
    (AbandonTransaction (sampleEnv []) sampleChainWallet 3).map (fun p =>
      (p.1, (mapFind p.2.mapWallet 3).map CWalletTx.isAbandoned,
        (mapFind p.2.mapWallet 5).map CWalletTx.isAbandoned,
        (mapFind p.2.mapWallet 6).map CWalletTx.isAbandoned))
      = Except.ok (true, some true, some true, some false) := by
  decide

/-- C12: when `AbandonTransaction` succeeds, a second call on the same hash
succeeds as well and returns the wallet state the first call left: the record
is then abandoned (or conflicted) and the loop passes over it. -/
theorem C12_abandon_idempotent (env : ChainEnv) (w w1 : CWallet) (hashTx : uint256)
    (h : AbandonTransaction env w hashTx = Except.ok (true, w1)) :
    AbandonTransaction env w1 hashTx = Except.ok (true, w1) := by
  have hP : AbandonSettled env hashTx w1 := by
    unfold AbandonTransaction at h
    cases hf : mapFind w.mapWallet hashTx with
    | none => rw [hf] at h; cases h
    | some origtx =>
      rw [hf] at h
      dsimp only at h
      split at h
      · cases h
      · rename_i hc
        simp only [Bool.or_eq_true, decide_eq_true_eq, not_or, Bool.not_eq_true] at hc
        obtain ⟨hd, hm⟩ := hc
        cases hl : abandonLoop env hashTx (w.mapTxSpends.length + w.mapWallet.length + 1)
            [hashTx] [] w with
        | error e => rw [hl] at h; cases h
        | ok w2 =>
          rw [hl] at h
          simp only [Except.ok.injEq, Prod.mk.injEq, true_and] at h
          subst h
          simp only [abandonLoop, hf] at hl
          split at hl
          · cases hl
          · split at hl
            · split at hl
              · cases hl
              · refine abandonLoop_settled env hashTx _ _ _ _ w2 ?_ hl
                have h1 : mapFind (mapSet w.mapWallet hashTx
                    ({ origtx with nIndex := -1 } : CWalletTx).setAbandoned.MarkDirty) hashTx
                    = some ({ origtx with nIndex := -1 } : CWalletTx).setAbandoned.MarkDirty := by
                  rw [mapFind_mapSet, if_pos rfl, hf]; rfl
                obtain ⟨r2, hr2, hcore⟩ := markInputsDirty_core _ _ hashTx _ h1
                obtain ⟨e1, e2⟩ := abandonSkips_of_core env r2 _ hcore
                refine ⟨r2, hr2, e1.2 (abandoned_skips env _ ?_), e2.trans ?_⟩
                · simp [CWalletTx.setAbandoned, CWalletTx.MarkDirty, CWalletTx.isAbandoned]
                · exact hm
            · rename_i hn
              simp only [Except.ok.injEq] at hl
              subst hl
              exact ⟨origtx, hf, ⟨not_lt.1 hd, hn⟩, hm⟩
  obtain ⟨r, hr, hs, hm⟩ := hP
  unfold AbandonTransaction
  rw [hr]
  dsimp only
  have hc : (decide (GetDepthInMainChain env r > 0) || InMempool env r) = false := by
    simp [hm, not_lt.2 hs.1]
  rw [hc]
  simp only [Bool.false_eq_true, if_false, abandonLoop, hr]
  rw [if_neg (not_lt.2 hs.1), if_neg hs.2]

/-- C12 on the chain wallet: the first call on `3` succeeds and leaves `3`
and `5` abandoned; the second call succeeds with the same state. -/
theorem C12_abandon_idempotent_witness :
    AbandonTransaction (sampleEnv []) sampleChainWallet 3
      = Except.ok (true, sampleChainAbandoned) ∧
    AbandonTransaction (sampleEnv []) sampleChainAbandoned 3
      = Except.ok (true, sampleChainAbandoned) :=
  ⟨by decide,
    C12_abandon_idempotent (sampleEnv []) sampleChainWallet sampleChainAbandoned 3 (by decide)⟩

/-! ## Claim C13 -/

/-- C13 as stated fails on the dependents: `5` spends an output of `3` and is
already conflicted at depth -9, `6` spends an output of `5` and has depth 0.
Marking `3` conflicted with block `100` (depth -3) updates `3`, passes over `5`
and never visits `6`, a downstream dependent whose depth 0 is greater than -3. -/
theorem C13_dependent_behind_deeper_conflict :
    conflictConfirms (sampleEnv []) 100 = -3 ∧
    ((⟨3, 0⟩ : COutPoint), 5) ∈ sampleConflictWallet.mapTxSpends ∧
    ((⟨5, 0⟩ : COutPoint), 6) ∈ sampleConflictWallet.mapTxSpends ∧
    (mapFind sampleConflictWallet.mapWallet 6).map (GetDepthInMainChain (sampleEnv []))
      = some 0 ∧
    (MarkConflicted (sampleEnv []) sampleConflictWallet 100 3).map (fun w1 =>
      ((mapFind w1.mapWallet 3).map (fun r => (r.hashBlock, r.nIndex)),
       (mapFind w1.mapWallet 5).map (fun r => (r.hashBlock, r.nIndex)),
       (mapFind w1.mapWallet 6).map (fun r => (r.hashBlock, r.nIndex))))
      = Except.ok (some (100, -1), some (200, -1), some (0, -1)) := by
  decide

/-- C13 as amended: for a block on the active chain (conflict depth `d` below
zero) and a tracked `hashTx`, on a wallet whose spend index is ordered and
names tracked transactions only: if `d` is not below the depth recorded for
`hashTx`, `MarkConflicted` leaves the wallet unchanged; in every case it
returns a wallet on which the same call changes nothing; and if `d` is below
the recorded depth, `hashTx` and every transaction reached from it through
claimants that are each less conflicted than `d` end with the block
association `hashBlock` and the index -1. -/
theorem C13_mark_conflicted_propagates (env : ChainEnv) (w : CWallet)
    (hashBlock hashTx : uint256) (r0 : CWalletTx)
    (hd : conflictConfirms env hashBlock < 0)
    (hb : hashBlock ≠ 0 ∧ hashBlock ≠ ABANDON_HASH)
    (hr : mapFind w.mapWallet hashTx = some r0)
    (hsorted : SpendsSorted w.mapTxSpends)
    (htracked : ∀ e ∈ w.mapTxSpends, (mapFind w.mapWallet e.2).isSome = true) :
    (conflictConfirms env hashBlock ≥ GetDepthInMainChain env r0 →
      MarkConflicted env w hashBlock hashTx = Except.ok w) ∧
    ∃ w1, MarkConflicted env w hashBlock hashTx = Except.ok w1 ∧
      MarkConflicted env w1 hashBlock hashTx = Except.ok w1 ∧
      (conflictConfirms env hashBlock < GetDepthInMainChain env r0 →
        ConflictMarked w1 hashBlock hashTx) ∧
      (∀ x, ConflictReach env w (conflictConfirms env hashBlock) hashTx x →
        ConflictMarked w1 hashBlock x) := by
  refine ⟨markConflicted_noop env w hashBlock hashTx r0 hr, ?_⟩
  have huni : ∀ x ∈ worklistUniverse w hashTx, ∃ r, mapFind w.mapWallet x = some r := by
    intro x hx
    rcases List.mem_cons.1 hx with e | e
    · rw [e]; exact ⟨r0, hr⟩
    · obtain ⟨e2, he2, rfl⟩ := List.mem_map.1 e
      exact Option.isSome_iff_exists.1 (htracked e2 he2)
  obtain ⟨w1, done1, hl, inv⟩ := conflictLoop_spec env w hashBlock (conflictConfirms env hashBlock)
    hashTx hsorted huni (w.mapTxSpends.length + 1) [hashTx] [] w
    (conflictInv_init env w hashBlock _ hashTx) (worklistMeasure_nil w hashTx)
  have hcall : MarkConflicted env w hashBlock hashTx = Except.ok w1 := by
    unfold MarkConflicted
    rw [if_neg (not_le.2 hd)]
    exact hl
  have hreach : ∀ x, ConflictReach env w (conflictConfirms env hashBlock) hashTx x →
      ConflictMarked w1 hashBlock x :=
    fun x hx => (conflictInv_reach env w hashBlock _ hashTx done1 w1 inv x hx).2
  have hroot : conflictConfirms env hashBlock < GetDepthInMainChain env r0 →
      ConflictMarked w1 hashBlock hashTx :=
    fun hlt => hreach hashTx (ConflictReach.root ⟨r0, hr, hlt⟩)
  refine ⟨w1, hcall, ?_, hroot, hreach⟩
  by_cases hlt : conflictConfirms env hashBlock < GetDepthInMainChain env r0
  · obtain ⟨r1, hr1, e1, e2⟩ := hroot hlt
    apply markConflicted_noop env w1 hashBlock hashTx r1 hr1
    rw [depth_of_marked env hashBlock r1 hd hb.1 hb.2 e1 e2]
  · have hsame := markConflicted_noop env w hashBlock hashTx r0 hr (not_lt.1 hlt)
    rw [hcall] at hsame
    simp only [Except.ok.injEq] at hsame
    rw [hsame]
    exact markConflicted_noop env w hashBlock hashTx r0 hr (not_lt.1 hlt)

/-- C13 on the chain of three unconfirmed transactions: marking `3`
conflicted with block `100` marks `3`, `5` and `6`, and a second call changes
nothing. -/
theorem C13_mark_conflicted_propagates_witness :
    conflictConfirms (sampleEnv []) 100 < 0 ∧
    ((100 : uint256) ≠ 0 ∧ (100 : uint256) ≠ ABANDON_HASH) ∧
    SpendsSorted sampleChainWallet.mapTxSpends ∧
    (∀ e ∈ sampleChainWallet.mapTxSpends,
      (mapFind sampleChainWallet.mapWallet e.2).isSome = true) ∧
    (MarkConflicted (sampleEnv []) sampleChainWallet 100 3).map (fun w1 =>
      (w1.mapWallet.map (fun e => (e.1, e.2.hashBlock, e.2.nIndex))))
      = Except.ok [(3, 100, -1), (5, 100, -1), (6, 100, -1)] ∧
    ∃ w1, MarkConflicted (sampleEnv []) sampleChainWallet 100 3 = Except.ok w1 ∧
      MarkConflicted (sampleEnv []) w1 100 3 = Except.ok w1 ∧
      (conflictConfirms (sampleEnv []) 100 <
          GetDepthInMainChain (sampleEnv []) (sampleTx 3 [⟨⟨2, 0⟩, 0, 0⟩] [⟨100, 1, 0⟩] 0 (-1)) →
        ConflictMarked w1 100 3) ∧
      (∀ x, ConflictReach (sampleEnv []) sampleChainWallet (conflictConfirms (sampleEnv []) 100)
          3 x → ConflictMarked w1 100 x) :=
  have hs : SpendsSorted sampleChainWallet.mapTxSpends := by
    unfold SpendsSorted
    decide
  ⟨by decide, by decide, hs, by decide, by decide,
    (C13_mark_conflicted_propagates (sampleEnv []) sampleChainWallet 100 3
      (sampleTx 3 [⟨⟨2, 0⟩, 0, 0⟩] [⟨100, 1, 0⟩] 0 (-1)) (by decide) (by decide) (by decide)
      hs (by decide)).2⟩

/-! ## Theorems: conflicting claimants -/

theorem mem_equalRange (s : List (COutPoint × uint256)) (o : COutPoint) (h : uint256) :
    h ∈ equalRange s o ↔ (o, h) ∈ s := by
  unfold equalRange
  simp only [List.mem_map, List.mem_filter, decide_eq_true_eq]
  constructor
  · rintro ⟨⟨o2, h2⟩, ⟨hm, ho⟩, hh⟩
    simp only at ho hh
    subst ho; subst hh
    exact hm
  · intro hm
    exact ⟨(o, h), ⟨hm, rfl⟩, rfl⟩

theorem mem_foldl_setInsert (l : List uint256) :
    ∀ (acc : List uint256) (y : uint256), y ∈ l.foldl setInsert acc ↔ y ∈ acc ∨ y ∈ l := by
  induction l with
  | nil => intro acc y; simp
  | cons a t ih =>
    intro acc y
    rw [List.foldl_cons, ih, mem_setInsert]
    simp only [List.mem_cons]
    tauto

theorem foldl_setInsert_sorted (l : List uint256) :
    ∀ acc : List uint256, acc.Pairwise (· < ·) → (l.foldl setInsert acc).Pairwise (· < ·) := by
  induction l with
  | nil => intro acc h; exact h
  | cons a t ih =>
    intro acc h
    rw [List.foldl_cons]
    exact ih _ (setInsert_sorted acc a h)

theorem mem_conflictFold (s : List (COutPoint × uint256)) (vin : List CTxIn) :
    ∀ (acc : List uint256) (y : uint256),
      y ∈ vin.foldl (fun result txin =>
        if (equalRange s txin.prevout).length ≤ 1 then result
        else (equalRange s txin.prevout).foldl setInsert result) acc ↔
      y ∈ acc ∨ ∃ txin ∈ vin, 1 < (equalRange s txin.prevout).length ∧
        y ∈ equalRange s txin.prevout := by
  induction vin with
  | nil => intro acc y; simp
  | cons a t ih =>
    intro acc y
    rw [List.foldl_cons, ih]
    by_cases hc : (equalRange s a.prevout).length ≤ 1
    · rw [if_pos hc]
      constructor
      · rintro (h | ⟨txin, h1, h2, h3⟩)
        · exact Or.inl h
        · exact Or.inr ⟨txin, List.mem_cons_of_mem _ h1, h2, h3⟩
      · rintro (h | ⟨txin, h1, h2, h3⟩)
        · exact Or.inl h
        · rcases List.mem_cons.1 h1 with e | e
          · subst e; omega
          · exact Or.inr ⟨txin, e, h2, h3⟩
    · rw [if_neg hc, mem_foldl_setInsert]
      constructor
      · rintro ((h | h) | ⟨txin, h1, h2, h3⟩)
        · exact Or.inl h
        · exact Or.inr ⟨a, List.mem_cons_self _ _, not_le.1 hc, h⟩
        · exact Or.inr ⟨txin, List.mem_cons_of_mem _ h1, h2, h3⟩
      · rintro (h | ⟨txin, h1, h2, h3⟩)
        · exact Or.inl (Or.inl h)
        · rcases List.mem_cons.1 h1 with e | e
          · subst e; exact Or.inl (Or.inr h3)
          · exact Or.inr ⟨txin, e, h2, h3⟩

theorem conflictFold_sorted (s : List (COutPoint × uint256)) (vin : List CTxIn) :
    ∀ acc : List uint256, acc.Pairwise (· < ·) →
      (vin.foldl (fun result txin =>
        if (equalRange s txin.prevout).length ≤ 1 then result
        else (equalRange s txin.prevout).foldl setInsert result) acc).Pairwise (· < ·) := by
  induction vin with
  | nil => intro acc h; exact h
  | cons a t ih =>
    intro acc h
    rw [List.foldl_cons]
    apply ih
    by_cases hc : (equalRange s a.prevout).length ≤ 1
    · rw [if_pos hc]; exact h
    · rw [if_neg hc]; exact foldl_setInsert_sorted _ _ h

theorem length_gt_one_of_two (l : List uint256) (a b : uint256) (ha : a ∈ l) (hb : b ∈ l)
    (hne : a ≠ b) : 1 < l.length := by
  match l, ha, hb with
  | [x], ha, hb =>
    simp only [List.mem_singleton] at ha hb
    exact absurd (ha.trans hb.symm) hne
  | _ :: _ :: _, _, _ => simp

theorem mem_walletGetConflicts (w : CWallet) (txid : uint256) (tx : CWalletTx)
    (hr : mapFind w.mapWallet txid = some tx)
    (hown : ∀ txin ∈ tx.vin, (txin.prevout, txid) ∈ w.mapTxSpends) (h : uint256) (hne : h ≠ txid) :
    h ∈ GetConflicts w txid ↔ ∃ txin ∈ tx.vin, (txin.prevout, h) ∈ w.mapTxSpends := by
  unfold GetConflicts
  rw [hr]
  simp only
  rw [mem_conflictFold]
  simp only [List.not_mem_nil, false_or, mem_equalRange]
  constructor
  · rintro ⟨txin, h1, _, h3⟩
    exact ⟨txin, h1, h3⟩
  · rintro ⟨txin, h1, h3⟩
    refine ⟨txin, h1, ?_, h3⟩
    exact length_gt_one_of_two _ h txid ((mem_equalRange _ _ _).2 h3)
      ((mem_equalRange _ _ _).2 (hown txin h1)) hne

/-! ## Claim C14 -/

/-- C14 fails after an erase: from the empty wallet, `sampleSpender` (hash `5`)
and the transaction `8` that spends the same outpoint are added, then `8` is
erased.  `EraseFromWallet` leaves the entry of `8` in the spend index, and the
conflicts of the tracked `5` still hold `8`, which is not tracked. -/
theorem C14_erased_claimant_still_reported :
    mapFind sampleWalletErased.mapWallet 8 = none ∧
    sampleWalletErased.mapTxSpends = [(⟨3, 0⟩, 5), (⟨3, 0⟩, 8)] ∧
    (mapFind sampleWalletErased.mapWallet 5).map
        (fun tx => (tx.hash, tx.vin, tx.GetConflicts sampleWalletErased))
      = some (5, [⟨⟨3, 0⟩, 0, 0⟩], [8]) := by
  decide

/-- C14 (amended): in every wallet state, `GetConflicts` of a tracked
transaction is a set (ascending, without repetition) whose members are exactly
the hashes, other than its own, that the spend index records as claimants of
an outpoint it consumes and that has more than one claimant, tracked or not.
On a wallet whose spend index holds exactly the outpoints consumed by its
tracked transactions, the members for a transaction that is not coinbase-like
are exactly the hashes, other than its own, of the tracked transactions that
consume an outpoint it consumes.  `CWallet::GetConflicts` of an untracked hash
is empty. -/
theorem C14_get_conflicts_exact (w : CWallet) (txHash : uint256) :
    (∀ tx, mapFind w.mapWallet txHash = some tx → tx.hash = txHash →
      (tx.GetConflicts w).Pairwise (· < ·) ∧
      ∀ h, h ∈ tx.GetConflicts w ↔
        h ≠ txHash ∧ ∃ txin ∈ tx.vin, 1 < (equalRange w.mapTxSpends txin.prevout).length ∧
          (txin.prevout, h) ∈ w.mapTxSpends) ∧
    (SpendsExact w → ∀ tx, mapFind w.mapWallet txHash = some tx → tx.hash = txHash →
      tx.fCoinBase = false → tx.fZerocoinSpend = false →
      ∀ h, h ∈ tx.GetConflicts w ↔
        h ≠ txHash ∧ ∃ v, mapFind w.mapWallet h = some v ∧ ∃ o, consumes tx o ∧ consumes v o) ∧
    (mapFind w.mapWallet txHash = none → GetConflicts w txHash = []) := by
  refine ⟨?_, ?_, ?_⟩
  · intro tx hr hh
    unfold CWalletTx.GetConflicts
    rw [hh]
    refine ⟨List.Pairwise.filter _ ?_, ?_⟩
    · unfold GetConflicts
      rw [hr]
      exact conflictFold_sorted _ _ _ List.Pairwise.nil
    · intro h
      simp only [List.mem_filter, Bool.not_eq_true', decide_eq_false_iff_not]
      unfold GetConflicts
      rw [hr]
      simp only
      rw [mem_conflictFold]
      simp only [List.not_mem_nil, false_or, mem_equalRange]
      tauto
  · intro hex tx hr hh hcb hzc
    have hown : ∀ txin ∈ tx.vin, (txin.prevout, txHash) ∈ w.mapTxSpends :=
      fun txin hin => (hex _ _).2 ⟨tx, hr, hcb, hzc, txin, hin, rfl⟩
    unfold CWalletTx.GetConflicts
    rw [hh]
    intro h
    simp only [List.mem_filter, Bool.not_eq_true', decide_eq_false_iff_not]
    constructor
    · rintro ⟨h1, h2⟩
      refine ⟨h2, ?_⟩
      obtain ⟨txin, hin, hsp⟩ := (mem_walletGetConflicts w txHash tx hr hown h h2).1 h1
      obtain ⟨v, hv, hcons⟩ := (hex _ _).1 hsp
      exact ⟨v, hv, txin.prevout, ⟨hcb, hzc, txin, hin, rfl⟩, hcons⟩
    · rintro ⟨h2, v, hv, o, ⟨_, _, txin, hin, ho⟩, hcons⟩
      refine ⟨(mem_walletGetConflicts w txHash tx hr hown h h2).2 ⟨txin, hin, ?_⟩, h2⟩
      rw [ho]
      exact (hex _ _).2 ⟨v, hv, hcons⟩
  · intro hn
    unfold GetConflicts
    rw [hn]

/-- C14 on two tracked transactions `5` and `8` that spend the same outpoint:
the conflicts of `5` are exactly `8`. -/
theorem C14_get_conflicts_exact_witness :
    SpendsExact sampleDoubleSpend ∧
    sampleSpender.GetConflicts sampleDoubleSpend = [8] ∧
    ((sampleSpender.GetConflicts sampleDoubleSpend).Pairwise (· < ·) ∧
      ∀ h, h ∈ sampleSpender.GetConflicts sampleDoubleSpend ↔
        h ≠ 5 ∧ ∃ v, mapFind sampleDoubleSpend.mapWallet h = some v ∧
          ∃ o, consumes sampleSpender o ∧ consumes v o) :=
  have hex : SpendsExact sampleDoubleSpend := by
    intro o h
    constructor
    · intro hm
      simp only [sampleDoubleSpend, List.mem_cons, Prod.mk.injEq, List.mem_singleton,
        List.not_mem_nil, or_false] at hm
      rcases hm with ⟨rfl, rfl⟩ | ⟨rfl, rfl⟩
      · exact ⟨sampleSpender, by decide, by decide, by decide, ⟨⟨3, 0⟩, 0, 0⟩, by decide, rfl⟩
      · exact ⟨sampleTx 8 [⟨⟨3, 0⟩, 0, 0⟩] [⟨65, 1, 0⟩] 0 (-1), by decide, by decide, by decide,
          ⟨⟨3, 0⟩, 0, 0⟩, by decide, rfl⟩
    · rintro ⟨v, hv, _, _, txin, hin, ho⟩
      simp only [sampleDoubleSpend, mapFind] at hv
      by_cases h5 : 5 = h
      · subst h5
        simp only [if_true, Option.some.injEq] at hv
        subst hv
        simp only [sampleSpender, sampleTx, List.mem_singleton] at hin
        subst hin
        subst ho
        decide
      · rw [if_neg h5] at hv
        by_cases h8 : 8 = h
        · subst h8
          simp only [if_true, Option.some.injEq] at hv
          subst hv
          simp only [sampleTx, List.mem_singleton] at hin
          subst hin
          subst ho
          decide
        · rw [if_neg h8] at hv
          cases hv
  ⟨hex, by decide,
    ((C14_get_conflicts_exact sampleDoubleSpend 5).1 sampleSpender (by decide) (by decide)).1,
    (C14_get_conflicts_exact sampleDoubleSpend 5).2.1 hex sampleSpender (by decide) (by decide)
      (by decide) (by decide)⟩

/-! ## Theorems: candidates under coin control -/

theorem mem_outpointInsert (s : List COutPoint) (o y : COutPoint) :
    y ∈ outpointInsert s o ↔ y = o ∨ y ∈ s := by
  induction s with
  | nil => simp [outpointInsert]
  | cons x t ih =>
    simp only [outpointInsert]
    by_cases h1 : o.lt x = true
    · rw [if_pos h1]; simp
    · rw [if_neg h1]
      by_cases h2 : o = x
      · rw [if_pos h2]
        subst h2
        simp
      · rw [if_neg h2]
        simp only [List.mem_cons, ih]
        tauto

theorem availableOutputs_cond (env : WalletEnv) (w : CWallet) (cc : Option CCoinControl)
    (fz : Bool) (ct : AvailableCoinsType) (wtxid : uint256) (pcoin : CWalletTx) (nDepth : Int)
    (rest : List CTxOut) :
    ∀ (i : Nat) (c : COutput),
      c ∈ availableOutputs env w cc fz ct wtxid pcoin nDepth i rest →
      c.tx = pcoin ∧ ∃ txout, availableCond env w cc fz ct wtxid c.i txout = true := by
  induction rest with
  | nil => intro i c hc; simp [availableOutputs] at hc
  | cons txout rest ih =>
    intro i c hc
    simp only [availableOutputs] at hc
    cases ho : availableOutput env w cc fz ct wtxid pcoin nDepth i txout with
    | none =>
      rw [ho] at hc
      exact ih (i + 1) c hc
    | some o =>
      rw [ho] at hc
      rcases List.mem_cons.1 hc with e | e
      · obtain ⟨a, d⟩ := availableOutput_some _ _ _ _ _ _ _ _ _ _ _ ho
        rw [e, a]
        exact ⟨rfl, txout, d⟩
      · exact ih (i + 1) c e

theorem availableOfTx_cond (env : WalletEnv) (w : CWallet) (fOnly : Bool)
    (cc : Option CCoinControl) (fz : Bool) (ct : AvailableCoinsType) (fIS : Bool)
    (wtxid : uint256) (pcoin : CWalletTx) (c : COutput)
    (hc : c ∈ availableOfTx env w fOnly cc fz ct fIS wtxid pcoin) :
    c.tx = pcoin ∧ ∃ txout, availableCond env w cc fz ct wtxid c.i txout = true := by
  unfold availableOfTx at hc
  split at hc
  · cases hc
  · split at hc
    · cases hc
    · split at hc
      · cases hc
      · dsimp only at hc
        split at hc
        · cases hc
        · split at hc
          · cases hc
          · exact availableOutputs_cond env w cc fz ct wtxid pcoin _ pcoin.vout 0 c hc

theorem availableCoins_unlocked (env : WalletEnv) (w : CWallet) (fOnly : Bool)
    (cc : Option CCoinControl) (fz : Bool) (ct : AvailableCoinsType) (fIS : Bool)
    (hkey : ∀ e ∈ w.mapWallet, e.2.hash = e.1) (hct : ct ≠ AvailableCoinsType.ONLY_10000)
    (c : COutput) (hc : c ∈ AvailableCoins env w fOnly cc fz ct fIS) :
    IsLockedCoin w c.tx.hash c.i = false := by
  unfold AvailableCoins at hc
  rw [List.mem_flatMap] at hc
  obtain ⟨e, he, hin⟩ := hc
  obtain ⟨htx, txout, hcond⟩ := availableOfTx_cond env w fOnly cc fz ct fIS e.1 e.2 c hin
  rw [htx, hkey e he]
  simp only [availableCond, Bool.and_eq_true, Bool.or_eq_true, Bool.not_eq_true',
    decide_eq_true_eq] at hcond
  rcases hcond.1.1.2 with h | h
  · exact h
  · exact absurd h hct

/-! ## Claim C17 -/

/-- C17 as stated fails for the coin type `ONLY_10000`: the locked coin of
100000 is returned by `AvailableCoins`. -/
theorem C17_locked_collateral_returned :
    IsLockedCoin (sampleWalletCollateral [⟨7, 0⟩]) 7 0 = true ∧
    (AvailableCoins (sampleWalletEnv [] 1 1000) (sampleWalletCollateral [⟨7, 0⟩]) true none false
      AvailableCoinsType.ONLY_10000 false).map COutput.key = [(7, 0)] := by
  decide

/-- C17 as amended: for every wallet state, every filter combination and
every coin type other than `ONLY_10000`, no candidate of `AvailableCoins` has
its outpoint in the locked-coin set; after `LockCoin` of an outpoint no
candidate names it; and `UnlockCoin` takes it out of the locked-coin set
again. -/
theorem C17_locked_coins_excluded (env : WalletEnv) (w : CWallet) (fOnlyConfirmed : Bool)
    (coinControl : Option CCoinControl) (fIncludeZeroValue : Bool)
    (nCoinType : AvailableCoinsType) (fUseInstantSend : Bool)
    (hkey : ∀ e ∈ w.mapWallet, e.2.hash = e.1)
    (hct : nCoinType ≠ AvailableCoinsType.ONLY_10000) :
    (∀ c ∈ AvailableCoins env w fOnlyConfirmed coinControl fIncludeZeroValue nCoinType
        fUseInstantSend, IsLockedCoin w c.tx.hash c.i = false) ∧
    (∀ (o : COutPoint), ∀ c ∈ AvailableCoins env (LockCoin w o) fOnlyConfirmed coinControl
        fIncludeZeroValue nCoinType fUseInstantSend, (⟨c.tx.hash, c.i⟩ : COutPoint) ≠ o) ∧
    (∀ o : COutPoint, IsLockedCoin (LockCoin w o) o.hash o.n = true ∧
      IsLockedCoin (UnlockCoin (LockCoin w o) o) o.hash o.n = false) := by
  refine ⟨fun c hc => availableCoins_unlocked env w _ _ _ _ _ hkey hct c hc, ?_, ?_⟩
  · intro o c hc heq
    have h := availableCoins_unlocked env (LockCoin w o) _ _ _ _ _ hkey hct c hc
    have h2 : IsLockedCoin (LockCoin w o) c.tx.hash c.i = true := by
      simp [IsLockedCoin, LockCoin, heq, mem_outpointInsert]
    rw [h] at h2
    cases h2
  · intro o
    constructor
    · simp [IsLockedCoin, LockCoin, mem_outpointInsert]
    · simp [IsLockedCoin, UnlockCoin, LockCoin]

/-- C17 on the wallet with one coin of 100: once the coin is locked,
`AvailableCoins` for `ALL_COINS` returns nothing. -/
theorem C17_locked_coins_excluded_witness :
    (∀ e ∈ (sampleWalletOneCoin []).mapWallet, e.2.hash = e.1) ∧
    AvailableCoinsType.ALL_COINS ≠ AvailableCoinsType.ONLY_10000 ∧
    (AvailableCoins (sampleWalletEnv [] 1 1000) (sampleWalletOneCoin []) true none false
      AvailableCoinsType.ALL_COINS false).map COutput.key = [(7, 0)] ∧
    AvailableCoins (sampleWalletEnv [] 1 1000) (LockCoin (sampleWalletOneCoin []) ⟨7, 0⟩) true
      none false AvailableCoinsType.ALL_COINS false = [] ∧
    ∀ c ∈ AvailableCoins (sampleWalletEnv [] 1 1000) (sampleWalletOneCoin []) true none false
        AvailableCoinsType.ALL_COINS false,
      IsLockedCoin (sampleWalletOneCoin []) c.tx.hash c.i = false :=
  ⟨by decide, by decide, by decide, by decide,
    (C17_locked_coins_excluded (sampleWalletEnv [] 1 1000) (sampleWalletOneCoin []) true none
      false AvailableCoinsType.ALL_COINS false (by decide) (by decide)).1⟩

/-! ## Theorems: lock-time formats -/

theorem scanLockTimes_spec (env : BuilderEnv) (coins : List CInput) :
    ∀ fmt : LockTimeFormat, (∀ c ∈ coins, 0 ≤ GetDepthInMainChain env.wallet.chain c.1) →
      (((fmt = LockTimeFormat.TIMESTAMP ∨ ∃ c ∈ coins, timestampLocked env c) ∧
          (fmt = LockTimeFormat.BLOCKTIME ∨ ∃ c ∈ coins, heightLocked env c)) →
        scanLockTimes env coins fmt = Except.error FailReason.mixedLockTimeFormats) ∧
      (¬ ((fmt = LockTimeFormat.TIMESTAMP ∨ ∃ c ∈ coins, timestampLocked env c) ∧
          (fmt = LockTimeFormat.BLOCKTIME ∨ ∃ c ∈ coins, heightLocked env c)) →
        ∃ f, scanLockTimes env coins fmt = Except.ok f) := by
  induction coins with
  | nil =>
    intro fmt _
    constructor
    · rintro ⟨h1 | ⟨c, hc, _⟩, h2 | ⟨c2, hc2, _⟩⟩
      · rw [h1] at h2; cases h2
      · cases hc2
      · cases hc
      · cases hc
    · intro _
      exact ⟨fmt, rfl⟩
  | cons c rest ih =>
    intro fmt hage
    have hage2 : ∀ x ∈ rest, 0 ≤ GetDepthInMainChain env.wallet.chain x.1 :=
      fun x hx => hage x (List.mem_cons_of_mem _ hx)
    simp only [scanLockTimes]
    rw [if_neg (not_lt.2 (hage c (List.mem_cons_self _ _)))]
    by_cases hts : effectiveLockTime env c > env.LOCKTIME_THRESHOLD
    · rw [if_pos hts]
      by_cases hf : fmt = LockTimeFormat.BLOCKTIME
      · rw [if_pos hf]
        refine ⟨fun _ => rfl, fun hn => ?_⟩
        exact absurd ⟨Or.inr ⟨c, List.mem_cons_self _ _, hts⟩, Or.inl hf⟩ hn
      · rw [if_neg hf]
        obtain ⟨i1, i2⟩ := ih LockTimeFormat.TIMESTAMP hage2
        constructor
        · rintro ⟨_, h2⟩
          apply i1
          refine ⟨Or.inl rfl, Or.inr ?_⟩
          rcases h2 with h2 | ⟨c2, hc2, h3⟩
          · exact absurd h2 hf
          · rcases List.mem_cons.1 hc2 with e | e
            · rw [e] at h3; exact absurd hts h3.1
            · exact ⟨c2, e, h3⟩
        · intro hn
          apply i2
          rintro ⟨_, h2 | ⟨c2, hc2, h3⟩⟩
          · cases h2
          · exact hn ⟨Or.inr ⟨c, List.mem_cons_self _ _, hts⟩,
              Or.inr ⟨c2, List.mem_cons_of_mem _ hc2, h3⟩⟩
    · rw [if_neg hts]
      by_cases hht : effectiveLockTime env c > 0
      · rw [if_pos hht]
        by_cases hf : fmt = LockTimeFormat.TIMESTAMP
        · rw [if_pos hf]
          refine ⟨fun _ => rfl, fun hn => ?_⟩
          exact absurd ⟨Or.inl hf, Or.inr ⟨c, List.mem_cons_self _ _, hts, hht⟩⟩ hn
        · rw [if_neg hf]
          obtain ⟨i1, i2⟩ := ih LockTimeFormat.BLOCKTIME hage2
          constructor
          · rintro ⟨h1, _⟩
            apply i1
            refine ⟨Or.inr ?_, Or.inl rfl⟩
            rcases h1 with h1 | ⟨c2, hc2, h3⟩
            · exact absurd h1 hf
            · rcases List.mem_cons.1 hc2 with e | e
              · rw [e] at h3; exact absurd h3 hts
              · exact ⟨c2, e, h3⟩
          · intro hn
            apply i2
            rintro ⟨h1 | ⟨c2, hc2, h3⟩, _⟩
            · cases h1
            · exact hn ⟨Or.inr ⟨c2, List.mem_cons_of_mem _ hc2, h3⟩,
                Or.inr ⟨c, List.mem_cons_self _ _, hts, hht⟩⟩
      · rw [if_neg hht]
        obtain ⟨i1, i2⟩ := ih fmt hage2
        constructor
        · rintro ⟨h1, h2⟩
          apply i1
          constructor
          · rcases h1 with h1 | ⟨c2, hc2, h3⟩
            · exact Or.inl h1
            · rcases List.mem_cons.1 hc2 with e | e
              · rw [e] at h3; exact absurd h3 hts
              · exact Or.inr ⟨c2, e, h3⟩
          · rcases h2 with h2 | ⟨c2, hc2, h3⟩
            · exact Or.inl h2
            · rcases List.mem_cons.1 hc2 with e | e
              · rw [e] at h3; exact absurd h3.2 hht
              · exact Or.inr ⟨c2, e, h3⟩
        · intro hn
          apply i2
          rintro ⟨h1, h2⟩
          apply hn
          constructor
          · rcases h1 with h1 | ⟨c2, hc2, h3⟩
            · exact Or.inl h1
            · exact Or.inr ⟨c2, List.mem_cons_of_mem _ hc2, h3⟩
          · rcases h2 with h2 | ⟨c2, hc2, h3⟩
            · exact Or.inl h2
            · exact Or.inr ⟨c2, List.mem_cons_of_mem _ hc2, h3⟩

theorem scanLockTimes_ages (env : BuilderEnv) (coins : List CInput) :
    ∀ (fmt f : LockTimeFormat), scanLockTimes env coins fmt = Except.ok f →
      ∀ c ∈ coins, 0 ≤ GetDepthInMainChain env.wallet.chain c.1 := by
  induction coins with
  | nil => intro _ _ _ c hc; cases hc
  | cons a rest ih =>
    intro fmt f h c hc
    simp only [scanLockTimes] at h
    split at h
    · cases h
    · rename_i hd
      rcases List.mem_cons.1 hc with e | e
      · rw [e]; exact not_lt.1 hd
      · split at h
        · split at h
          · cases h
          · exact ih _ f h c e
        · split at h
          · split at h
            · cases h
            · exact ih _ f h c e
          · exact ih _ f h c e

theorem scanLockTimes_ok_uniform (env : BuilderEnv) (coins : List CInput) (f : LockTimeFormat)
    (h : scanLockTimes env coins LockTimeFormat.UNSET = Except.ok f) :
    ¬ ((∃ c ∈ coins, timestampLocked env c) ∧ (∃ c ∈ coins, heightLocked env c)) := by
  rintro ⟨h1, h2⟩
  have hage := scanLockTimes_ages env coins _ f h
  have := (scanLockTimes_spec env coins LockTimeFormat.UNSET hage).1 ⟨Or.inr h1, Or.inr h2⟩
  rw [this] at h
  cases h

theorem createPass_scan_error (env : BuilderEnv) (w : CWallet) (rnd : BuilderRandom)
    (nPass : Nat) (vecSend : List CRecipient) (nValue : CAmount) (nSubtract : Nat) (posReq : Int)
    (cc : Option CCoinControl) (sign : Bool) (ct : AvailableCoinsType) (fIS : Bool)
    (F : CAmount) (vout : List CTxOut) (e : FailReason)
    (hb : buildPayeeOutputs env F nSubtract vecSend true = Except.ok vout)
    (hs : (SelectCoins env.wallet w (rnd.select nPass)
      (if nSubtract = 0 then toInt64 (nValue + F) else nValue) [] 0 cc ct fIS).fSuccess = true)
    (hIS : (fIS && decide ((SelectCoins env.wallet w (rnd.select nPass)
      (if nSubtract = 0 then toInt64 (nValue + F) else nValue) [] 0 cc ct fIS).nValueRet
        > env.wallet.nInstantSendMaxValue * env.wallet.COIN)) = false)
    (hscan : scanLockTimes env (SelectCoins env.wallet w (rnd.select nPass)
      (if nSubtract = 0 then toInt64 (nValue + F) else nValue) [] 0 cc ct fIS).setCoinsRet
        LockTimeFormat.UNSET = Except.error e) :
    createPass env w rnd nPass vecSend nValue nSubtract posReq cc sign ct fIS F
      = PassResult.fail e := by
  unfold createPass
  dsimp only
  rw [hb]
  dsimp only
  rw [hs, hIS, hscan]
  rfl

theorem createPass_done_scan (env : BuilderEnv) (w : CWallet) (rnd : BuilderRandom) (nPass : Nat)
    (vecSend : List CRecipient) (nValue : CAmount) (nSubtract : Nat) (posReq : Int)
    (cc : Option CCoinControl) (sign : Bool) (ct : AvailableCoinsType) (fIS : Bool)
    (F : CAmount) (tx : TxDraft) (fee : CAmount) (pos : Int)
    (h : createPass env w rnd nPass vecSend nValue nSubtract posReq cc sign ct fIS F
      = PassResult.done tx fee pos) :
    ∃ fmt, scanLockTimes env tx.vin LockTimeFormat.UNSET = Except.ok fmt := by
  unfold createPass at h
  dsimp only at h
  cases hb : buildPayeeOutputs env F nSubtract vecSend true with
  | error e => rw [hb] at h; cases h
  | ok vout =>
    rw [hb] at h
    dsimp only at h
    generalize (if nSubtract = 0 then toInt64 (nValue + F) else nValue) = T at h
    generalize SelectCoins env.wallet w (rnd.select nPass) T [] 0 cc ct fIS = sel at h
    split at h
    · split at h <;> cases h
    · split at h
      · cases h
      · split at h
        · cases h
        · rename_i fmt hfmt
          split at h
          · cases h
          · split at h
            · cases h
            · obtain ⟨e1, _, _⟩ := finishPass_done _ _ _ _ _ _ _ _ _ h
              rw [e1]
              exact ⟨fmt, hfmt⟩

theorem createTransaction_first_fail (env : BuilderEnv) (w : CWallet) (rnd : BuilderRandom)
    (fuel : Nat) (vecSend : List CRecipient) (posReq : Int) (cc : Option CCoinControl)
    (sign : Bool) (ct : AvailableCoinsType) (fIS : Bool) (e : FailReason)
    (nValue : CAmount) (nSubtract : Nat)
    (hne : vecSend ≠ []) (hsum : sumRecipients vecSend 0 0 = some (nValue, nSubtract))
    (hpos : 0 ≤ nValue)
    (hp : createPass env w rnd 0 vecSend nValue nSubtract posReq cc
      sign ct fIS env.nPayTxFeePerK = PassResult.fail e) :
    CreateTransaction env w rnd (fuel + 1) vecSend posReq cc sign ct fIS = Except.error e := by
  unfold CreateTransaction
  rw [hsum]
  dsimp only
  have hemp : vecSend.isEmpty = false := by
    cases vecSend with
    | nil => exact absurd rfl hne
    | cons a t => rfl
  have hneg : decide (nValue < 0) = false := by
    simpa using hpos
  rw [hemp, hneg]
  simp only [Bool.or_self, Bool.false_eq_true, if_false, createLoop, hp]

/-! ## Claim C18 -/

/-- C18: for every list of selected inputs, in whatever order, none of which
is conflicted: if one input requires a timestamp-style lock time and another a
block-height-style one, the scan of `CreateTransaction` stops with the
mixed-lock-time reason, every pass that selects these inputs fails with it,
and so does `CreateTransaction` when its first pass selects them; if the locked
inputs use one style only, the scan passes.  And no transaction that
`CreateTransaction` builds has inputs of both styles. -/
theorem C18_mixed_lock_times_rejected (env : BuilderEnv) (w : CWallet) (rnd : BuilderRandom)
    (fuel : Nat) (vecSend : List CRecipient) (posReq : Int) (cc : Option CCoinControl)
    (sign : Bool) (ct : AvailableCoinsType) (fIS : Bool) (coins : List CInput)
    (hage : ∀ c ∈ coins, 0 ≤ GetDepthInMainChain env.wallet.chain c.1) :
    ((∃ c ∈ coins, timestampLocked env c) → (∃ c ∈ coins, heightLocked env c) →
      scanLockTimes env coins LockTimeFormat.UNSET
        = Except.error FailReason.mixedLockTimeFormats ∧
      (∀ (nPass : Nat) (nValue : CAmount) (nSubtract : Nat) (F : CAmount),
        (∃ vout, buildPayeeOutputs env F nSubtract vecSend true = Except.ok vout) →
        (SelectCoins env.wallet w (rnd.select nPass)
          (if nSubtract = 0 then toInt64 (nValue + F) else nValue) [] 0 cc ct fIS).fSuccess = true →
        (SelectCoins env.wallet w (rnd.select nPass)
          (if nSubtract = 0 then toInt64 (nValue + F) else nValue) [] 0 cc ct fIS).setCoinsRet = coins →
        (fIS && decide ((SelectCoins env.wallet w (rnd.select nPass)
          (if nSubtract = 0 then toInt64 (nValue + F) else nValue) [] 0 cc ct fIS).nValueRet
            > env.wallet.nInstantSendMaxValue * env.wallet.COIN)) = false →
        createPass env w rnd nPass vecSend nValue nSubtract posReq cc sign ct fIS F
          = PassResult.fail FailReason.mixedLockTimeFormats) ∧
      (vecSend ≠ [] → (∀ r ∈ vecSend, 0 ≤ r.nAmount) →
        (∃ vout, buildPayeeOutputs env env.nPayTxFeePerK (countSubtract vecSend) vecSend true
          = Except.ok vout) →
        (firstSelection env w rnd vecSend cc ct fIS).fSuccess = true →
        (firstSelection env w rnd vecSend cc ct fIS).setCoinsRet = coins →
        (fIS && decide ((firstSelection env w rnd vecSend cc ct fIS).nValueRet
          > env.wallet.nInstantSendMaxValue * env.wallet.COIN)) = false →
        CreateTransaction env w rnd (fuel + 1) vecSend posReq cc sign ct fIS
          = Except.error FailReason.mixedLockTimeFormats)) ∧
    (¬ ((∃ c ∈ coins, timestampLocked env c) ∧ (∃ c ∈ coins, heightLocked env c)) →
      ∃ fmt, scanLockTimes env coins LockTimeFormat.UNSET = Except.ok fmt) ∧
    (∀ r, CreateTransaction env w rnd fuel vecSend posReq cc sign ct fIS = Except.ok r →
      ¬ ((∃ c ∈ r.tx.vin, timestampLocked env c) ∧ (∃ c ∈ r.tx.vin, heightLocked env c))) := by
  obtain ⟨s1, s2⟩ := scanLockTimes_spec env coins LockTimeFormat.UNSET hage
  refine ⟨?_, ?_, ?_⟩
  · intro hts hht
    have hscan := s1 ⟨Or.inr hts, Or.inr hht⟩
    refine ⟨hscan, ?_, ?_⟩
    · intro nPass nValue nSubtract F hpay hsucc hcoins hIS
      obtain ⟨vout, hb⟩ := hpay
      apply createPass_scan_error env w rnd nPass vecSend nValue nSubtract posReq cc sign ct fIS
        F vout _ hb hsucc hIS
      rw [hcoins]
      exact hscan
    intro hne _ hpay hsucc hcoins hIS
    obtain ⟨vout, hb⟩ := hpay
    unfold firstSelection at hsucc hcoins hIS
    cases hsr : sumRecipients vecSend 0 0 with
    | none =>
      rw [hsr] at hsucc
      cases hsucc
    | some p =>
      obtain ⟨nValue, nSubtract⟩ := p
      rw [hsr] at hsucc hcoins hIS
      dsimp only at hsucc hcoins hIS
      by_cases hneg : nValue < 0
      · rw [if_pos hneg] at hsucc
        cases hsucc
      · rw [if_neg hneg] at hsucc hcoins hIS
        have hk := sumRecipients_count vecSend 0 0 nValue nSubtract hsr
        rw [Nat.zero_add] at hk
        subst hk
        apply createTransaction_first_fail env w rnd fuel vecSend posReq cc sign ct fIS _
          nValue (countSubtract vecSend) hne hsr (not_lt.1 hneg)
        apply createPass_scan_error env w rnd 0 vecSend _ _ posReq cc sign ct fIS _ vout _ hb
        · exact hsucc
        · exact hIS
        · rw [hcoins]
          exact hscan
  · intro hn
    apply s2
    rintro ⟨h1 | h1, h2 | h2⟩
    · cases h1
    · cases h1
    · cases h2
    · exact hn ⟨h1, h2⟩
  · intro r h
    obtain ⟨_, n, G, fee, _, _, hp, _⟩ := createTransaction_ok env w rnd fuel vecSend posReq cc
      sign ct fIS r h
    obtain ⟨fmt, hfmt⟩ := createPass_done_scan env w rnd n vecSend _ _ posReq cc sign ct fIS G
      r.tx fee r.nChangePosInOut hp
    exact scanLockTimes_ok_uniform env r.tx.vin fmt hfmt

/-- C18 on a payment of 129 at the fee 1 from the wallet whose coin of 30
carries a timestamp lock time and whose coin of 100 carries a block-height lock
time: both coins are selected and `CreateTransaction` fails with the
mixed-lock-time reason. -/
theorem C18_mixed_lock_times_rejected_witness :
    (∀ c ∈ [((sampleTx 7 [] [⟨30, 1, 600000000⟩] 100 0, 0) : CInput),
        (sampleTx 8 [] [⟨100, 1, 5⟩] 200 0, 0)],
      0 ≤ GetDepthInMainChain (sampleBuilderEnv [] 1).wallet.chain c.1) ∧
    (firstSelection (sampleBuilderEnv [] 1) sampleWalletMixedLocks BuilderRandom.trivial
      [⟨1, 129, false⟩] none AvailableCoinsType.ALL_COINS false).setCoinsRet =
      [(sampleTx 7 [] [⟨30, 1, 600000000⟩] 100 0, 0), (sampleTx 8 [] [⟨100, 1, 5⟩] 200 0, 0)] ∧
    CreateTransaction (sampleBuilderEnv [] 1) sampleWalletMixedLocks BuilderRandom.trivial
      (2 + 1) [⟨1, 129, false⟩] (-1) none true AvailableCoinsType.ALL_COINS false
      = Except.error FailReason.mixedLockTimeFormats :=
  ⟨by decide, by decide,
    ((C18_mixed_lock_times_rejected (sampleBuilderEnv [] 1) sampleWalletMixedLocks
      BuilderRandom.trivial 2 [⟨1, 129, false⟩] (-1) none true AvailableCoinsType.ALL_COINS false
      [(sampleTx 7 [] [⟨30, 1, 600000000⟩] 100 0, 0), (sampleTx 8 [] [⟨100, 1, 5⟩] 200 0, 0)]
      (by decide)).1
      ⟨(sampleTx 7 [] [⟨30, 1, 600000000⟩] 100 0, 0), by decide,
        by unfold timestampLocked; decide⟩
      ⟨(sampleTx 8 [] [⟨100, 1, 5⟩] 200 0, 0), by decide,
        by unfold heightLocked; decide⟩).2.2
      (by decide) (by decide) ⟨[⟨129, 1, 0⟩], by decide⟩ (by decide) (by decide) (by decide)⟩

/-! ## Theorems: the fee of the built transaction -/

theorem finishPass_done_fee (env : BuilderEnv) (sign fIS : Bool) (tx : TxDraft)
    (nFeeRet : CAmount) (pos : Int) (tx2 : TxDraft) (fee2 : CAmount) (pos2 : Int)
    (h : finishPass env sign fIS tx nFeeRet pos = PassResult.done tx2 fee2 pos2) :
    freeExemption env sign fIS tx = true ∨ feeNeeded env sign tx ≤ nFeeRet := by
  unfold finishPass at h
  split at h
  · cases h
  · dsimp only at h
    split at h
    · cases h
    · by_cases hfree : freeExemption env sign fIS tx = true
      · exact Or.inl hfree
      · right
        have hfree2 : (!fIS && env.fSendFreeTransactions &&
            decide (env.GetSerializeSize sign tx ≤ env.MAX_FREE_TRANSACTION_CREATE_SIZE) &&
            env.fPriorityFree sign tx) = false := Bool.eq_false_iff.2 hfree
        rw [hfree2] at h
        simp only [Bool.false_eq_true, if_false] at h
        unfold feeNeeded
        by_cases hlt : env.nPayTxFeePerK * (1 + Int.tdiv (env.GetTransactionWeight sign tx) 1000)
            < env.GetMinFee tx (env.AllowFree sign tx)
        · rw [if_pos hlt] at h
          rw [max_eq_right (le_of_lt hlt)]
          split at h
          · rename_i hge
            exact hge
          · cases h
        · rw [if_neg hlt] at h
          rw [max_eq_left (not_lt.1 hlt)]
          split at h
          · rename_i hge
            exact hge
          · cases h

theorem createPass_done_finish (env : BuilderEnv) (w : CWallet) (rnd : BuilderRandom)
    (nPass : Nat) (vecSend : List CRecipient) (nValue : CAmount) (nSubtract : Nat) (posReq : Int)
    (cc : Option CCoinControl) (sign : Bool) (ct : AvailableCoinsType) (fIS : Bool)
    (F : CAmount) (tx : TxDraft) (fee : CAmount) (pos : Int)
    (h : createPass env w rnd nPass vecSend nValue nSubtract posReq cc sign ct fIS F
      = PassResult.done tx fee pos) :
    finishPass env sign fIS tx fee pos = PassResult.done tx fee pos := by
  unfold createPass at h
  dsimp only at h
  cases hb : buildPayeeOutputs env F nSubtract vecSend true with
  | error e => rw [hb] at h; cases h
  | ok vout =>
    rw [hb] at h
    dsimp only at h
    generalize (if nSubtract = 0 then toInt64 (nValue + F) else nValue) = T at h
    generalize SelectCoins env.wallet w (rnd.select nPass) T [] 0 cc ct fIS = sel at h
    split at h
    · split at h <;> cases h
    · split at h
      · cases h
      · split at h
        · cases h
        · split at h
          · cases h
          · split at h
            · cases h
            · obtain ⟨e1, e2, e3⟩ := finishPass_done _ _ _ _ _ _ _ _ _ h
              rw [← e1, ← e2, ← e3] at h
              exact h

/-! ## Theorems: amount accumulators -/

theorem runningInRange_nil (env : WalletEnv) (n : CAmount) : runningInRange env n [] := by
  intro k hk hle
  simp only [List.length_nil] at hle
  omega

theorem runningInRange_cons (env : WalletEnv) (n c : CAmount) (rest : List CAmount) :
    runningInRange env n (c :: rest) ↔
      MoneyRange env (n + c) = true ∧ runningInRange env (n + c) rest := by
  constructor
  · intro h
    constructor
    · have := h 1 (by omega) (by simp)
      simpa using this
    · intro k hk hle
      have := h (k + 1) (by omega) (by simpa using hle)
      simpa [add_assoc] using this
  · rintro ⟨h1, h2⟩ k hk hle
    cases k with
    | zero => omega
    | succ j =>
      by_cases hj : j = 0
      · subst hj
        simpa using h1
      · have := h2 j (by omega) (by simpa using hle)
        simpa [add_assoc] using this

theorem accumulate_ok (env : WalletEnv) (vals : List CAmount) :
    ∀ n : CAmount, runningInRange env n vals →
      accumulate env (vals.map Except.ok) n = Except.ok (n + vals.sum) := by
  induction vals with
  | nil => intro n _; simp [accumulate]
  | cons c rest ih =>
    intro n h
    obtain ⟨h1, h2⟩ := (runningInRange_cons env n c rest).1 h
    simp only [List.map_cons, accumulate, h1, Bool.not_true, Bool.false_eq_true, if_false,
      ih (n + c) h2, List.sum_cons, add_assoc]

theorem accumulate_ok_inv (env : WalletEnv) (items : List (Except WalletError CAmount)) :
    ∀ (n s : CAmount), accumulate env items n = Except.ok s →
      ∃ vals, items = vals.map Except.ok ∧ runningInRange env n vals ∧ s = n + vals.sum := by
  induction items with
  | nil =>
    intro n s h
    simp only [accumulate, Except.ok.injEq] at h
    exact ⟨[], rfl, runningInRange_nil env n, by simp [h]⟩
  | cons a rest ih =>
    intro n s h
    cases a with
    | error e => simp [accumulate] at h
    | ok c =>
      simp only [accumulate] at h
      by_cases hr : MoneyRange env (n + c) = true
      · simp only [hr, Bool.not_true, Bool.false_eq_true, if_false] at h
        obtain ⟨vals, e1, e2, e3⟩ := ih (n + c) s h
        refine ⟨c :: vals, by simp [e1], (runningInRange_cons env n c vals).2 ⟨hr, e2⟩, ?_⟩
        rw [e3, List.sum_cons, add_assoc]
      · have hr2 : MoneyRange env (n + c) = false := Bool.eq_false_iff.2 hr
        simp [hr2] at h

theorem accumulate_cases (env : WalletEnv) (vals : List CAmount) (n : CAmount) :
    (runningInRange env n vals →
      accumulate env (vals.map Except.ok) n = Except.ok (n + vals.sum)) ∧
    (¬ runningInRange env n vals →
      accumulate env (vals.map Except.ok) n = Except.error WalletError.valueOutOfRange) := by
  refine ⟨accumulate_ok env vals n, ?_⟩
  intro hn
  cases h : accumulate env (vals.map Except.ok) n with
  | error e => cases e; rfl
  | ok s =>
    exfalso
    obtain ⟨vals2, e1, e2, _⟩ := accumulate_ok_inv env _ n s h
    have hinj : vals = vals2 := by
      apply List.map_injective_iff.2 _ e1
      intro a b hab
      exact Except.ok.inj hab
    rw [hinj] at hn
    exact hn e2

theorem creditItems_ok (env : WalletEnv) (filter : Nat) (outs : List CTxOut)
    (hall : ∀ o ∈ outs, MoneyRange env o.nValue = true) :
    outs.map (fun txout => GetCreditTxOut env txout filter)
      = (outs.map (creditAmount env filter)).map Except.ok := by
  rw [List.map_map]
  apply List.map_congr_left
  intro o ho
  simp [GetCreditTxOut, creditAmount, hall o ho]

theorem changeItems_ok (env : WalletEnv) (cenv : ChangeEnv) (outs : List CTxOut)
    (hall : ∀ o ∈ outs, MoneyRange env o.nValue = true) :
    outs.map (fun txout => GetChangeTxOut env cenv txout)
      = (outs.map (changeAmount env cenv)).map Except.ok := by
  rw [List.map_map]
  apply List.map_congr_left
  intro o ho
  simp [GetChangeTxOut, changeAmount, hall o ho]

theorem accumulate_bad_item (env : WalletEnv) (items : List (Except WalletError CAmount))
    (n : CAmount) (h : ∃ x ∈ items, x = Except.error WalletError.valueOutOfRange) :
    accumulate env items n = Except.error WalletError.valueOutOfRange := by
  cases hr : accumulate env items n with
  | error e => cases e; rfl
  | ok s =>
    exfalso
    obtain ⟨vals, e1, _, _⟩ := accumulate_ok_inv env items n s hr
    obtain ⟨x, hx, hxe⟩ := h
    rw [e1] at hx
    obtain ⟨v, _, hv⟩ := List.mem_map.1 hx
    rw [hxe] at hv
    cases hv

theorem availableCreditLoop_eq (env : WalletEnv) (w : CWallet) (hashTx : uint256)
    (outs : List CTxOut) :
    ∀ (i : Nat) (n : CAmount),
      availableCreditLoop env w hashTx i outs n =
        accumulate env ((unspentFrom env w hashTx i outs).map
          (fun txout => GetCreditTxOut env txout ISMINE_SPENDABLE)) n := by
  induction outs with
  | nil => intro i n; simp [availableCreditLoop, unspentFrom, accumulate]
  | cons txout rest ih =>
    intro i n
    simp only [availableCreditLoop, unspentFrom]
    by_cases hs : (!IsSpent env.chain w hashTx i) = true
    · rw [if_pos hs, if_pos hs]
      simp only [List.map_cons]
      cases hc : GetCreditTxOut env txout ISMINE_SPENDABLE with
      | error e => simp [accumulate]
      | ok c =>
        simp only [accumulate]
        by_cases hr : (!MoneyRange env (n + c)) = true
        · rw [if_pos hr, if_pos hr]
        · rw [if_neg hr, if_neg hr]
          exact ih (i + 1) (n + c)
    · rw [if_neg hs, if_neg hs]
      exact ih (i + 1) n

theorem balanceLoop_ok (env : WalletEnv) (w : CWallet) (l : List (uint256 × CWalletTx)) :
    ∀ (n : CAmount) (vals : List CAmount),
      (∀ e ∈ l, IsTrustedRaises env w e.2 = false) →
      ((l.filter (fun e => IsTrusted env w e.2)).map Prod.snd).map
        (fun t => GetAvailableCredit env w t true) = vals.map Except.ok →
      balanceLoop env w l n = Except.ok (n + vals.sum) := by
  induction l with
  | nil =>
    intro n vals _ h
    have hv : vals = [] := by
      cases vals with
      | nil => rfl
      | cons a t => simp at h
    simp [balanceLoop, hv]
  | cons e rest ih =>
    intro n vals hnr h
    have hnr2 : ∀ e2 ∈ rest, IsTrustedRaises env w e2.2 = false :=
      fun e2 h2 => hnr e2 (List.mem_cons_of_mem _ h2)
    simp only [balanceLoop]
    rw [hnr e (List.mem_cons_self _ _)]
    simp only [Bool.false_eq_true, if_false]
    by_cases ht : IsTrusted env w e.2 = true
    · rw [if_pos ht]
      simp only [List.filter_cons, ht, if_true, List.map_cons] at h
      cases vals with
      | nil => simp at h
      | cons c vs =>
        simp only [List.map_cons, List.cons.injEq] at h
        rw [h.1]
        simp only [List.sum_cons]
        rw [ih (n + c) vs hnr2 h.2, add_assoc]
    · rw [if_neg ht]
      simp only [List.filter_cons, ht, Bool.false_eq_true, if_false] at h
      exact ih n vals hnr2 h

theorem balanceLoop_err (env : WalletEnv) (w : CWallet) (l : List (uint256 × CWalletTx)) :
    ∀ n : CAmount,
      ((∃ t ∈ (l.filter (fun e => IsTrusted env w e.2)).map Prod.snd,
          GetAvailableCredit env w t true = Except.error WalletError.valueOutOfRange) ∨
        ∃ e ∈ l, IsTrustedRaises env w e.2 = true) →
      balanceLoop env w l n = Except.error WalletError.valueOutOfRange := by
  induction l with
  | nil =>
    intro n h
    rcases h with ⟨t, ht, _⟩ | ⟨e, he, _⟩
    · cases ht
    · cases he
  | cons e rest ih =>
    intro n h
    simp only [balanceLoop]
    by_cases hr : IsTrustedRaises env w e.2 = true
    · rw [if_pos hr]
    · rw [if_neg hr]
      have hrest : ((∃ t ∈ (rest.filter (fun e => IsTrusted env w e.2)).map Prod.snd,
            GetAvailableCredit env w t true = Except.error WalletError.valueOutOfRange) ∨
          ∃ e2 ∈ rest, IsTrustedRaises env w e2.2 = true) ∨
          (IsTrusted env w e.2 = true ∧
            GetAvailableCredit env w e.2 true = Except.error WalletError.valueOutOfRange) := by
        rcases h with ⟨t, ht, hterr⟩ | ⟨e2, he2, hraise⟩
        · by_cases htr : IsTrusted env w e.2 = true
          · simp only [List.filter_cons, htr, if_true, List.map_cons, List.mem_cons] at ht
            rcases ht with e1 | e1
            · right
              rw [e1] at hterr
              exact ⟨htr, hterr⟩
            · exact Or.inl (Or.inl ⟨t, e1, hterr⟩)
          · simp only [List.filter_cons, htr, Bool.false_eq_true, if_false] at ht
            exact Or.inl (Or.inl ⟨t, ht, hterr⟩)
        · rcases List.mem_cons.1 he2 with e1 | e1
          · rw [e1] at hraise
            exact absurd hraise hr
          · exact Or.inl (Or.inr ⟨e2, e1, hraise⟩)
      by_cases htr : IsTrusted env w e.2 = true
      · rw [if_pos htr]
        cases hc : GetAvailableCredit env w e.2 true with
        | error err => cases err; rfl
        | ok c =>
          simp only
          rcases hrest with h1 | ⟨_, h2⟩
          · exact ih (n + c) h1
          · rw [hc] at h2
            cases h2
      · rw [if_neg htr]
        rcases hrest with h1 | ⟨h2, _⟩
        · exact ih n h1
        · exact absurd h2 htr

theorem accumulate_checked (env : WalletEnv) (outs : List CTxOut)
    (item : CTxOut → Except WalletError CAmount) (amount : CTxOut → CAmount)
    (hitem : ∀ o, item o = if !MoneyRange env o.nValue then
      Except.error WalletError.valueOutOfRange else Except.ok (amount o)) :
    ((∀ o ∈ outs, MoneyRange env o.nValue = true) ∧ runningInRange env 0 (outs.map amount) →
      accumulate env (outs.map item) 0 = Except.ok (outs.map amount).sum) ∧
    (¬ ((∀ o ∈ outs, MoneyRange env o.nValue = true) ∧ runningInRange env 0 (outs.map amount)) →
      accumulate env (outs.map item) 0 = Except.error WalletError.valueOutOfRange) := by
  have hok : (∀ o ∈ outs, MoneyRange env o.nValue = true) →
      outs.map item = (outs.map amount).map Except.ok := by
    intro hall
    rw [List.map_map]
    apply List.map_congr_left
    intro o ho
    simp [hitem o, hall o ho]
  constructor
  · rintro ⟨hall, hrun⟩
    rw [hok hall, accumulate_ok env _ 0 hrun, zero_add]
  · intro hn
    by_cases hall : ∀ o ∈ outs, MoneyRange env o.nValue = true
    · rw [hok hall]
      exact (accumulate_cases env _ 0).2 (fun hrun => hn ⟨hall, hrun⟩)
    · push_neg at hall
      obtain ⟨o, ho, hbad⟩ := hall
      apply accumulate_bad_item
      refine ⟨item o, List.mem_map_of_mem _ ho, ?_⟩
      have hb : MoneyRange env o.nValue = false := Bool.eq_false_iff.2 hbad
      simp [hitem o, hb]

/-! ## Claim C20 -/

/-- The balance raises through the trust test alone: every available credit
of `sampleWalletDebitOverflow` is 0, and the debit of the unconfirmed
transaction `9`, twice `MAX_MONEY`, is out of range when `IsTrusted` asks
whether the transaction is from the wallet. -/
theorem getBalance_raises_on_trust_test :
    (∀ e ∈ sampleWalletDebitOverflow.mapWallet,
      GetAvailableCredit (sampleWalletEnv [] 1 1000) sampleWalletDebitOverflow e.2 true
        = Except.ok 0) ∧
    IsTrustedRaises (sampleWalletEnv [] 1 1000) sampleWalletDebitOverflow
      (sampleTx 9 [⟨⟨7, 0⟩, 0, 0⟩, ⟨⟨7, 1⟩, 0, 0⟩] [] 0 (-1)) = true ∧
    GetBalance (sampleWalletEnv [] 1 1000) sampleWalletDebitOverflow
      = Except.error WalletError.valueOutOfRange := by
  decide

/-- C20 as stated fails in two ways.  `GetBalance` does not test its total:
two trusted transactions that each credit `MAX_MONEY` give twice `MAX_MONEY`
without an error.  And `GetCredit` throws on an output whose value -5 is out of
range although the output is not counted and every running total is 0. -/
theorem C20_balance_total_unchecked :
    GetBalance (sampleWalletEnv [] 1 1000) (sampleWalletTwoPayments 2100000000000000)
      = Except.ok 4200000000000000 ∧
    MoneyRange (sampleWalletEnv [] 1 1000) 4200000000000000 = false ∧
    creditAmount (sampleWalletEnv [] 1 1000) ISMINE_WATCH_SOLVABLE ⟨-5, 1, 0⟩ = 0 ∧
    GetCredit (sampleWalletEnv [] 1 1000) (sampleTx 7 [] [⟨-5, 1, 0⟩] 100 0)
      ISMINE_WATCH_SOLVABLE = Except.error WalletError.valueOutOfRange := by
  decide

/-- C20 as amended: `GetDebit` returns the exact sum of the debits when every
running total is within the money range and throws otherwise; `GetCredit`,
`GetChange` and a computing `GetAvailableCredit` (no cache, no immature
coinbase; over the unspent outputs) return the exact sum when every output
value examined and every running total is within the money range and throw
otherwise; `GetBalance` returns the exact sum of the available credits of the
trusted transactions, untested, when no trust test and none of those credits
throws, and throws when one of them does. -/
theorem C20_accumulators_range_checked (env : WalletEnv) (cenv : ChangeEnv) (w : CWallet)
    (tx : CWalletTx) (filter : Nat) :
    ((runningInRange env 0 (tx.vin.map (fun txin => GetDebitTxIn env w txin filter)) →
        GetDebit env w tx filter
          = Except.ok (tx.vin.map (fun txin => GetDebitTxIn env w txin filter)).sum) ∧
      (¬ runningInRange env 0 (tx.vin.map (fun txin => GetDebitTxIn env w txin filter)) →
        GetDebit env w tx filter = Except.error WalletError.valueOutOfRange)) ∧
    (((∀ o ∈ tx.vout, MoneyRange env o.nValue = true) ∧
          runningInRange env 0 (tx.vout.map (creditAmount env filter)) →
        GetCredit env tx filter = Except.ok (tx.vout.map (creditAmount env filter)).sum) ∧
      (¬ ((∀ o ∈ tx.vout, MoneyRange env o.nValue = true) ∧
          runningInRange env 0 (tx.vout.map (creditAmount env filter))) →
        GetCredit env tx filter = Except.error WalletError.valueOutOfRange)) ∧
    (((∀ o ∈ tx.vout, MoneyRange env o.nValue = true) ∧
          runningInRange env 0 (tx.vout.map (changeAmount env cenv)) →
        GetChange env cenv tx = Except.ok (tx.vout.map (changeAmount env cenv)).sum) ∧
      (¬ ((∀ o ∈ tx.vout, MoneyRange env o.nValue = true) ∧
          runningInRange env 0 (tx.vout.map (changeAmount env cenv))) →
        GetChange env cenv tx = Except.error WalletError.valueOutOfRange)) ∧
    ((tx.fCoinBase && decide (GetBlocksToMaturity env tx > 0)) = false →
      ((∀ o ∈ unspentFrom env w tx.hash 0 tx.vout, MoneyRange env o.nValue = true) ∧
          runningInRange env 0
            ((unspentFrom env w tx.hash 0 tx.vout).map (creditAmount env ISMINE_SPENDABLE)) →
        GetAvailableCredit env w tx false = Except.ok
          ((unspentFrom env w tx.hash 0 tx.vout).map (creditAmount env ISMINE_SPENDABLE)).sum) ∧
      (¬ ((∀ o ∈ unspentFrom env w tx.hash 0 tx.vout, MoneyRange env o.nValue = true) ∧
          runningInRange env 0
            ((unspentFrom env w tx.hash 0 tx.vout).map (creditAmount env ISMINE_SPENDABLE))) →
        GetAvailableCredit env w tx false = Except.error WalletError.valueOutOfRange)) ∧
    (((∀ e ∈ w.mapWallet, IsTrustedRaises env w e.2 = false) →
        ∀ vals : List CAmount,
          (trustedTxs env w).map (fun t => GetAvailableCredit env w t true)
            = vals.map Except.ok →
          GetBalance env w = Except.ok vals.sum) ∧
      (((∃ t ∈ trustedTxs env w,
            GetAvailableCredit env w t true = Except.error WalletError.valueOutOfRange) ∨
          ∃ e ∈ w.mapWallet, IsTrustedRaises env w e.2 = true) →
        GetBalance env w = Except.error WalletError.valueOutOfRange)) := by
  refine ⟨?_, ?_, ?_, ?_, ?_, ?_⟩
  · have h := accumulate_cases env (tx.vin.map (fun txin => GetDebitTxIn env w txin filter)) 0
    rw [List.map_map, zero_add] at h
    exact h
  · exact accumulate_checked env tx.vout (fun txout => GetCreditTxOut env txout filter)
      (creditAmount env filter) (fun o => by simp only [GetCreditTxOut, creditAmount])
  · exact accumulate_checked env tx.vout (fun txout => GetChangeTxOut env cenv txout)
      (changeAmount env cenv) (fun o => by simp only [GetChangeTxOut, changeAmount])
  · intro hcb
    have he : GetAvailableCredit env w tx false =
        accumulate env ((unspentFrom env w tx.hash 0 tx.vout).map
          (fun txout => GetCreditTxOut env txout ISMINE_SPENDABLE)) 0 := by
      unfold GetAvailableCredit
      rw [hcb]
      simp only [Bool.false_eq_true, if_false, Bool.false_and]
      exact availableCreditLoop_eq env w tx.hash tx.vout 0 0
    rw [he]
    exact accumulate_checked env _ (fun txout => GetCreditTxOut env txout ISMINE_SPENDABLE)
      (creditAmount env ISMINE_SPENDABLE) (fun o => by simp only [GetCreditTxOut, creditAmount])
  · intro hnr vals h
    have := balanceLoop_ok env w w.mapWallet 0 vals hnr h
    rw [zero_add] at this
    exact this
  · intro h
    exact balanceLoop_err env w w.mapWallet 0 h

/-- C20 as amended on samples: the credit of one payment of 100, the balance
200 of two trusted payments of 100, and the balance that raises through the
trust test of `sampleWalletDebitOverflow`. -/
theorem C20_accumulators_range_checked_witness :
    GetCredit (sampleWalletEnv [] 1 1000) (sampleTx 7 [] [⟨100, 1, 0⟩] 100 0) ISMINE_SPENDABLE
      = Except.ok 100 ∧
    GetBalance (sampleWalletEnv [] 1 1000) (sampleWalletTwoPayments 100) = Except.ok 200 ∧
    GetBalance (sampleWalletEnv [] 1 1000) sampleWalletDebitOverflow
      = Except.error WalletError.valueOutOfRange := by
  have hrun : runningInRange (sampleWalletEnv [] 1 1000) 0
      ((sampleTx 7 [] [⟨100, 1, 0⟩] 100 0).vout.map
        (creditAmount (sampleWalletEnv [] 1 1000) ISMINE_SPENDABLE)) := by
    intro k hk hk2
    have hk3 : k = 1 := by
      have : k ≤ 1 := hk2
      omega
    subst hk3
    decide
  have h1 := (C20_accumulators_range_checked (sampleWalletEnv [] 1 1000) sampleChangeEnv
    (sampleWalletTwoPayments 100) (sampleTx 7 [] [⟨100, 1, 0⟩] 100 0) ISMINE_SPENDABLE).2.1.1
    ⟨by decide, hrun⟩
  have h2 := (C20_accumulators_range_checked (sampleWalletEnv [] 1 1000) sampleChangeEnv
    (sampleWalletTwoPayments 100) (sampleTx 7 [] [⟨100, 1, 0⟩] 100 0)
    ISMINE_SPENDABLE).2.2.2.2.1 (by decide) [100, 100] (by decide)
  have h3 := (C20_accumulators_range_checked (sampleWalletEnv [] 1 1000) sampleChangeEnv
    sampleWalletDebitOverflow (sampleTx 7 [] [⟨100, 1, 0⟩] 100 0)
    ISMINE_SPENDABLE).2.2.2.2.2
    (Or.inr ⟨(9, sampleTx 9 [⟨⟨7, 0⟩, 0, 0⟩, ⟨⟨7, 1⟩, 0, 0⟩] [] 0 (-1)), by decide, by decide⟩)
  exact ⟨h1.trans (by decide), h2.trans (by decide), h3⟩

/-! ## Theorems: the fee loop -/

theorem placeChange_fee (env : BuilderEnv) (rnd : BuilderRandom) (nPass : Nat) (t : CTxOut)
    (vout : List CTxOut) (nChange nFeeRet : CAmount) (pos : Int) (ch : ChangeResult)
    (h0 : 0 ≤ nChange)
    (h : placeChange env rnd nPass t vout nChange nFeeRet pos = Except.ok ch) :
    nFeeRet ≤ ch.nFeeRet := by
  unfold placeChange at h
  split at h
  · simp only [Except.ok.injEq] at h
    subst h
    simp only
    linarith
  · split at h
    · simp only [Except.ok.injEq] at h
      subst h
      exact le_refl _
    · split at h
      · cases h
      · simp only [Except.ok.injEq] at h
        subst h
        exact le_refl _

theorem addChange_fee (env : BuilderEnv) (rnd : BuilderRandom) (nPass : Nat)
    (vecSend : List CRecipient) (cc : Option CCoinControl) (nSubtract : Nat)
    (vout : List CTxOut) (nChange nFeeRet : CAmount) (pos : Int) (ch : ChangeResult)
    (h : addChange env rnd nPass vecSend cc nSubtract vout nChange nFeeRet pos = Except.ok ch) :
    nFeeRet ≤ ch.nFeeRet := by
  unfold addChange at h
  split at h
  · rename_i hpos
    split at h
    · cases h
    · split at h
      · cases h
      · exact placeChange_fee env rnd nPass _ _ nChange nFeeRet pos ch (le_of_lt hpos) h
  · simp only [Except.ok.injEq] at h
    subst h
    exact le_refl _

theorem finishPass_retry (env : BuilderEnv) (sign fIS : Bool) (tx : TxDraft)
    (nFeeRet : CAmount) (pos : Int) (fee : CAmount)
    (h : finishPass env sign fIS tx nFeeRet pos = PassResult.retry fee) :
    nFeeRet < fee ∧ fee = feeNeeded env sign tx := by
  unfold finishPass at h
  split at h
  · cases h
  · dsimp only at h
    split at h
    · cases h
    · by_cases hfree : (!fIS && env.fSendFreeTransactions &&
          decide (env.GetSerializeSize sign tx ≤ env.MAX_FREE_TRANSACTION_CREATE_SIZE) &&
          env.fPriorityFree sign tx) = true
      · rw [if_pos hfree] at h
        cases h
      · rw [if_neg hfree] at h
        unfold feeNeeded
        by_cases hlt : env.nPayTxFeePerK * (1 + Int.tdiv (env.GetTransactionWeight sign tx) 1000)
            < env.GetMinFee tx (env.AllowFree sign tx)
        · rw [if_pos hlt] at h
          rw [max_eq_right (le_of_lt hlt)]
          split at h
          · cases h
          · rename_i hge
            simp only [PassResult.retry.injEq] at h
            rw [← h]
            exact ⟨not_le.1 hge, rfl⟩
        · rw [if_neg hlt] at h
          rw [max_eq_left (not_lt.1 hlt)]
          split at h
          · cases h
          · rename_i hge
            simp only [PassResult.retry.injEq] at h
            rw [← h]
            exact ⟨not_le.1 hge, rfl⟩

theorem createPass_retry (env : BuilderEnv) (w : CWallet) (rnd : BuilderRandom)
    (nPass : Nat) (vecSend : List CRecipient) (nValue : CAmount) (nSubtract : Nat) (posReq : Int)
    (cc : Option CCoinControl) (sign : Bool) (ct : AvailableCoinsType) (fIS : Bool)
    (F fee : CAmount)
    (h : createPass env w rnd nPass vecSend nValue nSubtract posReq cc sign ct fIS F
      = PassResult.retry fee) : F < fee := by
  unfold createPass at h
  dsimp only at h
  cases hb : buildPayeeOutputs env F nSubtract vecSend true with
  | error e => rw [hb] at h; cases h
  | ok vout =>
    rw [hb] at h
    dsimp only at h
    generalize (if nSubtract = 0 then toInt64 (nValue + F) else nValue) = T at h
    generalize SelectCoins env.wallet w (rnd.select nPass) T [] 0 cc ct fIS = sel at h
    split at h
    · split at h <;> cases h
    · split at h
      · cases h
      · split at h
        · cases h
        · split at h
          · cases h
          · split at h
            · cases h
            · rename_i ch hch
              have h1 := addChange_fee env rnd nPass vecSend cc nSubtract vout _ F posReq ch hch
              have h2 := (finishPass_retry env sign fIS _ _ _ fee h).1
              linarith

theorem feeEstimates_lower (env : BuilderEnv) (w : CWallet) (rnd : BuilderRandom)
    (vecSend : List CRecipient) (nValue : CAmount) (nSubtract : Nat) (posReq : Int)
    (cc : Option CCoinControl) (sign : Bool) (ct : AvailableCoinsType) (fIS : Bool) (fuel : Nat) :
    ∀ (nPass : Nat) (F : CAmount),
      (∀ x ∈ feeEstimates env w rnd vecSend nValue nSubtract posReq cc sign ct fIS fuel nPass F,
        F ≤ x) ∧
      (feeEstimates env w rnd vecSend nValue nSubtract posReq cc sign ct fIS fuel nPass F).Pairwise
        (fun a b => a < b) := by
  induction fuel with
  | zero =>
    intro nPass F
    simp [feeEstimates]
  | succ n ih =>
    intro nPass F
    unfold feeEstimates
    cases hp : createPass env w rnd nPass vecSend nValue nSubtract posReq cc sign ct fIS F with
    | fail e => simp
    | done tx fee pos => simp
    | retry fee =>
      have hlt := createPass_retry env w rnd nPass vecSend nValue nSubtract posReq cc sign ct
        fIS F fee hp
      obtain ⟨h1, h2⟩ := ih (nPass + 1) fee
      simp only [List.mem_cons, forall_eq_or_imp, le_refl, true_and, List.pairwise_cons]
      refine ⟨fun x hx => ?_, fun x hx => ?_, h2⟩
      · exact le_of_lt (lt_of_lt_of_le hlt (h1 x hx))
      · exact lt_of_lt_of_le hlt (h1 x hx)

theorem createLoop_retry (env : BuilderEnv) (w : CWallet) (rnd : BuilderRandom)
    (nPass : Nat) (vecSend : List CRecipient) (nValue : CAmount) (nSubtract : Nat) (posReq : Int)
    (cc : Option CCoinControl) (sign : Bool) (ct : AvailableCoinsType) (fIS : Bool)
    (F fee : CAmount)
    (h : createPass env w rnd nPass vecSend nValue nSubtract posReq cc sign ct fIS F
      = PassResult.retry fee) (fuel : Nat) :
    createLoop env w rnd vecSend nValue nSubtract posReq cc sign ct fIS (fuel + 1) nPass F
      = createLoop env w rnd vecSend nValue nSubtract posReq cc sign ct fIS fuel (nPass + 1)
          fee := by
  rw [createLoop, h]

/-- The loop ends as the pass that starts with the last of its fee estimates
does: the list `feeEstimates` is the sequence of estimates it goes through. -/
theorem createLoop_outcome (env : BuilderEnv) (w : CWallet) (rnd : BuilderRandom)
    (vecSend : List CRecipient) (nValue : CAmount) (nSubtract : Nat) (posReq : Int)
    (cc : Option CCoinControl) (sign : Bool) (ct : AvailableCoinsType) (fIS : Bool) (fuel : Nat) :
    ∀ (nPass : Nat) (F : CAmount),
      createLoop env w rnd vecSend nValue nSubtract posReq cc sign ct fIS fuel nPass F
        = outcomeAtLast env w rnd vecSend nValue nSubtract posReq cc sign ct fIS nPass
            (feeEstimates env w rnd vecSend nValue nSubtract posReq cc sign ct fIS fuel nPass
              F) := by
  induction fuel with
  | zero =>
    intro nPass F
    rfl
  | succ k ih =>
    intro nPass F
    rw [createLoop, feeEstimates]
    cases hp : createPass env w rnd nPass vecSend nValue nSubtract posReq cc sign ct fIS F with
    | fail e =>
      simp only [outcomeAtLast, hp]
    | done tx fee pos =>
      simp only [outcomeAtLast, hp]
    | retry fee =>
      simp only
      rw [ih (nPass + 1) fee]
      cases k with
      | zero =>
        simp only [feeEstimates, outcomeAtLast, hp]
      | succ m =>
        rw [feeEstimates]
        simp only [outcomeAtLast]

/-! ## Claim C21 -/

/-- C21: a pass of the fee loop of `CreateTransaction` that ends in a retry
leaves a fee estimate strictly above the one it started with, and the loop
enters its next pass with that estimate; so the estimates that the passes of
the loop start with, which decide how the loop ends, are strictly
increasing. -/
theorem C21_fee_estimate_increases (env : BuilderEnv) (w : CWallet) (rnd : BuilderRandom)
    (nPass : Nat) (vecSend : List CRecipient) (nValue : CAmount) (nSubtract : Nat) (posReq : Int)
    (cc : Option CCoinControl) (sign : Bool) (ct : AvailableCoinsType) (fIS : Bool)
    (F fee : CAmount)
    (h : createPass env w rnd nPass vecSend nValue nSubtract posReq cc sign ct fIS F
      = PassResult.retry fee) :
    F < fee ∧
    (∀ fuel : Nat,
      createLoop env w rnd vecSend nValue nSubtract posReq cc sign ct fIS (fuel + 1) nPass F
        = createLoop env w rnd vecSend nValue nSubtract posReq cc sign ct fIS fuel (nPass + 1)
            fee) ∧
    ∀ (fuel n : Nat) (G : CAmount),
      (feeEstimates env w rnd vecSend nValue nSubtract posReq cc sign ct fIS fuel n G).Pairwise
        (fun a b => a < b) ∧
      createLoop env w rnd vecSend nValue nSubtract posReq cc sign ct fIS fuel n G
        = outcomeAtLast env w rnd vecSend nValue nSubtract posReq cc sign ct fIS n
            (feeEstimates env w rnd vecSend nValue nSubtract posReq cc sign ct fIS fuel n G) :=
  ⟨createPass_retry env w rnd nPass vecSend nValue nSubtract posReq cc sign ct fIS F fee h,
    createLoop_retry env w rnd nPass vecSend nValue nSubtract posReq cc sign ct fIS F fee h,
    fun fuel n G =>
      ⟨(feeEstimates_lower env w rnd vecSend nValue nSubtract posReq cc sign ct fIS fuel n G).2,
        createLoop_outcome env w rnd vecSend nValue nSubtract posReq cc sign ct fIS fuel n G⟩⟩

/-- C21 on the payment of 5000 from the coin of 10000 at the rate 1000 under a
minimum fee of 1500: the first pass starts at 1000 and asks for 1500, with
which the second pass ends the loop. -/
theorem C21_fee_estimate_increases_witness :
    createPass sampleBuilderEnvMinFee sampleWalletBig BuilderRandom.trivial 0
        [⟨1, 5000, false⟩] 5000 0 (-1) none true AvailableCoinsType.ALL_COINS false 1000
      = PassResult.retry 1500 ∧
    feeEstimates sampleBuilderEnvMinFee sampleWalletBig BuilderRandom.trivial
        [⟨1, 5000, false⟩] 5000 0 (-1) none true AvailableCoinsType.ALL_COINS false 5 0 1000
      = [1000, 1500] ∧
    (createLoop sampleBuilderEnvMinFee sampleWalletBig BuilderRandom.trivial
        [⟨1, 5000, false⟩] 5000 0 (-1) none true AvailableCoinsType.ALL_COINS false 5 0
        1000).isOk = true ∧
    ((1000 : CAmount) < 1500 ∧
      ∀ fuel : Nat,
        createLoop sampleBuilderEnvMinFee sampleWalletBig BuilderRandom.trivial
            [⟨1, 5000, false⟩] 5000 0 (-1) none true AvailableCoinsType.ALL_COINS false
            (fuel + 1) 0 1000
          = createLoop sampleBuilderEnvMinFee sampleWalletBig BuilderRandom.trivial
            [⟨1, 5000, false⟩] 5000 0 (-1) none true AvailableCoinsType.ALL_COINS false
            fuel (0 + 1) 1500) :=
  ⟨by decide, by decide, by decide,
    (C21_fee_estimate_increases sampleBuilderEnvMinFee sampleWalletBig BuilderRandom.trivial 0
      [⟨1, 5000, false⟩] 5000 0 (-1) none true AvailableCoinsType.ALL_COINS false 1000 1500
      (by decide)).1,
    (C21_fee_estimate_increases sampleBuilderEnvMinFee sampleWalletBig BuilderRandom.trivial 0
      [⟨1, 5000, false⟩] 5000 0 (-1) none true AvailableCoinsType.ALL_COINS false 1000 1500
      (by decide)).2.1⟩

/-! ## Theorems: the block-height lock time -/

theorem toUInt32_of_range (x : Int) (h0 : 0 ≤ x) (h1 : x < 4294967296) : toUInt32 x = x := by
  unfold toUInt32
  omega

theorem toInt32_of_range (x : Int) (h0 : 0 ≤ x) (h1 : x < 2147483648) : toInt32 x = x := by
  unfold toInt32
  omega

theorem heightLockTime_range (h r : Int) (h0 : 0 ≤ h) (h1 : h < 2147483648) (hr : 0 ≤ r) :
    0 ≤ toUInt32 (max 0 (toInt32 (toUInt32 h) - r)) ∧
      toUInt32 (max 0 (toInt32 (toUInt32 h) - r)) ≤ h := by
  rw [toUInt32_of_range h h0 (by omega), toInt32_of_range h h0 h1]
  have hm0 : 0 ≤ max 0 (h - r) := le_max_left _ _
  have hm1 : max 0 (h - r) ≤ h := max_le h0 (by omega)
  rw [toUInt32_of_range _ hm0 (by omega)]
  exact ⟨hm0, hm1⟩

/-! ## Claim C27 -/

/-- C27: in the block-height branch of the lock-time choice, for a chain
height `h` with `0 ≤ h < LOCKTIME_THRESHOLD` (the threshold being a 32-bit
signed value) and any random draws, the lock time is set, lies in `[0, h]`,
and equals `h` when the first draw is not zero: neither closing assertion
fails. -/
theorem C27_height_lock_time_bounded (env : BuilderEnv) (rnd : BuilderRandom) (nPass : Nat)
    (fmt : LockTimeFormat) (hfmt : fmt ≠ LockTimeFormat.TIMESTAMP)
    (h0 : 0 ≤ env.wallet.chain.chainHeight)
    (hlt : env.wallet.chain.chainHeight < env.LOCKTIME_THRESHOLD)
    (hT : env.LOCKTIME_THRESHOLD ≤ 2147483648) :
    ∃ t, chooseLockTime env rnd nPass fmt = Except.ok t ∧ 0 ≤ t ∧
      t ≤ env.wallet.chain.chainHeight ∧
      (rnd.GetRandInt nPass 0 10 ≠ 0 → t = env.wallet.chain.chainHeight) := by
  have h31 : env.wallet.chain.chainHeight < 2147483648 := lt_of_lt_of_le hlt hT
  have hu := toUInt32_of_range _ h0 (show env.wallet.chain.chainHeight < 4294967296 by omega)
  have hr := (rnd.GetRandInt_range nPass 1 100 (by norm_num)).1
  obtain ⟨hm0, hm1⟩ := heightLockTime_range _ _ h0 h31 hr
  unfold chooseLockTime
  rw [if_neg hfmt]
  dsimp only
  by_cases hd : rnd.GetRandInt nPass 0 10 = 0
  · rw [if_pos hd, hu, if_neg (not_not.2 (by rw [hu] at hm1; exact hm1)),
      if_neg (not_not.2 (lt_of_le_of_lt (by rw [hu] at hm1; exact hm1) hlt))]
    rw [hu] at hm0 hm1
    exact ⟨_, rfl, hm0, hm1, fun hne => absurd hd hne⟩
  · rw [if_neg hd, hu, if_neg (not_not.2 (le_refl _)), if_neg (not_not.2 hlt)]
    exact ⟨_, rfl, h0, le_refl _, fun _ => rfl⟩

/-- C27 on the sample chain of height 10 with the threshold 500000000: the
draws that are all zero leave the lock time at 10. -/
theorem C27_height_lock_time_bounded_witness :
    chooseLockTime (sampleBuilderEnv [] 1000) BuilderRandom.trivial 0 LockTimeFormat.UNSET
      = Except.ok 10 ∧
    ∃ t, chooseLockTime (sampleBuilderEnv [] 1000) BuilderRandom.trivial 0 LockTimeFormat.UNSET
        = Except.ok t ∧ 0 ≤ t ∧
      t ≤ (sampleBuilderEnv [] 1000).wallet.chain.chainHeight ∧
      (BuilderRandom.trivial.GetRandInt 0 0 10 ≠ 0 →
        t = (sampleBuilderEnv [] 1000).wallet.chain.chainHeight) :=
  ⟨by decide,
    C27_height_lock_time_bounded (sampleBuilderEnv [] 1000) BuilderRandom.trivial 0
      LockTimeFormat.UNSET (by decide) (by decide) (by decide) (by decide)⟩

/-! ## Claim C22 -/

/-- C22: on coins worth 60, 50, 45 and 40 with the target 100 (and a
`MIN_CHANGE` of 1000), `SelectCoinsMinConf` without InstantSend returns the
coins 50, 45 and 40, worth 135, whatever bits the random source draws: this is
`ApproximateBestSubset` run with no iteration at all, where only the closing
trim acts on the full set.  Run with its declared 1000 iterations on the same
values, `ApproximateBestSubset` finds the subset 60 and 40, worth exactly
100. -/
theorem C22_approximation_runs_no_iteration :
    (∀ bits1 bits2 : Nat → Bool,
      SelectCoinsMinConf (sampleWalletEnv [] 1000 1000000) (RandomSource.ofBits bits1 bits2)
          100 1 6 0 sampleFourCoins false
        = { fSuccess := true,
            setCoinsRet := [((sampleCoin 12 50 9).tx, 0), ((sampleCoin 13 45 9).tx, 0),
                            ((sampleCoin 14 40 9).tx, 0)],
            nValueRet := 135, nApproxCalls := 1 }) ∧
    ApproximateBestSubset (fun _ => false) 1000000 [60, 50, 45, 40] 195 100 0 false
      = ([false, true, true, true], 135) ∧
    ApproximateBestSubset (fun _ => false) 1000000 [60, 50, 45, 40] 195 100 1000 false
      = ([true, false, false, true], 100) :=
  ⟨fun _ _ => rfl, by decide, by decide⟩

/-! ## Theorems: the trim of the best subset -/

theorem approxTrim_trimmed (T : CAmount) (vals : List CAmount) :
    ∀ (flags : List Bool) (nBest : CAmount), (∀ v ∈ vals, 0 ≤ v) →
      (approxTrim T vals flags nBest).2 ≤ nBest ∧
      ∀ i, i < vals.length → (approxTrim T vals flags nBest).1.getD i false = true →
        (approxTrim T vals flags nBest).2 - vals.getD i 0 < T := by
  induction vals with
  | nil =>
    intro flags nBest _
    cases flags <;> simp [approxTrim]
  | cons v vs ih =>
    intro flags nBest hpos
    cases flags with
    | nil => simp [approxTrim]
    | cons f fs =>
      have hv : 0 ≤ v := hpos v (List.mem_cons_self _ _)
      have hvs : ∀ x ∈ vs, 0 ≤ x := fun x hx => hpos x (List.mem_cons_of_mem _ hx)
      simp only [approxTrim]
      by_cases hc : (f && decide (nBest - v ≥ T)) = true
      · simp only [hc, if_true]
        obtain ⟨h1, h2⟩ := ih fs (nBest - v) hvs
        refine ⟨by linarith, ?_⟩
        intro i hlt hi
        cases i with
        | zero => simp at hi
        | succ j =>
          simp only [List.getD_cons_succ] at hi ⊢
          exact h2 j (by simpa using hlt) hi
      · simp only [hc, Bool.false_eq_true, if_false]
        obtain ⟨h1, h2⟩ := ih fs nBest hvs
        refine ⟨h1, ?_⟩
        intro i hlt hi
        cases i with
        | zero =>
          simp only [List.getD_cons_zero] at hi ⊢
          have hn : ¬ (nBest - v ≥ T) := by
            intro hge
            apply hc
            simp [hi, hge]
          linarith [not_le.1 hn]
        | succ j =>
          simp only [List.getD_cons_succ] at hi ⊢
          exact h2 j (by simpa using hlt) hi

/-! ## Claim C23 -/

/-- C23: for positive coin values whose sum `nTotalLower` meets the target,
every random source, every iteration count and either value of the InstantSend
flag, `ApproximateBestSubset` returns one flag per coin, a total `nBest` that is
the sum of the flagged coins and meets the target, and a trimmed subset:
taking any single flagged coin away leaves less than the target. -/
theorem C23_best_subset_trimmed (rand : Nat → Bool) (nCap : CAmount) (vals : List CAmount)
    (nTotalLower T : CAmount) (iterations : Int) (fIS : Bool)
    (hpos : ∀ v ∈ vals, 0 < v) (hsum : vals.sum = nTotalLower) (hT : T ≤ nTotalLower) :
    (ApproximateBestSubset rand nCap vals nTotalLower T iterations fIS).1.length = vals.length ∧
    flaggedSum vals (ApproximateBestSubset rand nCap vals nTotalLower T iterations fIS).1
      = (ApproximateBestSubset rand nCap vals nTotalLower T iterations fIS).2 ∧
    T ≤ (ApproximateBestSubset rand nCap vals nTotalLower T iterations fIS).2 ∧
    ∀ i, i < vals.length →
      (ApproximateBestSubset rand nCap vals nTotalLower T iterations fIS).1.getD i false = true →
      (ApproximateBestSubset rand nCap vals nTotalLower T iterations fIS).2 - vals.getD i 0
        < T := by
  obtain ⟨a, b, c⟩ := approximateBestSubset_spec rand nCap vals nTotalLower T iterations fIS
    hsum hT
  refine ⟨a, c, b, ?_⟩
  unfold ApproximateBestSubset
  exact (approxTrim_trimmed T vals _ _ (fun v hv => le_of_lt (hpos v hv))).2

/-- C23 on the values 60, 50, 45 and 40 with the target 100 and 1000
iterations: the subset 60 and 40 is returned, worth exactly 100. -/
theorem C23_best_subset_trimmed_witness :
    ApproximateBestSubset (fun n => decide (n % 3 = 0)) 1000000 [60, 50, 45, 40] 195 100 1000
        false = ([true, false, false, true], 100) ∧
    ((ApproximateBestSubset (fun n => decide (n % 3 = 0)) 1000000 [60, 50, 45, 40] 195 100 1000
        false).1.length = [(60 : CAmount), 50, 45, 40].length ∧
    flaggedSum [60, 50, 45, 40]
        (ApproximateBestSubset (fun n => decide (n % 3 = 0)) 1000000 [60, 50, 45, 40] 195 100
          1000 false).1
      = (ApproximateBestSubset (fun n => decide (n % 3 = 0)) 1000000 [60, 50, 45, 40] 195 100
          1000 false).2 ∧
    100 ≤ (ApproximateBestSubset (fun n => decide (n % 3 = 0)) 1000000 [60, 50, 45, 40] 195 100
          1000 false).2 ∧
    ∀ i, i < [(60 : CAmount), 50, 45, 40].length →
      (ApproximateBestSubset (fun n => decide (n % 3 = 0)) 1000000 [60, 50, 45, 40] 195 100
          1000 false).1.getD i false = true →
      (ApproximateBestSubset (fun n => decide (n % 3 = 0)) 1000000 [60, 50, 45, 40] 195 100
          1000 false).2 - [(60 : CAmount), 50, 45, 40].getD i 0 < 100) :=
  ⟨by decide,
    C23_best_subset_trimmed (fun n => decide (n % 3 = 0)) 1000000 [60, 50, 45, 40] 195 100 1000
      false (by decide) (by decide) (by decide)⟩

/-! ## Theorems: the choice after the approximation -/

theorem approxPhase_some (env : WalletEnv) (rs : RandomSource) (T : CAmount) (fIS : Bool)
    (st : ScanState) (c : CInput) (hc : st.coinLowestLarger.2 = some c) :
    approxPhase env rs T fIS st =
      if (decide ((approxBest env rs T fIS st).2 ≠ T) &&
            decide ((approxBest env rs T fIS st).2 < toInt64 (T + env.MIN_CHANGE))) ||
          decide (st.coinLowestLarger.1 ≤ (approxBest env rs T fIS st).2) then
        { fSuccess := true, setCoinsRet := coinSetInsert [] c,
          nValueRet := 0 + st.coinLowestLarger.1,
          nApproxCalls := (approxPhase env rs T fIS st).nApproxCalls }
      else
        { fSuccess := true,
          setCoinsRet := (approxSubset env rs T fIS st).foldl
            (fun acc c => coinSetInsert acc c.2) [],
          nValueRet := (approxSubset env rs T fIS st).foldl (fun acc c => acc + c.1) 0,
          nApproxCalls := (approxPhase env rs T fIS st).nApproxCalls } := by
  unfold approxSubset approxBest approxPhase
  simp only [hc]
  split_ifs <;> rfl

theorem approxBest_spec (env : WalletEnv) (rs : RandomSource) (T : CAmount) (fIS : Bool)
    (st : ScanState) (hgt : T < st.nTotalLower)
    (hsum : (st.vValue.map Prod.fst).sum = st.nTotalLower) :
    (approxSubset env rs T fIS st).foldl (fun acc c => acc + c.1) 0
      = (approxBest env rs T fIS st).2 := by
  have hperm : (sortDescending st.vValue).Perm st.vValue := List.perm_insertionSort _ _
  have hsumS : ((sortDescending st.vValue).map Prod.fst).sum = st.nTotalLower := by
    rw [((hperm.map Prod.fst).sum_eq), hsum]
  rw [foldl_add_fst, zero_add]
  unfold approxSubset
  rw [flaggedCoins_sum]
  unfold approxBest
  generalize (if fIS = true then (1 : Int) else 0) = iters
  by_cases hsec : (decide ((ApproximateBestSubset rs.bits1 (env.nInstantSendMaxValue * env.COIN)
      ((sortDescending st.vValue).map Prod.fst) st.nTotalLower T iters false).2 ≠ T) &&
      decide (st.nTotalLower ≥ toInt64 (T + env.MIN_CHANGE))) = true
  · rw [if_pos hsec]
    have hge2 : toInt64 (T + env.MIN_CHANGE) ≤ st.nTotalLower := by
      simp only [Bool.and_eq_true, decide_eq_true_eq] at hsec
      exact hsec.2
    exact (approximateBestSubset_spec rs.bits2 _ _ st.nTotalLower (toInt64 (T + env.MIN_CHANGE)) _ false
      hsumS hge2).2.2
  · rw [if_neg hsec]
    exact (approximateBestSubset_spec rs.bits1 _ _ st.nTotalLower T _ false hsumS
      (le_of_lt hgt)).2.2

theorem scanFinal_total (env : WalletEnv) (rs : RandomSource) (T : CAmount)
    (nConfMine nConfTheirs : Int) (fIS : Bool) (vCoins : List COutput) :
    (scanFinal env T nConfMine nConfTheirs fIS (rs.order vCoins)).nTotalLower
        = ((belowCoins env T nConfMine nConfTheirs vCoins).map COutput.nValue).sum ∧
      ((scanFinal env T nConfMine nConfTheirs fIS (rs.order vCoins)).vValue.map Prod.fst).sum
        = (scanFinal env T nConfMine nConfTheirs fIS (rs.order vCoins)).nTotalLower := by
  constructor
  · exact belowCoins_sum_order env rs T nConfMine nConfTheirs vCoins
  · show (((belowCoins env T nConfMine nConfTheirs (rs.order vCoins)).map
      COutput.toCoin).map Prod.fst).sum = _
    rw [List.map_map]
    rfl

/-! ## Claim C24 -/

/-- C24, the claim as stated fails: on coins worth 60, 50 and 5000 with the
target 100 and a `MIN_CHANGE` of 1000, the approximation ends with the subset
60 and 50, whose total 110 reaches the target and does not exceed the lowest
larger coin of 5000, and yet `SelectCoinsMinConf` returns the coin of 5000
alone. -/
theorem C24_small_change_returns_larger_coin :
    (scanFinal (sampleWalletEnv [] 1000 1000000) 100 1 6 false sampleCoinsSmallLarge).coinLowestLarger
      = (5000, some ((sampleCoin 13 5000 9).tx, 0)) ∧
    approxBest (sampleWalletEnv [] 1000 1000000) RandomSource.trivial 100 false
        (scanFinal (sampleWalletEnv [] 1000 1000000) 100 1 6 false sampleCoinsSmallLarge)
      = ([true, true], 110) ∧
    (100 : CAmount) ≤ 110 ∧ ¬ ((110 : CAmount) > 5000) ∧
    SelectCoinsMinConf (sampleWalletEnv [] 1000 1000000) RandomSource.trivial 100 1 6 0
        sampleCoinsSmallLarge false
      = { fSuccess := true, setCoinsRet := [((sampleCoin 13 5000 9).tx, 0)], nValueRet := 5000,
          nApproxCalls := 1 } := by
  decide

/-- C24 (amended): in `SelectCoinsMinConf`, when no eligible coin equals the
target, the below-threshold coins sum to more than the target and a lowest
larger coin exists, that coin is returned alone exactly when the total of the
approximation is neither the target nor at least `target + MIN_CHANGE`, or
the value of the lowest larger coin is at most that total; in every other case
the subset of the approximation is returned, with that total as value. -/
theorem C24_larger_coin_preference (env : WalletEnv) (rs : RandomSource) (T : CAmount)
    (nConfMine nConfTheirs : Int) (nMaxAncestors : Nat) (vCoins : List COutput) (fIS : Bool)
    (c : CInput)
    (hne : ∀ o ∈ vCoins, eligible env nConfMine nConfTheirs o = true → o.nValue ≠ T)
    (hgt : T < ((belowCoins env T nConfMine nConfTheirs vCoins).map COutput.nValue).sum)
    (hc : (scanFinal env T nConfMine nConfTheirs fIS (rs.order vCoins)).coinLowestLarger.2
      = some c) :
    ((((approxBest env rs T fIS
          (scanFinal env T nConfMine nConfTheirs fIS (rs.order vCoins))).2 ≠ T ∧
        (approxBest env rs T fIS
          (scanFinal env T nConfMine nConfTheirs fIS (rs.order vCoins))).2 < toInt64 (T + env.MIN_CHANGE)) ∨
      (scanFinal env T nConfMine nConfTheirs fIS (rs.order vCoins)).coinLowestLarger.1
        ≤ (approxBest env rs T fIS
          (scanFinal env T nConfMine nConfTheirs fIS (rs.order vCoins))).2) →
      (SelectCoinsMinConf env rs T nConfMine nConfTheirs nMaxAncestors vCoins fIS).fSuccess
        = true ∧
      (SelectCoinsMinConf env rs T nConfMine nConfTheirs nMaxAncestors vCoins fIS).setCoinsRet
        = [c] ∧
      (SelectCoinsMinConf env rs T nConfMine nConfTheirs nMaxAncestors vCoins fIS).nValueRet
        = (scanFinal env T nConfMine nConfTheirs fIS (rs.order vCoins)).coinLowestLarger.1) ∧
    (¬ (((approxBest env rs T fIS
          (scanFinal env T nConfMine nConfTheirs fIS (rs.order vCoins))).2 ≠ T ∧
        (approxBest env rs T fIS
          (scanFinal env T nConfMine nConfTheirs fIS (rs.order vCoins))).2 < toInt64 (T + env.MIN_CHANGE)) ∨
      (scanFinal env T nConfMine nConfTheirs fIS (rs.order vCoins)).coinLowestLarger.1
        ≤ (approxBest env rs T fIS
          (scanFinal env T nConfMine nConfTheirs fIS (rs.order vCoins))).2) →
      (SelectCoinsMinConf env rs T nConfMine nConfTheirs nMaxAncestors vCoins fIS).fSuccess
        = true ∧
      (SelectCoinsMinConf env rs T nConfMine nConfTheirs nMaxAncestors vCoins fIS).setCoinsRet
        = (approxSubset env rs T fIS
            (scanFinal env T nConfMine nConfTheirs fIS (rs.order vCoins))).foldl
            (fun acc x => coinSetInsert acc x.2) [] ∧
      (SelectCoinsMinConf env rs T nConfMine nConfTheirs nMaxAncestors vCoins fIS).nValueRet
        = (approxBest env rs T fIS
            (scanFinal env T nConfMine nConfTheirs fIS (rs.order vCoins))).2) := by
  obtain ⟨htot, hsum⟩ := scanFinal_total env rs T nConfMine nConfTheirs fIS vCoins
  rw [← htot] at hgt
  have hval := approxBest_spec env rs T fIS _ hgt hsum
  rw [selectCoinsMinConf_noexact env rs T nConfMine nConfTheirs nMaxAncestors vCoins fIS hne]
  generalize scanFinal env T nConfMine nConfTheirs fIS (rs.order vCoins) = st at hc hgt hval ⊢
  unfold resultOfScan
  rw [if_neg (ne_of_gt hgt), if_neg (not_lt.2 (le_of_lt hgt)), approxPhase_some env rs T fIS st c hc]
  constructor
  · intro hcond
    have hb : ((decide ((approxBest env rs T fIS st).2 ≠ T) &&
          decide ((approxBest env rs T fIS st).2 < toInt64 (T + env.MIN_CHANGE))) ||
        decide (st.coinLowestLarger.1 ≤ (approxBest env rs T fIS st).2)) = true := by
      simpa using hcond
    rw [if_pos hb]
    exact ⟨rfl, by simp [coinSetInsert], by simp⟩
  · intro hcond
    have hb : ¬ ((decide ((approxBest env rs T fIS st).2 ≠ T) &&
          decide ((approxBest env rs T fIS st).2 < toInt64 (T + env.MIN_CHANGE))) ||
        decide (st.coinLowestLarger.1 ≤ (approxBest env rs T fIS st).2)) = true := by
      simpa using hcond
    rw [if_neg hb]
    exact ⟨rfl, rfl, hval⟩

/-- C24 (amended) on coins worth 60, 50 and 5000 with the target 100: the
total 110 of the approximation is not the target and is below `100 + 1000`, so
the coin of 5000 is returned alone. -/
theorem C24_larger_coin_preference_witness :
    (SelectCoinsMinConf (sampleWalletEnv [] 1000 1000000) RandomSource.trivial 100 1 6 0
        sampleCoinsSmallLarge false).fSuccess = true ∧
    (SelectCoinsMinConf (sampleWalletEnv [] 1000 1000000) RandomSource.trivial 100 1 6 0
        sampleCoinsSmallLarge false).setCoinsRet = [((sampleCoin 13 5000 9).tx, 0)] ∧
    (SelectCoinsMinConf (sampleWalletEnv [] 1000 1000000) RandomSource.trivial 100 1 6 0
        sampleCoinsSmallLarge false).nValueRet
      = (scanFinal (sampleWalletEnv [] 1000 1000000) 100 1 6 false
          (RandomSource.trivial.order sampleCoinsSmallLarge)).coinLowestLarger.1 :=
  (C24_larger_coin_preference (sampleWalletEnv [] 1000 1000000) RandomSource.trivial 100 1 6 0
    sampleCoinsSmallLarge false ((sampleCoin 13 5000 9).tx, 0) (by decide) (by decide)
    (by decide)).1 (Or.inl (by decide))

/-! ## Theorems: when `SelectCoinsMinConf` succeeds -/

theorem mem_largerCoins_iff (env : WalletEnv) (rs : RandomSource) (T : CAmount)
    (nConfMine nConfTheirs : Int) (l : List COutput) (c : COutput) :
    c ∈ largerCoins env T nConfMine nConfTheirs (rs.order l) ↔
      c ∈ largerCoins env T nConfMine nConfTheirs l := by
  unfold largerCoins
  rw [List.mem_filter, List.mem_filter, (rs.order_perm l).mem_iff]

theorem selectCoinsMinConf_flag (env : WalletEnv) (rs : RandomSource) (T : CAmount)
    (nConfMine nConfTheirs : Int) (nMaxAncestors : Nat) (vCoins : List COutput) (fIS : Bool) :
    (SelectCoinsMinConf env rs T nConfMine nConfTheirs nMaxAncestors vCoins fIS).fSuccess
      = minConfSucceeds env T nConfMine nConfTheirs fIS vCoins := by
  unfold minConfSucceeds
  by_cases hex : ∃ c ∈ vCoins, eligible env nConfMine nConfTheirs c = true ∧ c.nValue = T
  · obtain ⟨c, _, _, _, hr⟩ := selectCoinsMinConf_exact env rs T nConfMine nConfTheirs
      nMaxAncestors vCoins fIS hex
    rw [hr]
    obtain ⟨c2, hc2, he2, hv2⟩ := hex
    have hany : vCoins.any (fun c => eligible env nConfMine nConfTheirs c &&
        decide (c.nValue = T)) = true :=
      List.any_eq_true.2 ⟨c2, hc2, by simp [he2, hv2]⟩
    rw [hany]
    rfl
  · have hne : ∀ c ∈ vCoins, eligible env nConfMine nConfTheirs c = true → c.nValue ≠ T :=
      fun c hc he hv => hex ⟨c, hc, he, hv⟩
    have hany : vCoins.any (fun c => eligible env nConfMine nConfTheirs c &&
        decide (c.nValue = T)) = false := by
      rw [Bool.eq_false_iff]
      intro h
      obtain ⟨c, hc, hb⟩ := List.any_eq_true.1 h
      simp only [Bool.and_eq_true, decide_eq_true_eq] at hb
      exact hex ⟨c, hc, hb.1, hb.2⟩
    rw [hany, Bool.false_or,
      selectCoinsMinConf_noexact env rs T nConfMine nConfTheirs nMaxAncestors vCoins fIS hne]
    have hl : (scanFinal env T nConfMine nConfTheirs fIS (rs.order vCoins)).coinLowestLarger
        = lowestFold (lowestCeiling env fIS, none)
          (largerCoins env T nConfMine nConfTheirs (rs.order vCoins)) := rfl
    have hs := (scanFinal_total env rs T nConfMine nConfTheirs fIS vCoins).1
    unfold resultOfScan
    by_cases e1 : (scanFinal env T nConfMine nConfTheirs fIS (rs.order vCoins)).nTotalLower = T
    · rw [if_pos e1]
      rw [hs] at e1
      simp [e1]
    · rw [if_neg e1]
      by_cases e2 : (scanFinal env T nConfMine nConfTheirs fIS (rs.order vCoins)).nTotalLower < T
      · rw [if_pos e2]
        have hd : decide (T ≤ ((belowCoins env T nConfMine nConfTheirs vCoins).map
            COutput.nValue).sum) = false := by
          rw [hs] at e2
          exact decide_eq_false (not_le.2 e2)
        rw [hd, Bool.false_or, hl]
        rcases lowestFold_spec (largerCoins env T nConfMine nConfTheirs (rs.order vCoins))
          (lowestCeiling env fIS, none) with ⟨e, hall⟩ | ⟨o, ho, e, hlow, _⟩
        · rw [e]
          symm
          rw [Bool.eq_false_iff]
          intro h
          obtain ⟨c, hc, hb⟩ := List.any_eq_true.1 h
          simp only [decide_eq_true_eq] at hb
          exact hall c ((mem_largerCoins_iff env rs T nConfMine nConfTheirs vCoins c).2 hc) hb
        · rw [e]
          symm
          exact List.any_eq_true.2
            ⟨o, (mem_largerCoins_iff env rs T nConfMine nConfTheirs vCoins o).1 ho,
              by simpa using hlow⟩
      · rw [if_neg e2, approxPhase_success]
        have hd : decide (T ≤ ((belowCoins env T nConfMine nConfTheirs vCoins).map
            COutput.nValue).sum) = true := by
          rw [hs] at e2
          exact decide_eq_true (not_lt.1 e2)
        rw [hd]
        rfl

theorem le_sum_of_mem (l : List CAmount) (h : ∀ x ∈ l, 0 ≤ x) : ∀ x ∈ l, x ≤ l.sum := by
  induction l with
  | nil => intro x hx; cases hx
  | cons a t ih =>
    intro x hx
    have ht : ∀ y ∈ t, 0 ≤ y := fun y hy => h y (List.mem_cons_of_mem _ hy)
    have hsum : 0 ≤ t.sum := List.sum_nonneg ht
    have ha : 0 ≤ a := h a (List.mem_cons_self _ _)
    rw [List.sum_cons]
    rcases List.mem_cons.1 hx with rfl | hx
    · linarith
    · have := ih ht x hx
      linarith

theorem minConfSucceeds_funds (env : WalletEnv) (T : CAmount) (nConfMine nConfTheirs : Int)
    (vCoins : List COutput) (hthr : T ≤ toInt64 (T + env.MIN_CHANGE))
    (hpos : ∀ c ∈ vCoins, 0 < c.nValue)
    (h : minConfSucceeds env T nConfMine nConfTheirs false vCoins = true) :
    T ≤ ((vCoins.filter (fun c => eligible env nConfMine nConfTheirs c)).map
      COutput.nValue).sum := by
  have hB : ∀ x ∈ (belowCoins env T nConfMine nConfTheirs vCoins).map COutput.nValue, 0 ≤ x := by
    intro x hx
    obtain ⟨c, hc, rfl⟩ := List.mem_map.1 hx
    exact le_of_lt (hpos c (List.mem_of_mem_filter hc))
  have hL : ∀ x ∈ (largerCoins env T nConfMine nConfTheirs vCoins).map COutput.nValue, 0 ≤ x := by
    intro x hx
    obtain ⟨c, hc, rfl⟩ := List.mem_map.1 hx
    exact le_of_lt (hpos c (List.mem_of_mem_filter hc))
  have hE : ∀ x ∈ (vCoins.filter (fun c => eligible env nConfMine nConfTheirs c)).map
      COutput.nValue, 0 ≤ x := by
    intro x hx
    obtain ⟨c, hc, rfl⟩ := List.mem_map.1 hx
    exact le_of_lt (hpos c (List.mem_of_mem_filter hc))
  unfold minConfSucceeds at h
  simp only [Bool.or_eq_true, List.any_eq_true, Bool.and_eq_true, decide_eq_true_eq] at h
  rcases h with (⟨c, hc, he, hv⟩ | hle) | ⟨c, hc, _⟩
  · rw [← hv]
    exact le_sum_of_mem _ hE _ (List.mem_map.2 ⟨c, List.mem_filter.2 ⟨hc, he⟩, rfl⟩)
  · rw [eligible_sum_split env T]
    have := List.sum_nonneg hL
    linarith
  · rw [eligible_sum_split env T]
    have h1 := le_sum_of_mem _ hL _ (List.mem_map.2 ⟨c, hc, rfl⟩)
    have h2 := List.sum_nonneg hB
    have h3 : toInt64 (T + env.MIN_CHANGE) ≤ c.nValue := by
      unfold largerCoins at hc
      have := (List.mem_filter.1 hc).2
      simp only [Bool.and_eq_true, Bool.not_eq_true', decide_eq_false_iff_not, not_lt] at this
      exact this.2
    linarith

/-- Apart from the overflow of `nTargetValue + MIN_CHANGE` and from a coin worth
the largest amount, `SelectCoinsMinConf` without InstantSend succeeds exactly
when the eligible coins cover the target: for positive coin values below
`INT64_MAX` and a target with `0 ≤ T` and `T + MIN_CHANGE ≤ INT64_MAX`. -/
theorem selectCoinsMinConf_success_iff (env : WalletEnv) (rs : RandomSource) (T : CAmount)
    (nConfMine nConfTheirs : Int) (nMaxAncestors : Nat) (vCoins : List COutput)
    (hmin : 0 ≤ env.MIN_CHANGE) (hT : 0 ≤ T) (hsum64 : T + env.MIN_CHANGE ≤ INT64_MAX)
    (hpos : ∀ c ∈ vCoins, 0 < c.nValue)
    (hlt : ∀ c ∈ vCoins, c.nValue < INT64_MAX) :
    (SelectCoinsMinConf env rs T nConfMine nConfTheirs nMaxAncestors vCoins false).fSuccess
        = true ↔
      T ≤ ((vCoins.filter (fun c => eligible env nConfMine nConfTheirs c)).map
        COutput.nValue).sum := by
  constructor
  · intro h
    rw [selectCoinsMinConf_flag] at h
    exact minConfSucceeds_funds env T nConfMine nConfTheirs vCoins
      (target_le_threshold T env.MIN_CHANGE hmin (by linarith) hsum64) hpos h
  · intro h
    exact selectCoinsMinConf_succeeds env rs T nConfMine nConfTheirs nMaxAncestors vCoins
      (fun c hc _ => hlt c hc) h

/-! ## Claim C28 -/

/-- C28, the failing input: the target is `INT64_MAX - 10`, `MIN_CHANGE` is 1000
and the only coin, spendable and nine blocks deep, is worth 3.  The 64-bit
sum `nTargetValue + MIN_CHANGE` wraps to a negative value, so the coin is not
below it and is recorded as the lowest larger coin: `SelectCoinsMinConf`
returns success with the value 3, although the eligible coins total 3, less
than the target. -/
theorem C28_overflowed_threshold_accepts_small_coin :
    (∀ c ∈ [sampleCoin 11 3 9], 0 < c.nValue) ∧
    (0 : CAmount) ≤ INT64_MAX - 10 ∧
    (([sampleCoin 11 3 9].filter
      (fun c => eligible (sampleWalletEnv [] 1000 1000000) 1 6 c)).map COutput.nValue).sum = 3 ∧
    ¬ (INT64_MAX - 10 ≤ (([sampleCoin 11 3 9].filter
      (fun c => eligible (sampleWalletEnv [] 1000 1000000) 1 6 c)).map COutput.nValue).sum) ∧
    toInt64 (INT64_MAX - 10 + (sampleWalletEnv [] 1000 1000000).MIN_CHANGE)
      = -9223372036854774819 ∧
    SelectCoinsMinConf (sampleWalletEnv [] 1000 1000000) RandomSource.trivial (INT64_MAX - 10)
        1 6 0 [sampleCoin 11 3 9] false
      = { fSuccess := true, setCoinsRet := [((sampleCoin 11 3 9).tx, 0)], nValueRet := 3,
          nApproxCalls := 0 } := by
  decide

/-! ## Claim C30 -/

/-- C30: `SelectCoinsMinConf` returns the same result for any two values of
`nMaxAncestors`, the other arguments and the random source being the same.  Its
success flag does not depend on the random source either, so the five
zero-confirmation calls of `SelectCoins` (the tiers after the first two, with
the ceilings 2, `min(4, limit/3)`, `limit/2`, `limit` and the largest 64-bit
value) all return the same flag on the same candidates and target. -/
theorem C30_max_ancestors_ignored (env : WalletEnv) (T : CAmount) (vCoins : List COutput)
    (fIS : Bool) :
    (∀ (rs : RandomSource) (nConfMine nConfTheirs : Int) (a b : Nat),
      SelectCoinsMinConf env rs T nConfMine nConfTheirs a vCoins fIS
        = SelectCoinsMinConf env rs T nConfMine nConfTheirs b vCoins fIS) ∧
    (∀ (rs1 rs2 : RandomSource) (nConfMine nConfTheirs : Int) (a b : Nat),
      (SelectCoinsMinConf env rs1 T nConfMine nConfTheirs a vCoins fIS).fSuccess
        = (SelectCoinsMinConf env rs2 T nConfMine nConfTheirs b vCoins fIS).fSuccess) ∧
    (((selectTiers env).drop 2).map Tier.nMaxAncestors
        = [2, min 4 (env.nMaxChainLength / 3), env.nMaxChainLength / 2, env.nMaxChainLength,
           18446744073709551615] ∧
      ∀ t1 ∈ (selectTiers env).drop 2, ∀ t2 ∈ (selectTiers env).drop 2,
        ∀ rs1 rs2 : RandomSource,
          (SelectCoinsMinConf env rs1 T t1.nConfMine t1.nConfTheirs t1.nMaxAncestors vCoins
            fIS).fSuccess
          = (SelectCoinsMinConf env rs2 T t2.nConfMine t2.nConfTheirs t2.nMaxAncestors vCoins
            fIS).fSuccess) := by
  refine ⟨fun _ _ _ _ _ => rfl, ?_, rfl, ?_⟩
  · intro rs1 rs2 nConfMine nConfTheirs a b
    rw [selectCoinsMinConf_flag, selectCoinsMinConf_flag]
  · intro t1 h1 t2 h2 rs1 rs2
    have hconf : ∀ t ∈ (selectTiers env).drop 2, t.nConfMine = 0 ∧ t.nConfTheirs = 1 := by
      intro t ht
      simp only [selectTiers, List.drop_succ_cons, List.drop_zero, List.mem_cons,
        List.mem_singleton, List.not_mem_nil, or_false] at ht
      rcases ht with rfl | rfl | rfl | rfl | rfl <;> exact ⟨rfl, rfl⟩
    rw [selectCoinsMinConf_flag, selectCoinsMinConf_flag, (hconf t1 h1).1, (hconf t1 h1).2,
      (hconf t2 h2).1, (hconf t2 h2).2]

/-! ## Theorems: smart time -/

theorem smartTimeScan_spec (m : List (uint256 × CWalletTx)) (self : uint256) (tol now : Int)
    (l : List (Int × TxPair)) :
    smartTimeScan m self tol now l =
      match (l.filterMap (entryTime m self)).find? (fun t => decide (t ≤ tol)) with
      | some t => (t, max now t)
      | none => (0, now) := by
  have hmax : ∀ t : Int, (if t > now then t else now) = max now t := by
    intro t
    by_cases h : t > now
    · rw [if_pos h, max_eq_right (le_of_lt h)]
    · rw [if_neg h, max_eq_left (not_lt.1 h)]
  induction l with
  | nil => simp [smartTimeScan]
  | cons e rest ih =>
    obtain ⟨p, item⟩ := e
    cases item with
    | wtx h =>
      by_cases hs : h = self
      · have he : entryTime m self (p, TxPair.wtx h) = none := by simp [entryTime, hs]
        rw [List.filterMap_cons_none he, ← ih]
        simp [smartTimeScan, hs]
      · cases hf : mapFind m h with
        | none =>
          have he : entryTime m self (p, TxPair.wtx h) = none := by simp [entryTime, hs, hf]
          rw [List.filterMap_cons_none he, ← ih]
          simp [smartTimeScan, hs, hf]
        | some pwtx =>
          have he : entryTime m self (p, TxPair.wtx h)
              = some (if pwtx.nTimeSmart = 0 then pwtx.nTimeReceived else pwtx.nTimeSmart) := by
            simp [entryTime, hs, hf]
          rw [List.filterMap_cons_some he, List.find?_cons]
          simp only [smartTimeScan, hs, if_false, hf]
          by_cases hle : (if pwtx.nTimeSmart = 0 then pwtx.nTimeReceived else pwtx.nTimeSmart)
              ≤ tol
          · rw [if_pos hle, hmax]
            simp [hle]
          · rw [if_neg hle, ih]
            simp [hle]
    | acentry nTime =>
      have he : entryTime m self (p, TxPair.acentry nTime) = some nTime := rfl
      rw [List.filterMap_cons_some he, List.find?_cons]
      simp only [smartTimeScan]
      by_cases hle : nTime ≤ tol
      · rw [if_pos hle, hmax]
        simp [hle]
      · rw [if_neg hle, ih]
        simp [hle]

theorem filterMap_orderedInsert (f : Int × TxPair → Option Int) (pos : Int) (item : TxPair)
    (hf : f (pos, item) = none) (l : List (Int × TxPair)) :
    (orderedInsert l pos item).filterMap f = l.filterMap f := by
  induction l with
  | nil => simp [orderedInsert, hf]
  | cons e rest ih =>
    obtain ⟨p, i⟩ := e
    unfold orderedInsert
    by_cases h : pos < p
    · rw [if_pos h, List.filterMap_cons_none hf]
    · rw [if_neg h]
      cases hfe : f (p, i) with
      | none => rw [List.filterMap_cons_none hfe, List.filterMap_cons_none hfe, ih]
      | some b => rw [List.filterMap_cons_some hfe, List.filterMap_cons_some hfe, ih]

theorem computeTimeSmart_spec (env : ChainEnv) (w : CWallet) (wtxIn : CWalletTx)
    (nTimeReceived : Int) (h0 : 0 ≤ nTimeReceived) :
    computeTimeSmart env (withOrderPos w wtxIn.hash) wtxIn nTimeReceived =
      if wtxIn.hashUnset = true then nTimeReceived
      else
        match env.mapBlockIndex wtxIn.hashBlock with
        | some pindex =>
          max (latestEntry w wtxIn.hash nTimeReceived)
            (min pindex.nTime (max nTimeReceived (latestEntry w wtxIn.hash nTimeReceived)))
        | none => nTimeReceived := by
  unfold computeTimeSmart
  by_cases hu : wtxIn.hashUnset = true
  · simp [hu]
  · have hu2 : wtxIn.hashUnset = false := by simpa using hu
    simp only [hu2, Bool.not_false, if_true, Bool.false_eq_true, if_false]
    cases hb : env.mapBlockIndex wtxIn.hashBlock with
    | none => rfl
    | some pindex =>
      simp only
      rw [smartTimeScan_spec]
      have hl : (withOrderPos w wtxIn.hash).wtxOrdered.reverse.filterMap
          (entryTime (withOrderPos w wtxIn.hash).mapWallet wtxIn.hash)
          = otherTimes w wtxIn.hash := by
        unfold otherTimes withOrderPos
        simp only
        rw [List.filterMap_reverse, List.filterMap_reverse,
          filterMap_orderedInsert _ _ _ (by simp [entryTime])]
      rw [hl]
      unfold latestEntry
      cases hfind : (otherTimes w wtxIn.hash).find?
          (fun t => decide (t ≤ nTimeReceived + 300)) with
      | none =>
        simp only [Option.getD_none]
        rw [max_eq_left h0]
      | some t => simp only [Option.getD_some]

theorem isEquivalentTo_body (a a2 b b2 : CWalletTx) (ha : a.body = a2.body)
    (hb : b.body = b2.body) : IsEquivalentTo a b = IsEquivalentTo a2 b2 := by
  simp only [CWalletTx.body, Prod.mk.injEq] at ha hb
  obtain ⟨a1, a3, a4, a5⟩ := ha
  obtain ⟨b1, b3, b4, b5⟩ := hb
  unfold IsEquivalentTo
  rw [a1, a3, a4, a5, b1, b3, b4, b5]

theorem smartTimeKept_mapAt (r0 : CWalletTx) (self : uint256)
    (hnull : IsEquivalentTo CWalletTx.null r0 = false) (m : List (uint256 × CWalletTx))
    (k : uint256) (h : SmartTimeKept r0 self m) : SmartTimeKept r0 self (mapAt m k).2 := by
  unfold mapAt
  cases hk : mapFind m k with
  | some v => exact h
  | none =>
    obtain ⟨⟨r, hr, hrest⟩, hoth⟩ := h
    have hne : self ≠ k := by
      intro e
      rw [e, hk] at hr
      cases hr
    refine ⟨⟨r, ?_, hrest⟩, ?_⟩
    · show mapFind (mapInsert m k CWalletTx.null) self = some r
      rw [mapFind_mapInsert_ne _ _ _ _ hne]
      exact hr
    · intro k2 t hk2 ht
      have ht2 : mapFind (mapInsert m k CWalletTx.null) k2 = some t := ht
      by_cases e : k2 = k
      · rw [e, mapFind_mapInsert_self _ _ _ hk] at ht2
        cases ht2
        exact hnull
      · rw [mapFind_mapInsert_ne _ _ _ _ e] at ht2
        exact hoth k2 t hk2 ht2

theorem smartTimeKept_syncFindMin (r0 : CWalletTx) (self : uint256)
    (hnull : IsEquivalentTo CWalletTx.null r0 = false) (range : List uint256) :
    ∀ (n : Int) (c : Option uint256) (m : List (uint256 × CWalletTx)),
      SmartTimeKept r0 self m → SmartTimeKept r0 self (syncFindMin range n c m).2 := by
  induction range with
  | nil => intro n c m h; exact h
  | cons h t ih =>
    intro n c m hm
    simp only [syncFindMin]
    split
    · exact ih _ _ _ (smartTimeKept_mapAt r0 self hnull m h hm)
    · exact ih _ _ _ (smartTimeKept_mapAt r0 self hnull m h hm)

theorem smartTimeKept_syncCopy (r0 : CWalletTx) (self : uint256)
    (hnull : IsEquivalentTo CWalletTx.null r0 = false) (cf : uint256) (range : List uint256) :
    ∀ (m : List (uint256 × CWalletTx)),
      SmartTimeKept r0 self m → SmartTimeKept r0 self (syncCopy cf range m) := by
  induction range with
  | nil => intro m h; exact h
  | cons h t ih =>
    intro m hm
    have hk := smartTimeKept_mapAt r0 self hnull m h hm
    have hfind := mapAt_find m h
    simp only [syncCopy]
    split
    · exact ih _ hk
    · rename_i hcf
      split
      · exact ih _ hk
      · rename_i copyFrom hfrom
        split
        · exact ih _ hk
        · rename_i heq
          have heq2 : IsEquivalentTo copyFrom (mapAt m h).1 = true := by simpa using heq
          apply ih
          obtain ⟨⟨r, hr, hbody, hts, htr⟩, hoth⟩ := hk
          by_cases hs : h = self
          · exfalso
            rw [hs] at hfind hr hfrom heq2
            rw [hfind] at hr
            have hrr : (mapAt m self).1 = r := Option.some.inj hr
            have hcf2 : cf ≠ self := fun e => hcf (hs.trans e.symm)
            have h1 := hoth cf copyFrom hcf2 (by rw [hs]; exact hfrom)
            rw [isEquivalentTo_body copyFrom copyFrom (mapAt m self).1 r0 rfl
              (by rw [hrr]; exact hbody)] at heq2
            rw [h1] at heq2
            cases heq2
          · have hs2 : self ≠ h := fun e => hs e.symm
            refine ⟨⟨r, ?_, hbody, hts, htr⟩, ?_⟩
            · rw [mapFind_mapSet, if_neg hs2]
              exact hr
            · intro k2 t2 hk2 ht2
              rw [mapFind_mapSet] at ht2
              by_cases e : k2 = h
              · rw [if_pos e, hfind] at ht2
                simp only [Option.map_some', Option.some.injEq] at ht2
                rw [← ht2]
                refine Eq.trans (isEquivalentTo_body _ (mapAt m h).1 r0 r0 ?_ rfl)
                  (hoth h _ hs hfind)
                rfl
              · rw [if_neg e] at ht2
                exact hoth k2 t2 hk2 ht2

theorem smartTimeKept_SyncMetaData (r0 : CWalletTx) (self : uint256)
    (hnull : IsEquivalentTo CWalletTx.null r0 = false) (w : CWallet) (range : List uint256)
    (h : SmartTimeKept r0 self w.mapWallet) :
    SmartTimeKept r0 self (SyncMetaData w range).mapWallet := by
  unfold SyncMetaData
  have h1 := smartTimeKept_syncFindMin r0 self hnull range 2147483647 none w.mapWallet h
  generalize syncFindMin range 2147483647 none w.mapWallet = res at h1
  obtain ⟨c, m⟩ := res
  cases c with
  | none => exact h1
  | some cf => exact smartTimeKept_syncCopy r0 self hnull cf range m h1

theorem smartTimeKept_foldl (r0 : CWalletTx) (self : uint256)
    (hnull : IsEquivalentTo CWalletTx.null r0 = false) (wtxid : uint256) (vin : List CTxIn) :
    ∀ w : CWallet, SmartTimeKept r0 self w.mapWallet →
      SmartTimeKept r0 self
        (vin.foldl (fun acc txin => AddToSpendsOutpoint acc txin.prevout wtxid) w).mapWallet := by
  induction vin with
  | nil => intro w h; exact h
  | cons a t ih =>
    intro w h
    simp only [List.foldl_cons]
    apply ih
    unfold AddToSpendsOutpoint
    exact smartTimeKept_SyncMetaData r0 self hnull _ _ h

theorem smartTimeKept_AddToSpends (r0 : CWalletTx) (self : uint256) (w : CWallet)
    (h : SmartTimeKept r0 self w.mapWallet) :
    SmartTimeKept r0 self ((AddToSpends w self).getD w).mapWallet := by
  obtain ⟨r, hr, hbody, _, _⟩ := h.1
  unfold AddToSpends
  rw [hr]
  simp only
  split
  · exact h
  · simp only [Option.getD_some]
    cases hv : r.vin with
    | nil => exact h
    | cons a t =>
      have hnull : IsEquivalentTo CWalletTx.null r0 = false := by
        simp only [CWalletTx.body, Prod.mk.injEq] at hbody
        have h2 := hbody.2.1
        rw [hv] at h2
        unfold IsEquivalentTo
        rw [← h2]
        simp [CWalletTx.null]
      exact smartTimeKept_foldl r0 self hnull self (a :: t) w h

theorem addToWalletNew_smartTime (env : ChainEnv) (fWriteOk : Bool) (w : CWallet)
    (wtxIn : CWalletTx) (hnew : mapFind w.mapWallet wtxIn.hash = none)
    (hneq : ∀ k t, mapFind w.mapWallet k = some t → IsEquivalentTo t wtxIn = false) :
    ∃ r, mapFind (addToWalletNew env fWriteOk w wtxIn).2.mapWallet wtxIn.hash = some r ∧
      r.nTimeSmart = computeTimeSmart env (withOrderPos w wtxIn.hash) wtxIn env.nAdjustedTime ∧
      r.nTimeReceived = env.nAdjustedTime := by
  have h1 : SmartTimeKept (newWalletTx env w wtxIn) wtxIn.hash
      (mapInsert w.mapWallet wtxIn.hash (newWalletTx env w wtxIn)) := by
    refine ⟨⟨_, mapFind_mapInsert_self _ _ _ hnew, rfl, rfl, rfl⟩, ?_⟩
    intro k t hk ht
    rw [mapFind_mapInsert_ne _ _ _ _ hk] at ht
    rw [isEquivalentTo_body t t (newWalletTx env w wtxIn) wtxIn rfl rfl]
    exact hneq k t ht
  have h2 := smartTimeKept_AddToSpends (newWalletTx env w wtxIn) wtxIn.hash
    { withOrderPos w wtxIn.hash with
      mapWallet := mapInsert w.mapWallet wtxIn.hash (newWalletTx env w wtxIn) } h1
  obtain ⟨⟨r, hr, _, hts, htr⟩, _⟩ := h2
  unfold addToWalletNew
  simp only
  split
  · exact ⟨r, hr, hts, htr⟩
  · rw [hr]
    simp only
    refine ⟨r.MarkDirty, ?_, hts, htr⟩
    rw [mapFind_mapSet, if_pos rfl, hr]
    rfl

/-! ## Claim C25 -/

/-- C25, the claim as stated fails: the wallet tracks transaction `5`, placed
at time 1000, and receives at time 6000 the new transaction `6`, confirmed in a
known block of time 5000, which spends the same outpoint with the same body and
another input script.  The formula of the claim gives
`max(1000, min(5000, max(6000, 1000))) = 5000`; the record stored for `6` has
the smart time 1000, which `SyncMetaData` copied from `5`. -/
theorem C25_equivalent_twin_takes_smart_time :
    mapFind sampleWalletTimed.mapWallet sampleTwin.hash = none ∧
    sampleTwin.hashUnset = false ∧
    (sampleEnv []).mapBlockIndex sampleTwin.hashBlock = some ⟨8, 5000⟩ ∧
    (sampleEnv []).nAdjustedTime = 6000 ∧
    latestEntry sampleWalletTimed sampleTwin.hash 6000 = 1000 ∧
    max (1000 : Int) (min 5000 (max 6000 1000)) = 5000 ∧
    (mapFind (AddToWallet (sampleEnv []) true sampleWalletTimed sampleTwin false).2.mapWallet
        sampleTwin.hash).map (fun r => (r.nTimeReceived, r.nTimeSmart)) = some (6000, 1000) := by
  decide

/-- C25 (amended): when `AddToWallet` inserts a new transaction to which no
tracked transaction is equivalent (equal once the input scripts are blanked),
the record stored for it has the adjusted time as received time and, when its
block is known, the smart time `max(latestEntry, min(blockTime, latestNow))`,
where `latestEntry` is the first time at most `received + 300` among the other
ordered entries taken from the last order position down (zero when there is
none) and `latestNow = max(received, latestEntry)`; when it has no block
association or the block is unknown, the smart time is the received time. -/
theorem C25_smart_time_of_new (env : ChainEnv) (fWriteOk : Bool) (w : CWallet)
    (wtxIn : CWalletTx) (hnew : mapFind w.mapWallet wtxIn.hash = none)
    (hneq : ∀ k t, mapFind w.mapWallet k = some t → IsEquivalentTo t wtxIn = false)
    (h0 : 0 ≤ env.nAdjustedTime) :
    ∃ r, mapFind (AddToWallet env fWriteOk w wtxIn false).2.mapWallet wtxIn.hash = some r ∧
      r.nTimeReceived = env.nAdjustedTime ∧
      (wtxIn.hashUnset = true → r.nTimeSmart = r.nTimeReceived) ∧
      (wtxIn.hashUnset = false → env.mapBlockIndex wtxIn.hashBlock = none →
        r.nTimeSmart = r.nTimeReceived) ∧
      (∀ pindex, wtxIn.hashUnset = false → env.mapBlockIndex wtxIn.hashBlock = some pindex →
        r.nTimeSmart =
          max (latestEntry w wtxIn.hash r.nTimeReceived)
            (min pindex.nTime
              (max r.nTimeReceived (latestEntry w wtxIn.hash r.nTimeReceived)))) := by
  obtain ⟨r, hr, hts, htr⟩ := addToWalletNew_smartTime env fWriteOk w wtxIn hnew hneq
  rw [computeTimeSmart_spec env w wtxIn env.nAdjustedTime h0] at hts
  refine ⟨r, ?_, htr, ?_, ?_, ?_⟩
  · unfold AddToWallet
    simp only [Bool.false_eq_true, if_false, hnew]
    exact hr
  · intro hu
    rw [hts, if_pos hu, htr]
  · intro hu hb
    rw [hts, if_neg (by rw [hu]; decide), hb, htr]
  · intro pindex hu hb
    rw [hts, if_neg (by rw [hu]; decide), hb, htr]

/-- C25 (amended) on the wallet tracking transaction `5`, placed at time 1000,
which receives at time 6000 the transaction `6` spending another outpoint,
confirmed in the known block of time 5000: the smart time stored is 5000. -/
theorem C25_smart_time_of_new_witness :
    (mapFind (AddToWallet (sampleEnv []) true sampleWalletTimed sampleLater false).2.mapWallet
        sampleLater.hash).map (fun r => (r.nTimeReceived, r.nTimeSmart)) = some (6000, 5000) ∧
    latestEntry sampleWalletTimed sampleLater.hash 6000 = 1000 ∧
    ∃ r, mapFind (AddToWallet (sampleEnv []) true sampleWalletTimed sampleLater false).2.mapWallet
          sampleLater.hash = some r ∧
      r.nTimeReceived = (sampleEnv []).nAdjustedTime ∧
      (sampleLater.hashUnset = true → r.nTimeSmart = r.nTimeReceived) ∧
      (sampleLater.hashUnset = false → (sampleEnv []).mapBlockIndex sampleLater.hashBlock = none →
        r.nTimeSmart = r.nTimeReceived) ∧
      (∀ pindex, sampleLater.hashUnset = false →
        (sampleEnv []).mapBlockIndex sampleLater.hashBlock = some pindex →
        r.nTimeSmart =
          max (latestEntry sampleWalletTimed sampleLater.hash r.nTimeReceived)
            (min pindex.nTime
              (max r.nTimeReceived
                (latestEntry sampleWalletTimed sampleLater.hash r.nTimeReceived)))) :=
  ⟨by decide, by decide,
    C25_smart_time_of_new (sampleEnv []) true sampleWalletTimed sampleLater (by decide)
      (by
        intro k t ht
        have hk : (k, t) ∈ sampleWalletTimed.mapWallet := mapFind_mem _ _ _ ht
        simp only [sampleWalletTimed, List.mem_singleton, Prod.mk.injEq] at hk
        rw [hk.2]
        decide)
      (by decide)⟩

/-! ## Theorems: the merge branch -/

theorem mergeWalletTx_stages (wtx wtxIn : CWalletTx) :
    mergeWalletTx wtx wtxIn = mergeFromMe wtxIn (mergeIndex wtxIn (mergeBlock wtx wtxIn)) := rfl

theorem mergeBlock_frame (wtx wtxIn : CWalletTx) :
    { (mergeBlock wtx wtxIn).1 with hashBlock := wtx.hashBlock } = wtx := by
  unfold mergeBlock
  split_ifs <;> rfl

theorem mergeIndex_frame (wtxIn : CWalletTx) (s : CWalletTx × Bool) :
    { (mergeIndex wtxIn s).1 with nIndex := s.1.nIndex } = s.1 := by
  unfold mergeIndex
  split_ifs <;> rfl

theorem mergeFromMe_frame (wtxIn : CWalletTx) (s : CWalletTx × Bool) :
    { (mergeFromMe wtxIn s).1 with fFromMe := s.1.fFromMe } = s.1 := by
  unfold mergeFromMe
  split_ifs <;> rfl

theorem mergeBlock_hashBlock (wtx wtxIn : CWalletTx) :
    (mergeBlock wtx wtxIn).1.hashBlock =
      if (wtxIn.hashUnset = false ∧ wtxIn.hashBlock ≠ wtx.hashBlock) ∨
          (wtxIn.hashBlock = 0 ∧ wtx.isAbandoned = true) then wtxIn.hashBlock
      else wtx.hashBlock := by
  unfold mergeBlock
  by_cases h1 : (!wtxIn.hashUnset && decide (wtxIn.hashBlock ≠ wtx.hashBlock)) = true
  · have h1b : wtxIn.hashUnset = false ∧ wtxIn.hashBlock ≠ wtx.hashBlock := by
      simpa using h1
    rw [if_pos (Or.inl h1b)]
    simp only [h1, if_true]
    split_ifs <;> rfl
  · have h1b : ¬ (wtxIn.hashUnset = false ∧ wtxIn.hashBlock ≠ wtx.hashBlock) := by
      simpa using h1
    simp only [h1, Bool.false_eq_true, if_false]
    by_cases h2 : (decide (wtxIn.hashBlock = 0) && wtx.isAbandoned) = true
    · have h2b : wtxIn.hashBlock = 0 ∧ wtx.isAbandoned = true := by simpa using h2
      rw [if_pos h2, if_pos (Or.inr h2b)]
    · have h2b : ¬ (wtxIn.hashBlock = 0 ∧ wtx.isAbandoned = true) := by simpa using h2
      rw [if_neg h2, if_neg (not_or.2 ⟨h1b, h2b⟩)]

theorem mergeIndex_nIndex (wtxIn : CWalletTx) (s : CWalletTx × Bool) :
    (mergeIndex wtxIn s).1.nIndex = if wtxIn.nIndex ≠ -1 then wtxIn.nIndex else s.1.nIndex := by
  unfold mergeIndex
  by_cases h3 : wtxIn.nIndex ≠ -1
  · rw [if_pos h3]
    by_cases h4 : wtxIn.nIndex ≠ s.1.nIndex
    · rw [if_pos (by simp [h3, h4])]
    · rw [if_neg (by simp [h4])]
      exact (not_not.1 h4).symm
  · rw [if_neg h3, if_neg (by simp [h3])]

theorem mergeFromMe_fFromMe (wtxIn : CWalletTx) (s : CWalletTx × Bool) :
    (mergeFromMe wtxIn s).1.fFromMe = (s.1.fFromMe || wtxIn.fFromMe) := by
  unfold mergeFromMe
  cases h : wtxIn.fFromMe with
  | false =>
    rw [if_neg (by simp), Bool.or_false]
  | true =>
    cases h2 : s.1.fFromMe with
    | false =>
      rw [if_pos (by simp)]
      rfl
    | true =>
      rw [if_neg (by simp)]
      exact h2

theorem mergeWalletTx_frame (wtx wtxIn : CWalletTx) :
    { (mergeWalletTx wtx wtxIn).1 with
      hashBlock := wtx.hashBlock, nIndex := wtx.nIndex, fFromMe := wtx.fFromMe } = wtx := by
  unfold mergeWalletTx
  simp only
  split_ifs <;> rfl

theorem mergeWalletTx_dirty (wtx wtxIn : CWalletTx) :
    (mergeWalletTx wtx.MarkDirty wtxIn).1.MarkDirty = (mergeWalletTx wtx.MarkDirty wtxIn).1 := by
  unfold mergeWalletTx
  simp only
  split_ifs <;> rfl

theorem mergeWalletTx_hashBlock (wtx wtxIn : CWalletTx) :
    (mergeWalletTx wtx wtxIn).1.hashBlock =
      if (wtxIn.hashUnset = false ∧ wtxIn.hashBlock ≠ wtx.hashBlock) ∨
          (wtxIn.hashBlock = 0 ∧ wtx.isAbandoned = true) then wtxIn.hashBlock
      else wtx.hashBlock := by
  rw [mergeWalletTx_stages, ← mergeBlock_hashBlock]
  unfold mergeFromMe mergeIndex
  split_ifs <;> rfl

theorem mergeWalletTx_nIndex (wtx wtxIn : CWalletTx) :
    (mergeWalletTx wtx wtxIn).1.nIndex =
      if wtxIn.nIndex ≠ -1 then wtxIn.nIndex else wtx.nIndex := by
  have h1 : (mergeBlock wtx wtxIn).1.nIndex = wtx.nIndex := by
    unfold mergeBlock
    split_ifs <;> rfl
  have h2 : (mergeFromMe wtxIn (mergeIndex wtxIn (mergeBlock wtx wtxIn))).1.nIndex
      = (mergeIndex wtxIn (mergeBlock wtx wtxIn)).1.nIndex := by
    unfold mergeFromMe
    split_ifs <;> rfl
  rw [mergeWalletTx_stages, h2, mergeIndex_nIndex, h1]

theorem mergeWalletTx_fFromMe (wtx wtxIn : CWalletTx) :
    (mergeWalletTx wtx wtxIn).1.fFromMe = (wtx.fFromMe || wtxIn.fFromMe) := by
  have h1 : (mergeIndex wtxIn (mergeBlock wtx wtxIn)).1.fFromMe = wtx.fFromMe := by
    unfold mergeIndex mergeBlock
    split_ifs <;> rfl
  rw [mergeWalletTx_stages, mergeFromMe_fFromMe, h1]

theorem addToWalletMerge_record (fWriteOk : Bool) (w : CWallet) (wtxIn found : CWalletTx) :
    (addToWalletMerge fWriteOk w wtxIn found).2 =
      { w with mapWallet :=
          mapSet w.mapWallet wtxIn.hash (mergeWalletTx found.MarkDirty wtxIn).1 } := by
  unfold addToWalletMerge
  simp only [CWalletTx.BindWallet]
  split
  · rfl
  · rw [mergeWalletTx_dirty]

/-! ## Claim C26 -/

/-- C26, the claim as stated fails: the wallet tracks the unconfirmed
transaction `5` with its debit memoized; when the same transaction is added
again, confirmed in block `100`, the record takes the block and the index, and
its memoized debit is marked dirty as well. -/
theorem C26_merge_marks_caches_dirty :
    (mapFind sampleWalletCached.mapWallet sampleConfirmed.hash).map
        (fun r => (r.hashBlock, r.nIndex, r.fFromMe, r.fDebitCached))
      = some (0, -1, false, true) ∧
    (mapFind (AddToWallet (sampleEnv []) true sampleWalletCached sampleConfirmed
        false).2.mapWallet sampleConfirmed.hash).map
        (fun r => (r.hashBlock, r.nIndex, r.fFromMe, r.fDebitCached))
      = some (100, 0, false, false) := by
  decide

/-- C26 (amended): when `AddToWallet` (not from the wallet file) is called for a
hash that is already tracked, the wallet changes only in the record stored
under that hash: the order positions `wtxOrdered`, the next position
`nOrderPosNext` and the spend index stay as they are.  In the record the
transaction body, the order position, the received time and the smart time are
unchanged; the block association becomes the incoming one when that is set and
differs, or when it is null and the record is abandoned; the index becomes the
incoming one when that is not -1; the from-me flag can only go from false to
true; and every memoized amount is marked dirty.  Nothing else in the record
changes. -/
theorem C26_merge_frame (env : ChainEnv) (fWriteOk : Bool) (w : CWallet)
    (wtxIn found : CWalletTx) (hq : mapFind w.mapWallet wtxIn.hash = some found) :
    ∃ r, (AddToWallet env fWriteOk w wtxIn false).2
        = { w with mapWallet := mapSet w.mapWallet wtxIn.hash r } ∧
      { r with hashBlock := found.hashBlock, nIndex := found.nIndex, fFromMe := found.fFromMe }
        = found.MarkDirty ∧
      (r.hash = found.hash ∧ r.nVersion = found.nVersion ∧ r.vin = found.vin ∧
        r.vout = found.vout ∧ r.nLockTime = found.nLockTime ∧ r.nOrderPos = found.nOrderPos ∧
        r.nTimeReceived = found.nTimeReceived ∧ r.nTimeSmart = found.nTimeSmart) ∧
      r.hashBlock =
        (if (wtxIn.hashUnset = false ∧ wtxIn.hashBlock ≠ found.hashBlock) ∨
            (wtxIn.hashBlock = 0 ∧ found.isAbandoned = true) then wtxIn.hashBlock
         else found.hashBlock) ∧
      r.nIndex = (if wtxIn.nIndex ≠ -1 then wtxIn.nIndex else found.nIndex) ∧
      r.fFromMe = (found.fFromMe || wtxIn.fFromMe) := by
  have hfr := mergeWalletTx_frame found.MarkDirty wtxIn
  refine ⟨(mergeWalletTx found.MarkDirty wtxIn).1, ?_, hfr, ?_,
    mergeWalletTx_hashBlock found.MarkDirty wtxIn, mergeWalletTx_nIndex found.MarkDirty wtxIn,
    mergeWalletTx_fFromMe found.MarkDirty wtxIn⟩
  · unfold AddToWallet
    simp only [Bool.false_eq_true, if_false, hq]
    exact addToWalletMerge_record fWriteOk w wtxIn found
  · have e1 := congrArg CWalletTx.hash hfr
    have e2 := congrArg CWalletTx.nVersion hfr
    have e3 := congrArg CWalletTx.vin hfr
    have e4 := congrArg CWalletTx.vout hfr
    have e5 := congrArg CWalletTx.nLockTime hfr
    have e6 := congrArg CWalletTx.nOrderPos hfr
    have e7 := congrArg CWalletTx.nTimeReceived hfr
    have e8 := congrArg CWalletTx.nTimeSmart hfr
    exact ⟨e1, e2, e3, e4, e5, e6, e7, e8⟩

/-- C26 (amended) on the wallet tracking the unconfirmed transaction `5` with
its debit memoized, to which the same transaction is added confirmed in block
`100`: the record takes the block and the index and is otherwise the old one
marked dirty. -/
theorem C26_merge_frame_witness :
    mapFind sampleWalletCached.mapWallet sampleConfirmed.hash = some sampleSpenderCached ∧
    (AddToWallet (sampleEnv []) true sampleWalletCached sampleConfirmed false).2
      = { sampleWalletCached with
          mapWallet := [(5, { sampleSpender with hashBlock := 100, nIndex := 0,
                                                 nDebitCached := 70 })] } ∧
    ∃ r, (AddToWallet (sampleEnv []) true sampleWalletCached sampleConfirmed false).2
        = { sampleWalletCached with
            mapWallet := mapSet sampleWalletCached.mapWallet sampleConfirmed.hash r } ∧
      { r with hashBlock := sampleSpenderCached.hashBlock, nIndex := sampleSpenderCached.nIndex,
               fFromMe := sampleSpenderCached.fFromMe }
        = sampleSpenderCached.MarkDirty ∧
      (r.hash = sampleSpenderCached.hash ∧ r.nVersion = sampleSpenderCached.nVersion ∧
        r.vin = sampleSpenderCached.vin ∧ r.vout = sampleSpenderCached.vout ∧
        r.nLockTime = sampleSpenderCached.nLockTime ∧
        r.nOrderPos = sampleSpenderCached.nOrderPos ∧
        r.nTimeReceived = sampleSpenderCached.nTimeReceived ∧
        r.nTimeSmart = sampleSpenderCached.nTimeSmart) ∧
      r.hashBlock =
        (if (sampleConfirmed.hashUnset = false ∧
              sampleConfirmed.hashBlock ≠ sampleSpenderCached.hashBlock) ∨
            (sampleConfirmed.hashBlock = 0 ∧ sampleSpenderCached.isAbandoned = true) then
          sampleConfirmed.hashBlock
         else sampleSpenderCached.hashBlock) ∧
      r.nIndex = (if sampleConfirmed.nIndex ≠ -1 then sampleConfirmed.nIndex
                  else sampleSpenderCached.nIndex) ∧
      r.fFromMe = (sampleSpenderCached.fFromMe || sampleConfirmed.fFromMe) :=
  ⟨by decide, by decide,
    C26_merge_frame (sampleEnv []) true sampleWalletCached sampleConfirmed sampleSpenderCached
      (by decide)⟩

/-! ## Theorems: address groupings -/

theorem setmapFind_assign (m : List (CTxDestination × Nat)) (a p b : Nat) :
    setmapFind (setmapAssign m a p) b = if b = a then some p else setmapFind m b := by
  induction m with
  | nil =>
    by_cases h : b = a
    · simp [setmapAssign, setmapFind, h]
    · have h2 : ¬ a = b := fun e => h e.symm
      simp [setmapAssign, setmapFind, h, h2]
  | cons e t ih =>
    obtain ⟨k, q⟩ := e
    by_cases hk : k = a
    · by_cases h : b = a
      · simp [setmapAssign, setmapFind, hk, h]
      · have h2 : ¬ a = b := fun e => h e.symm
        simp [setmapAssign, setmapFind, hk, h, h2]
    · by_cases h : b = a
      · subst h
        simp [setmapAssign, setmapFind, hk, ih]
      · by_cases hkb : k = b
        · simp [setmapAssign, setmapFind, hk, h, hkb]
        · simp [setmapAssign, setmapFind, hk, h, hkb, ih]

theorem setmapFind_foldl (l : List CTxDestination) (p : Nat) :
    ∀ (m : List (CTxDestination × Nat)) (b : Nat),
      setmapFind (l.foldl (fun sm element => setmapAssign sm element p) m) b
        = if b ∈ l then some p else setmapFind m b := by
  induction l with
  | nil => intro m b; simp
  | cons a t ih =>
    intro m b
    rw [List.foldl_cons, ih, setmapFind_assign]
    by_cases h1 : b ∈ t
    · simp [h1]
    · by_cases h2 : b = a
      · simp [h2]
      · simp [h1, h2]

theorem mem_collectHits (sm : List (CTxDestination × Nat)) (g : List CTxDestination) :
    ∀ (hits : List Nat) (p : Nat),
      p ∈ collectHits sm g hits ↔ p ∈ hits ∨ ∃ a ∈ g, setmapFind sm a = some p := by
  induction g with
  | nil => intro hits p; simp [collectHits]
  | cons a t ih =>
    intro hits p
    simp only [collectHits]
    cases hf : setmapFind sm a with
    | none =>
      simp only
      rw [ih]
      constructor
      · rintro (h | ⟨b, hb, hbf⟩)
        · exact Or.inl h
        · exact Or.inr ⟨b, List.mem_cons_of_mem _ hb, hbf⟩
      · rintro (h | ⟨b, hb, hbf⟩)
        · exact Or.inl h
        · rcases List.mem_cons.1 hb with rfl | hb
          · rw [hf] at hbf
            cases hbf
          · exact Or.inr ⟨b, hb, hbf⟩
    | some q =>
      simp only
      rw [ih, mem_setInsert]
      constructor
      · rintro ((h | h) | ⟨b, hb, hbf⟩)
        · exact Or.inr ⟨a, List.mem_cons_self _ _, by rw [hf, h]⟩
        · exact Or.inl h
        · exact Or.inr ⟨b, List.mem_cons_of_mem _ hb, hbf⟩
      · rintro (h | ⟨b, hb, hbf⟩)
        · exact Or.inl (Or.inr h)
        · rcases List.mem_cons.1 hb with rfl | hb
          · rw [hf] at hbf
            exact Or.inl (Or.inl (Option.some.inj hbf).symm)
          · exact Or.inr ⟨b, hb, hbf⟩

theorem collectHits_sorted (sm : List (CTxDestination × Nat)) (g : List CTxDestination) :
    ∀ hits : List Nat, hits.Pairwise (· < ·) → (collectHits sm g hits).Pairwise (· < ·) := by
  induction g with
  | nil => intro hits h; exact h
  | cons a t ih =>
    intro hits h
    simp only [collectHits]
    cases hf : setmapFind sm a with
    | none => exact ih hits h
    | some q => exact ih _ (setInsert_sorted hits q h)

theorem groupAt_filter (u : List (Nat × List CTxDestination)) (h0 hit : Nat) (hne : hit ≠ h0) :
    groupAt (u.filter (fun e => decide (e.1 ≠ h0))) hit = groupAt u hit := by
  induction u with
  | nil => rfl
  | cons e t ih =>
    obtain ⟨q, g⟩ := e
    by_cases hq : q = h0
    · have hqh : ¬ q = hit := by rw [hq]; exact fun e => hne e.symm
      have hf : List.filter (fun e => decide (e.1 ≠ h0)) ((q, g) :: t)
          = List.filter (fun e => decide (e.1 ≠ h0)) t :=
        List.filter_cons_of_neg (by simp [hq])
      rw [hf, ih]
      simp only [groupAt, hqh, if_false]
    · have hf : List.filter (fun e => decide (e.1 ≠ h0)) ((q, g) :: t)
          = (q, g) :: List.filter (fun e => decide (e.1 ≠ h0)) t :=
        List.filter_cons_of_pos (by simp [hq])
      rw [hf]
      by_cases hqh : q = hit
      · simp only [groupAt, hqh, if_true]
      · simp only [groupAt, hqh, if_false]
        exact ih

theorem groupAt_of_mem (u : List (Nat × List CTxDestination)) (p : Nat) (g : List CTxDestination)
    (hnd : (u.map Prod.fst).Nodup) (h : (p, g) ∈ u) : groupAt u p = g := by
  induction u with
  | nil => cases h
  | cons e t ih =>
    obtain ⟨q, g2⟩ := e
    simp only [List.map_cons, List.nodup_cons] at hnd
    rcases List.mem_cons.1 h with h1 | h1
    · simp only [Prod.mk.injEq] at h1
      simp [groupAt, h1.1, h1.2]
    · have hqp : ¬ q = p := by
        intro e
        apply hnd.1
        rw [e]
        exact List.mem_map.2 ⟨(p, g), h1, rfl⟩
      simp only [groupAt, hqp, if_false]
      exact ih hnd.2 h1

theorem mem_groupAt (u : List (Nat × List CTxDestination)) (p : Nat) (a : CTxDestination)
    (h : a ∈ groupAt u p) : (p, groupAt u p) ∈ u := by
  induction u with
  | nil => simp [groupAt] at h
  | cons e t ih =>
    obtain ⟨q, g⟩ := e
    by_cases hq : q = p
    · simp [groupAt, hq]
    · simp only [groupAt, hq, if_false] at h ⊢
      exact List.mem_cons_of_mem _ (ih h)

theorem mergeHits_spec (hits : List Nat) :
    ∀ acc : List CTxDestination × List (Nat × List CTxDestination), hits.Nodup →
      (∀ a, a ∈ (mergeHits hits acc).1 ↔ a ∈ acc.1 ∨ ∃ hit ∈ hits, a ∈ groupAt acc.2 hit) ∧
      (mergeHits hits acc).2 = acc.2.filter (fun e => decide (e.1 ∉ hits)) := by
  induction hits with
  | nil =>
    intro acc _
    simp [mergeHits]
  | cons hit rest ih =>
    intro acc hnd
    rw [List.nodup_cons] at hnd
    obtain ⟨h1, h2⟩ := ih ((groupAt acc.2 hit).foldl setInsert acc.1,
      acc.2.filter (fun e => decide (e.1 ≠ hit))) hnd.2
    simp only [mergeHits]
    constructor
    · intro a
      rw [h1, mem_foldl_setInsert]
      constructor
      · rintro ((h | h) | ⟨x, hx, hax⟩)
        · exact Or.inl h
        · exact Or.inr ⟨hit, List.mem_cons_self _ _, h⟩
        · have hne : x ≠ hit := fun e => hnd.1 (e ▸ hx)
          rw [groupAt_filter _ _ _ hne] at hax
          exact Or.inr ⟨x, List.mem_cons_of_mem _ hx, hax⟩
      · rintro (h | ⟨x, hx, hax⟩)
        · exact Or.inl (Or.inl h)
        · rcases List.mem_cons.1 hx with rfl | hx
          · exact Or.inl (Or.inr hax)
          · have hne : x ≠ hit := fun e => hnd.1 (e ▸ hx)
            exact Or.inr ⟨x, hx, by rw [groupAt_filter _ _ _ hne]; exact hax⟩
    · rw [h2, List.filter_filter]
      apply List.filter_congr
      intro e _
      simp only [List.mem_cons, not_or, Bool.decide_and, ne_eq]
      rw [Bool.and_comm]

theorem groupsInv_step (raw : List (List CTxDestination)) (st : AddressGroups)
    (g : List CTxDestination) (inv : GroupsInv raw st) :
    GroupsInv (raw ++ [g]) (mergeGrouping st g) := by
  have hnd : (collectHits st.setmap g []).Nodup :=
    (collectHits_sorted st.setmap g [] List.Pairwise.nil).imp (fun h => ne_of_lt h)
  have hhit : ∀ p, p ∈ collectHits st.setmap g [] ↔
      ∃ a ∈ g, setmapFind st.setmap a = some p := by
    intro p
    rw [mem_collectHits]
    simp
  obtain ⟨hm, hu⟩ := mergeHits_spec _ (g, st.uniqueGroupings) hnd
  obtain ⟨merged, u2, hr⟩ : ∃ merged u2,
      mergeHits (collectHits st.setmap g []) (g, st.uniqueGroupings) = (merged, u2) :=
    ⟨_, _, rfl⟩
  rw [hr] at hm hu
  simp only at hm hu
  have hU : (mergeGrouping st g).uniqueGroupings = u2 ++ [(st.nAlloc, merged)] := by
    simp only [mergeGrouping, hr]
  have hS : ∀ b, setmapFind (mergeGrouping st g).setmap b
      = if b ∈ merged then some st.nAlloc else setmapFind st.setmap b := by
    intro b
    simp only [mergeGrouping, hr]
    exact setmapFind_foldl merged st.nAlloc st.setmap b
  have hN : (mergeGrouping st g).nAlloc = st.nAlloc + 1 := rfl
  have hu2 : ∀ e, e ∈ u2 ↔ e ∈ st.uniqueGroupings ∧ e.1 ∉ collectHits st.setmap g [] := by
    intro e
    rw [hu, List.mem_filter]
    simp
  have hmem : ∀ a, a ∈ merged ↔
      a ∈ g ∨ ∃ e ∈ st.uniqueGroupings, e.1 ∈ collectHits st.setmap g [] ∧ a ∈ e.2 := by
    intro a
    rw [hm]
    constructor
    · rintro (h | ⟨hit, hh, ha⟩)
      · exact Or.inl h
      · exact Or.inr ⟨(hit, groupAt st.uniqueGroupings hit), mem_groupAt _ _ _ ha, hh, ha⟩
    · rintro (h | ⟨e, he, hh, ha⟩)
      · exact Or.inl h
      · refine Or.inr ⟨e.1, hh, ?_⟩
        rw [groupAt_of_mem _ e.1 e.2 inv.distinct he]
        exact ha
  have hfindhit : ∀ a p, a ∈ merged → setmapFind st.setmap a = some p →
      p ∈ collectHits st.setmap g [] := by
    intro a p ha hf
    rcases (hmem a).1 ha with h | ⟨e, he, hh, hae⟩
    · exact (hhit p).2 ⟨a, h, hf⟩
    · have h2 := (inv.index a e.1).2 ⟨e.2, he, hae⟩
      rw [hf] at h2
      rw [Option.some.inj h2]
      exact hh
  have hnew : (st.nAlloc, merged) ∈ (mergeGrouping st g).uniqueGroupings := by
    rw [hU]
    exact List.mem_append_right _ (List.mem_singleton_self _)
  have hold : ∀ e, e ∈ st.uniqueGroupings → e.1 ∉ collectHits st.setmap g [] →
      e ∈ (mergeGrouping st g).uniqueGroupings := by
    intro e he hh
    rw [hU]
    exact List.mem_append_left _ ((hu2 e).2 ⟨he, hh⟩)
  constructor
  · intro e he
    rw [hU, List.mem_append] at he
    rw [hN]
    rcases he with he | he
    · exact Nat.lt_succ_of_lt (inv.fresh e ((hu2 e).1 he).1)
    · simp only [List.mem_singleton] at he
      rw [he]
      exact Nat.lt_succ_self _
  · rw [hU, List.map_append, List.nodup_append]
    refine ⟨?_, by simp, ?_⟩
    · rw [hu]
      exact inv.distinct.sublist ((List.filter_sublist _).map _)
    · intro x hx1 hx2
      simp only [List.map_cons, List.map_nil, List.mem_singleton] at hx2
      obtain ⟨e, he, hex⟩ := List.mem_map.1 hx1
      have hlt := inv.fresh e ((hu2 e).1 he).1
      rw [hex, hx2] at hlt
      exact lt_irrefl _ hlt
  · intro a p
    rw [hS]
    constructor
    · intro hf
      by_cases ha : a ∈ merged
      · rw [if_pos ha] at hf
        refine ⟨merged, ?_, ha⟩
        rw [← Option.some.inj hf]
        exact hnew
      · rw [if_neg ha] at hf
        obtain ⟨g0, hg0, hag0⟩ := (inv.index a p).1 hf
        exact ⟨g0, hold (p, g0) hg0
          (fun hp => ha ((hmem a).2 (Or.inr ⟨(p, g0), hg0, hp, hag0⟩))), hag0⟩
    · rintro ⟨g0, hg0, hag0⟩
      rw [hU, List.mem_append] at hg0
      rcases hg0 with h | h
      · obtain ⟨h1, h2⟩ := (hu2 _).1 h
        have hf := (inv.index a p).2 ⟨g0, h1, hag0⟩
        have ha : a ∉ merged := fun hmg => h2 (hfindhit a p hmg hf)
        rw [if_neg ha]
        exact hf
      · simp only [List.mem_singleton, Prod.mk.injEq] at h
        rw [h.2] at hag0
        rw [if_pos hag0, h.1]
  · intro a
    constructor
    · rintro ⟨e, he, hae⟩
      rw [hU, List.mem_append] at he
      rcases he with h | h
      · obtain ⟨r, hr1, hr2⟩ := (inv.union a).1 ⟨e, ((hu2 e).1 h).1, hae⟩
        exact ⟨r, List.mem_append_left _ hr1, hr2⟩
      · simp only [List.mem_singleton] at h
        rw [h] at hae
        rcases (hmem a).1 hae with h3 | ⟨e2, he2, _, hae2⟩
        · exact ⟨g, List.mem_append_right _ (List.mem_singleton_self _), h3⟩
        · obtain ⟨r, hr1, hr2⟩ := (inv.union a).1 ⟨e2, he2, hae2⟩
          exact ⟨r, List.mem_append_left _ hr1, hr2⟩
    · rintro ⟨r, hr1, hr2⟩
      rcases List.mem_append.1 hr1 with h | h
      · obtain ⟨e, he, hae⟩ := (inv.union a).2 ⟨r, h, hr2⟩
        by_cases hh : e.1 ∈ collectHits st.setmap g []
        · exact ⟨(st.nAlloc, merged), hnew, (hmem a).2 (Or.inr ⟨e, he, hh, hae⟩)⟩
        · exact ⟨e, hold e he hh, hae⟩
      · simp only [List.mem_singleton] at h
        rw [h] at hr2
        exact ⟨(st.nAlloc, merged), hnew, (hmem a).2 (Or.inl hr2)⟩
  · intro r hr1
    rcases List.mem_append.1 hr1 with h | h
    · obtain ⟨e, he, hall⟩ := inv.together r h
      by_cases hh : e.1 ∈ collectHits st.setmap g []
      · exact ⟨(st.nAlloc, merged), hnew,
          fun a ha => (hmem a).2 (Or.inr ⟨e, he, hh, hall a ha⟩)⟩
      · exact ⟨e, hold e he hh, hall⟩
    · simp only [List.mem_singleton] at h
      rw [h]
      exact ⟨(st.nAlloc, merged), hnew, fun a ha => (hmem a).2 (Or.inl ha)⟩

theorem groupsInv_foldl (l : List (List CTxDestination)) :
    ∀ (raw : List (List CTxDestination)) (st : AddressGroups), GroupsInv raw st →
      GroupsInv (raw ++ l) (l.foldl mergeGrouping st) := by
  induction l with
  | nil =>
    intro raw st inv
    rw [List.append_nil]
    exact inv
  | cons g t ih =>
    intro raw st inv
    have h := ih (raw ++ [g]) (mergeGrouping st g) (groupsInv_step raw st g inv)
    rw [List.append_assoc] at h
    exact h

theorem groupsInv_init : GroupsInv [] { uniqueGroupings := [], setmap := [], nAlloc := 0 } := by
  constructor
  · intro e he
    cases he
  · exact List.nodup_nil
  · intro a p
    simp [setmapFind]
  · intro a
    simp
  · intro r hr
    cases hr

theorem mem_groupingsInsert (s : List (List CTxDestination)) (g x : List CTxDestination) :
    x ∈ groupingsInsert s g ↔ x = g ∨ x ∈ s := by
  induction s with
  | nil => simp [groupingsInsert]
  | cons y t ih =>
    simp only [groupingsInsert]
    by_cases h1 : groupLt g y = true
    · rw [if_pos h1]
      simp only [List.mem_cons]
    · rw [if_neg h1]
      by_cases h2 : g = y
      · rw [if_pos h2, h2]
        simp only [List.mem_cons]
        tauto
      · rw [if_neg h2]
        simp only [List.mem_cons, ih]
        tauto

theorem mem_returnedGroups (u : List (Nat × List CTxDestination)) :
    ∀ (acc : List (List CTxDestination)) (x : List CTxDestination),
      x ∈ u.foldl (fun ret uniqueGrouping => groupingsInsert ret uniqueGrouping.2) acc ↔
        x ∈ acc ∨ ∃ e ∈ u, e.2 = x := by
  induction u with
  | nil => intro acc x; simp
  | cons e t ih =>
    intro acc x
    rw [List.foldl_cons, ih, mem_groupingsInsert]
    constructor
    · rintro ((h | h) | ⟨e2, he2, hx⟩)
      · exact Or.inr ⟨e, List.mem_cons_self _ _, h.symm⟩
      · exact Or.inl h
      · exact Or.inr ⟨e2, List.mem_cons_of_mem _ he2, hx⟩
    · rintro (h | ⟨e2, he2, hx⟩)
      · exact Or.inl (Or.inr h)
      · rcases List.mem_cons.1 he2 with rfl | he2
        · exact Or.inl (Or.inl hx.symm)
        · exact Or.inr ⟨e2, he2, hx⟩

theorem mergeGroupings_partition (raw : List (List CTxDestination)) :
    (∀ g ∈ mergeGroupings raw, ∀ h ∈ mergeGroupings raw, ∀ a, a ∈ g → a ∈ h → g = h) ∧
    (∀ a, (∃ g ∈ mergeGroupings raw, a ∈ g) ↔ ∃ r ∈ raw, a ∈ r) ∧
    (∀ r ∈ raw, ∃ g ∈ mergeGroupings raw, ∀ a ∈ r, a ∈ g) := by
  have inv := groupsInv_foldl raw [] _ groupsInv_init
  rw [List.nil_append] at inv
  have hret : ∀ x, x ∈ mergeGroupings raw ↔
      ∃ e ∈ (raw.foldl mergeGrouping
        { uniqueGroupings := [], setmap := [], nAlloc := 0 }).uniqueGroupings, e.2 = x := by
    intro x
    unfold mergeGroupings
    rw [mem_returnedGroups]
    simp
  generalize raw.foldl mergeGrouping { uniqueGroupings := [], setmap := [], nAlloc := 0 } = st
    at inv hret
  refine ⟨?_, ?_, ?_⟩
  · intro g hg h hh a hag hah
    obtain ⟨e1, he1, rfl⟩ := (hret g).1 hg
    obtain ⟨e2, he2, rfl⟩ := (hret h).1 hh
    have f1 := (inv.index a e1.1).2 ⟨e1.2, he1, hag⟩
    have f2 := (inv.index a e2.1).2 ⟨e2.2, he2, hah⟩
    rw [f1] at f2
    have hp : e1.1 = e2.1 := Option.some.inj f2
    have g1 := groupAt_of_mem _ e1.1 e1.2 inv.distinct he1
    have g2 := groupAt_of_mem _ e2.1 e2.2 inv.distinct he2
    rw [← g1, ← g2, hp]
  · intro a
    rw [← inv.union a]
    constructor
    · rintro ⟨g, hg, hag⟩
      obtain ⟨e, he, rfl⟩ := (hret g).1 hg
      exact ⟨e, he, hag⟩
    · rintro ⟨e, he, hae⟩
      exact ⟨e.2, (hret e.2).2 ⟨e, he, rfl⟩, hae⟩
  · intro r hr
    obtain ⟨e, he, hall⟩ := inv.together r hr
    exact ⟨e.2, (hret e.2).2 ⟨e, he, rfl⟩, hall⟩

/-- On `sampleGroupWallet` the raw groupings are the lone addresses and the
inputs of transaction `5` with its change; the returned groups join the three
addresses that transaction `5` links and leave the fourth alone. -/
theorem getAddressGroupings_sample :
    collectGroupings (sampleWalletEnv [] 1 1000) sampleChangeEnv sampleGroupWallet
        sampleGroupWallet.mapWallet [] = [[11], [11, 12, 13], [12], [13], [14]] ∧
    GetAddressGroupings (sampleWalletEnv [] 1 1000) sampleChangeEnv sampleGroupWallet
      = [[11, 12, 13], [14]] := by
  decide

/-! ## Claim C29 -/

/-- C29: the groups returned by `GetAddressGroupings` form a partition of the
addresses of the raw groupings collected by its first loop: two returned
groups that share an address are the same group, an address lies in a returned
group exactly when it lies in a raw grouping, and every raw grouping lies
within one returned group, so two addresses that occur together in a raw
grouping end up in the same returned group. -/
theorem C29_address_groups_partition (env : WalletEnv) (cenv : ChangeEnv) (w : CWallet) :
    (∀ g ∈ GetAddressGroupings env cenv w, ∀ h ∈ GetAddressGroupings env cenv w,
      ∀ a, a ∈ g → a ∈ h → g = h) ∧
    (∀ a, (∃ g ∈ GetAddressGroupings env cenv w, a ∈ g) ↔
      ∃ r ∈ collectGroupings env cenv w w.mapWallet [], a ∈ r) ∧
    (∀ r ∈ collectGroupings env cenv w w.mapWallet [],
      ∃ g ∈ GetAddressGroupings env cenv w, ∀ a ∈ r, a ∈ g) :=
  mergeGroupings_partition (collectGroupings env cenv w w.mapWallet [])

/-! ## Theorems: the balance of the built transaction -/

theorem createPass_done_fee (env : BuilderEnv) (w : CWallet) (rnd : BuilderRandom) (nPass : Nat)
    (vecSend : List CRecipient) (nValue : CAmount) (nSubtract : Nat) (posReq : Int)
    (cc : Option CCoinControl) (sign : Bool) (ct : AvailableCoinsType) (fIS : Bool)
    (F : CAmount) (tx : TxDraft) (fee : CAmount) (pos : Int)
    (h : createPass env w rnd nPass vecSend nValue nSubtract posReq cc sign ct fIS F
      = PassResult.done tx fee pos) : F ≤ fee := by
  unfold createPass at h
  dsimp only at h
  cases hb : buildPayeeOutputs env F nSubtract vecSend true with
  | error e => rw [hb] at h; cases h
  | ok vout =>
    rw [hb] at h
    dsimp only at h
    generalize (if nSubtract = 0 then toInt64 (nValue + F) else nValue) = T at h
    generalize SelectCoins env.wallet w (rnd.select nPass) T [] 0 cc ct fIS = sel at h
    split at h
    · split at h <;> cases h
    · split at h
      · cases h
      · split at h
        · cases h
        · split at h
          · cases h
          · split at h
            · cases h
            · rename_i ch hch
              have h1 := addChange_fee env rnd nPass vecSend cc nSubtract vout _ F posReq ch hch
              obtain ⟨_, e2, _⟩ := finishPass_done _ _ _ _ _ _ _ _ _ h
              rw [e2]
              exact h1

theorem createLoop_ok_estimate (env : BuilderEnv) (w : CWallet) (rnd : BuilderRandom)
    (vecSend : List CRecipient) (nValue : CAmount) (nSubtract : Nat) (posReq : Int)
    (cc : Option CCoinControl) (sign : Bool) (ct : AvailableCoinsType) (fIS : Bool)
    (tx : TxDraft) (fee : CAmount) (pos : Int) :
    ∀ (fuel nPass : Nat) (F : CAmount),
      createLoop env w rnd vecSend nValue nSubtract posReq cc sign ct fIS fuel nPass F
        = Except.ok (tx, fee, pos) →
      ∃ n G, F ≤ G ∧ G ≤ fee ∧
        createPass env w rnd n vecSend nValue nSubtract posReq cc sign ct fIS G
          = PassResult.done tx fee pos := by
  intro fuel
  induction fuel with
  | zero => intro nPass F h; simp [createLoop] at h
  | succ k ih =>
    intro nPass F h
    simp only [createLoop] at h
    cases hp : createPass env w rnd nPass vecSend nValue nSubtract posReq cc sign ct fIS F with
    | fail e => rw [hp] at h; cases h
    | done tx2 fee2 pos2 =>
      rw [hp] at h
      simp only [Except.ok.injEq, Prod.mk.injEq] at h
      obtain ⟨e1, e2, e3⟩ := h
      subst e1; subst e2; subst e3
      exact ⟨nPass, F, le_refl F,
        createPass_done_fee env w rnd nPass vecSend nValue nSubtract posReq cc sign ct fIS F
          _ _ _ hp, hp⟩
    | retry fee2 =>
      rw [hp] at h
      obtain ⟨n, G, h1, h2, h3⟩ := ih _ _ h
      have hlt := createPass_retry env w rnd nPass vecSend nValue nSubtract posReq cc sign ct
        fIS F fee2 hp
      exact ⟨n, G, by linarith, h2, h3⟩

theorem createTransaction_ok_estimate (env : BuilderEnv) (w : CWallet) (rnd : BuilderRandom)
    (fuel : Nat) (vecSend : List CRecipient) (posReq : Int) (cc : Option CCoinControl)
    (sign : Bool) (ct : AvailableCoinsType) (fIS : Bool) (r : CreateResult)
    (h : CreateTransaction env w rnd fuel vecSend posReq cc sign ct fIS = Except.ok r) :
    ∃ nValue n G fee, sumRecipients vecSend 0 0 = some (nValue, countSubtract vecSend) ∧
      0 ≤ nValue ∧ env.nPayTxFeePerK ≤ G ∧ G ≤ fee ∧
      createPass env w rnd n vecSend nValue (countSubtract vecSend) posReq
        cc sign ct fIS G = PassResult.done r.tx fee r.nChangePosInOut ∧
      r.nFeeRet = if fIS = true then fee + env.nLockRequestMinFee else fee := by
  unfold CreateTransaction at h
  cases hsr : sumRecipients vecSend 0 0 with
  | none => rw [hsr] at h; cases h
  | some p =>
    obtain ⟨nValue, nSubtract⟩ := p
    rw [hsr] at h
    dsimp only at h
    have e2 := sumRecipients_count vecSend 0 0 nValue nSubtract hsr
    rw [Nat.zero_add] at e2
    subst e2
    split at h
    · cases h
    · rename_i hchk
      have hnv : 0 ≤ nValue := by
        simp only [Bool.or_eq_true, decide_eq_true_eq, not_or, not_lt] at hchk
        exact hchk.2
      cases hl : createLoop env w rnd vecSend nValue (countSubtract vecSend) posReq
          cc sign ct fIS fuel 0 env.nPayTxFeePerK with
      | error e => rw [hl] at h; cases h
      | ok q =>
        obtain ⟨tx, fee, pos⟩ := q
        rw [hl] at h
        dsimp only at h
        split at h
        · cases h
        · simp only [Except.ok.injEq] at h
          subst h
          obtain ⟨n, G, h1, h2, hp⟩ := createLoop_ok_estimate env w rnd vecSend _ _ posReq cc
            sign ct fIS tx fee pos fuel 0 _ hl
          exact ⟨nValue, n, G, fee, rfl, hnv, h1, h2, hp, rfl⟩

/-- When no amount leaves the 64-bit range, the inputs of a transaction that
`CreateTransaction` built total its outputs plus the fee `fee` with which the
loop ended, and that fee meets the requirement unless the free-transaction
exemption applied. -/
theorem createTransaction_balance (env : BuilderEnv) (w : CWallet)
    (rnd : BuilderRandom) (fuel : Nat) (vecSend : List CRecipient) (posReq : Int)
    (cc : Option CCoinControl) (sign : Bool) (ct : AvailableCoinsType) (fIS : Bool)
    (r : CreateResult) (hmin : 0 ≤ env.wallet.MIN_CHANGE) (hwf : WalletWF w)
    (hsel : (optListSelected cc).Nodup) (hrate : 0 ≤ env.nPayTxFeePerK)
    (hpre : ∀ pr, collectPresets w (optListSelected cc) 0 [] = some pr → 0 ≤ pr.1)
    (h : CreateTransaction env w rnd fuel vecSend posReq cc sign ct fIS = Except.ok r)
    (hrange : sumAmounts vecSend +
        (r.nFeeRet - if fIS = true then env.nLockRequestMinFee else 0) +
        env.wallet.MIN_CHANGE ≤ INT64_MAX)
    (hin : selValue r.tx.vin ≤ INT64_MAX) :
    selValue r.tx.vin =
      outValue r.tx.vout + (r.nFeeRet - if fIS = true then env.nLockRequestMinFee else 0) ∧
    (freeExemption env sign fIS r.tx = false →
      feeNeeded env sign r.tx ≤ selValue r.tx.vin - outValue r.tx.vout) := by
  obtain ⟨nValue, n, G, fee, hsr, _, hG0, hGfee, hp, hfee⟩ :=
    createTransaction_ok_estimate env w rnd fuel vecSend posReq cc sign ct fIS r h
  have hpaid : (r.nFeeRet - if fIS = true then env.nLockRequestMinFee else 0) = fee := by
    rw [hfee]
    cases fIS
    · simp
    · simp
  rw [hpaid] at hrange ⊢
  have hamt : 0 ≤ sumAmounts vecSend :=
    sumAmounts_nonneg vecSend (sumRecipients_nonneg vecSend 0 0 _ _ hsr)
  have hnv : nValue = sumAmounts vecSend := by
    have := sumRecipients_exact vecSend 0 0 _ _ hsr (le_refl 0) (by linarith)
    rw [zero_add] at this
    exact this
  subst hnv
  have hT0 : 0 ≤ (if countSubtract vecSend = 0 then sumAmounts vecSend + G
      else sumAmounts vecSend) := by
    split_ifs <;> linarith
  have hTle : (if countSubtract vecSend = 0 then sumAmounts vecSend + G
      else sumAmounts vecSend) ≤ sumAmounts vecSend + fee := by
    split_ifs <;> linarith
  have hb : selValue r.tx.vin = outValue r.tx.vout + fee := by
    apply createPass_balance env w rnd n vecSend posReq cc sign ct fIS G r.tx fee
      r.nChangePosInOut hp hwf hsel
    · exact toInt64_of_range _ (by linarith) (by linarith)
    · intro T hT pr hpr hlt
      rw [← hT] at hT0 hTle
      have h0 := hpre pr hpr
      exact target_le_threshold _ _ hmin (by linarith) (by linarith)
    · intro T hT
      rw [← hT] at hT0
      linarith
  refine ⟨hb, fun hfree => ?_⟩
  have hf := createPass_done_finish env w rnd n vecSend _ _ posReq cc sign ct fIS G r.tx fee
    r.nChangePosInOut hp
  rcases finishPass_done_fee env sign fIS r.tx fee r.nChangePosInOut _ _ _ hf with h1 | h1
  · rw [hfree] at h1
    cases h1
  · rw [hb]
    linarith

/-! ## Claim C1 -/

/-- C1 as amended: when `CreateTransaction` succeeds and no amount leaves the
64-bit range (the fee rate and the value of the preset inputs are not
negative, the requested amounts plus the fee paid plus `MIN_CHANGE` do not
exceed `INT64_MAX`, nor does the total of the selected inputs), the selected
inputs total the outputs of the built transaction plus the reported fee
`nFeeRet` less, under InstantSend, the lock-request minimum fee that is added
to `nFeeRet` after the transaction is built; without InstantSend they total
the outputs plus `nFeeRet` exactly. -/
theorem C1_inputs_equal_outputs_plus_paid_fee (env : BuilderEnv) (w : CWallet)
    (rnd : BuilderRandom) (fuel : Nat) (vecSend : List CRecipient) (posReq : Int)
    (cc : Option CCoinControl) (sign : Bool) (ct : AvailableCoinsType) (fIS : Bool)
    (r : CreateResult) (hmin : 0 ≤ env.wallet.MIN_CHANGE) (hwf : WalletWF w)
    (hsel : (optListSelected cc).Nodup) (hrate : 0 ≤ env.nPayTxFeePerK)
    (hpre : ∀ pr, collectPresets w (optListSelected cc) 0 [] = some pr → 0 ≤ pr.1)
    (h : CreateTransaction env w rnd fuel vecSend posReq cc sign ct fIS = Except.ok r)
    (hrange : sumAmounts vecSend +
        (r.nFeeRet - if fIS = true then env.nLockRequestMinFee else 0) +
        env.wallet.MIN_CHANGE ≤ INT64_MAX)
    (hin : selValue r.tx.vin ≤ INT64_MAX) :
    selValue r.tx.vin =
      outValue r.tx.vout + (r.nFeeRet - if fIS = true then env.nLockRequestMinFee else 0) :=
  (createTransaction_balance env w rnd fuel vecSend posReq cc sign ct fIS r hmin hwf hsel hrate
    hpre h hrange hin).1

/-- C1 as amended on the InstantSend payment of 5000 from the coin of 10000:
inputs 10000, outputs 9000, reported fee 2000 of which 1000 is the
lock-request minimum fee. -/
theorem C1_inputs_equal_outputs_plus_paid_fee_witness :
    0 ≤ (sampleBuilderEnv [] 1000).wallet.MIN_CHANGE ∧ WalletWF sampleWalletBig ∧
    (optListSelected none).Nodup ∧ 0 ≤ (sampleBuilderEnv [] 1000).nPayTxFeePerK ∧
    CreateTransaction (sampleBuilderEnv [] 1000) sampleWalletBig BuilderRandom.trivial 3
        [⟨1, 5000, false⟩] (-1) none true AvailableCoinsType.ALL_COINS true
      = Except.ok ⟨sampleBuiltTx, 2000, 0⟩ ∧
    sumAmounts [(⟨1, 5000, false⟩ : CRecipient)] + (2000 - 1000) +
      (sampleBuilderEnv [] 1000).wallet.MIN_CHANGE ≤ INT64_MAX ∧
    selValue sampleBuiltTx.vin ≤ INT64_MAX ∧
    selValue sampleBuiltTx.vin = outValue sampleBuiltTx.vout + (2000 - 1000) :=
  have hwf : WalletWF sampleWalletBig := by
    unfold WalletWF
    decide
  ⟨by decide, hwf, List.nodup_nil, by decide, by decide, by decide, by decide,
    C1_inputs_equal_outputs_plus_paid_fee (sampleBuilderEnv [] 1000) sampleWalletBig
      BuilderRandom.trivial 3 [⟨1, 5000, false⟩] (-1) none true AvailableCoinsType.ALL_COINS true
      ⟨sampleBuiltTx, 2000, 0⟩ (by decide) hwf List.nodup_nil (by decide)
      (by
        intro pr hpr
        simp only [optListSelected, collectPresets, Option.some.injEq] at hpr
        subst hpr
        exact le_refl 0)
      (by decide) (by decide) (by decide)⟩

/-! ## Claim C19 -/

/-- C19, the failing input: one recipient of `INT64_MAX`, who does not bear the
fee, at the fee rate 1000.  The 64-bit sum `nValue + nFeeRet` wraps to a
negative target, which `SelectCoins` meets with no coin at all; the change
`nValueIn - nValueToSelect` is then `2^63 - 999`.  `CreateTransaction` returns
success with a transaction that has no input and outputs of `2^64 - 1000`:
the fee it includes, inputs less outputs, is negative, below the 1000
required, and the free-transaction exemption does not apply. -/
theorem C19_overflowed_target_negative_fee :
    toInt64 (INT64_MAX + 1000) = -9223372036854774809 ∧
    CreateTransaction (sampleBuilderEnv [] 1000) sampleWalletBig BuilderRandom.trivial 3
        [⟨1, INT64_MAX, false⟩] (-1) none true AvailableCoinsType.ALL_COINS false
      = Except.ok ⟨{ vin := [], vout := [⟨9223372036854774809, 9, 0⟩, ⟨INT64_MAX, 1, 0⟩],
                     nLockTime := 10 }, 1000, 0⟩ ∧
    freeExemption (sampleBuilderEnv [] 1000) true false
      { vin := [], vout := [⟨9223372036854774809, 9, 0⟩, ⟨INT64_MAX, 1, 0⟩], nLockTime := 10 }
      = false ∧
    feeNeeded (sampleBuilderEnv [] 1000) true
      { vin := [], vout := [⟨9223372036854774809, 9, 0⟩, ⟨INT64_MAX, 1, 0⟩], nLockTime := 10 }
      = 1000 ∧
    selValue ([] : List CInput) = 0 ∧
    outValue [⟨9223372036854774809, 9, 0⟩, ⟨INT64_MAX, 1, 0⟩] = 18446744073709550616 ∧
    ¬ (feeNeeded (sampleBuilderEnv [] 1000) true
        { vin := [], vout := [⟨9223372036854774809, 9, 0⟩, ⟨INT64_MAX, 1, 0⟩], nLockTime := 10 }
      ≤ selValue ([] : List CInput)
        - outValue [⟨9223372036854774809, 9, 0⟩, ⟨INT64_MAX, 1, 0⟩]) := by
  decide

/-! ## Theorems: the record stored by `AddToWallet` -/

theorem orderKept_refl (m : List (uint256 × CWalletTx)) : OrderKept m m :=
  fun _ v h => ⟨v, h, rfl⟩

theorem orderKept_trans {m1 m2 m3 : List (uint256 × CWalletTx)}
    (h1 : OrderKept m1 m2) (h2 : OrderKept m2 m3) : OrderKept m1 m3 := by
  intro k v hv
  obtain ⟨v2, hv2, c2⟩ := h1 k v hv
  obtain ⟨v3, hv3, c3⟩ := h2 k v2 hv2
  exact ⟨v3, hv3, c3.trans c2⟩

theorem mapAt_keeps (m : List (uint256 × CWalletTx)) (k h : uint256) (v : CWalletTx)
    (hv : mapFind m h = some v) : mapFind (mapAt m k).2 h = some v := by
  unfold mapAt
  cases hk : mapFind m k with
  | none =>
    have hne : h ≠ k := by
      intro e
      subst e
      rw [hk] at hv
      cases hv
    simp only
    rw [mapFind_mapInsert_ne _ _ _ _ hne]
    exact hv
  | some v0 => exact hv

theorem orderKept_mapAt (m : List (uint256 × CWalletTx)) (k : uint256) :
    OrderKept m (mapAt m k).2 :=
  fun h v hv => ⟨v, mapAt_keeps m k h v hv, rfl⟩

theorem orderKept_mapSet (m : List (uint256 × CWalletTx)) (k : uint256) (v0 v : CWalletTx)
    (h0 : mapFind m k = some v0) (hc : v.nOrderPos = v0.nOrderPos) :
    OrderKept m (mapSet m k v) := by
  intro k2 v2 hv2
  rw [mapFind_mapSet]
  by_cases h : k2 = k
  · subst h
    rw [h0] at hv2
    cases hv2
    exact ⟨v, by simp [h0], hc⟩
  · exact ⟨v2, by simp [h, hv2], rfl⟩

theorem orderKept_syncFindMin (range : List uint256) :
    ∀ (n : Int) (c : Option uint256) (m : List (uint256 × CWalletTx)),
      OrderKept m (syncFindMin range n c m).2 := by
  induction range with
  | nil => intro n c m; exact orderKept_refl m
  | cons h t ih =>
    intro n c m
    simp only [syncFindMin]
    split
    · exact orderKept_trans (orderKept_mapAt m h) (ih _ _ _)
    · exact orderKept_trans (orderKept_mapAt m h) (ih _ _ _)

theorem orderKept_syncCopy (cf : uint256) (range : List uint256) :
    ∀ (m : List (uint256 × CWalletTx)), OrderKept m (syncCopy cf range m) := by
  induction range with
  | nil => intro m; exact orderKept_refl m
  | cons h t ih =>
    intro m
    simp only [syncCopy]
    split
    · exact orderKept_trans (orderKept_mapAt m h) (ih _)
    · split
      · exact orderKept_trans (orderKept_mapAt m h) (ih _)
      · split
        · exact orderKept_trans (orderKept_mapAt m h) (ih _)
        · refine orderKept_trans (orderKept_mapAt m h) ?_
          refine orderKept_trans ?_ (ih _)
          exact orderKept_mapSet _ h _ _ (mapAt_find m h) rfl

theorem orderKept_SyncMetaData (w : CWallet) (range : List uint256) :
    OrderKept w.mapWallet (SyncMetaData w range).mapWallet := by
  unfold SyncMetaData
  have h1 := orderKept_syncFindMin range 2147483647 none w.mapWallet
  generalize syncFindMin range 2147483647 none w.mapWallet = r at h1
  obtain ⟨c, m⟩ := r
  cases c with
  | none => exact h1
  | some cf => exact orderKept_trans h1 (orderKept_syncCopy cf range m)

theorem orderKept_AddToSpendsOutpoint (w : CWallet) (o : COutPoint) (h : uint256) :
    OrderKept w.mapWallet (AddToSpendsOutpoint w o h).mapWallet := by
  unfold AddToSpendsOutpoint
  exact orderKept_SyncMetaData
    { w with mapTxSpends := spendsInsert w.mapTxSpends o h }
    (equalRange (spendsInsert w.mapTxSpends o h) o)

theorem toInt32_le (x : Int) : toInt32 x ≤ 2147483647 := by
  unfold toInt32
  omega

/-- The first loop of `SyncMetaData` ends with a `copyFrom` when it starts
with one, or when a tracked record of the range has an order position that
reads below the current minimum. -/
theorem syncFindMin_found (range : List uint256) :
    ∀ (n : Int) (c : Option uint256) (m : List (uint256 × CWalletTx)),
      (c ≠ none ∨ ∃ h ∈ range, ∃ v, mapFind m h = some v ∧ toInt32 v.nOrderPos < n) →
      (syncFindMin range n c m).1 ≠ none := by
  induction range with
  | nil =>
    intro n c m h
    rcases h with h | ⟨x, hx, _⟩
    · simpa [syncFindMin] using h
    · cases hx
  | cons hd t ih =>
    intro n c m h
    simp only [syncFindMin]
    split
    · exact ih _ _ _ (Or.inl (by simp))
    · rename_i hlt
      apply ih
      rcases h with h | ⟨x, hx, v, hv, hlt2⟩
      · exact Or.inl h
      · rcases List.mem_cons.1 hx with e | e
        · subst e
          exfalso
          have e1 : (mapAt m x).1 = v := by
            unfold mapAt
            rw [hv]
          rw [e1] at hlt
          exact hlt hlt2
        · exact Or.inr ⟨x, e, v, mapAt_keeps m hd x v hv, hlt2⟩

theorem addToSpendsDerefsNull_false (wtxid : uint256) (vin : List CTxIn) :
    ∀ (w : CWallet) (v : CWalletTx), mapFind w.mapWallet wtxid = some v →
      toInt32 v.nOrderPos ≠ 2147483647 → addToSpendsDerefsNull wtxid vin w = false := by
  induction vin with
  | nil => intro w v _ _; rfl
  | cons a t ih =>
    intro w v hv hp
    simp only [addToSpendsDerefsNull, Bool.or_eq_false_iff]
    constructor
    · have hf := syncFindMin_found (equalRange (spendsInsert w.mapTxSpends a.prevout wtxid) a.prevout)
        2147483647 none w.mapWallet
        (Or.inr ⟨wtxid, (mem_equalRange _ _ _).2 ((mem_spendsInsert _ _ _ _).2 (Or.inl rfl)), v, hv,
          lt_of_le_of_ne (toInt32_le _) hp⟩)
      simp only [syncDerefsNull]
      cases hc : (syncFindMin (equalRange (spendsInsert w.mapTxSpends a.prevout wtxid) a.prevout)
        2147483647 none w.mapWallet).1 with
      | none => exact absurd hc hf
      | some x => simp
    · obtain ⟨v2, hv2, ho⟩ := orderKept_AddToSpendsOutpoint w a.prevout wtxid _ _ hv
      exact ih _ v2 hv2 (by rw [ho]; exact hp)

theorem addToSpendsDerefsNull_of_pos (w : CWallet) (wtxid : uint256) (v : CWalletTx)
    (hv : mapFind w.mapWallet wtxid = some v) (hp : toInt32 v.nOrderPos ≠ 2147483647) :
    AddToSpendsDerefsNull w wtxid = false := by
  unfold AddToSpendsDerefsNull
  rw [hv]
  simp only
  split
  · rfl
  · exact addToSpendsDerefsNull_false wtxid v.vin w v hv hp

/-- No `SyncMetaData` call of `AddToWallet` dereferences NULL when the order
position given to the stored record (the one of `wtxIn` on load, the next
position of the wallet otherwise) does not read as `INT_MAX`. -/
theorem addToWallet_noNull (env : ChainEnv) (w : CWallet) (wtxIn : CWalletTx)
    (fFromLoadWallet : Bool)
    (hpos : (fFromLoadWallet = true ∨ mapFind w.mapWallet wtxIn.hash = none) →
      toInt32 (if fFromLoadWallet = true then wtxIn.nOrderPos else w.nOrderPosNext)
        ≠ 2147483647) :
    AddToWalletDerefsNull env w wtxIn fFromLoadWallet = false := by
  unfold AddToWalletDerefsNull
  by_cases hl : fFromLoadWallet = true
  · have hp := hpos (Or.inl hl)
    rw [if_pos hl] at hp
    rw [if_pos hl]
    refine addToSpendsDerefsNull_of_pos _ wtxIn.hash wtxIn.BindWallet ?_ hp
    cases hq : mapFind w.mapWallet wtxIn.hash with
    | none => exact mapFind_mapInsert_self _ _ _ hq
    | some q => simp [mapFind_mapSet, hq]
  · rw [if_neg hl]
    cases hq : mapFind w.mapWallet wtxIn.hash with
    | none =>
      have hp := hpos (Or.inr hq)
      rw [if_neg hl] at hp
      simp only
      exact addToSpendsDerefsNull_of_pos _ wtxIn.hash (newWalletTx env w wtxIn)
        (mapFind_mapInsert_self _ _ _ hq) hp
    | some q => rfl

/-- The NULL case is met: loading, into the empty wallet, a transaction whose
order position is `INT_MAX`. -/
theorem addToWallet_derefsNull_on_load :
    AddToWalletDerefsNull (sampleEnv []) emptyWallet
      { sampleSpender with nOrderPos := 2147483647 } true = true := by
  decide

theorem mergeWalletTx_block (a b : CWalletTx) :
    (mergeWalletTx a b).1.hashBlock =
        (if b.hashUnset = false then b.hashBlock
         else if b.hashBlock = 0 ∧ a.isAbandoned = true then 0 else a.hashBlock) ∧
      (mergeWalletTx a b).1.nIndex = (if b.nIndex ≠ -1 then b.nIndex else a.nIndex) := by
  unfold mergeWalletTx CWalletTx.hashUnset CWalletTx.isAbandoned
  simp only
  split_ifs <;> simp_all

theorem addToWalletLoad_stored (w : CWallet) (wtxIn : CWalletTx) :
    ∃ rec, mapFind (addToWalletLoad w wtxIn).mapWallet wtxIn.hash = some rec ∧
      rec.core = wtxIn.core := by
  unfold addToWalletLoad
  simp only
  have hfm : mapFind (match mapFind w.mapWallet wtxIn.hash with
      | some _ => mapSet w.mapWallet wtxIn.hash wtxIn.BindWallet
      | none => mapInsert w.mapWallet wtxIn.hash wtxIn.BindWallet) wtxIn.hash
      = some wtxIn.BindWallet := by
    cases hq : mapFind w.mapWallet wtxIn.hash with
    | none => exact mapFind_mapInsert_self _ _ _ hq
    | some q => simp [mapFind_mapSet, hq]
  obtain ⟨cur, hcur, hcore, _⟩ := addToSpends_indexed
    { w with
      mapWallet := (match mapFind w.mapWallet wtxIn.hash with
        | some _ => mapSet w.mapWallet wtxIn.hash wtxIn.BindWallet
        | none => mapInsert w.mapWallet wtxIn.hash wtxIn.BindWallet),
      wtxOrdered := orderedInsert w.wtxOrdered wtxIn.BindWallet.nOrderPos (TxPair.wtx wtxIn.hash) }
    wtxIn.hash _ hfm
  exact ⟨cur, hcur, hcore.trans (markDirty_core wtxIn)⟩

theorem newWalletTx_core (env : ChainEnv) (w : CWallet) (wtxIn : CWalletTx) :
    (newWalletTx env w wtxIn).core = wtxIn.core := rfl

theorem addToWalletNew_stored (env : ChainEnv) (fWriteOk : Bool) (w : CWallet)
    (wtxIn : CWalletTx) (hq : mapFind w.mapWallet wtxIn.hash = none) :
    ∃ rec, mapFind (addToWalletNew env fWriteOk w wtxIn).2.mapWallet wtxIn.hash = some rec ∧
      rec.core = wtxIn.core := by
  unfold addToWalletNew
  simp only
  have hfm : mapFind (mapInsert w.mapWallet wtxIn.hash (newWalletTx env w wtxIn)) wtxIn.hash
      = some (newWalletTx env w wtxIn) := mapFind_mapInsert_self _ _ _ hq
  obtain ⟨cur, hcur, hcore, _⟩ := addToSpends_indexed
    { withOrderPos w wtxIn.hash with
      mapWallet := mapInsert w.mapWallet wtxIn.hash (newWalletTx env w wtxIn) }
    wtxIn.hash _ hfm
  by_cases hwr : fWriteOk = true
  · simp only [hwr, Bool.not_true, Bool.false_eq_true, if_false, hcur]
    refine ⟨cur.MarkDirty, ?_, ?_⟩
    · simp only [mapFind_mapSet, if_true, hcur, Option.map_some']
    · exact (markDirty_core cur).trans (hcore.trans (newWalletTx_core env w wtxIn))
  · have hwr2 : fWriteOk = false := by simpa using hwr
    simp only [hwr2, Bool.not_false, if_true]
    exact ⟨cur, hcur, hcore.trans (newWalletTx_core env w wtxIn)⟩

theorem addToWalletMerge_stored (fWriteOk : Bool) (w : CWallet) (wtxIn found : CWalletTx)
    (hq : mapFind w.mapWallet wtxIn.hash = some found) :
    ∃ rec, mapFind (addToWalletMerge fWriteOk w wtxIn found).2.mapWallet wtxIn.hash = some rec ∧
      rec.vin = found.vin ∧ rec.fCoinBase = found.fCoinBase ∧
      rec.fZerocoinSpend = found.fZerocoinSpend ∧
      rec.hashBlock =
        (if wtxIn.hashUnset = false then wtxIn.hashBlock
         else if wtxIn.hashBlock = 0 ∧ found.isAbandoned = true then 0 else found.hashBlock) ∧
      rec.nIndex = (if wtxIn.nIndex ≠ -1 then wtxIn.nIndex else found.nIndex) := by
  obtain ⟨mv, mc, mz⟩ := mergeWalletTx_core found.BindWallet wtxIn
  obtain ⟨mb, mi⟩ := mergeWalletTx_block found.BindWallet wtxIn
  unfold addToWalletMerge
  simp only
  by_cases hc : ((mergeWalletTx found.BindWallet wtxIn).2 && !fWriteOk) = true
  · rw [if_pos hc]
    refine ⟨(mergeWalletTx found.BindWallet wtxIn).1, ?_, mv, mc, mz, mb, mi⟩
    simp only [mapFind_mapSet, if_true, hq, Option.map_some']
  · rw [if_neg hc]
    refine ⟨(mergeWalletTx found.BindWallet wtxIn).1.MarkDirty, ?_, mv, mc, mz, mb, mi⟩
    simp only [mapFind_mapSet, if_true, hq, Option.map_some']

/-- The record that `AddToWallet` leaves under the hash of the added
transaction: the transaction itself on load and on a new insertion; on a
merge the tracked record, with the block hash and the index that the merge
rules give it. -/
theorem addToWallet_stored (env : ChainEnv) (fWriteOk : Bool) (w : CWallet) (wtxIn : CWalletTx)
    (fFromLoadWallet : Bool) :
    ∃ rec, mapFind (AddToWallet env fWriteOk w wtxIn fFromLoadWallet).2.mapWallet wtxIn.hash
        = some rec ∧
      ((fFromLoadWallet = true ∨ mapFind w.mapWallet wtxIn.hash = none) →
        rec.core = wtxIn.core) ∧
      (∀ found, fFromLoadWallet = false → mapFind w.mapWallet wtxIn.hash = some found →
        rec.vin = found.vin ∧ rec.fCoinBase = found.fCoinBase ∧
        rec.fZerocoinSpend = found.fZerocoinSpend ∧
        rec.hashBlock =
          (if wtxIn.hashUnset = false then wtxIn.hashBlock
           else if wtxIn.hashBlock = 0 ∧ found.isAbandoned = true then 0 else found.hashBlock) ∧
        rec.nIndex = (if wtxIn.nIndex ≠ -1 then wtxIn.nIndex else found.nIndex)) := by
  unfold AddToWallet
  by_cases hl : fFromLoadWallet = true
  · simp only [hl, if_true]
    obtain ⟨rec, hrec, hcore⟩ := addToWalletLoad_stored w wtxIn
    exact ⟨rec, hrec, fun _ => hcore, fun _ h => by cases h⟩
  · have hl2 : fFromLoadWallet = false := by simpa using hl
    simp only [hl2, Bool.false_eq_true, if_false]
    cases hq : mapFind w.mapWallet wtxIn.hash with
    | none =>
      simp only
      obtain ⟨rec, hrec, hcore⟩ := addToWalletNew_stored env fWriteOk w wtxIn hq
      exact ⟨rec, hrec, fun _ => hcore, fun _ _ h => by cases h⟩
    | some found =>
      simp only
      obtain ⟨rec, hrec, hr⟩ := addToWalletMerge_stored fWriteOk w wtxIn found hq
      refine ⟨rec, hrec, ?_, ?_⟩
      · rintro (h | h)
        · cases h
        · cases h
      · intro f2 _ hf2
        cases hf2
        exact hr

theorem core_vin {a b : CWalletTx} (h : a.core = b.core) :
    a.vin = b.vin ∧ a.fCoinBase = b.fCoinBase ∧ a.fZerocoinSpend = b.fZerocoinSpend := by
  simp only [CWalletTx.core, Prod.mk.injEq] at h
  exact ⟨h.2.2.2.1, h.2.2.2.2.1, h.2.2.2.2.2⟩

theorem coreReflected_refl (m : List (uint256 × CWalletTx)) : CoreReflected m m :=
  fun _ v h => Or.inr ⟨v, h, rfl⟩

theorem coreReflected_trans {m1 m2 m3 : List (uint256 × CWalletTx)}
    (h1 : CoreReflected m1 m2) (h2 : CoreReflected m2 m3) : CoreReflected m1 m3 := by
  intro k v3 hv3
  rcases h2 k v3 hv3 with h | ⟨v2, hv2, c2⟩
  · exact Or.inl h
  · rcases h1 k v2 hv2 with h | ⟨v1, hv1, c1⟩
    · exact Or.inl ((core_vin c2).1.trans h)
    · exact Or.inr ⟨v1, hv1, c2.trans c1⟩

theorem coreReflected_mapSet (m : List (uint256 × CWalletTx)) (k : uint256) (v0 v : CWalletTx)
    (h0 : mapFind m k = some v0) (hc : v.core = v0.core) : CoreReflected m (mapSet m k v) := by
  intro k2 v2 hv2
  rw [mapFind_mapSet] at hv2
  by_cases h : k2 = k
  · subst h
    simp only [if_true, h0, Option.map_some', Option.some.injEq] at hv2
    subst hv2
    exact Or.inr ⟨v0, h0, hc⟩
  · rw [if_neg h] at hv2
    exact Or.inr ⟨v2, hv2, rfl⟩

theorem coreReflected_mapAt (m : List (uint256 × CWalletTx)) (k : uint256) :
    CoreReflected m (mapAt m k).2 := by
  unfold mapAt
  cases hk : mapFind m k with
  | none =>
    intro k2 v2 hv2
    simp only at hv2
    by_cases h : k2 = k
    · subst h
      rw [mapFind_mapInsert_self _ _ _ hk] at hv2
      cases hv2
      exact Or.inl rfl
    · rw [mapFind_mapInsert_ne _ _ _ _ h] at hv2
      exact Or.inr ⟨v2, hv2, rfl⟩
  | some v => exact coreReflected_refl m

theorem coreReflected_syncFindMin (range : List uint256) :
    ∀ (n : Int) (c : Option uint256) (m : List (uint256 × CWalletTx)),
      CoreReflected m (syncFindMin range n c m).2 := by
  induction range with
  | nil => intro n c m; exact coreReflected_refl m
  | cons h t ih =>
    intro n c m
    simp only [syncFindMin]
    split
    · exact coreReflected_trans (coreReflected_mapAt m h) (ih _ _ _)
    · exact coreReflected_trans (coreReflected_mapAt m h) (ih _ _ _)

theorem coreReflected_syncCopy (cf : uint256) (range : List uint256) :
    ∀ (m : List (uint256 × CWalletTx)), CoreReflected m (syncCopy cf range m) := by
  induction range with
  | nil => intro m; exact coreReflected_refl m
  | cons h t ih =>
    intro m
    simp only [syncCopy]
    split
    · exact coreReflected_trans (coreReflected_mapAt m h) (ih _)
    · split
      · exact coreReflected_trans (coreReflected_mapAt m h) (ih _)
      · split
        · exact coreReflected_trans (coreReflected_mapAt m h) (ih _)
        · refine coreReflected_trans (coreReflected_mapAt m h) ?_
          refine coreReflected_trans ?_ (ih _)
          exact coreReflected_mapSet _ h _ _ (mapAt_find m h) rfl

theorem coreReflected_SyncMetaData (w : CWallet) (range : List uint256) :
    CoreReflected w.mapWallet (SyncMetaData w range).mapWallet := by
  unfold SyncMetaData
  have h1 := coreReflected_syncFindMin range 2147483647 none w.mapWallet
  generalize syncFindMin range 2147483647 none w.mapWallet = r at h1
  obtain ⟨c, m⟩ := r
  cases c with
  | none => exact h1
  | some cf => exact coreReflected_trans h1 (coreReflected_syncCopy cf range m)

theorem coreReflected_AddToSpendsOutpoint (w : CWallet) (o : COutPoint) (h : uint256) :
    CoreReflected w.mapWallet (AddToSpendsOutpoint w o h).mapWallet := by
  unfold AddToSpendsOutpoint
  exact coreReflected_SyncMetaData
    { w with mapTxSpends := spendsInsert w.mapTxSpends o h }
    (equalRange (spendsInsert w.mapTxSpends o h) o)

theorem coreReflected_foldl (wtxid : uint256) (vin : List CTxIn) :
    ∀ w : CWallet, CoreReflected w.mapWallet
      (vin.foldl (fun acc txin => AddToSpendsOutpoint acc txin.prevout wtxid) w).mapWallet := by
  induction vin with
  | nil => intro w; exact coreReflected_refl _
  | cons a t ih =>
    intro w
    simp only [List.foldl_cons]
    exact coreReflected_trans (coreReflected_AddToSpendsOutpoint w a.prevout wtxid) (ih _)

theorem addToSpends_keepsIndexed (w1 : CWallet) (hash : uint256) (hP : IndexedExcept hash w1) :
    IndexedExcept hash ((AddToSpends w1 hash).getD w1) := by
  unfold AddToSpends
  cases hf : mapFind w1.mapWallet hash with
  | none => exact hP
  | some thisTx =>
    simp only
    by_cases hc : (thisTx.fCoinBase || thisTx.fZerocoinSpend) = true
    · rw [if_pos hc]
      exact hP
    · rw [if_neg hc]
      simp only [Option.getD_some]
      have hr := coreReflected_foldl hash thisTx.vin w1
      obtain ⟨_, hs, _⟩ := addToSpends_foldl_spec hash thisTx.vin w1
      intro k v2 hk hv2 hcb hzc txin htx
      rcases hr k v2 hv2 with h | ⟨v, hv, c⟩
      · rw [h] at htx
        cases htx
      · obtain ⟨e1, e2, e3⟩ := core_vin c
        rw [e1] at htx
        exact hs _ (hP k v hk hv (e2.symm.trans hcb) (e3.symm.trans hzc) txin htx)

/-- The invariant `SpendsIndexed` is kept by `AddToWallet`. -/
theorem spendsIndexed_AddToWallet (env : ChainEnv) (fWriteOk : Bool) (w : CWallet)
    (wtxIn : CWalletTx) (fFromLoadWallet : Bool) (hinv : SpendsIndexed w) :
    SpendsIndexed (AddToWallet env fWriteOk w wtxIn fFromLoadWallet).2 := by
  intro k v hv hcb hzc
  by_cases hk : k = wtxIn.hash
  · subst hk
    exact addToWallet_indexed env fWriteOk w wtxIn fFromLoadWallet hinv v hv hcb hzc
  · revert hv
    unfold AddToWallet
    by_cases hl : fFromLoadWallet = true
    · simp only [hl, if_true]
      intro hv
      have hP : IndexedExcept wtxIn.hash
          { w with
            mapWallet := (match mapFind w.mapWallet wtxIn.hash with
              | some _ => mapSet w.mapWallet wtxIn.hash wtxIn.BindWallet
              | none => mapInsert w.mapWallet wtxIn.hash wtxIn.BindWallet),
            wtxOrdered := orderedInsert w.wtxOrdered wtxIn.BindWallet.nOrderPos
              (TxPair.wtx wtxIn.hash) } := by
        intro k2 v2 hk2 hv2
        simp only at hv2 ⊢
        have hv3 : mapFind w.mapWallet k2 = some v2 := by
          cases hq : mapFind w.mapWallet wtxIn.hash with
          | none =>
            rw [hq] at hv2
            simp only at hv2
            rw [mapFind_mapInsert_ne _ _ _ _ hk2] at hv2
            exact hv2
          | some q =>
            rw [hq] at hv2
            simp only at hv2
            rw [mapFind_mapSet, if_neg hk2] at hv2
            exact hv2
        exact hinv k2 v2 hv3
      exact addToSpends_keepsIndexed _ wtxIn.hash hP k v hk hv hcb hzc
    · have hl2 : fFromLoadWallet = false := by simpa using hl
      simp only [hl2, Bool.false_eq_true, if_false]
      cases hq : mapFind w.mapWallet wtxIn.hash with
      | none =>
        simp only
        intro hv
        have hP : IndexedExcept wtxIn.hash
            { withOrderPos w wtxIn.hash with
              mapWallet := mapInsert w.mapWallet wtxIn.hash (newWalletTx env w wtxIn) } := by
          intro k2 v2 hk2 hv2
          simp only at hv2 ⊢
          rw [mapFind_mapInsert_ne _ _ _ _ hk2] at hv2
          exact hinv k2 v2 hv2
        have hQ := addToSpends_keepsIndexed _ wtxIn.hash hP
        unfold addToWalletNew at hv ⊢
        simp only at hv ⊢
        by_cases hwr : fWriteOk = true
        · simp only [hwr, Bool.not_true, Bool.false_eq_true, if_false] at hv ⊢
          split at hv
          · simp only [mapFind_mapSet, if_neg hk] at hv
            exact hQ k v hk hv hcb hzc
          · exact hQ k v hk hv hcb hzc
        · have hwr2 : fWriteOk = false := by simpa using hwr
          simp only [hwr2, Bool.not_false, if_true] at hv ⊢
          exact hQ k v hk hv hcb hzc
      | some found =>
        simp only
        intro hv
        unfold addToWalletMerge at hv ⊢
        simp only at hv ⊢
        by_cases hc : ((mergeWalletTx found.BindWallet wtxIn).2 && !fWriteOk) = true
        · rw [if_pos hc] at hv ⊢
          simp only [mapFind_mapSet, if_neg hk] at hv
          exact hinv k v hv hcb hzc
        · rw [if_neg hc] at hv ⊢
          simp only [mapFind_mapSet, if_neg hk] at hv
          exact hinv k v hv hcb hzc

theorem depth_of_block (env : ChainEnv) (a b : CWalletTx) (h1 : a.hashBlock = b.hashBlock)
    (h2 : a.nIndex = b.nIndex) :
    GetDepthInMainChain env a = GetDepthInMainChain env b ∧ a.isAbandoned = b.isAbandoned := by
  simp only [GetDepthInMainChain, CWalletTx.hashUnset, CWalletTx.isAbandoned, h1, h2]
  exact ⟨trivial, trivial⟩

theorem depth_of_null_block (env : ChainEnv) (a : CWalletTx) (h : a.hashBlock = 0) :
    GetDepthInMainChain env a = 0 ∧ a.isAbandoned = false := by
  simp [GetDepthInMainChain, CWalletTx.hashUnset, CWalletTx.isAbandoned, h, ABANDON_HASH]

theorem spendsIndexed_emptyWallet : SpendsIndexed emptyWallet := by
  intro k v h
  simp [emptyWallet, mapFind] at h

theorem spendsIndexed_sampleWalletConflicted : SpendsIndexed sampleWalletConflicted := by
  intro k v hv _ _ txin htx
  simp only [sampleWalletConflicted, sampleWallet, mapFind] at hv
  by_cases h5 : 5 = k
  · subst h5
    simp only [if_true, Option.some.injEq] at hv
    subst hv
    simp only [sampleTx, List.mem_singleton] at htx
    subst htx
    decide
  · rw [if_neg h5] at hv
    cases hv

/-! ## Claim C9 -/

/-- C9 fails on a re-add: the wallet tracks transaction `5` marked conflicted
with block `200` (depth -9) and indexes its input.  `AddToWallet` of the same
transaction without a block (depth 0, not abandoned) merges into the tracked
record, which keeps its conflicting block, and `IsSpent` stays false for the
outpoint `(3, 0)` that the transaction consumes. -/
theorem C9_readded_conflicted_stays_unspent :
    GetDepthInMainChain (sampleEnv []) sampleSpender = 0 ∧
    sampleSpender.isAbandoned = false ∧
    sampleSpender.vin = [⟨⟨3, 0⟩, 0, 0⟩] ∧
    sampleWalletConflicted.mapTxSpends = [(⟨3, 0⟩, 5)] ∧
    (AddToWallet (sampleEnv []) true sampleWalletConflicted sampleSpender false).1 = true ∧
    mapFind (AddToWallet (sampleEnv []) true sampleWalletConflicted sampleSpender false).2.mapWallet 5
      = some (sampleTx 5 [⟨⟨3, 0⟩, 0, 0⟩] [⟨70, 1, 0⟩] 200 (-1)) ∧
    GetDepthInMainChain (sampleEnv []) (sampleTx 5 [⟨⟨3, 0⟩, 0, 0⟩] [⟨70, 1, 0⟩] 200 (-1)) = -9 ∧
    IsSpent (sampleEnv [])
      (AddToWallet (sampleEnv []) true sampleWalletConflicted sampleSpender false).2 3 0 = false := by
  decide

/-- C9 (amended): let the wallet index the inputs of the transactions it
tracks, let a record already tracked under the hash of `wtxIn` be that
transaction (same inputs), let `wtxIn` not be coinbase-like, and let the order
position given to a record stored on load or on a new insertion (the one of
`wtxIn` on load, the next one of the wallet otherwise) not read as `INT_MAX`.  Then the wallet reached indexes
the inputs of its tracked transactions again, `AddToWallet` dereferences no
NULL `copyFrom`, and a record is tracked under the hash with the inputs of
`wtxIn`.  On load and on a new insertion it has the block hash
and index of `wtxIn`; on a merge its block hash is that of `wtxIn` when
`wtxIn` has one, null when `wtxIn` has none and the tracked record was
abandoned, and the tracked one otherwise, and its index is that of `wtxIn`
unless that is -1.  When this record has depth at least zero and is not
abandoned, `IsSpent` holds for every outpoint that `wtxIn` consumes; this is
so when `wtxIn` has depth at least zero, is not abandoned, and is loaded, or
newly inserted, or carries a block hash and an index, or has no block hash
and merges into a record whose block hash is unset. -/
theorem C9_add_marks_inputs_spent (env : ChainEnv) (fWriteOk : Bool) (w : CWallet)
    (wtxIn : CWalletTx) (fFromLoadWallet : Bool)
    (hinv : SpendsIndexed w)
    (hsame : ∀ found, mapFind w.mapWallet wtxIn.hash = some found →
      found.vin = wtxIn.vin ∧ found.fCoinBase = wtxIn.fCoinBase ∧
        found.fZerocoinSpend = wtxIn.fZerocoinSpend)
    (hcb : wtxIn.fCoinBase = false) (hzc : wtxIn.fZerocoinSpend = false)
    (hpos : (fFromLoadWallet = true ∨ mapFind w.mapWallet wtxIn.hash = none) →
      toInt32 (if fFromLoadWallet = true then wtxIn.nOrderPos else w.nOrderPosNext)
        ≠ 2147483647) :
    SpendsIndexed (AddToWallet env fWriteOk w wtxIn fFromLoadWallet).2 ∧
    AddToWalletDerefsNull env w wtxIn fFromLoadWallet = false ∧
    ∃ rec, mapFind (AddToWallet env fWriteOk w wtxIn fFromLoadWallet).2.mapWallet wtxIn.hash
        = some rec ∧
      rec.vin = wtxIn.vin ∧
      ((fFromLoadWallet = true ∨ mapFind w.mapWallet wtxIn.hash = none) →
        rec.hashBlock = wtxIn.hashBlock ∧ rec.nIndex = wtxIn.nIndex) ∧
      (∀ found, fFromLoadWallet = false → mapFind w.mapWallet wtxIn.hash = some found →
        rec.hashBlock =
          (if wtxIn.hashUnset = false then wtxIn.hashBlock
           else if wtxIn.hashBlock = 0 ∧ found.isAbandoned = true then 0 else found.hashBlock) ∧
        rec.nIndex = (if wtxIn.nIndex ≠ -1 then wtxIn.nIndex else found.nIndex)) ∧
      (GetDepthInMainChain env rec ≥ 0 → rec.isAbandoned = false →
        ∀ txin ∈ wtxIn.vin,
          IsSpent env (AddToWallet env fWriteOk w wtxIn fFromLoadWallet).2
            txin.prevout.hash txin.prevout.n = true) ∧
      (GetDepthInMainChain env wtxIn ≥ 0 → wtxIn.isAbandoned = false →
        (fFromLoadWallet = true ∨ mapFind w.mapWallet wtxIn.hash = none ∨
          (wtxIn.hashUnset = false ∧ wtxIn.nIndex ≠ -1) ∨
          (wtxIn.hashBlock = 0 ∧
            ∃ found, mapFind w.mapWallet wtxIn.hash = some found ∧ found.hashUnset = true)) →
        ∀ txin ∈ wtxIn.vin,
          IsSpent env (AddToWallet env fWriteOk w wtxIn fFromLoadWallet).2
            txin.prevout.hash txin.prevout.n = true) := by
  refine ⟨spendsIndexed_AddToWallet env fWriteOk w wtxIn fFromLoadWallet hinv,
    addToWallet_noNull env w wtxIn fFromLoadWallet hpos, ?_⟩
  obtain ⟨rec, hrec, hnew, hmerge⟩ := addToWallet_stored env fWriteOk w wtxIn fFromLoadWallet
  have hblock : (fFromLoadWallet = true ∨ mapFind w.mapWallet wtxIn.hash = none) →
      rec.hashBlock = wtxIn.hashBlock ∧ rec.nIndex = wtxIn.nIndex := by
    intro hb
    have hc := hnew hb
    simp only [CWalletTx.core, Prod.mk.injEq] at hc
    exact ⟨hc.2.1, hc.2.2.1⟩
  have hcases : (fFromLoadWallet = true ∨ mapFind w.mapWallet wtxIn.hash = none) ∨
      (fFromLoadWallet = false ∧ ∃ found, mapFind w.mapWallet wtxIn.hash = some found) := by
    by_cases hl : fFromLoadWallet = true
    · exact Or.inl (Or.inl hl)
    · cases hq : mapFind w.mapWallet wtxIn.hash with
      | none => exact Or.inl (Or.inr rfl)
      | some found => exact Or.inr ⟨by simpa using hl, found, rfl⟩
  have hfacts : rec.vin = wtxIn.vin ∧ rec.fCoinBase = false ∧ rec.fZerocoinSpend = false := by
    rcases hcases with hb | ⟨hl, found, hf⟩
    · have hc := hnew hb
      simp only [CWalletTx.core, Prod.mk.injEq] at hc
      obtain ⟨_, _, _, hv, h1, h2⟩ := hc
      exact ⟨hv, h1.trans hcb, h2.trans hzc⟩
    · obtain ⟨hv, h1, h2, _, _⟩ := hmerge found hl hf
      obtain ⟨sv, s1, s2⟩ := hsame found hf
      exact ⟨hv.trans sv, (h1.trans s1).trans hcb, (h2.trans s2).trans hzc⟩
  obtain ⟨hvin, hrcb, hrzc⟩ := hfacts
  have hspent : GetDepthInMainChain env rec ≥ 0 → rec.isAbandoned = false →
      ∀ txin ∈ wtxIn.vin,
        IsSpent env (AddToWallet env fWriteOk w wtxIn fFromLoadWallet).2
          txin.prevout.hash txin.prevout.n = true := by
    intro hd ha
    rw [← hvin]
    exact isSpent_of_indexed env _ wtxIn.hash rec hrec
      (addToWallet_indexed env fWriteOk w wtxIn fFromLoadWallet hinv rec hrec hrcb hrzc) hd ha
  refine ⟨rec, hrec, hvin, hblock, fun found hl hf => (hmerge found hl hf).2.2.2, hspent, ?_⟩
  intro hd ha hcase
  have hsameBlock : rec.hashBlock = wtxIn.hashBlock → rec.nIndex = wtxIn.nIndex →
      GetDepthInMainChain env rec ≥ 0 ∧ rec.isAbandoned = false := by
    intro e1 e2
    obtain ⟨d1, d2⟩ := depth_of_block env rec wtxIn e1 e2
    exact ⟨by rw [d1]; exact hd, by rw [d2]; exact ha⟩
  have key : GetDepthInMainChain env rec ≥ 0 ∧ rec.isAbandoned = false := by
    rcases hcases with hb | ⟨hl, found, hf⟩
    · exact hsameBlock (hblock hb).1 (hblock hb).2
    · obtain ⟨_, _, _, e1, e2⟩ := hmerge found hl hf
      rcases hcase with h | h | ⟨h1, h2⟩ | ⟨h0, f2, hf2, hu⟩
      · rw [hl] at h
        cases h
      · rw [hf] at h
        cases h
      · rw [if_pos h1] at e1
        rw [if_pos h2] at e2
        exact hsameBlock e1 e2
      · rw [hf] at hf2
        cases hf2
        have hz : rec.hashBlock = 0 := by
          rw [e1]
          simp only [CWalletTx.hashUnset, CWalletTx.isAbandoned, Bool.or_eq_true,
            decide_eq_true_eq] at hu ⊢
          rcases hu with hu | hu
          · simp [h0, hu]
          · simp [h0, hu]
        obtain ⟨d1, d2⟩ := depth_of_null_block env rec hz
        exact ⟨by rw [d1], d2⟩
  exact hspent key.1 key.2

/-- C9 on a new insertion into the empty wallet, on a load into the empty
wallet, and on a merge that brings the block `100` to a record marked
conflicted: each time the outpoint `(3, 0)` is spent afterwards. -/
theorem C9_add_marks_inputs_spent_witness :
    (SpendsIndexed emptyWallet ∧
      GetDepthInMainChain (sampleEnv []) sampleSpender ≥ 0 ∧ sampleSpender.isAbandoned = false ∧
      sampleSpender.vin = [⟨⟨3, 0⟩, 0, 0⟩] ∧
      IsSpent (sampleEnv []) (AddToWallet (sampleEnv []) true emptyWallet sampleSpender false).2
        3 0 = true ∧
      IsSpent (sampleEnv []) (AddToWallet (sampleEnv []) true emptyWallet sampleSpender true).2
        3 0 = true) ∧
    (SpendsIndexed sampleWalletConflicted ∧
      GetDepthInMainChain (sampleEnv []) sampleConfirmed ≥ 0 ∧
      sampleConfirmed.isAbandoned = false ∧ sampleConfirmed.vin = [⟨⟨3, 0⟩, 0, 0⟩] ∧
      IsSpent (sampleEnv []) sampleWalletConflicted 3 0 = false ∧
      IsSpent (sampleEnv [])
        (AddToWallet (sampleEnv []) true sampleWalletConflicted sampleConfirmed false).2
        3 0 = true) := by
  have hs0 : ∀ found, mapFind emptyWallet.mapWallet sampleSpender.hash = some found →
      found.vin = sampleSpender.vin ∧ found.fCoinBase = sampleSpender.fCoinBase ∧
        found.fZerocoinSpend = sampleSpender.fZerocoinSpend := by
    intro found hf
    simp [emptyWallet, mapFind] at hf
  have hs1 : ∀ found, mapFind sampleWalletConflicted.mapWallet sampleConfirmed.hash = some found →
      found.vin = sampleConfirmed.vin ∧ found.fCoinBase = sampleConfirmed.fCoinBase ∧
        found.fZerocoinSpend = sampleConfirmed.fZerocoinSpend := by
    intro found hf
    have hm : mapFind sampleWalletConflicted.mapWallet sampleConfirmed.hash
        = some (sampleTx 5 [⟨⟨3, 0⟩, 0, 0⟩] [⟨70, 1, 0⟩] 200 (-1)) := by decide
    rw [hm] at hf
    cases hf
    decide
  obtain ⟨_, _, _, _, _, _, _, _, a1⟩ := C9_add_marks_inputs_spent (sampleEnv []) true emptyWallet
    sampleSpender false spendsIndexed_emptyWallet hs0 (by decide) (by decide) (fun _ => by decide)
  obtain ⟨_, _, _, _, _, _, _, _, a2⟩ := C9_add_marks_inputs_spent (sampleEnv []) true emptyWallet
    sampleSpender true spendsIndexed_emptyWallet hs0 (by decide) (by decide) (fun _ => by decide)
  obtain ⟨_, _, _, _, _, _, _, _, a3⟩ := C9_add_marks_inputs_spent (sampleEnv []) true
    sampleWalletConflicted sampleConfirmed false spendsIndexed_sampleWalletConflicted hs1
    (by decide) (by decide) (fun _ => by decide)
  refine ⟨⟨spendsIndexed_emptyWallet, by decide, by decide, by decide, ?_, ?_⟩,
    spendsIndexed_sampleWalletConflicted, by decide, by decide, by decide, by decide, ?_⟩
  · exact a1 (by decide) (by decide) (Or.inr (Or.inl (by decide))) ⟨⟨3, 0⟩, 0, 0⟩ (by decide)
  · exact a2 (by decide) (by decide) (Or.inl rfl) ⟨⟨3, 0⟩, 0, 0⟩ (by decide)
  · exact a3 (by decide) (by decide) (Or.inr (Or.inr (Or.inl ⟨by decide, by decide⟩)))
      ⟨⟨3, 0⟩, 0, 0⟩ (by decide)

end CoreSmart
